import Mathlib

/-!
# Tactile: isohedral tilings (`src/src/tiling.hpp`, `src/src/tiling.cpp`)

A shallow embedding of the tiling engine, the colouring rule, the region-fill
algorithm and the fill iterator, followed by theorems about them.

Conventions of the embedding

* `double` (and the single precision `glm::vec2` used for the mapped corners)
  has two readings.  In the first one it is an exact rational of `ℚ`: rounding,
  infinities and NaN are outside the model, and the literal `1e-7` is the
  rational `1 / 10^7`.  This reading serves the tiling engine, the algebraic and
  geometric identities, and the statements that hold whatever the arithmetic.
  In the second one (namespace `Machine`) the arithmetic is that of IEEE 754
  with rounding to nearest, `int` has 32 bits, and an operation without a finite
  result gives `none`.  This reading serves the statements about which cells a
  fill visits, in which order, and whether the traversal ends.
* `int` is `ℤ`; `U8` and `size_t` values are `ℕ`.
* A C array or a pointer into a table is a `List`; the read `a[i]` is
  `a.getD i d` with a fixed filler `d`, the write `a[i] = v` is `a.set i v`,
  and pointer arithmetic `p + k` is `p.drop k`.
* `glm::dmat3` is column major: field `mCR` is the C++ entry `M[C][R]`.
* The iterators hold C++ references to the tiling and to the fill result; here
  the referenced objects are passed explicitly to every operation that reads
  them.
* The comparison of two such references (`&tiling == &other.tiling`,
  `&algo != &other.algo`) is a Boolean argument of the comparison operators.
* The table `tiling_type_data` (file `tiling_arraydecl.inc`) is a parameter.
-/

set_option autoImplicit false

namespace csk

/-! ## Geometry -/

/-- Mirror of `glm::dvec2`. -/
structure dvec2 where
  x : ℚ
  y : ℚ
deriving DecidableEq, Repr

instance : Inhabited dvec2 := ⟨⟨0, 0⟩⟩

/-- Mirror of `glm::dmat3`, column major: `mCR` is `M[C][R]`, and the constructor
takes its nine arguments in the order of `glm::dmat3( ... )`. -/
structure dmat3 where
  m00 : ℚ
  m01 : ℚ
  m02 : ℚ
  m10 : ℚ
  m11 : ℚ
  m12 : ℚ
  m20 : ℚ
  m21 : ℚ
  m22 : ℚ
deriving DecidableEq, Repr

instance : Inhabited dmat3 := ⟨⟨0, 0, 0, 0, 0, 0, 0, 0, 0⟩⟩

/-- The product `A * B` of `glm`: `(A*B)[c][r] = Σ k, A[k][r] * B[c][k]`. -/
def dmat3.mul (A B : dmat3) : dmat3 :=
  { m00 := A.m00 * B.m00 + A.m10 * B.m01 + A.m20 * B.m02
    m01 := A.m01 * B.m00 + A.m11 * B.m01 + A.m21 * B.m02
    m02 := A.m02 * B.m00 + A.m12 * B.m01 + A.m22 * B.m02
    m10 := A.m00 * B.m10 + A.m10 * B.m11 + A.m20 * B.m12
    m11 := A.m01 * B.m10 + A.m11 * B.m11 + A.m21 * B.m12
    m12 := A.m02 * B.m10 + A.m12 * B.m11 + A.m22 * B.m12
    m20 := A.m00 * B.m20 + A.m10 * B.m21 + A.m20 * B.m22
    m21 := A.m01 * B.m20 + A.m11 * B.m21 + A.m21 * B.m22
    m22 := A.m02 * B.m20 + A.m12 * B.m21 + A.m22 * B.m22 }

/-- The point `M * dvec3( p, 1.0 )` truncated to its first two coordinates, as
the callers do (`dvec2 p1 = M * dvec3( vec[idx], 1.0 )`). -/
def dmat3.apply (M : dmat3) (p : dvec2) : dvec2 :=
  { x := M.m00 * p.x + M.m10 * p.y + M.m20
    y := M.m01 * p.x + M.m11 * p.y + M.m21 }

/-- The value of `floor` on a `double`, again a `double`. -/
def floor (q : ℚ) : ℚ := ((⌊q⌋ : ℤ) : ℚ)

/-- The conversion `int( x )` of a `double`: truncation toward zero. -/
def toInt (q : ℚ) : ℤ := Int.tdiv q.num (q.den : ℤ)

/-- The tolerance `1e-7`. -/
def tol : ℚ := 1 / 10000000

/-! ## Tiling types -/

/-- Mirror of `enum EdgeShape`. -/
inductive EdgeShape where
  | J
  | U
  | S
  | I
deriving DecidableEq, Repr

instance : Inhabited EdgeShape := ⟨EdgeShape.J⟩

/-- Mirror of `struct TilingTypeData`; every pointer member is the list it
points to. -/
structure TilingTypeData where
  num_params : ℕ
  num_aspects : ℕ
  num_vertices : ℕ
  num_edge_shapes : ℕ
  edge_shapes : List EdgeShape
  edge_orientations : List Bool
  edge_shape_ids : List ℕ
  default_params : List ℚ
  tiling_vertex_coeffs : List ℚ
  translation_vector_coeffs : List ℚ
  aspect_xform_coeffs : List ℚ
  colouring : List ℕ
deriving Repr

/-- Mirror of the data members of `class IsohedralTiling`. -/
structure IsohedralTiling where
  tiling_type : ℕ
  num_params : ℕ
  parameters : List ℚ
  verts : List dvec2
  edges : List dmat3
  reversals : List Bool
  aspects : List dmat3
  t1 : dvec2
  t2 : dvec2
  ttd : TilingTypeData
  tiling_vertex_coefficients : List ℚ
  edge_shape_ids : List ℕ
  edge_shapes : List EdgeShape
  edge_shape_orientations : List Bool
  aspect_xform_coefficients : List ℚ
  translation_vector_coefficients : List ℚ
  colouring : List ℕ
deriving Repr

namespace IsohedralTiling

/-- Mirror of `getTilingType`. -/
def getTilingType (t : IsohedralTiling) : ℕ := t.tiling_type

/-- Mirror of `numParameters`. -/
def numParameters (t : IsohedralTiling) : ℕ := t.num_params

/-- Mirror of `numVertices`. -/
def numVertices (t : IsohedralTiling) : ℕ := t.ttd.num_vertices

/-- Mirror of `numAspects`. -/
def numAspects (t : IsohedralTiling) : ℕ := t.ttd.num_aspects

/-- Mirror of `numEdgeShapes`. -/
def numEdgeShapes (t : IsohedralTiling) : ℕ := t.ttd.num_edge_shapes

/-- Mirror of `getAspectTransform`. -/
def getAspectTransform (t : IsohedralTiling) (idx : ℕ) : dmat3 := t.aspects.getD idx default

/-- Mirror of `getT1`. -/
def getT1 (t : IsohedralTiling) : dvec2 := t.t1

/-- Mirror of `getT2`. -/
def getT2 (t : IsohedralTiling) : dvec2 := t.t2

end IsohedralTiling

/-- Mirror of `ddot`: the dot product of the first `np` coefficients with the
parameters, plus the trailing affine term `coeffs[np]`. -/
def ddot (coeffs params : List ℚ) (np : ℕ) : ℚ :=
  (List.range np).foldl (fun total idx => total + coeffs.getD idx 0 * params.getD idx 0) 0
    + coeffs.getD np 0

/-- Mirror of `fillMatrix`: the six values are read row by row, each from the
next block of `np+1` coefficients. -/
def fillMatrix (coeffs params : List ℚ) (np : ℕ) : dmat3 :=
  { m00 := ddot coeffs params np
    m10 := ddot (coeffs.drop (np + 1)) params np
    m20 := ddot (coeffs.drop (2 * (np + 1))) params np
    m01 := ddot (coeffs.drop (3 * (np + 1))) params np
    m11 := ddot (coeffs.drop (4 * (np + 1))) params np
    m21 := ddot (coeffs.drop (5 * (np + 1))) params np
    m02 := 0
    m12 := 0
    m22 := 1 }

/-- Mirror of `fillVector`. -/
def fillVector (coeffs params : List ℚ) (np : ℕ) : dvec2 :=
  { x := ddot coeffs params np
    y := ddot (coeffs.drop (np + 1)) params np }

/-- Mirror of `match`: `glm::dmat3( q.x-p.x, q.y-p.y, 0, p.y-q.y, q.x-p.x, 0, p.x, p.y, 1 )`. -/
def «match» (p q : dvec2) : dmat3 :=
  ⟨q.x - p.x, q.y - p.y, 0, p.y - q.y, q.x - p.x, 0, p.x, p.y, 1⟩

/-- Mirror of the table `M_orients`: identity, rotation, flip, rotation and flip. -/
def M_orients : List dmat3 :=
  [ ⟨1, 0, 0, 0, 1, 0, 0, 0, 1⟩,
    ⟨-1, 0, 0, 0, -1, 0, 1, 0, 1⟩,
    ⟨-1, 0, 0, 0, 1, 0, 1, 0, 1⟩,
    ⟨1, 0, 0, 0, -1, 0, 0, 0, 1⟩ ]

namespace IsohedralTiling

/-- First loop of `recompute`: the tiling vertices. -/
def recomputeVerts (t : IsohedralTiling) : List dvec2 :=
  (List.range t.numVertices).foldl
    (fun vs idx =>
      vs.set idx (fillVector (t.tiling_vertex_coefficients.drop (idx * (2 * (t.num_params + 1))))
        t.parameters t.num_params))
    t.verts

/-- Second loop of `recompute`, the reversal flags: `reversals[idx] = (fl != ro)`. -/
def recomputeReversals (t : IsohedralTiling) : List Bool :=
  (List.range t.numVertices).foldl
    (fun rs idx =>
      rs.set idx (t.edge_shape_orientations.getD (2 * idx) false
        != t.edge_shape_orientations.getD (2 * idx + 1) false))
    t.reversals

/-- Second loop of `recompute`, the edge transforms:
`edges[idx] = match( verts[idx], verts[(idx+1)%ntv] ) * M_orients[2*fl+ro]`,
read from the vertices `vs` that the first loop has just written. -/
def recomputeEdges (t : IsohedralTiling) (vs : List dvec2) : List dmat3 :=
  (List.range t.numVertices).foldl
    (fun es idx =>
      let fl := t.edge_shape_orientations.getD (2 * idx) false
      let ro := t.edge_shape_orientations.getD (2 * idx + 1) false
      es.set idx
        ((«match» (vs.getD idx default) (vs.getD ((idx + 1) % t.numVertices) default)).mul
          (M_orients.getD (2 * fl.toNat + ro.toNat) default)))
    t.edges

/-- Third loop of `recompute`: the aspect transforms. -/
def recomputeAspects (t : IsohedralTiling) : List dmat3 :=
  (List.range t.numAspects).foldl
    (fun as idx =>
      as.set idx (fillMatrix (t.aspect_xform_coefficients.drop (idx * (6 * (t.num_params + 1))))
        t.parameters t.num_params))
    t.aspects

/-- Mirror of `recompute`. -/
def recompute (t : IsohedralTiling) : IsohedralTiling :=
  let vs := t.recomputeVerts
  { t with
    verts := vs
    reversals := t.recomputeReversals
    edges := t.recomputeEdges vs
    aspects := t.recomputeAspects
    t1 := fillVector t.translation_vector_coefficients t.parameters t.num_params
    t2 := fillVector (t.translation_vector_coefficients.drop (2 * (t.num_params + 1)))
            t.parameters t.num_params }

/-- Mirror of `setParameters`: `std::copy( params, params + num_params, parameters )`
overwrites the first `num_params` stored parameters, then `recompute()`. -/
def setParameters (t : IsohedralTiling) (params : List ℚ) : IsohedralTiling :=
  recompute { t with parameters := params.take t.num_params ++ t.parameters.drop t.num_params }

/-- Mirror of `getParameters`: `std::copy( parameters, parameters + num_params, params )`;
the result is what the caller's buffer holds in its first `num_params` places. -/
def getParameters (t : IsohedralTiling) : List ℚ :=
  t.parameters.take t.num_params

/-- Mirror of `reset`.  The table `tiling_type_data` is the parameter `table`; the
C++ read `tiling_type_data[ ihtype ]` is unchecked, and `none` stands for the
undefined behaviour of a read past the end of the table. -/
def reset (table : List TilingTypeData) (t : IsohedralTiling) (ihtype : ℕ) :
    Option IsohedralTiling :=
  match table.get? ihtype with
  | none => none
  | some d =>
    some (setParameters
      { t with
        tiling_type := ihtype
        ttd := d
        num_params := d.num_params
        edge_shape_ids := d.edge_shape_ids
        edge_shapes := d.edge_shapes
        edge_shape_orientations := d.edge_orientations
        aspect_xform_coefficients := d.aspect_xform_coeffs
        translation_vector_coefficients := d.translation_vector_coeffs
        tiling_vertex_coefficients := d.tiling_vertex_coeffs
        colouring := d.colouring }
      d.default_params)

/-- The storage of a tiling before its constructor has run: arrays of the declared
sizes (6 parameters, 6 vertices, 6 edges, 6 reversal flags, 12 aspects). -/
def uninitialised : IsohedralTiling :=
  { tiling_type := 0
    num_params := 0
    parameters := List.replicate 6 0
    verts := List.replicate 6 default
    edges := List.replicate 6 default
    reversals := List.replicate 6 false
    aspects := List.replicate 12 default
    t1 := default
    t2 := default
    ttd := ⟨0, 0, 0, 0, [], [], [], [], [], [], [], []⟩
    tiling_vertex_coefficients := []
    edge_shape_ids := []
    edge_shapes := []
    edge_shape_orientations := []
    aspect_xform_coefficients := []
    translation_vector_coefficients := []
    colouring := [] }

/-- Mirror of the constructor `IsohedralTiling( ihtype )`: `reset( ihtype )` on a
fresh object. -/
def create (table : List TilingTypeData) (ihtype : ℕ) : Option IsohedralTiling :=
  reset table uninitialised ihtype

/-- Mirror of `getColour`.  `t1 % nc` is the truncated remainder of C++, corrected
to a non-negative value; the two loops run `mt1` and `mt2` times. -/
def getColour (t : IsohedralTiling) (t1 t2 : ℤ) (aspect : ℕ) : ℕ :=
  let nc : ℤ := (t.colouring.getD 18 0 : ℕ)
  let mt1 := Int.tmod t1 nc
  let mt1 := if mt1 < 0 then mt1 + nc else mt1
  let mt2 := Int.tmod t2 nc
  let mt2 := if mt2 < 0 then mt2 + nc else mt2
  let col := t.colouring.getD aspect 0
  let col := (fun c => t.colouring.getD (12 + c) 0)^[mt1.toNat] col
  let col := (fun c => t.colouring.getD (15 + c) 0)^[mt2.toNat] col
  col

end IsohedralTiling

/-! ## Region fill -/

/-- Mirror of `glm::dmat2`, column major: `glm::dmat2( a, b, c, d )` has the
columns `(a, b)` and `(c, d)`. -/
structure dmat2 where
  m00 : ℚ
  m01 : ℚ
  m10 : ℚ
  m11 : ℚ
deriving DecidableEq, Repr

/-- The product `M * v` of a `glm::dmat2` with a `glm::dvec2`. -/
def dmat2.mulVec (M : dmat2) (v : dvec2) : dvec2 :=
  { x := M.m00 * v.x + M.m10 * v.y
    y := M.m01 * v.x + M.m11 * v.y }

/-- One entry of the array `FillAlgorithm::data`. -/
structure Slab where
  ymin : ℚ
  ymax : ℚ
  xlo : ℚ
  xhi : ℚ
  dxlo : ℚ
  dxhi : ℚ
deriving DecidableEq, Repr

instance : Inhabited Slab := ⟨⟨0, 0, 0, 0, 0, 0⟩⟩

/-- Mirror of the data members of `class FillAlgorithm`; the reference `tiling` is
passed to the operations that read it. -/
structure FillAlgorithm where
  num_calls : ℕ
  debug : Bool
  data : List Slab
deriving DecidableEq, Repr

/-- Mirror of the data members of `class FillRegionIterator`; the reference `algo`
is passed to the operations that read it. -/
structure FillRegionIterator where
  done : Bool
  call_idx : ℕ
  x : ℚ
  y : ℚ
  xlo : ℚ
  xhi : ℚ
  asp : ℕ
deriving DecidableEq, Repr

/-- Mirror of `sampleAtHeight`.  A zero denominator is outside the model (Lean gives
the quotient `0`, the C++ code a non-finite value). -/
def sampleAtHeight (P Q : dvec2) (y : ℚ) : dvec2 :=
  let t := (y - P.y) / (Q.y - P.y)
  { x := (1 - t) * P.x + t * Q.x
    y := y }

namespace FillAlgorithm

/-- Mirror of `doFill`: writes `data[num_calls]` and increments `num_calls`.  A zero
denominator is outside the model, as in `sampleAtHeight`. -/
def doFill (f : FillAlgorithm) (A B C D : dvec2) (do_top : Bool) : FillAlgorithm :=
  { f with
    data := f.data.set f.num_calls
      { xlo := A.x
        dxlo := (D.x - A.x) / (D.y - A.y)
        xhi := B.x
        dxhi := (C.x - B.x) / (C.y - B.y)
        ymin := A.y
        ymax := if do_top then C.y + 1 else C.y }
    num_calls := f.num_calls + 1 }

/-- Mirror of `fillFixX`. -/
def fillFixX (f : FillAlgorithm) (A B C D : dvec2) (do_top : Bool) : FillAlgorithm :=
  if A.x > B.x then f.doFill B A D C do_top else f.doFill A B C D do_top

/-- Mirror of `fillFixY`. -/
def fillFixY (f : FillAlgorithm) (A B C D : dvec2) (do_top : Bool) : FillAlgorithm :=
  if A.y > C.y then f.doFill C D A B do_top else f.doFill A B C D do_top

/-- The scalar `det` of the constructor, `1.0 / (t1.x*t2.y-t2.x*t1.y)`. -/
def det (t : IsohedralTiling) : ℚ :=
  1 / (t.getT1.x * t.getT2.y - t.getT2.x * t.getT1.y)

/-- The matrix `Mbc` of the constructor. -/
def Mbc (t : IsohedralTiling) : dmat2 :=
  ⟨t.getT2.y * det t, -t.getT1.y * det t, -t.getT2.x * det t, t.getT1.x * det t⟩

/-- The array `pts` of the constructor after the conditional `swap( pts[1], pts[3] )`. -/
def pts (t : IsohedralTiling) (A B C D : dvec2) : List dvec2 :=
  let p0 := (Mbc t).mulVec A
  let p1 := (Mbc t).mulVec B
  let p2 := (Mbc t).mulVec C
  let p3 := (Mbc t).mulVec D
  if det t < 0 then [p0, p3, p2, p1] else [p0, p1, p2, p3]

/-- The index `lowest` of the constructor: the first corner of least `y`. -/
def lowest (ps : List dvec2) : ℕ :=
  [1, 2, 3].foldl
    (fun low idx => if (ps.getD idx default).y < (ps.getD low default).y then idx else low) 0

/-- Mirror of the constructor `FillAlgorithm( t, A, B, C, D, dbg )`. -/
def create (t : IsohedralTiling) (A B C D : dvec2) (dbg : Bool) : FillAlgorithm :=
  let f : FillAlgorithm := ⟨0, dbg, List.replicate 3 default⟩
  let ps := pts t A B C D
  let p0 := ps.getD 0 default
  let p1 := ps.getD 1 default
  let p2 := ps.getD 2 default
  let p3 := ps.getD 3 default
  if |p0.y - p1.y| < tol then
    f.fillFixY p0 p1 p2 p3 true
  else if |p1.y - p2.y| < tol then
    f.fillFixY p1 p2 p3 p0 true
  else
    let low := lowest ps
    let bottom := ps.getD low default
    let left0 := ps.getD ((low + 1) % 4) default
    let top := ps.getD ((low + 2) % 4) default
    let right0 := ps.getD ((low + 3) % 4) default
    let left := if left0.x > right0.x then right0 else left0
    let right := if left0.x > right0.x then left0 else right0
    if left.y < right.y then
      let r1 := sampleAtHeight bottom right left.y
      let l2 := sampleAtHeight left top right.y
      ((f.fillFixX bottom bottom r1 left false).fillFixX left r1 right l2 false).fillFixX
        l2 right top top true
    else
      let l1 := sampleAtHeight bottom left right.y
      let r2 := sampleAtHeight right top left.y
      ((f.fillFixX bottom bottom right l1 false).fillFixX l1 right r2 left false).fillFixX
        left r2 top top true

/-- Mirror of `begin`. -/
def «begin» (f : FillAlgorithm) : FillRegionIterator :=
  { done := false
    call_idx := 0
    x := floor (f.data.getD 0 default).xlo
    y := floor (f.data.getD 0 default).ymin
    xlo := (f.data.getD 0 default).xlo
    xhi := (f.data.getD 0 default).xhi
    asp := 0 }

/-- Mirror of `end`: only `done` is initialised by this constructor; the other
members are given the value zero here. -/
def «end» (_f : FillAlgorithm) : FillRegionIterator :=
  { done := true, call_idx := 0, x := 0, y := 0, xlo := 0, xhi := 0, asp := 0 }

end FillAlgorithm

namespace IsohedralTiling

/-- Mirror of `fillRegion( xmin, ymin, xmax, ymax, dbg )`. -/
def fillRegionBox (t : IsohedralTiling) (xmin ymin xmax ymax : ℚ) (dbg : Bool) : FillAlgorithm :=
  FillAlgorithm.create t ⟨xmin, ymin⟩ ⟨xmax, ymin⟩ ⟨xmax, ymax⟩ ⟨xmin, ymax⟩ dbg

/-- Mirror of `fillRegion( A, B, C, D, dbg )`. -/
def fillRegion (t : IsohedralTiling) (A B C D : dvec2) (dbg : Bool) : FillAlgorithm :=
  FillAlgorithm.create t A B C D dbg

end IsohedralTiling

namespace FillRegionIterator

/-- Mirror of `inc`, the body of `operator++`. -/
def inc (t : IsohedralTiling) (algo : FillAlgorithm) (it : FillRegionIterator) :
    FillRegionIterator :=
  if it.asp + 1 < t.numAspects then
    { it with asp := it.asp + 1 }
  else if it.x + 1 < it.xhi + tol then
    { it with asp := 0, x := it.x + 1 }
  else
    let xlo := it.xlo + (algo.data.getD it.call_idx default).dxlo
    let xhi := it.xhi + (algo.data.getD it.call_idx default).dxhi
    let y := it.y + 1
    if floor y < floor (algo.data.getD it.call_idx default).ymax then
      { it with asp := 0, x := floor xlo, y := y, xlo := xlo, xhi := xhi }
    else if it.call_idx + 1 < algo.num_calls then
      { it with
        asp := 0
        call_idx := it.call_idx + 1
        xlo := (algo.data.getD (it.call_idx + 1) default).xlo
        xhi := (algo.data.getD (it.call_idx + 1) default).xhi
        y := max y (floor (algo.data.getD (it.call_idx + 1) default).ymin)
        x := floor (algo.data.getD (it.call_idx + 1) default).xlo }
    else
      { it with
        asp := 0, x := floor xlo, y := y, xlo := xlo, xhi := xhi
        call_idx := it.call_idx + 1
        done := true }

/-- Mirror of `getT1`: `int( x )`. -/
def getT1 (it : FillRegionIterator) : ℤ := toInt it.x

/-- Mirror of `getT2`: `int( y )`. -/
def getT2 (it : FillRegionIterator) : ℤ := toInt it.y

/-- Mirror of `getAspect`. -/
def getAspect (it : FillRegionIterator) : ℕ := it.asp

/-- Mirror of `getTransform`: the aspect transform of the tiling as it is now, with
`int(x)*t1 + int(y)*t2` added to its translation column. -/
def getTransform (t : IsohedralTiling) (it : FillRegionIterator) : dmat3 :=
  let M := t.getAspectTransform it.asp
  { M with
    m20 := M.m20 + ((toInt it.x : ℚ) * t.getT1.x + (toInt it.y : ℚ) * t.getT2.x)
    m21 := M.m21 + ((toInt it.x : ℚ) * t.getT1.y + (toInt it.y : ℚ) * t.getT2.y) }

/-- The cursors visited by the loop `for( it = begin; it != end; ++it )`, started at
`it` and cut off after `fuel` cursors; `it != end` holds exactly while `it` is not
done. -/
def visited (t : IsohedralTiling) (algo : FillAlgorithm) : ℕ → FillRegionIterator →
    List FillRegionIterator
  | 0, _ => []
  | fuel + 1, it => if it.done then [] else it :: visited t algo fuel (inc t algo it)

end FillRegionIterator

/-! ## The colouring rule in the words of the specification -/

/-- The colour count of a colouring table: entry 18. -/
def colourCount (colouring : List ℕ) : ℕ := colouring.getD 18 0

/-- The base colour of aspect `k`: entries 0 to 11 of the colouring table. -/
def colourBase (colouring : List ℕ) (k : ℕ) : ℕ := colouring.getD k 0

/-- The colour permutation of one step along `t1`: entries 12 to 14. -/
def colourP1 (colouring : List ℕ) (c : ℕ) : ℕ := colouring.getD (12 + c) 0

/-- The colour permutation of one step along `t2`: entries 15 to 17. -/
def colourP2 (colouring : List ℕ) (c : ℕ) : ℕ := colouring.getD (15 + c) 0

/-- The colour of the specification: `P2^(t2 mod n)` applied to `P1^(t1 mod n)` applied to
the base colour, with the non-negative remainder `mod`. -/
def specColour (colouring : List ℕ) (t1 t2 : ℤ) (k : ℕ) : ℕ :=
  (colourP2 colouring)^[(t2 % (colourCount colouring : ℤ)).toNat]
    ((colourP1 colouring)^[(t1 % (colourCount colouring : ℤ)).toNat] (colourBase colouring k))

/-! ## Sample tiling types

Descriptors of the shape the table holds, used to evaluate the code on concrete
inputs. -/

/-- A type without parameters on the unit lattice `t1 = (1,0)`, `t2 = (0,1)` with a
single identity aspect and the unit square as its tile. -/
def synthetic : TilingTypeData :=
  { num_params := 0
    num_aspects := 1
    num_vertices := 4
    num_edge_shapes := 1
    edge_shapes := [EdgeShape.J]
    edge_orientations := [false, false, false, false, false, false, false, false]
    edge_shape_ids := [0, 0, 0, 0]
    default_params := []
    tiling_vertex_coeffs := [0, 0, 1, 0, 1, 1, 0, 1]
    translation_vector_coeffs := [1, 0, 0, 1]
    aspect_xform_coeffs := [1, 0, 0, 0, 1, 0]
    colouring := [0, 0, 0, 0, 0, 0, 0, 0, 0, 0, 0, 0, 1, 2, 0, 1, 2, 0, 3] }

/-- A type with two parameters `(p0, p1)`: the parallelogram tile with vertices
`(0,0)`, `(1,0)`, `(1+p0, p1)`, `(p0, p1)` on the lattice `t1 = (1,0)`, `t2 = (p0, p1)`,
a single identity aspect and three colours permuted cyclically. -/
def sheared : TilingTypeData :=
  { num_params := 2
    num_aspects := 1
    num_vertices := 4
    num_edge_shapes := 2
    edge_shapes := [EdgeShape.J, EdgeShape.J]
    edge_orientations := [false, false, false, false, true, true, true, true]
    edge_shape_ids := [0, 1, 0, 1]
    default_params := [1 / 2, 1]
    tiling_vertex_coeffs :=
      [0, 0, 0,  0, 0, 0,  0, 0, 1,  0, 0, 0,  1, 0, 1,  0, 1, 0,  1, 0, 0,  0, 1, 0]
    translation_vector_coeffs := [0, 0, 1,  0, 0, 0,  1, 0, 0,  0, 1, 0]
    aspect_xform_coeffs := [0, 0, 1,  0, 0, 0,  0, 0, 0,  0, 0, 0,  0, 0, 1,  0, 0, 0]
    colouring := [0, 0, 0, 0, 0, 0, 0, 0, 0, 0, 0, 0, 1, 2, 0, 2, 0, 1, 3] }

/-- The type `synthetic` with another colouring table: three colours, the `t1` step
exchanges colours 0 and 1, the `t2` step is the identity. -/
def transposed : TilingTypeData :=
  { synthetic with colouring := [0, 0, 0, 0, 0, 0, 0, 0, 0, 0, 0, 0, 1, 0, 2, 0, 1, 2, 3] }

/-- The unit square with one edge of each class: edge 0 of class U, edge 1 of class S,
edge 2 of class J and edge 3 of class I, with the four combinations of the two
orientation flags. -/
def halved : TilingTypeData :=
  { synthetic with
    num_edge_shapes := 4
    edge_shapes := [EdgeShape.U, EdgeShape.S, EdgeShape.J, EdgeShape.I]
    edge_orientations := [false, false, true, false, false, true, true, true]
    edge_shape_ids := [0, 1, 2, 3] }

/-- A table of tiling types. -/
def sampleTable : List TilingTypeData := [synthetic, sheared, transposed, halved]

/-- The tiling `IsohedralTiling( 0 )` over `sampleTable`. -/
def syntheticTiling : IsohedralTiling :=
  (IsohedralTiling.create sampleTable 0).getD IsohedralTiling.uninitialised

/-- The tiling `IsohedralTiling( 1 )` over `sampleTable`. -/
def shearedTiling : IsohedralTiling :=
  (IsohedralTiling.create sampleTable 1).getD IsohedralTiling.uninitialised

/-- The tiling `IsohedralTiling( 3 )` over `sampleTable`. -/
def halvedTiling : IsohedralTiling :=
  (IsohedralTiling.create sampleTable 3).getD IsohedralTiling.uninitialised

/-! ## The order of the fill traversal -/

namespace FillRegionIterator

/-- What a caller reads off a cursor for the colour lookup, row first:
`(getT2, getT1, getAspect)`. -/
def key (it : FillRegionIterator) : ℤ × ℤ × ℕ := (it.getT2, it.getT1, it.getAspect)

/-- A cursor whose `x` and `y` hold integer values. -/
def Integral (it : FillRegionIterator) : Prop :=
  (∃ a : ℤ, it.x = a) ∧ ∃ b : ℤ, it.y = b

end FillRegionIterator

/-- The strict lexicographic order on triples `(row, column, aspect)`. -/
def keyLt (a b : ℤ × ℤ × ℕ) : Prop :=
  a.1 < b.1 ∨ (a.1 = b.1 ∧ (a.2.1 < b.2.1 ∨ (a.2.1 = b.2.1 ∧ a.2.2 < b.2.2)))

instance (a b : ℤ × ℤ × ℕ) : Decidable (keyLt a b) := by
  unfold keyLt
  infer_instance

/-! ## The traversal in closed form

The rows, columns and steps of the loop `for( it = begin; it != end; ++it )`, computed
from the slabs. -/

/-- The sum `f 0 + ... + f (n-1)`. -/
def sumTo (f : ℕ → ℕ) : ℕ → ℕ
  | 0 => 0
  | n + 1 => sumTo f n + f n

/-- The largest of `f 0, ..., f (n-1)` (zero for `n = 0`). -/
def maxTo (f : ℕ → ℕ) : ℕ → ℕ
  | 0 => 0
  | n + 1 => max (maxTo f n) (f n)

namespace Slab

/-- The member `xlo` of a cursor in its row `r` of the slab (row 0 is the row on
entry): `inc` adds `dxlo` once per row. -/
def rowXlo (s : Slab) : ℕ → ℚ
  | 0 => s.xlo
  | r + 1 => rowXlo s r + s.dxlo

/-- The member `xhi` of a cursor in its row `r` of the slab. -/
def rowXhi (s : Slab) : ℕ → ℚ
  | 0 => s.xhi
  | r + 1 => rowXhi s r + s.dxhi

/-- The number of rows visited in a slab that the cursor enters at row `y`: the
first row always, and each next row `y + 1` as long as `floor( y + 1 ) < floor( ymax )`. -/
def rows (s : Slab) (y : ℚ) : ℕ :=
  max 1 (⌊s.ymax⌋ - ⌊y⌋).toNat

end Slab

namespace FillAlgorithm

/-- The slab `data[i]`. -/
def slab (f : FillAlgorithm) (i : ℕ) : Slab := f.data.getD i default

/-- The row `y` at which the cursor enters slab `i`: `floor( ymin )` for the first
slab, and for each later slab the larger of the row after the last row of the slab
before and its own `floor( ymin )`. -/
def entryY (f : FillAlgorithm) : ℕ → ℚ
  | 0 => floor (f.slab 0).ymin
  | i + 1 => max (entryY f i + ((f.slab i).rows (entryY f i) : ℕ)) (floor (f.slab (i + 1)).ymin)

/-- The cursor at aspect `a` of column `j` of row `r` of slab `i` (all counted from zero). -/
def cursorAt (f : FillAlgorithm) (i r j a : ℕ) : FillRegionIterator :=
  { done := false
    call_idx := i
    x := floor ((f.slab i).rowXlo r) + j
    y := f.entryY i + r
    xlo := (f.slab i).rowXlo r
    xhi := (f.slab i).rowXhi r
    asp := a }

end FillAlgorithm

/-! ## Regions and cells -/

/-- The point `c·t1 + d·t2` of the plane, for the lattice vectors of the tiling as it
is now. -/
def latticePoint (t : IsohedralTiling) (c d : ℚ) : dvec2 :=
  { x := c * t.getT1.x + d * t.getT2.x
    y := c * t.getT1.y + d * t.getT2.y }

/-- The point `p` lies in the convex quadrilateral with the corners `A`, `B`, `C`, `D`:
it is a convex combination of the corners. -/
def InQuad (A B C D p : dvec2) : Prop :=
  ∃ wa wb wc wd : ℚ, 0 ≤ wa ∧ 0 ≤ wb ∧ 0 ≤ wc ∧ 0 ≤ wd ∧ wa + wb + wc + wd = 1 ∧
    p.x = wa * A.x + wb * B.x + wc * C.x + wd * D.x ∧
    p.y = wa * A.y + wb * B.y + wc * C.y + wd * D.y

/-- The unit cell `{(x+s)·t1 + (y+u)·t2 : 0 ≤ s, u ≤ 1}` of the lattice cell `(x, y)`
intersects the quadrilateral. -/
def CellMeets (t : IsohedralTiling) (A B C D : dvec2) (x y : ℤ) : Prop :=
  ∃ s u : ℚ, 0 ≤ s ∧ s ≤ 1 ∧ 0 ≤ u ∧ u ≤ 1 ∧ InQuad A B C D (latticePoint t (x + s) (y + u))

/-- The half open unit cell `{(x+s)·t1 + (y+u)·t2 : 0 ≤ s, u < 1}` of the lattice cell
`(x, y)` intersects the quadrilateral. -/
def HalfOpenCellMeets (t : IsohedralTiling) (A B C D : dvec2) (x y : ℤ) : Prop :=
  ∃ s u : ℚ, 0 ≤ s ∧ s < 1 ∧ 0 ≤ u ∧ u < 1 ∧ InQuad A B C D (latticePoint t (x + s) (y + u))

/-- The fill of the region with the corners `(0,0)`, `(3,0)`, `(3,2)`, `(0,2)` over the
synthetic tiling. -/
def syntheticFill : FillAlgorithm :=
  syntheticTiling.fillRegion ⟨0, 0⟩ ⟨3, 0⟩ ⟨3, 2⟩ ⟨0, 2⟩ false

/-- The fill of the trapezium with the corners `(1,0)`, `(3,0)`, `(3,1)`, `(0,1)` over
the synthetic tiling. -/
def slantedFill : FillAlgorithm :=
  syntheticTiling.fillRegion ⟨1, 0⟩ ⟨3, 0⟩ ⟨3, 1⟩ ⟨0, 1⟩ false

/-- The fill of the region with the corners `(0,0)`, `(0,2)`, `(3,2)`, `(3,0)`, passed
clockwise, over the synthetic tiling. -/
def clockwiseFill : FillAlgorithm :=
  syntheticTiling.fillRegion ⟨0, 0⟩ ⟨0, 2⟩ ⟨3, 2⟩ ⟨3, 0⟩ false

end csk

namespace csk

/-! ## Tile shape traversal -/

namespace IsohedralTiling

/-- Mirror of `getVertex`. -/
def getVertex (t : IsohedralTiling) (idx : ℕ) : dvec2 := t.verts.getD idx default

/-- Mirror of `getEdgeShape`. -/
def getEdgeShape (t : IsohedralTiling) (idx : ℕ) : EdgeShape := t.edge_shapes.getD idx default

end IsohedralTiling

/-- Mirror of the data member `edge_num` of `class TileShapeIterator` (a `U8`). -/
structure TileShapeIterator where
  edge_num : ℕ
deriving DecidableEq, Repr

namespace TileShapeIterator

/-- Mirror of the constructor `TileShapeIterator( t, num )`: `num` is narrowed to `U8`. -/
def create (num : ℕ) : TileShapeIterator := ⟨num % 256⟩

/-- Mirror of `getTransform`. -/
def getTransform (t : IsohedralTiling) (it : TileShapeIterator) : dmat3 :=
  t.edges.getD it.edge_num default

/-- Mirror of `getId`. -/
def getId (t : IsohedralTiling) (it : TileShapeIterator) : ℕ :=
  t.edge_shape_ids.getD it.edge_num 0

/-- Mirror of `getShape`. -/
def getShape (t : IsohedralTiling) (it : TileShapeIterator) : EdgeShape :=
  t.edge_shapes.getD (it.getId t) default

/-- Mirror of `isReversed`. -/
def isReversed (t : IsohedralTiling) (it : TileShapeIterator) : Bool :=
  t.reversals.getD it.edge_num false

/-- Mirror of `operator ==`; `sameTiling` is the outcome of `&tiling == &other.tiling`. -/
def eq (sameTiling : Bool) (a b : TileShapeIterator) : Bool :=
  sameTiling && (a.edge_num == b.edge_num)

/-- Mirror of `operator !=`. -/
def ne (sameTiling : Bool) (a b : TileShapeIterator) : Bool :=
  !sameTiling || (a.edge_num != b.edge_num)

/-- Mirror of the prefix `operator++`: `++edge_num` on a `U8`. -/
def inc (it : TileShapeIterator) : TileShapeIterator := ⟨(it.edge_num + 1) % 256⟩

/-- The point at which a caller starts to draw the edge: the image of `(1,0)` when the
path is run backwards (`isReversed()`), of `(0,0)` otherwise. -/
def traceStart (t : IsohedralTiling) (it : TileShapeIterator) : dvec2 :=
  if it.isReversed t then (it.getTransform t).apply ⟨1, 0⟩ else (it.getTransform t).apply ⟨0, 0⟩

/-- The point at which a caller ends the drawing of the edge. -/
def traceEnd (t : IsohedralTiling) (it : TileShapeIterator) : dvec2 :=
  if it.isReversed t then (it.getTransform t).apply ⟨0, 0⟩ else (it.getTransform t).apply ⟨1, 0⟩

end TileShapeIterator

namespace IsohedralTiling

/-- Mirror of `beginShape`. -/
def beginShape (_t : IsohedralTiling) : TileShapeIterator := TileShapeIterator.create 0

/-- Mirror of `endShape`. -/
def endShape (t : IsohedralTiling) : TileShapeIterator := TileShapeIterator.create t.numVertices

end IsohedralTiling

/-- Mirror of the table `TSPI_U`. -/
def TSPI_U : List dmat3 :=
  [ ⟨1 / 2, 0, 0, 0, 1 / 2, 0, 0, 0, 1⟩,
    ⟨-(1 / 2), 0, 0, 0, 1 / 2, 0, 1, 0, 1⟩ ]

/-- Mirror of the table `TSPI_S`. -/
def TSPI_S : List dmat3 :=
  [ ⟨1 / 2, 0, 0, 0, 1 / 2, 0, 0, 0, 1⟩,
    ⟨-(1 / 2), 0, 0, 0, -(1 / 2), 0, 1, 0, 1⟩ ]

/-- Mirror of the data members of `class TileShapePartIterator`. -/
structure TileShapePartIterator where
  edge_num : ℕ
  part : ℕ
  xform : dmat3
  edge_shape_id : ℕ
  rev : Bool
  shape : EdgeShape
deriving DecidableEq, Repr

namespace TileShapePartIterator

/-- Mirror of `computeEdgeInfo`. -/
def computeEdgeInfo (t : IsohedralTiling) (it : TileShapePartIterator) : TileShapePartIterator :=
  if it.edge_num ≥ t.numVertices then it
  else
    let edge_shape_id := t.edge_shape_ids.getD it.edge_num 0
    let shape := t.edge_shapes.getD edge_shape_id default
    if shape = EdgeShape.J ∨ shape = EdgeShape.I then
      { it with
        edge_shape_id := edge_shape_id
        shape := shape
        xform := t.edges.getD it.edge_num default
        rev := t.reversals.getD it.edge_num false }
    else
      let index := if t.reversals.getD it.edge_num false then 1 - it.part else it.part
      { it with
        edge_shape_id := edge_shape_id
        shape := shape
        rev := (it.part == 1)
        xform := (t.edges.getD it.edge_num default).mul
          ((if shape = EdgeShape.U then TSPI_U else TSPI_S).getD index default) }

/-- Mirror of the constructor `TileShapePartIterator( t, num )`: `edge_num( num )`,
`part( 0 )`, then `computeEdgeInfo()`; the members it leaves alone are given the
values zero, `false` and `J` here. -/
def create (t : IsohedralTiling) (num : ℕ) : TileShapePartIterator :=
  computeEdgeInfo t
    { edge_num := num % 256, part := 0, xform := default, edge_shape_id := 0, rev := false,
      shape := EdgeShape.J }

/-- Mirror of `getTransform`. -/
def getTransform (it : TileShapePartIterator) : dmat3 := it.xform

/-- Mirror of `getId`. -/
def getId (it : TileShapePartIterator) : ℕ := it.edge_shape_id

/-- Mirror of `getShape`. -/
def getShape (t : IsohedralTiling) (it : TileShapePartIterator) : EdgeShape :=
  t.edge_shapes.getD it.edge_shape_id default

/-- Mirror of `isReversed`. -/
def isReversed (it : TileShapePartIterator) : Bool := it.rev

/-- Mirror of `isSecondPart`. -/
def isSecondPart (it : TileShapePartIterator) : Bool := it.part == 1

/-- Mirror of `operator ==`; `sameTiling` is the outcome of `&tiling == &other.tiling`. -/
def eq (sameTiling : Bool) (a b : TileShapePartIterator) : Bool :=
  sameTiling && (a.edge_num == b.edge_num) && (a.part == b.part)

/-- Mirror of `operator !=`. -/
def ne (sameTiling : Bool) (a b : TileShapePartIterator) : Bool :=
  !sameTiling || (a.edge_num != b.edge_num) || (a.part != b.part)

/-- Mirror of the prefix `operator++`. -/
def inc (t : IsohedralTiling) (it : TileShapePartIterator) : TileShapePartIterator :=
  computeEdgeInfo t
    (if it.part = 1 ∨ it.shape = EdgeShape.J ∨ it.shape = EdgeShape.I then
      { it with part := 0, edge_num := (it.edge_num + 1) % 256 }
    else
      { it with part := (it.part + 1) % 256 })

end TileShapePartIterator

namespace IsohedralTiling

/-- Mirror of `beginParts`. -/
def beginParts (t : IsohedralTiling) : TileShapePartIterator := TileShapePartIterator.create t 0

/-- Mirror of `endParts`. -/
def endParts (t : IsohedralTiling) : TileShapePartIterator :=
  TileShapePartIterator.create t t.numVertices

/-- The symmetry class of tiling edge `i`: `edge_shapes[ edge_shape_ids[ i ] ]`. -/
def edgeClass (t : IsohedralTiling) (i : ℕ) : EdgeShape :=
  t.edge_shapes.getD (t.edge_shape_ids.getD i 0) default

end IsohedralTiling

namespace TileShapePartIterator

/-- The parts visited by the loop `for( it = beginParts(); it != endParts(); ++it )`,
started at `it` and cut off after `fuel` parts. -/
def visited (t : IsohedralTiling) : ℕ → TileShapePartIterator → List TileShapePartIterator
  | 0, _ => []
  | fuel + 1, it =>
    if ne true it t.endParts then it :: visited t fuel (inc t it) else []

/-- The parts of the specification, as pairs (edge, part), for the `k` edges from edge
`i` on: one part for an edge of class J or I, two for an edge of class U or S. -/
def slotsFrom (t : IsohedralTiling) : ℕ → ℕ → List (ℕ × ℕ)
  | _, 0 => []
  | i, k + 1 =>
    (if t.edgeClass i = EdgeShape.J ∨ t.edgeClass i = EdgeShape.I then [(i, 0)]
      else [(i, 0), (i, 1)]) ++ slotsFrom t (i + 1) k

/-- The parts of the specification for all tiling edges. -/
def slots (t : IsohedralTiling) : List (ℕ × ℕ) := slotsFrom t 0 t.numVertices

/-- The number of edges of class U or S among the `k` edges from edge `i` on. -/
def countHalved (t : IsohedralTiling) : ℕ → ℕ → ℕ
  | _, 0 => 0
  | i, k + 1 =>
    (if t.edgeClass i = EdgeShape.J ∨ t.edgeClass i = EdgeShape.I then 0 else 1)
      + countHalved t (i + 1) k

/-- The part iterator at part `p` of tiling edge `i`, as `computeEdgeInfo` fills it. -/
def partAt (t : IsohedralTiling) (i p : ℕ) : TileShapePartIterator :=
  computeEdgeInfo t
    { edge_num := i, part := p, xform := default, edge_shape_id := 0, rev := false,
      shape := EdgeShape.J }

end TileShapePartIterator

end csk

namespace csk

/-- The midpoint of two points. -/
def mid (p q : dvec2) : dvec2 := ⟨(p.x + q.x) / 2, (p.y + q.y) / 2⟩

/-! ## Histories of a tiling -/

namespace IsohedralTiling

/-- The derived state of a tiling: the positions of its `numVertices` vertices, the
transforms and reversal flags of its `numVertices` edges, the transforms of its
`numAspects` aspects, and the two lattice vectors. -/
def derived (t : IsohedralTiling) :
    List dvec2 × List dmat3 × List Bool × List dmat3 × dvec2 × dvec2 :=
  (t.verts.take t.numVertices, t.edges.take t.numVertices, t.reversals.take t.numVertices,
    t.aspects.take t.numAspects, t.t1, t.t2)

/-- The tilings that a caller can hold: made by the constructor, then changed by any
sequence of calls of `reset` with a type of the table and of `setParameters` with a
buffer of at least `numParameters()` values. -/
inductive Reachable (table : List TilingTypeData) : IsohedralTiling → Prop
  | create (T : ℕ) (t : IsohedralTiling) :
      IsohedralTiling.create table T = some t → Reachable table t
  | reset (s : IsohedralTiling) (T : ℕ) (t : IsohedralTiling) :
      Reachable table s → IsohedralTiling.reset table s T = some t → Reachable table t
  | setParameters (s : IsohedralTiling) (p : List ℚ) :
      Reachable table s → s.numParameters ≤ p.length → Reachable table (s.setParameters p)

/-- One loop of `getColour` run `n` times from the colour `col`, reading the table at
`off + col` (`off` is 12 or 15): the colour it ends with and the indices it has read. -/
def colourLoop (colouring : List ℕ) (off : ℕ) : ℕ → ℕ → ℕ × List ℕ
  | 0, col => (col, [])
  | n + 1, col =>
    ((colourLoop colouring off n (colouring.getD (off + col) 0)).1,
      (off + col) :: (colourLoop colouring off n (colouring.getD (off + col) 0)).2)

/-- The function `getColour` together with the indices that its first and its second
loop read in the colouring table. -/
def getColourReads (t : IsohedralTiling) (t1 t2 : ℤ) (aspect : ℕ) : ℕ × List ℕ × List ℕ :=
  let nc : ℤ := (t.colouring.getD 18 0 : ℕ)
  let mt1 := Int.tmod t1 nc
  let mt1 := if mt1 < 0 then mt1 + nc else mt1
  let mt2 := Int.tmod t2 nc
  let mt2 := if mt2 < 0 then mt2 + nc else mt2
  let col := t.colouring.getD aspect 0
  let first := colourLoop t.colouring 12 mt1.toNat col
  let second := colourLoop t.colouring 15 mt2.toNat first.1
  (second.1, first.2, second.2)

end IsohedralTiling

/-- A tiling with a history: constructed with the type of `halved`, then `reset( 1 )`,
then `setParameters` with `(1/3, 2)`. -/
def historyTiling : IsohedralTiling :=
  ((IsohedralTiling.reset sampleTable halvedTiling 1).getD
    IsohedralTiling.uninitialised).setParameters [1 / 3, 2]

/-! ## Comparison of fill cursors -/

namespace FillRegionIterator

/-- Mirror of `operator ==`; `sameAlgo` is the outcome of `&algo == &other.algo`. -/
def eq (sameAlgo : Bool) (a b : FillRegionIterator) : Bool :=
  if !sameAlgo then false
  else if a.done != b.done then false
  else if a.done then true
  else (a.call_idx == b.call_idx) && decide (|a.x - b.x| < tol) && decide (|a.y - b.y| < tol)
    && (a.asp == b.asp)

/-- Mirror of `operator !=`. -/
def ne (sameAlgo : Bool) (a b : FillRegionIterator) : Bool :=
  !(eq sameAlgo a b)

end FillRegionIterator

/-! ## The divisions of the fill constructor -/

/-- The denominators of the two divisions of `doFill`. -/
def doFillDenominators (A B C D : dvec2) : List ℚ := [D.y - A.y, C.y - B.y]

/-- The denominators of the divisions of the call of `doFill` made by `fillFixX`. -/
def fillFixXDenominators (A B C D : dvec2) : List ℚ :=
  if A.x > B.x then doFillDenominators B A D C else doFillDenominators A B C D

/-- The denominators of the divisions of the call of `doFill` made by `fillFixY`. -/
def fillFixYDenominators (A B C D : dvec2) : List ℚ :=
  if A.y > C.y then doFillDenominators C D A B else doFillDenominators A B C D

/-- The denominator of the division of `sampleAtHeight`. -/
def sampleAtHeightDenominator (P Q : dvec2) : ℚ := Q.y - P.y

/-- The denominators of the divisions of the last branch of the constructor, the one
that cuts the quadrilateral into three slabs, from the corners `bottom`, `left`, `top`
and `right` as found by the `lowest` scan (before `left` and `right` are swapped). -/
def threeSlabDenominators (bottom left0 top right0 : dvec2) : List ℚ :=
  let left := if left0.x > right0.x then right0 else left0
  let right := if left0.x > right0.x then left0 else right0
  if left.y < right.y then
    let r1 := sampleAtHeight bottom right left.y
    let l2 := sampleAtHeight left top right.y
    [sampleAtHeightDenominator bottom right, sampleAtHeightDenominator left top]
      ++ fillFixXDenominators bottom bottom r1 left
      ++ fillFixXDenominators left r1 right l2
      ++ fillFixXDenominators l2 right top top
  else
    let l1 := sampleAtHeight bottom left right.y
    let r2 := sampleAtHeight right top left.y
    [sampleAtHeightDenominator bottom left, sampleAtHeightDenominator right top]
      ++ fillFixXDenominators bottom bottom right l1
      ++ fillFixXDenominators l1 right r2 left
      ++ fillFixXDenominators left r2 top top

namespace FillAlgorithm

/-- The denominators of all divisions performed by the constructor
`FillAlgorithm( t, A, B, C, D, dbg )`, in the order of execution: the inverse
determinant, then along the branch taken the calls of `sampleAtHeight` and of `doFill`. -/
def denominators (t : IsohedralTiling) (A B C D : dvec2) : List ℚ :=
  let ps := pts t A B C D
  let p0 := ps.getD 0 default
  let p1 := ps.getD 1 default
  let p2 := ps.getD 2 default
  let p3 := ps.getD 3 default
  (t.getT1.x * t.getT2.y - t.getT2.x * t.getT1.y) ::
  (if |p0.y - p1.y| < tol then
    fillFixYDenominators p0 p1 p2 p3
  else if |p1.y - p2.y| < tol then
    fillFixYDenominators p1 p2 p3 p0
  else
    let low := lowest ps
    threeSlabDenominators (ps.getD low default) (ps.getD ((low + 1) % 4) default)
      (ps.getD ((low + 2) % 4) default) (ps.getD ((low + 3) % 4) default))

end FillAlgorithm

/-- The cross product `(Q - P) × (R - Q)` of two consecutive sides. -/
def turn (P Q R : dvec2) : ℚ := (Q.x - P.x) * (R.y - Q.y) - (Q.y - P.y) * (R.x - Q.x)

/-- The quadrilateral `A B C D` is strictly convex with its corners in counter-clockwise
order: it turns left at every corner. -/
def ConvexCCW (A B C D : dvec2) : Prop :=
  0 < turn A B C ∧ 0 < turn B C D ∧ 0 < turn C D A ∧ 0 < turn D A B

end csk

namespace csk

/-! ## Signed area -/

/-- Twice the signed area of the quadrilateral `P0 P1 P2 P3` (the shoelace sum):
positive for corners in counter-clockwise order, negative for clockwise order. -/
def signedArea2 (P0 P1 P2 P3 : dvec2) : ℚ :=
  (P0.x * P1.y - P1.x * P0.y) + (P1.x * P2.y - P2.x * P1.y)
    + (P2.x * P3.y - P3.x * P2.y) + (P3.x * P0.y - P0.x * P3.y)

/-- Twice the signed area of the quadrilateral held by the array `pts`. -/
def ptsArea2 (ps : List dvec2) : ℚ :=
  signedArea2 (ps.getD 0 default) (ps.getD 1 default) (ps.getD 2 default) (ps.getD 3 default)

/-! ## Distances and mirror images -/

/-- The squared distance of two points. -/
def distSq (p q : dvec2) : ℚ := (p.x - q.x) ^ 2 + (p.y - q.y) ^ 2

/-- The mirror image of the point `p` across the perpendicular bisector of the segment
`P Q` (for `P ≠ Q`): `p` moved along the direction `Q - P` by twice its signed distance
from the bisector. -/
def mirrorAcrossBisector (P Q p : dvec2) : dvec2 :=
  let k := ((p.x - (P.x + Q.x) / 2) * (Q.x - P.x) + (p.y - (P.y + Q.y) / 2) * (Q.y - P.y))
    / distSq P Q
  ⟨p.x - 2 * k * (Q.x - P.x), p.y - 2 * k * (Q.y - P.y)⟩

/-! ## Affine evaluation in the words of the specification -/

/-- Row `k` of a coefficient table for `np` parameters: its `np + 1` entries from
position `k·(np+1)` on. -/
def coeffRow (table : List ℚ) (np k : ℕ) : List ℚ :=
  (table.drop (k * (np + 1))).take (np + 1)

/-- The value `row·p + bias` of a coefficient row: the dot product of its first `np`
entries with the parameters, plus its last entry. -/
def affineValue (row p : List ℚ) (np : ℕ) : ℚ :=
  ((List.range np).map (fun j => row.getD j 0 * p.getD j 0)).sum + row.getD np 0

/-! ## How a call ends -/

/-- The ways in which a call of a member function ends: it returns, it reports a failure
to its caller (an exception or an error value), or its behaviour is undefined. -/
inductive Outcome (α : Type) where
  | returned (value : α)
  | reported
  | undefined

/-- The outcome of the call `reset( ihtype )`.  The function is `void`, has no `throw`
and no test on `ihtype`: it returns with the descriptor installed when the read
`tiling_type_data[ ihtype ]` is inside the table, and the read past the end of the table
is undefined behaviour. -/
def IsohedralTiling.resetOutcome (table : List TilingTypeData) (t : IsohedralTiling)
    (ihtype : ℕ) : Outcome IsohedralTiling :=
  match IsohedralTiling.reset table t ihtype with
  | some s => Outcome.returned s
  | none => Outcome.undefined

/-- The fill of the box `[0,2] × [0,2]` over the sheared tiling with its default
parameters `(1/2, 1)`. -/
def shearedFill : FillAlgorithm := shearedTiling.fillRegionBox 0 0 2 2 false

/-! ## The slabs of a fill result -/

/-- The least `y` of the four mapped corners `pts[0..3]`. -/
def minY (ps : List dvec2) : ℚ :=
  min (min (min (ps.getD 0 default).y (ps.getD 1 default).y) (ps.getD 2 default).y)
    (ps.getD 3 default).y

/-- The greatest `y` of the four mapped corners `pts[0..3]`. -/
def maxY (ps : List dvec2) : ℚ :=
  max (max (max (ps.getD 0 default).y (ps.getD 1 default).y) (ps.getD 2 default).y)
    (ps.getD 3 default).y

/-- The fill of the parallelogram with the corners `(0,0)`, `(10,1)`, `(21,12)`,
`(11,11)`, passed counter-clockwise, over the synthetic tiling. -/
def skewFill : FillAlgorithm :=
  syntheticTiling.fillRegion ⟨0, 0⟩ ⟨10, 1⟩ ⟨21, 12⟩ ⟨11, 11⟩ false

/-- The fill of the convex quadrilateral with the corners `(0,0)`, `(4,1)`, `(4,2)`,
`(0,5)`, passed counter-clockwise, over the synthetic tiling. -/
def tallFill : FillAlgorithm :=
  syntheticTiling.fillRegion ⟨0, 0⟩ ⟨4, 1⟩ ⟨4, 2⟩ ⟨0, 5⟩ false

/-! ## The traversal of a single slab in the words of the specification -/

/-- The columns of one row: the first column `x0` always, then `x0 + 1`, `x0 + 2`, ...
for as long as the column is below `bound`; these are `max 1 ⌈bound - x0⌉` columns. -/
def specColumns (x0 : ℤ) (bound : ℚ) : List ℤ :=
  (List.range (max 1 (⌈bound - x0⌉).toNat)).map (fun (c : ℕ) => x0 + (c : ℤ))

/-- The sequence of `(getT1, getT2, getAspect)` of a fill result with the single slab
`s` and `m` aspects: for `r = 0 .. R-1` with `R = max( 1, floor(ymax) − floor(ymin) )`
the row `y = floor(ymin) + r`, in that row the columns from `floor( xlo + r·dxlo )` on
that are below `xhi + r·dxhi + 1e-7`, and at each position the aspects `0 .. m-1`. -/
def specSingleSlab (s : Slab) (m : ℕ) : List (ℤ × ℤ × ℕ) :=
  (List.range (max 1 (⌊s.ymax⌋ - ⌊s.ymin⌋).toNat)).flatMap (fun (r : ℕ) =>
    (specColumns ⌊s.xlo + (r : ℚ) * s.dxlo⌋ (s.xhi + (r : ℚ) * s.dxhi + tol)).flatMap
      (fun (x : ℤ) => (List.range m).map (fun (a : ℕ) => (x, ⌊s.ymin⌋ + (r : ℤ), a))))

end csk

namespace csk

/-! ## Cursors reached by the loop -/

/-- The cursors that the loop `for( it = begin(); it != end(); ++it )` holds at some
time: `begin()`, and `++it` for a cursor that the loop holds and that is not done (the
loop stops at a done cursor). -/
inductive FillRegionIterator.Reached (t : IsohedralTiling) (f : FillAlgorithm) :
    FillRegionIterator → Prop
  | start : FillRegionIterator.Reached t f f.begin
  | step (it : FillRegionIterator) :
      FillRegionIterator.Reached t f it → it.done = false →
      FillRegionIterator.Reached t f (FillRegionIterator.inc t f it)

/-! ## The postfix increment of the part iterator -/

namespace TileShapePartIterator

/-- Mirror of the postfix `operator++( int )`: `TileShapePartIterator tsi( *this );
++edge_num; return tsi;`.  The first component is the returned copy, the second one
the state that the iterator is left in. -/
def postInc (it : TileShapePartIterator) : TileShapePartIterator × TileShapePartIterator :=
  (it, { it with edge_num := (it.edge_num + 1) % 256 })

/-- What a caller reads off a part besides its transform: the edge, the part, and
`getId`, `getShape`, `isReversed`, `isSecondPart`. -/
def label (t : IsohedralTiling) (it : TileShapePartIterator) :
    ℕ × ℕ × ℕ × EdgeShape × Bool × Bool :=
  (it.edge_num, it.part, it.getId, it.getShape t, it.isReversed, it.isSecondPart)

/-- The part iterator without its transform. -/
def strip (it : TileShapePartIterator) : TileShapePartIterator :=
  { it with xform := default }

/-- The loop `for( it = beginParts(); it != endParts(); it++ )` with the postfix
increment, started at `it` and cut off after `fuel` parts. -/
def visitedPost (t : IsohedralTiling) : ℕ → TileShapePartIterator → List TileShapePartIterator
  | 0, _ => []
  | fuel + 1, it =>
    if ne true it t.endParts then it :: visitedPost t fuel (postInc it).2 else []

end TileShapePartIterator

end csk

namespace csk

/-! ## The region fill in machine arithmetic

The second reading of `double` and `float`: IEEE 754 binary64 and binary32 with
rounding to nearest, ties to even.  A finite `double` or `float` is the rational it
denotes; an operation whose result is not finite (overflow, division by zero) gives
`none`, and so does every computation that would use such a result.  Every arithmetic
operation is rounded on its own (no fused multiply-add, no extended precision), and
`int` has 32 bits. -/

namespace Machine

/-- The power `2^e` for an integer exponent `e`. -/
def pow2 (e : ℤ) : ℚ :=
  if 0 ≤ e then ((2 ^ e.toNat : ℕ) : ℚ) else 1 / ((2 ^ (-e).toNat : ℕ) : ℚ)

/-- The integer nearest to `q`, the even one of the two when `q` lies half way. -/
def roundHalfEven (q : ℚ) : ℤ :=
  if q - ⌊q⌋ < 1 / 2 then ⌊q⌋
  else if 1 / 2 < q - ⌊q⌋ then ⌊q⌋ + 1
  else if ⌊q⌋ % 2 = 0 then ⌊q⌋ else ⌊q⌋ + 1

/-- The number of halvings that take `n` below 2, at most `fuel` of them. -/
def log2Fuel : ℕ → ℕ → ℕ
  | 0, _ => 0
  | fuel + 1, n => if 2 ≤ n then log2Fuel fuel (n / 2) + 1 else 0

/-- The exponent `k` with `2^k ≤ n < 2^(k+1)`, for `n ≠ 0`. -/
def log2 (n : ℕ) : ℕ := log2Fuel n n

/-- The exponent `e` with `2^e ≤ |q| < 2^(e+1)`, for `q ≠ 0`. -/
def ilog2 (q : ℚ) : ℤ :=
  if pow2 ((log2 q.num.natAbs : ℤ) - (log2 q.den : ℤ)) ≤ |q| then
    (log2 q.num.natAbs : ℤ) - (log2 q.den : ℤ)
  else (log2 q.num.natAbs : ℤ) - (log2 q.den : ℤ) - 1

/-- The exponent of the unit in the last place at `q` of the binary format with `p`
significant bits whose least exponent (that of the subnormal numbers) is `emin`. -/
def ulpExp (p : ℕ) (emin : ℤ) (q : ℚ) : ℤ := max (ilog2 q - ((p : ℤ) - 1)) emin

/-- Rounding to nearest, ties to even, in the binary format with `p` significant bits
and least exponent `emin`, before the test for overflow. -/
def roundTo (p : ℕ) (emin : ℤ) (q : ℚ) : ℚ :=
  if q = 0 then 0
  else (roundHalfEven (q / pow2 (ulpExp p emin q)) : ℚ) * pow2 (ulpExp p emin q)

/-- A number of the binary format with `p` significant bits and least exponent `emin`:
an integer of fewer than `p + 1` bits times a power of two that is not below `2^emin`. -/
def Representable (p : ℕ) (emin : ℤ) (r : ℚ) : Prop :=
  ∃ m k : ℤ, |m| < 2 ^ p ∧ emin ≤ k ∧ r = m * pow2 k

/-- Rounding to binary64 before the test for overflow. -/
def rnd (q : ℚ) : ℚ := roundTo 53 (-1074) q

/-- Rounding to binary32 before the test for overflow. -/
def rndf (q : ℚ) : ℚ := roundTo 24 (-149) q

/-- The `double` that the real number `q` is rounded to; `none` when it is infinite. -/
def double (q : ℚ) : Option ℚ := if |rnd q| < pow2 1024 then some (rnd q) else none

/-- The `float` that the real number `q` is rounded to; `none` when it is infinite.
This is also the conversion of a `double` to `float`. -/
def single (q : ℚ) : Option ℚ := if |rndf q| < pow2 128 then some (rndf q) else none

/-- The sum `a + b` of two `double`s. -/
def add (a b : ℚ) : Option ℚ := double (a + b)

/-- The difference `a - b` of two `double`s. -/
def sub (a b : ℚ) : Option ℚ := double (a - b)

/-- The product `a * b` of two `double`s. -/
def mul (a b : ℚ) : Option ℚ := double (a * b)

/-- The quotient `a / b` of two `double`s; a zero divisor gives no finite value. -/
def div (a b : ℚ) : Option ℚ := if b = 0 then none else double (a / b)

/-- The difference `a - b` of two `float`s. -/
def fsub (a b : ℚ) : Option ℚ := single (a - b)

/-- The `double` literal `1e-7`. -/
def tolD : ℚ := 944473296573929 / 9444732965739290427392

/-- The conversion `int( x )` of a `double` to a 32 bit `int`: truncation toward zero,
defined when the truncated value is an `int`. -/
def toInt (q : ℚ) : Option ℤ :=
  if -2147483648 ≤ csk.toInt q ∧ csk.toInt q ≤ 2147483647 then some (csk.toInt q) else none

/-- The conversion of a `glm::dvec2` to a `glm::vec2`. -/
def narrow (p : dvec2) : Option dvec2 :=
  (single p.x).bind (fun (x : ℚ) => (single p.y).bind (fun (y : ℚ) => some ⟨x, y⟩))

/-- Mirror of `sampleAtHeight`, whose caller converts the result to a `glm::vec2`. -/
def sampleAtHeight (P Q : dvec2) (y : ℚ) : Option dvec2 :=
  (sub y P.y).bind (fun (n : ℚ) =>
  (sub Q.y P.y).bind (fun (d : ℚ) =>
  (div n d).bind (fun (t : ℚ) =>
  (sub 1 t).bind (fun (u : ℚ) =>
  (mul u P.x).bind (fun (a : ℚ) =>
  (mul t Q.x).bind (fun (b : ℚ) =>
  (add a b).bind (fun (x : ℚ) => narrow ⟨x, y⟩)))))))

/-- Mirror of `doFill`. -/
def doFill (f : FillAlgorithm) (A B C D : dvec2) (do_top : Bool) : Option FillAlgorithm :=
  (sub D.x A.x).bind (fun (nl : ℚ) =>
  (sub D.y A.y).bind (fun (dl : ℚ) =>
  (div nl dl).bind (fun (dxlo : ℚ) =>
  (sub C.x B.x).bind (fun (nh : ℚ) =>
  (sub C.y B.y).bind (fun (dh : ℚ) =>
  (div nh dh).bind (fun (dxhi : ℚ) =>
  (if do_top then add C.y 1 else some C.y).bind (fun (ymax : ℚ) =>
    some { f with
      data := f.data.set f.num_calls
        { xlo := A.x, dxlo := dxlo, xhi := B.x, dxhi := dxhi, ymin := A.y, ymax := ymax }
      num_calls := f.num_calls + 1 })))))))

/-- Mirror of `fillFixX`. -/
def fillFixX (f : FillAlgorithm) (A B C D : dvec2) (do_top : Bool) : Option FillAlgorithm :=
  if A.x > B.x then doFill f B A D C do_top else doFill f A B C D do_top

/-- Mirror of `fillFixY`. -/
def fillFixY (f : FillAlgorithm) (A B C D : dvec2) (do_top : Bool) : Option FillAlgorithm :=
  if A.y > C.y then doFill f C D A B do_top else doFill f A B C D do_top

/-- The scalar `det` of the constructor, `1.0 / (t1.x*t2.y-t2.x*t1.y)`. -/
def det (t : IsohedralTiling) : Option ℚ :=
  (mul t.getT1.x t.getT2.y).bind (fun (a : ℚ) =>
  (mul t.getT2.x t.getT1.y).bind (fun (b : ℚ) =>
  (sub a b).bind (fun (c : ℚ) => div 1 c)))

/-- The matrix `Mbc` of the constructor. -/
def Mbc (t : IsohedralTiling) : Option dmat2 :=
  (det t).bind (fun (d : ℚ) =>
  (mul t.getT2.y d).bind (fun (m00 : ℚ) =>
  (mul (-t.getT1.y) d).bind (fun (m01 : ℚ) =>
  (mul (-t.getT2.x) d).bind (fun (m10 : ℚ) =>
  (mul t.getT1.x d).bind (fun (m11 : ℚ) => some ⟨m00, m01, m10, m11⟩)))))

/-- The product `M * v` of a `glm::dmat2` with a `glm::dvec2`. -/
def mulVec (M : dmat2) (v : dvec2) : Option dvec2 :=
  (mul M.m00 v.x).bind (fun (a : ℚ) =>
  (mul M.m10 v.y).bind (fun (b : ℚ) =>
  (add a b).bind (fun (x : ℚ) =>
  (mul M.m01 v.x).bind (fun (c : ℚ) =>
  (mul M.m11 v.y).bind (fun (d : ℚ) =>
  (add c d).bind (fun (y : ℚ) => some ⟨x, y⟩))))))

/-- The array `pts` of the constructor after the conditional `swap( pts[1], pts[3] )`:
the products `Mbc * A`, ..., converted to `glm::vec2`. -/
def pts (t : IsohedralTiling) (A B C D : dvec2) : Option (List dvec2) :=
  (det t).bind (fun (d : ℚ) =>
  (Mbc t).bind (fun (M : dmat2) =>
  ((mulVec M A).bind narrow).bind (fun (p0 : dvec2) =>
  ((mulVec M B).bind narrow).bind (fun (p1 : dvec2) =>
  ((mulVec M C).bind narrow).bind (fun (p2 : dvec2) =>
  ((mulVec M D).bind narrow).bind (fun (p3 : dvec2) =>
    some (if d < 0 then [p0, p3, p2, p1] else [p0, p1, p2, p3])))))))

/-- The test `fabs( a - b ) < 1e-7` on two `float`s; an infinite difference fails it. -/
def close (a b : ℚ) : Bool :=
  match fsub a b with
  | some d => decide (|d| < tolD)
  | none => false

/-- Mirror of the constructor `FillAlgorithm( t, A, B, C, D, dbg )`. -/
def create (t : IsohedralTiling) (A B C D : dvec2) (dbg : Bool) : Option FillAlgorithm :=
  (pts t A B C D).bind (fun (ps : List dvec2) =>
    let f : FillAlgorithm := ⟨0, dbg, List.replicate 3 default⟩
    let p0 := ps.getD 0 default
    let p1 := ps.getD 1 default
    let p2 := ps.getD 2 default
    let p3 := ps.getD 3 default
    if close p0.y p1.y then
      fillFixY f p0 p1 p2 p3 true
    else if close p1.y p2.y then
      fillFixY f p1 p2 p3 p0 true
    else
      let low := FillAlgorithm.lowest ps
      let bottom := ps.getD low default
      let left0 := ps.getD ((low + 1) % 4) default
      let top := ps.getD ((low + 2) % 4) default
      let right0 := ps.getD ((low + 3) % 4) default
      let left := if left0.x > right0.x then right0 else left0
      let right := if left0.x > right0.x then left0 else right0
      if left.y < right.y then
        (sampleAtHeight bottom right left.y).bind (fun (r1 : dvec2) =>
        (sampleAtHeight left top right.y).bind (fun (l2 : dvec2) =>
        (fillFixX f bottom bottom r1 left false).bind (fun (f1 : FillAlgorithm) =>
        (fillFixX f1 left r1 right l2 false).bind (fun (f2 : FillAlgorithm) =>
          fillFixX f2 l2 right top top true))))
      else
        (sampleAtHeight bottom left right.y).bind (fun (l1 : dvec2) =>
        (sampleAtHeight right top left.y).bind (fun (r2 : dvec2) =>
        (fillFixX f bottom bottom right l1 false).bind (fun (f1 : FillAlgorithm) =>
        (fillFixX f1 l1 right r2 left false).bind (fun (f2 : FillAlgorithm) =>
          fillFixX f2 left r2 top top true)))))

/-- Mirror of `fillRegion( xmin, ymin, xmax, ymax, dbg )`. -/
def fillRegionBox (t : IsohedralTiling) (xmin ymin xmax ymax : ℚ) (dbg : Bool) :
    Option FillAlgorithm :=
  create t ⟨xmin, ymin⟩ ⟨xmax, ymin⟩ ⟨xmax, ymax⟩ ⟨xmin, ymax⟩ dbg

/-- Mirror of `fillRegion( A, B, C, D, dbg )`. -/
def fillRegion (t : IsohedralTiling) (A B C D : dvec2) (dbg : Bool) : Option FillAlgorithm :=
  create t A B C D dbg

/-- Mirror of `inc`, the body of `operator++`. -/
def inc (t : IsohedralTiling) (algo : FillAlgorithm) (it : FillRegionIterator) :
    Option FillRegionIterator :=
  if it.asp + 1 < t.numAspects then
    some { it with asp := it.asp + 1 }
  else
    (add it.x 1).bind (fun (x : ℚ) =>
    (add it.xhi tolD).bind (fun (bound : ℚ) =>
      if x < bound then
        some { it with asp := 0, x := x }
      else
        (add it.xlo (algo.data.getD it.call_idx default).dxlo).bind (fun (xlo : ℚ) =>
        (add it.xhi (algo.data.getD it.call_idx default).dxhi).bind (fun (xhi : ℚ) =>
        (add it.y 1).bind (fun (y : ℚ) =>
          if floor y < floor (algo.data.getD it.call_idx default).ymax then
            some { it with asp := 0, x := floor xlo, y := y, xlo := xlo, xhi := xhi }
          else if it.call_idx + 1 < algo.num_calls then
            some { it with
              asp := 0
              call_idx := it.call_idx + 1
              xlo := (algo.data.getD (it.call_idx + 1) default).xlo
              xhi := (algo.data.getD (it.call_idx + 1) default).xhi
              y := max y (floor (algo.data.getD (it.call_idx + 1) default).ymin)
              x := floor (algo.data.getD (it.call_idx + 1) default).xlo }
          else
            some { it with
              asp := 0, x := floor xlo, y := y, xlo := xlo, xhi := xhi
              call_idx := it.call_idx + 1
              done := true })))))

/-- Mirror of `getT1`: `int( x )`. -/
def getT1 (it : FillRegionIterator) : Option ℤ := toInt it.x

/-- Mirror of `getT2`: `int( y )`. -/
def getT2 (it : FillRegionIterator) : Option ℤ := toInt it.y

/-- What a caller reads off a cursor, row first: `(getT2, getT1, getAspect)`, when
both conversions to `int` are defined. -/
def key (it : FillRegionIterator) : Option (ℤ × ℤ × ℕ) :=
  (getT2 it).bind (fun (b : ℤ) => (getT1 it).bind (fun (a : ℤ) => some (b, a, it.getAspect)))

/-- The cursor after `n` applications of `inc`. -/
def iter (t : IsohedralTiling) (algo : FillAlgorithm) : ℕ → FillRegionIterator →
    Option FillRegionIterator
  | 0, it => some it
  | n + 1, it => (iter t algo n it).bind (inc t algo)

/-- The cursors visited by the loop `for( it = begin; it != end; ++it )`, started at
`it` and cut off after `fuel` cursors. -/
def visited (t : IsohedralTiling) (algo : FillAlgorithm) : ℕ → FillRegionIterator →
    Option (List FillRegionIterator)
  | 0, _ => some []
  | fuel + 1, it =>
    if it.done then some []
    else (inc t algo it).bind (fun (next : FillRegionIterator) =>
      (visited t algo fuel next).bind (fun (l : List FillRegionIterator) => some (it :: l)))

/-- What a caller reads off the cursors of a list: the slab index and
`(getT2, getT1, getAspect)` of each; `none` when a conversion to `int` is undefined. -/
def keysOf : List FillRegionIterator → Option (List (ℕ × ℤ × ℤ × ℕ))
  | [] => some []
  | it :: l =>
    (key it).bind (fun (k : ℤ × ℤ × ℕ) =>
      (keysOf l).bind (fun (ks : List (ℕ × ℤ × ℤ × ℕ)) => some ((it.call_idx, k) :: ks)))

/-- What a caller reads off the cursors that the loop from `begin()` visits with the
given fuel. -/
def keys (t : IsohedralTiling) (algo : FillAlgorithm) (fuel : ℕ) :
    Option (List (ℕ × ℤ × ℤ × ℕ)) :=
  (visited t algo fuel algo.begin).bind keysOf

/-- The cursors that the loop `for( it = begin; it != end; ++it )` holds: `begin()`,
and the successor of each such cursor that is not done. -/
inductive Reached (t : IsohedralTiling) (f : FillAlgorithm) : FillRegionIterator → Prop
  | start : Reached t f f.begin
  | step (it next : FillRegionIterator) :
      Reached t f it → it.done = false → inc t f it = some next → Reached t f next

/-- The loop from `begin()` to `end()` over the fill result visits a cursor with
`getT1() = x`, `getT2() = y` and `getAspect() = a`. -/
def Yields (t : IsohedralTiling) (algo : FillAlgorithm) (x y : ℤ) (a : ℕ) : Prop :=
  ∃ fuel l, visited t algo fuel algo.begin = some l ∧
    ∃ it ∈ l, getT1 it = some x ∧ getT2 it = some y ∧ it.getAspect = a

/-! ### The traversal in closed form -/

/-- The member `xlo` of a cursor in its row `r` of the slab: `inc` adds `dxlo` once per
row, rounding each sum. -/
def rowXlo (s : Slab) : ℕ → ℚ
  | 0 => s.xlo
  | r + 1 => rnd (rowXlo s r + s.dxlo)

/-- The member `xhi` of a cursor in its row `r` of the slab. -/
def rowXhi (s : Slab) : ℕ → ℚ
  | 0 => s.xhi
  | r + 1 => rnd (rowXhi s r + s.dxhi)

/-- The value of `xhi + 1e-7` in row `r` of the slab. -/
def rowBound (s : Slab) (r : ℕ) : ℚ := rnd (rowXhi s r + tolD)

/-- The number of columns visited in row `r`: the first column `floor( xlo )` always,
and each next column `x + 1` as long as `x + 1 < xhi + 1e-7`. -/
def cols (s : Slab) (r : ℕ) : ℕ :=
  max 1 (⌈rowBound s r - floor (rowXlo s r)⌉).toNat

/-- The largest number of columns in a row of a slab entered at row `y`. -/
def maxCols (s : Slab) (y : ℚ) : ℕ := maxTo (cols s) (s.rows y)

/-- The number of steps spent in slab `i` with `m` aspects. -/
def slabSteps (f : FillAlgorithm) (m : ℕ) (i : ℕ) : ℕ :=
  sumTo (fun (r : ℕ) => cols (f.slab i) r * m) ((f.slab i).rows (f.entryY i))

/-- The number of steps from `begin()` to the done state with `m` aspects. -/
def totalSteps (f : FillAlgorithm) (m : ℕ) : ℕ := sumTo (slabSteps f m) f.num_calls

/-- The bound of the specification: the sum over the slabs of rows visited in the
slab, times the largest number of columns in one of its rows, times the aspect count. -/
def stepBound (f : FillAlgorithm) (m : ℕ) : ℕ :=
  sumTo (fun (i : ℕ) => (f.slab i).rows (f.entryY i) * maxCols (f.slab i) (f.entryY i) * m)
    f.num_calls

/-- The cursor at aspect `a` of column `j` of row `r` of slab `i` (all counted from zero). -/
def cursorAt (f : FillAlgorithm) (i r j a : ℕ) : FillRegionIterator :=
  { done := false
    call_idx := i
    x := floor (rowXlo (f.slab i) r) + j
    y := f.entryY i + r
    xlo := rowXlo (f.slab i) r
    xhi := rowXhi (f.slab i) r
    asp := a }

/-- The number of steps from `begin()` to `cursorAt i r j a` with `m` aspects. -/
def position (f : FillAlgorithm) (m : ℕ) (i r j a : ℕ) : ℕ :=
  sumTo (slabSteps f m) i + sumTo (fun (r' : ℕ) => cols (f.slab i) r' * m) r + j * m + a

/-- The largest value of an `int`, as a `double`. -/
def intMax : ℚ := 2147483647

/-- The rows and the row bounds of slab `i` stay within the range of `int`: the row on
entry and the row after the last one, and in every row up to that one the members
`xlo`, `xhi` and the value of `xhi + 1e-7`. -/
def SlabBounded (f : FillAlgorithm) (i : ℕ) : Prop :=
  -intMax ≤ f.entryY i ∧ f.entryY i + ((f.slab i).rows (f.entryY i) : ℕ) ≤ intMax ∧
  ∀ r, r < (f.slab i).rows (f.entryY i) + 1 →
    |rowXlo (f.slab i) r| ≤ intMax ∧ |rowXhi (f.slab i) r| ≤ intMax ∧
      |rowBound (f.slab i) r| ≤ intMax

instance (f : FillAlgorithm) (i : ℕ) : Decidable (SlabBounded f i) := by
  unfold SlabBounded
  infer_instance

/-- Every slab of the fill result stays within the range of `int`. -/
def Bounded (f : FillAlgorithm) : Prop := ∀ i, i < f.num_calls → SlabBounded f i

instance (f : FillAlgorithm) : Decidable (Bounded f) := by
  unfold Bounded
  infer_instance

/-- The sequence of `(getT1, getT2, getAspect)` that the amended specification gives
for a fill result with the single slab `s` and `m` aspects: rows `floor(ymin) + r`, in
each row the columns from `floor( xlo_r )` on that are below the rounded sum
`xhi_r + 1e-7` (the first column always), and in each cell the aspects in order; here
`xlo_r`, `xhi_r` are `xlo`, `xhi` after `r` rounded additions of `dxlo`, `dxhi`. -/
def specSingleSlab (s : Slab) (m : ℕ) : List (ℤ × ℤ × ℕ) :=
  (List.range (max 1 (⌊s.ymax⌋ - ⌊s.ymin⌋).toNat)).flatMap (fun (r : ℕ) =>
    (specColumns ⌊rowXlo s r⌋ (rowBound s r)).flatMap
      (fun (x : ℤ) => (List.range m).map (fun (a : ℕ) => (x, ⌊s.ymin⌋ + (r : ℤ), a))))

/-! ### Sample fill results -/

/-- The slabs of `fillRegion( 1e17, 0, 2e17, 1 )` over the synthetic tiling; as `float`s
the two abscissas are 99999998430674944 and 199999996861349888. -/
def hugeFill : FillAlgorithm :=
  ⟨1, false, [⟨0, 2, 99999998430674944, 199999996861349888, 0, 0⟩, default, default]⟩

/-- The slabs of `fillRegion( 3e9, 0, 3e9 + 512, 1 )` over the synthetic tiling. -/
def farFill : FillAlgorithm :=
  ⟨1, false, [⟨0, 2, 3000000000, 3000000512, 0, 0⟩, default, default]⟩

/-- The slabs of the fill of the region with the corners `(0,0)`, `(5,0)`, `(6,10)`,
`(1,10)` over the synthetic tiling: both slopes are the `double` nearest to `1/10`. -/
def tenthFill : FillAlgorithm :=
  ⟨1, false, [⟨0, 11, 0, 5, 3602879701896397 / 36028797018963968,
    3602879701896397 / 36028797018963968⟩, default, default]⟩

end Machine

end csk

namespace csk

/-! # Theorems -/

/-! ## The tiling engine -/

theorem recompute_parameters (t : IsohedralTiling) :
    t.recompute.parameters = t.parameters ∧ t.recompute.num_params = t.num_params ∧
      t.recompute.tiling_type = t.tiling_type ∧ t.recompute.ttd = t.ttd ∧
      t.recompute.colouring = t.colouring :=
  ⟨rfl, rfl, rfl, rfl, rfl⟩

/-- C1: for a tiling of any type and a parameter vector `p` whose length is the
parameter count of the tiling, `setParameters( p )` followed by `getParameters`
returns exactly `p`. -/
theorem setParameters_getParameters (t : IsohedralTiling) (p : List ℚ)
    (hp : p.length = t.numParameters) :
    (t.setParameters p).getParameters = p := by
  have hlen : p.length = t.num_params := hp
  show ((p.take t.num_params ++ t.parameters.drop t.num_params).take t.num_params) = p
  rw [← hlen, List.take_length, List.take_left']
  rfl

/-- C1 at the sheared tiling and the parameters `(1/3, 2)`. -/
theorem setParameters_getParameters_witness :
    ([1 / 3, 2] : List ℚ).length = shearedTiling.numParameters ∧
      (shearedTiling.setParameters [1 / 3, 2]).getParameters = [1 / 3, 2] :=
  ⟨by decide!, setParameters_getParameters shearedTiling [1 / 3, 2] (by decide!)⟩

/-- C2: `reset( T )` for a type `T` of the table, from any earlier state `t0`, and
the constructor with `T`, both succeed with a tiling whose `getTilingType()` is `T`,
whose `numParameters()` is the parameter count of the descriptor, and whose
`getParameters` is the default parameter vector of the descriptor (the first
`num_params` entries that `default_params` points to). -/
theorem reset_installs_defaults (table : List TilingTypeData) (t0 : IsohedralTiling) (T : ℕ)
    (d : TilingTypeData) (hT : table.get? T = some d)
    (hd : d.num_params ≤ d.default_params.length) :
    (∃ t, IsohedralTiling.reset table t0 T = some t ∧ t.getTilingType = T ∧
        t.numParameters = d.num_params ∧
        t.getParameters = d.default_params.take d.num_params) ∧
    (∃ t, IsohedralTiling.create table T = some t ∧ t.getTilingType = T ∧
        t.numParameters = d.num_params ∧
        t.getParameters = d.default_params.take d.num_params) := by
  have key : ∀ s : IsohedralTiling, ∃ t, IsohedralTiling.reset table s T = some t ∧
      t.getTilingType = T ∧ t.numParameters = d.num_params ∧
      t.getParameters = d.default_params.take d.num_params := by
    intro s
    simp only [IsohedralTiling.reset, hT]
    refine ⟨_, rfl, rfl, rfl, ?_⟩
    show ((d.default_params.take d.num_params ++ s.parameters.drop d.num_params).take
      d.num_params) = d.default_params.take d.num_params
    have hl : (d.default_params.take d.num_params).length = d.num_params := by
      simp [List.length_take, hd]
    exact List.take_left' hl
  exact ⟨key t0, key _⟩

/-- C2 at `reset( 1 )` of the synthetic tiling over the sample table. -/
theorem reset_installs_defaults_witness :
    sampleTable.get? 1 = some sheared ∧ sheared.num_params ≤ sheared.default_params.length ∧
    ((∃ t, IsohedralTiling.reset sampleTable syntheticTiling 1 = some t ∧ t.getTilingType = 1 ∧
        t.numParameters = sheared.num_params ∧
        t.getParameters = sheared.default_params.take sheared.num_params) ∧
    (∃ t, IsohedralTiling.create sampleTable 1 = some t ∧ t.getTilingType = 1 ∧
        t.numParameters = sheared.num_params ∧
        t.getParameters = sheared.default_params.take sheared.num_params)) :=
  ⟨rfl, by decide, reset_installs_defaults sampleTable syntheticTiling 1 sheared rfl (by decide)⟩

/-! ## Colouring -/

theorem tmod_lower (t : ℤ) (k : ℕ) (hk : 0 < k) : -(k : ℤ) < Int.tmod t k := by
  rcases t with m | m
  · have : (0 : ℤ) ≤ Int.tmod (Int.ofNat m) k := Int.tmod_nonneg _ (Int.ofNat_nonneg m)
    omega
  · have h1 : Int.tmod (Int.negSucc m) (k : ℤ) = -((((m + 1) % k : ℕ)) : ℤ) := rfl
    have h2 : (m + 1) % k < k := Nat.mod_lt _ hk
    rw [h1]; omega

/-- The sign correction of `getColour` turns the truncated remainder of C++ into the
non-negative remainder. -/
theorem tmod_correction (t : ℤ) (k : ℕ) (hk : 0 < k) :
    (if Int.tmod t k < 0 then Int.tmod t k + k else Int.tmod t k) = t % k := by
  have hk' : (0 : ℤ) < k := by exact_mod_cast hk
  have hlo := tmod_lower t k hk
  have hhi := Int.tmod_lt_of_pos t hk'
  have hdef := Int.tmod_def t k
  split_ifs with h
  · have : (Int.tmod t k + k) % (k : ℤ) = t % k := by
      rw [hdef]
      have : t - ↑k * t.tdiv ↑k + ↑k = t + ↑k * (1 - t.tdiv ↑k) := by ring
      rw [this, Int.add_mul_emod_self_left]
    rw [← this]
    exact (Int.emod_eq_of_lt (by omega) (by omega)).symm
  · have : (Int.tmod t k) % (k : ℤ) = t % k := by
      conv_lhs => rw [hdef]
      have : t - ↑k * t.tdiv ↑k = t + ↑k * (- t.tdiv ↑k) := by ring
      rw [this, Int.add_mul_emod_self_left]
    rw [← this]
    exact (Int.emod_eq_of_lt (by omega) hhi).symm

/-- With a positive colour count, `getColour` computes the colour of the
specification. -/
theorem getColour_specColour_of_pos (t : IsohedralTiling) (t1 t2 : ℤ) (k : ℕ)
    (hn : 0 < colourCount t.colouring) :
    t.getColour t1 t2 k = specColour t.colouring t1 t2 k := by
  have h1 := tmod_correction t1 _ hn
  have h2 := tmod_correction t2 _ hn
  unfold colourCount at h1 h2
  simp only [IsohedralTiling.getColour, specColour, colourCount, h1, h2]
  rfl

/-- C3: for a colouring table with colour count `n > 0`, all integers `t1`, `t2` and
every aspect `k`, `getColour( t1, t2, k )` is `specColour`: `P2^(t2 mod n)` applied to
`P1^(t1 mod n)` applied to `base[k]`, where `base k` is entry `k`, `P1 c` is entry
`12 + c`, `P2 c` is entry `15 + c` of the table, and `mod` is the remainder that lies
in `[0, n)` also for negative `t1`, `t2`. -/
theorem getColour_eq_specColour (t : IsohedralTiling) (t1 t2 : ℤ) (k : ℕ)
    (hn : 0 < colourCount t.colouring) :
    t.getColour t1 t2 k = specColour t.colouring t1 t2 k ∧
      (0 ≤ t1 % (colourCount t.colouring : ℤ) ∧
        t1 % (colourCount t.colouring : ℤ) < colourCount t.colouring) ∧
      (0 ≤ t2 % (colourCount t.colouring : ℤ) ∧
        t2 % (colourCount t.colouring : ℤ) < colourCount t.colouring) := by
  have hn' : (0 : ℤ) < (colourCount t.colouring : ℕ) := by exact_mod_cast hn
  exact ⟨getColour_specColour_of_pos t t1 t2 k hn,
    ⟨Int.emod_nonneg _ (ne_of_gt hn'), Int.emod_lt_of_pos _ hn'⟩,
    ⟨Int.emod_nonneg _ (ne_of_gt hn'), Int.emod_lt_of_pos _ hn'⟩⟩

/-- C3 at the sheared tiling, `t1 = -4`, `t2 = 2`, aspect 0. -/
theorem getColour_eq_specColour_witness :
    0 < colourCount shearedTiling.colouring ∧
    (shearedTiling.getColour (-4) 2 0 = specColour shearedTiling.colouring (-4) 2 0 ∧
      (0 ≤ (-4 : ℤ) % (colourCount shearedTiling.colouring : ℤ) ∧
        (-4 : ℤ) % (colourCount shearedTiling.colouring : ℤ) < colourCount shearedTiling.colouring) ∧
      (0 ≤ (2 : ℤ) % (colourCount shearedTiling.colouring : ℤ) ∧
        (2 : ℤ) % (colourCount shearedTiling.colouring : ℤ) < colourCount shearedTiling.colouring)) :=
  ⟨by decide!, getColour_eq_specColour shearedTiling (-4) 2 0 (by decide!)⟩

/-- The value of `getColour` in terms of the two corrected remainders, for every
colour count (also zero). -/
theorem getColour_unfold (t : IsohedralTiling) (t1 t2 : ℤ) (k : ℕ) :
    t.getColour t1 t2 k =
      (colourP2 t.colouring)^[(if Int.tmod t2 (colourCount t.colouring : ℤ) < 0
          then Int.tmod t2 (colourCount t.colouring : ℤ) + (colourCount t.colouring : ℤ)
          else Int.tmod t2 (colourCount t.colouring : ℤ)).toNat]
        ((colourP1 t.colouring)^[(if Int.tmod t1 (colourCount t.colouring : ℤ) < 0
          then Int.tmod t1 (colourCount t.colouring : ℤ) + (colourCount t.colouring : ℤ)
          else Int.tmod t1 (colourCount t.colouring : ℤ)).toNat] (colourBase t.colouring k)) :=
  rfl

/-- C4: colouring periodicity.  For all integers `a`, `b` and every aspect `k`,
`getColour( a+n, b, k ) = getColour( a, b, k )` and
`getColour( a, b+n, k ) = getColour( a, b, k )`, where `n` is the colour count of the
tiling (entry 18 of its colouring table). -/
theorem getColour_periodic (t : IsohedralTiling) (a b : ℤ) (k : ℕ) :
    t.getColour (a + (colourCount t.colouring : ℤ)) b k = t.getColour a b k ∧
      t.getColour a (b + (colourCount t.colouring : ℤ)) k = t.getColour a b k := by
  rcases Nat.eq_zero_or_pos (colourCount t.colouring) with h0 | hn
  · simp [h0]
  · have e1 := tmod_correction (a + (colourCount t.colouring : ℤ)) _ hn
    have e2 := tmod_correction (b + (colourCount t.colouring : ℤ)) _ hn
    have e3 := tmod_correction a _ hn
    have e4 := tmod_correction b _ hn
    rw [Int.add_emod_self] at e1 e2
    simp only [getColour_unfold, e1, e2, e3, e4, and_self]

/-- Iterating a map that keeps the colours below `n` keeps a colour below `n`. -/
theorem iterate_lt (f : ℕ → ℕ) (n : ℕ) (hf : ∀ c < n, f c < n) (m c : ℕ) (hc : c < n) :
    f^[m] c < n := by
  induction m generalizing c with
  | zero => simpa using hc
  | succ m ih => rw [Function.iterate_succ_apply]; exact ih _ (hf c hc)

/-- A map that commutes with `g` on the colours below `n` commutes with the iterates
of `g` there. -/
theorem iterate_comm_lt (f g : ℕ → ℕ) (n : ℕ) (hg : ∀ c < n, g c < n)
    (hfg : ∀ c < n, f (g c) = g (f c)) (m c : ℕ) (hc : c < n) :
    g^[m] (f c) = f (g^[m] c) := by
  induction m generalizing c with
  | zero => rfl
  | succ m ih =>
    rw [Function.iterate_succ_apply, Function.iterate_succ_apply, ← hfg c hc, ih _ (hg c hc)]

/-- C5: colouring group action.  For a colouring table with colour count
`n > 0` whose two steps keep the colours below `n`, whose `t1` step returns every
colour to itself after `n` applications and commutes with the `t2` step, and for an
aspect `k` with a base colour below `n`: `getColour( a+1, b, k )` is the `t1` step
applied once to `getColour( a, b, k )`, for all integers `a`, `b`. -/
theorem getColour_step (t : IsohedralTiling) (a b : ℤ) (k : ℕ)
    (hn : 0 < colourCount t.colouring)
    (hbase : colourBase t.colouring k < colourCount t.colouring)
    (hP1 : ∀ c < colourCount t.colouring, colourP1 t.colouring c < colourCount t.colouring)
    (hP2 : ∀ c < colourCount t.colouring, colourP2 t.colouring c < colourCount t.colouring)
    (hord : ∀ c < colourCount t.colouring,
      (colourP1 t.colouring)^[colourCount t.colouring] c = c)
    (hcomm : ∀ c < colourCount t.colouring,
      colourP1 t.colouring (colourP2 t.colouring c)
        = colourP2 t.colouring (colourP1 t.colouring c)) :
    t.getColour (a + 1) b k = colourP1 t.colouring (t.getColour a b k) := by
  have hn' : (0 : ℤ) < (colourCount t.colouring : ℕ) := by exact_mod_cast hn
  rw [getColour_specColour_of_pos t (a + 1) b k hn, getColour_specColour_of_pos t a b k hn]
  unfold specColour
  set n := colourCount t.colouring with hndef
  set c0 := colourBase t.colouring k
  have hra0 : 0 ≤ a % (n : ℤ) := Int.emod_nonneg _ (ne_of_gt hn')
  have hra1 : a % (n : ℤ) < n := Int.emod_lt_of_pos _ hn'
  -- one more `t1` step on the inner colour
  have inner : (colourP1 t.colouring)^[((a + 1) % (n : ℤ)).toNat] c0
      = colourP1 t.colouring ((colourP1 t.colouring)^[(a % (n : ℤ)).toNat] c0) := by
    have hstep : (a + 1) % (n : ℤ) = (a % (n : ℤ) + 1) % (n : ℤ) :=
      (Int.emod_add_emod a n 1).symm
    by_cases hwrap : a % (n : ℤ) + 1 < n
    · rw [hstep, Int.emod_eq_of_lt (by omega) hwrap]
      have : (a % (n : ℤ) + 1).toNat = (a % (n : ℤ)).toNat + 1 := by omega
      rw [this, Function.iterate_succ_apply']
    · have hlast : a % (n : ℤ) + 1 = n := by omega
      rw [hstep, hlast, Int.emod_self]
      have h2 : (a % (n : ℤ)).toNat + 1 = n := by omega
      have h3 := Function.iterate_succ_apply' (colourP1 t.colouring) (a % (n : ℤ)).toNat c0
      rw [Nat.succ_eq_add_one, h2, hord c0 hbase] at h3
      exact h3
  rw [inner]
  exact iterate_comm_lt _ _ n hP2 hcomm _ _ (iterate_lt _ n hP1 _ _ hbase)

/-- C5 at the sheared tiling, `a = 2`, `b = -5`, aspect 0. -/
theorem getColour_step_witness :
    0 < colourCount shearedTiling.colouring ∧
    colourBase shearedTiling.colouring 0 < colourCount shearedTiling.colouring ∧
    (∀ c < colourCount shearedTiling.colouring,
      colourP1 shearedTiling.colouring c < colourCount shearedTiling.colouring) ∧
    (∀ c < colourCount shearedTiling.colouring,
      colourP2 shearedTiling.colouring c < colourCount shearedTiling.colouring) ∧
    (∀ c < colourCount shearedTiling.colouring,
      (colourP1 shearedTiling.colouring)^[colourCount shearedTiling.colouring] c = c) ∧
    (∀ c < colourCount shearedTiling.colouring,
      colourP1 shearedTiling.colouring (colourP2 shearedTiling.colouring c)
        = colourP2 shearedTiling.colouring (colourP1 shearedTiling.colouring c)) ∧
    shearedTiling.getColour (2 + 1) (-5) 0
      = colourP1 shearedTiling.colouring (shearedTiling.getColour 2 (-5) 0) :=
  ⟨by decide!, by decide!, by decide!, by decide!, by decide!, by decide!,
    getColour_step shearedTiling 2 (-5) 0 (by decide!) (by decide!) (by decide!) (by decide!)
      (by decide!) (by decide!)⟩

end csk

namespace csk

/-! ## The fill cursor -/

theorem toInt_intCast (z : ℤ) : toInt (z : ℚ) = z := by
  simp [toInt]

theorem floor_intCast (z : ℤ) : floor (z : ℚ) = z := by
  simp [floor]

/-- C10: for every fill cursor and every point `p`, `getTransform()` applied to `p` is
the aspect transform of the tiling for the cursor's aspect applied to `p`, plus
`getT1()·t1 + getT2()·t2` with the lattice vectors of the tiling as it is now; the
linear part and the bottom row are those of the aspect transform, only the two
entries of the translation column differ. -/
theorem getTransform_apply (t : IsohedralTiling) (it : FillRegionIterator) (p : dvec2) :
    ((it.getTransform t).apply p).x
        = ((t.getAspectTransform it.getAspect).apply p).x
          + ((it.getT1 : ℚ) * t.getT1.x + (it.getT2 : ℚ) * t.getT2.x) ∧
    ((it.getTransform t).apply p).y
        = ((t.getAspectTransform it.getAspect).apply p).y
          + ((it.getT1 : ℚ) * t.getT1.y + (it.getT2 : ℚ) * t.getT2.y) ∧
    (it.getTransform t).m00 = (t.getAspectTransform it.getAspect).m00 ∧
    (it.getTransform t).m01 = (t.getAspectTransform it.getAspect).m01 ∧
    (it.getTransform t).m10 = (t.getAspectTransform it.getAspect).m10 ∧
    (it.getTransform t).m11 = (t.getAspectTransform it.getAspect).m11 ∧
    (it.getTransform t).m02 = (t.getAspectTransform it.getAspect).m02 ∧
    (it.getTransform t).m12 = (t.getAspectTransform it.getAspect).m12 ∧
    (it.getTransform t).m22 = (t.getAspectTransform it.getAspect).m22 ∧
    (it.getTransform t).m20 = (t.getAspectTransform it.getAspect).m20
        + ((it.getT1 : ℚ) * t.getT1.x + (it.getT2 : ℚ) * t.getT2.x) ∧
    (it.getTransform t).m21 = (t.getAspectTransform it.getAspect).m21
        + ((it.getT1 : ℚ) * t.getT1.y + (it.getT2 : ℚ) * t.getT2.y) := by
  refine ⟨?_, ?_, rfl, rfl, rfl, rfl, rfl, rfl, rfl, rfl, rfl⟩
  · simp only [FillRegionIterator.getTransform, dmat3.apply, FillRegionIterator.getT1,
      FillRegionIterator.getT2, FillRegionIterator.getAspect]
    ring
  · simp only [FillRegionIterator.getTransform, dmat3.apply, FillRegionIterator.getT1,
      FillRegionIterator.getT2, FillRegionIterator.getAspect]
    ring

end csk

namespace csk

/-! ## Order of the traversal -/

namespace FillRegionIterator

theorem begin_integral (algo : FillAlgorithm) : algo.begin.Integral :=
  ⟨⟨_, rfl⟩, ⟨_, rfl⟩⟩

/-- First exit of `inc`: the next aspect of the same cell. -/
theorem inc_asp (t : IsohedralTiling) (algo : FillAlgorithm) (it : FillRegionIterator)
    (h1 : it.asp + 1 < t.numAspects) :
    inc t algo it = { it with asp := it.asp + 1 } := by
  simp only [inc, if_pos h1]

/-- Second exit of `inc`: the next column of the same row. -/
theorem inc_col (t : IsohedralTiling) (algo : FillAlgorithm) (it : FillRegionIterator)
    (h1 : ¬ it.asp + 1 < t.numAspects) (h2 : it.x + 1 < it.xhi + tol) :
    inc t algo it = { it with asp := 0, x := it.x + 1 } := by
  simp only [inc, if_neg h1, if_pos h2]

/-- Third exit of `inc`: the next row of the same slab. -/
theorem inc_row (t : IsohedralTiling) (algo : FillAlgorithm) (it : FillRegionIterator)
    (h1 : ¬ it.asp + 1 < t.numAspects) (h2 : ¬ it.x + 1 < it.xhi + tol)
    (h3 : floor (it.y + 1) < floor (algo.data.getD it.call_idx default).ymax) :
    inc t algo it =
      { it with
        asp := 0
        x := floor (it.xlo + (algo.data.getD it.call_idx default).dxlo)
        y := it.y + 1
        xlo := it.xlo + (algo.data.getD it.call_idx default).dxlo
        xhi := it.xhi + (algo.data.getD it.call_idx default).dxhi } := by
  simp only [inc, if_neg h1, if_neg h2, if_pos h3]

/-- Fourth exit of `inc`: the first row of the next slab. -/
theorem inc_slab (t : IsohedralTiling) (algo : FillAlgorithm) (it : FillRegionIterator)
    (h1 : ¬ it.asp + 1 < t.numAspects) (h2 : ¬ it.x + 1 < it.xhi + tol)
    (h3 : ¬ floor (it.y + 1) < floor (algo.data.getD it.call_idx default).ymax)
    (h4 : it.call_idx + 1 < algo.num_calls) :
    inc t algo it =
      { it with
        asp := 0
        call_idx := it.call_idx + 1
        xlo := (algo.data.getD (it.call_idx + 1) default).xlo
        xhi := (algo.data.getD (it.call_idx + 1) default).xhi
        y := max (it.y + 1) (floor (algo.data.getD (it.call_idx + 1) default).ymin)
        x := floor (algo.data.getD (it.call_idx + 1) default).xlo } := by
  simp only [inc, if_neg h1, if_neg h2, if_neg h3, if_pos h4]

/-- Last exit of `inc`: no slab is left and the cursor is done. -/
theorem inc_done (t : IsohedralTiling) (algo : FillAlgorithm) (it : FillRegionIterator)
    (h1 : ¬ it.asp + 1 < t.numAspects) (h2 : ¬ it.x + 1 < it.xhi + tol)
    (h3 : ¬ floor (it.y + 1) < floor (algo.data.getD it.call_idx default).ymax)
    (h4 : ¬ it.call_idx + 1 < algo.num_calls) :
    inc t algo it =
      { it with
        asp := 0
        x := floor (it.xlo + (algo.data.getD it.call_idx default).dxlo)
        y := it.y + 1
        xlo := it.xlo + (algo.data.getD it.call_idx default).dxlo
        xhi := it.xhi + (algo.data.getD it.call_idx default).dxhi
        call_idx := it.call_idx + 1
        done := true } := by
  simp only [inc, if_neg h1, if_neg h2, if_neg h3, if_neg h4]

end FillRegionIterator

theorem keyLt_trans {a b c : ℤ × ℤ × ℕ} (h1 : keyLt a b) (h2 : keyLt b c) : keyLt a c := by
  unfold keyLt at *
  omega

theorem keyLt_irrefl (a : ℤ × ℤ × ℕ) : ¬ keyLt a a := by
  unfold keyLt
  omega

namespace FillRegionIterator

end FillRegionIterator

end csk

namespace csk

/-! ## The traversal in closed form -/

theorem sumTo_mono (f : ℕ → ℕ) {a b : ℕ} (h : a ≤ b) : sumTo f a ≤ sumTo f b := by
  induction b with
  | zero => simp at h; subst h; exact le_refl _
  | succ b ih =>
    rcases Nat.lt_or_ge a (b + 1) with h1 | h1
    · have := ih (Nat.lt_succ_iff.1 h1)
      simp only [sumTo]; omega
    · have : a = b + 1 := le_antisymm h h1
      subst this; exact le_refl _

theorem sumTo_le_sumTo (f g : ℕ → ℕ) (n : ℕ) (h : ∀ k < n, f k ≤ g k) :
    sumTo f n ≤ sumTo g n := by
  induction n with
  | zero => exact le_refl _
  | succ n ih =>
    have h1 := ih (fun k hk => h k (Nat.lt_succ_of_lt hk))
    have h2 := h n (Nat.lt_succ_self n)
    simp only [sumTo]; omega

theorem le_maxTo (f : ℕ → ℕ) (n k : ℕ) (hk : k < n) : f k ≤ maxTo f n := by
  induction n with
  | zero => omega
  | succ n ih =>
    simp only [maxTo]
    rcases Nat.lt_or_ge k n with h1 | h1
    · exact le_trans (ih h1) (le_max_left _ _)
    · have : k = n := by omega
      subst this; exact le_max_right _ _

theorem sumTo_le_mul (f : ℕ → ℕ) (n c : ℕ) (h : ∀ k < n, f k ≤ c) : sumTo f n ≤ n * c := by
  induction n with
  | zero => simp [sumTo]
  | succ n ih =>
    have h1 := ih (fun k hk => h k (Nat.lt_succ_of_lt hk))
    have h2 := h n (Nat.lt_succ_self n)
    simp only [sumTo]
    calc sumTo f n + f n ≤ n * c + c := by omega
      _ = (n + 1) * c := by ring

namespace Slab

theorem rows_pos (s : Slab) (y : ℚ) : 1 ≤ s.rows y := le_max_left _ _

/-- The test `floor( y + 1 ) < floor( ymax )` of `inc` at row `r` of a slab entered at
row `y`. -/
theorem next_row_iff (s : Slab) (y : ℚ) (r : ℕ) :
    floor (y + r + 1) < floor s.ymax ↔ r + 1 < s.rows y := by
  unfold rows floor
  have h1 : ⌊y + (r : ℚ) + 1⌋ = ⌊y⌋ + r + 1 := by
    have : y + (r : ℚ) + 1 = y + ((r + 1 : ℕ) : ℚ) := by push_cast; ring
    rw [this, Int.floor_add_nat]; push_cast; ring
  rw [h1, Int.cast_lt]
  omega

end Slab

namespace FillAlgorithm

open FillRegionIterator

theorem begin_eq_cursorAt (f : FillAlgorithm) : f.begin = f.cursorAt 0 0 0 0 := by
  simp [«begin», cursorAt, slab, entryY, Slab.rowXlo, Slab.rowXhi]

end FillAlgorithm

end csk

namespace csk

/-! ## Termination of the traversal -/

namespace FillRegionIterator

/-- Once the done state is reached after `n` steps, more fuel visits no more cursors. -/
theorem visited_of_done (t : IsohedralTiling) (algo : FillAlgorithm) (n : ℕ) :
    ∀ (it : FillRegionIterator) (fuel : ℕ), ((inc t algo)^[n] it).done = true → n ≤ fuel →
      visited t algo fuel it = visited t algo n it := by
  induction n with
  | zero =>
    intro it fuel h _
    have hd : it.done = true := h
    cases fuel with
    | zero => rfl
    | succ fuel => simp [visited, hd]
  | succ n ih =>
    intro it fuel h hle
    obtain ⟨fuel, rfl⟩ : ∃ f', fuel = f' + 1 := ⟨fuel - 1, by omega⟩
    simp only [visited]
    split_ifs
    · rfl
    · rw [ih (inc t algo it) fuel (by rwa [Function.iterate_succ_apply] at h) (by omega)]

end FillRegionIterator

end csk

namespace csk

/-! ## The synthetic lattice -/

/-- C6, as stated, fails: the traversal of the region with the corners `(0,0)`, `(3,0)`,
`(3,2)`, `(0,2)` over the unit lattice visits a cursor outside `0 ≤ x < 3`, `0 ≤ y < 2`
(the cell `(3, 0)` is the fourth one visited), so what it yields is not the row-major
list of the cells with `0 ≤ x < 3`, `0 ≤ y < 2`. -/
theorem synthetic_fill_counterexample :
    (∃ it ∈ FillRegionIterator.visited syntheticTiling syntheticFill 12 syntheticFill.begin,
      ¬ (0 ≤ it.getT1 ∧ it.getT1 < 3 ∧ 0 ≤ it.getT2 ∧ it.getT2 < 2)) ∧
    (FillRegionIterator.visited syntheticTiling syntheticFill 12 syntheticFill.begin).map
        (fun it => (it.getT1, it.getT2))
      ≠ [(0, 0), (1, 0), (2, 0), (0, 1), (1, 1), (2, 1)] := by
  decide!

/-- C6, amended: on the unit lattice `t1 = (1,0)`, `t2 = (0,1)` with a single identity
aspect, the loop from `begin()` to `end()` over the fill of the region with the corners
`(0,0)`, `(3,0)`, `(3,2)`, `(0,2)` yields as `(getT1, getT2)` exactly the 12 integer
pairs with `0 ≤ x ≤ 3` and `0 ≤ y ≤ 2`, each once, row by row with `y` increasing and
`x` increasing within a row; fuel beyond 12 steps adds nothing. -/
theorem synthetic_fill (fuel : ℕ) (h : 12 ≤ fuel) :
    syntheticTiling.getT1 = ⟨1, 0⟩ ∧ syntheticTiling.getT2 = ⟨0, 1⟩ ∧
    syntheticTiling.numAspects = 1 ∧
    syntheticTiling.getAspectTransform 0 = ⟨1, 0, 0, 0, 1, 0, 0, 0, 1⟩ ∧
    (FillRegionIterator.visited syntheticTiling syntheticFill fuel syntheticFill.begin).map
        (fun it => (it.getT1, it.getT2))
      = [(0, 0), (1, 0), (2, 0), (3, 0), (0, 1), (1, 1), (2, 1), (3, 1),
         (0, 2), (1, 2), (2, 2), (3, 2)] := by
  have hdone : ((FillRegionIterator.inc syntheticTiling syntheticFill)^[12]
      syntheticFill.begin).done = true := by decide!
  rw [FillRegionIterator.visited_of_done syntheticTiling syntheticFill 12 _ fuel hdone h]
  decide!

/-- C6, amended, with fuel 12. -/
theorem synthetic_fill_witness :
    12 ≤ 12 ∧
    (syntheticTiling.getT1 = ⟨1, 0⟩ ∧ syntheticTiling.getT2 = ⟨0, 1⟩ ∧
    syntheticTiling.numAspects = 1 ∧
    syntheticTiling.getAspectTransform 0 = ⟨1, 0, 0, 0, 1, 0, 0, 0, 1⟩ ∧
    (FillRegionIterator.visited syntheticTiling syntheticFill 12 syntheticFill.begin).map
        (fun it => (it.getT1, it.getT2))
      = [(0, 0), (1, 0), (2, 0), (3, 0), (0, 1), (1, 1), (2, 1), (3, 1),
         (0, 2), (1, 2), (2, 2), (3, 2)]) :=
  ⟨le_refl 12, synthetic_fill 12 (le_refl 12)⟩

end csk

namespace csk

/-! ## Which cells a fill visits -/

namespace FillAlgorithm

/-- The fast path of the constructor: when the first two mapped corners have the same
`y` within the tolerance, the result is the single slab of `fillFixY`. -/
theorem create_fast (t : IsohedralTiling) (A B C D : dvec2) (dbg : Bool)
    (h : |((pts t A B C D).getD 0 default).y - ((pts t A B C D).getD 1 default).y| < tol) :
    create t A B C D dbg
      = fillFixY ⟨0, dbg, List.replicate 3 default⟩ ((pts t A B C D).getD 0 default)
          ((pts t A B C D).getD 1 default) ((pts t A B C D).getD 2 default)
          ((pts t A B C D).getD 3 default) true := by
  simp only [create, if_pos h]

end FillAlgorithm

/-- A point of the parallelogram with the corners `x0·t1 + y0·t2`, `x1·t1 + y0·t2`,
`x1·t1 + y1·t2`, `x0·t1 + y1·t2` has its lattice coordinates in `[x0, x1] × [y0, y1]`. -/
theorem inQuad_aligned (t : IsohedralTiling)
    (hd : t.getT1.x * t.getT2.y - t.getT2.x * t.getT1.y ≠ 0) (x0 y0 x1 y1 c e : ℚ)
    (hx : x0 ≤ x1) (hy : y0 ≤ y1)
    (h : InQuad (latticePoint t x0 y0) (latticePoint t x1 y0) (latticePoint t x1 y1)
      (latticePoint t x0 y1) (latticePoint t c e)) :
    x0 ≤ c ∧ c ≤ x1 ∧ y0 ≤ e ∧ e ≤ y1 := by
  obtain ⟨wa, wb, wc, wd, ha, hb, hc, hdn, hsum, hpx, hpy⟩ := h
  simp only [latticePoint] at hpx hpy
  set D := t.getT1.x * t.getT2.y - t.getT2.x * t.getT1.y with hD
  have hcx : (c - (wa * x0 + wb * x1 + wc * x1 + wd * x0)) * D = 0 := by
    rw [hD]; linear_combination t.getT2.y * hpx - t.getT2.x * hpy
  have hcy : (e - (wa * y0 + wb * y0 + wc * y1 + wd * y1)) * D = 0 := by
    rw [hD]; linear_combination t.getT1.x * hpy - t.getT1.y * hpx
  have hc' : c = wa * x0 + wb * x1 + wc * x1 + wd * x0 := by
    rcases mul_eq_zero.1 hcx with h | h
    · linarith
    · exact absurd h hd
  have he' : e = wa * y0 + wb * y0 + wc * y1 + wd * y1 := by
    rcases mul_eq_zero.1 hcy with h | h
    · linarith
    · exact absurd h hd
  have hwx : 0 ≤ (wb + wc) * (x1 - x0) := mul_nonneg (by linarith) (by linarith)
  have hwx' : 0 ≤ (wa + wd) * (x1 - x0) := mul_nonneg (by linarith) (by linarith)
  have hwy : 0 ≤ (wc + wd) * (y1 - y0) := mul_nonneg (by linarith) (by linarith)
  have hwy' : 0 ≤ (wa + wb) * (y1 - y0) := mul_nonneg (by linarith) (by linarith)
  have hwa : wa = 1 - wb - wc - wd := by linarith
  refine ⟨?_, ?_, ?_, ?_⟩
  · rw [hc', hwa]; nlinarith
  · rw [hc', hwa]; nlinarith
  · rw [he', hwa]; nlinarith
  · rw [he', hwa]; nlinarith

end csk

namespace csk

/-! ## What `recompute` stores -/

/-- A loop `for( idx = 0; idx < n; ++idx ) a[idx] = f( idx )` over an array `l`
overwrites the entries below `n` and keeps the rest. -/
theorem foldl_set_eq {α : Type} (f : ℕ → α) (n : ℕ) (l : List α) :
    (List.range n).foldl (fun acc idx => acc.set idx (f idx)) l
      = (List.range (min n l.length)).map f ++ l.drop n := by
  induction n with
  | zero => simp
  | succ n ih =>
    rw [List.range_succ, List.foldl_append, ih]
    simp only [List.foldl_cons, List.foldl_nil]
    rcases Nat.lt_or_ge n l.length with h | h
    · have h1 : min n l.length = n := Nat.min_eq_left (le_of_lt h)
      have h2 : min (n + 1) l.length = n + 1 := Nat.min_eq_left h
      have hlen : ((List.range n).map f).length = n := by simp
      rw [h1, h2, List.set_append_right _ _ (by simp), List.range_succ, List.map_append]
      simp only [List.length_map, List.length_range, Nat.sub_self, List.map_cons, List.map_nil,
        List.append_assoc, List.singleton_append]
      congr 1
      rw [List.drop_eq_getElem_cons h, List.set_cons_zero]
    · have h1 : min n l.length = l.length := Nat.min_eq_right h
      have h2 : min (n + 1) l.length = l.length := Nat.min_eq_right (by omega)
      rw [h1, h2, List.drop_eq_nil_of_le h, List.drop_eq_nil_of_le (by omega)]
      simp only [List.append_nil]
      apply List.set_eq_of_length_le
      simp
      exact h

theorem foldl_set_length {α : Type} (f : ℕ → α) (n : ℕ) (l : List α) :
    ((List.range n).foldl (fun acc idx => acc.set idx (f idx)) l).length = l.length := by
  rw [foldl_set_eq]
  simp only [List.length_append, List.length_map, List.length_range, List.length_drop]
  omega

theorem foldl_set_getD {α : Type} (f : ℕ → α) (n : ℕ) (l : List α) (i : ℕ) (d : α)
    (hi : i < n) (hl : i < l.length) :
    ((List.range n).foldl (fun acc idx => acc.set idx (f idx)) l).getD i d = f i := by
  rw [foldl_set_eq]
  have h : i < ((List.range (min n l.length)).map f).length := by
    simp only [List.length_map, List.length_range]; omega
  rw [List.getD_eq_getElem?_getD, List.getElem?_append_left h]
  simp [List.getElem?_map, List.getElem?_range (by omega : i < min n l.length)]

theorem foldl_set_take {α : Type} (f : ℕ → α) (n : ℕ) (l : List α) :
    ((List.range n).foldl (fun acc idx => acc.set idx (f idx)) l).take n
      = (List.range (min n l.length)).map f := by
  rw [foldl_set_eq]
  rcases Nat.lt_or_ge n l.length with h | h
  · have h1 : min n l.length = n := Nat.min_eq_left (le_of_lt h)
    rw [h1]
    exact List.take_left' (by simp)
  · rw [List.drop_eq_nil_of_le h, List.append_nil]
    apply List.take_of_length_le
    simp only [List.length_map, List.length_range]
    omega

namespace IsohedralTiling

/-- The reversal flag that `recompute` stores for edge `i`. -/
theorem recompute_reversal (t : IsohedralTiling) (i : ℕ) (hi : i < t.numVertices)
    (hr : t.numVertices ≤ t.reversals.length) :
    t.recompute.reversals.getD i false
      = xor (t.edge_shape_orientations.getD (2 * i) false)
          (t.edge_shape_orientations.getD (2 * i + 1) false) := by
  show (recomputeReversals t).getD i false = _
  unfold recomputeReversals
  rw [foldl_set_getD _ _ _ _ _ hi (by omega)]

/-- The transform that `recompute` stores for edge `i`. -/
theorem recompute_edge (t : IsohedralTiling) (i : ℕ) (hi : i < t.numVertices)
    (he : t.numVertices ≤ t.edges.length) :
    t.recompute.edges.getD i default
      = («match» (t.recompute.getVertex i)
            (t.recompute.getVertex ((i + 1) % t.recompute.numVertices))).mul
          (M_orients.getD (2 * (t.edge_shape_orientations.getD (2 * i) false).toNat
            + (t.edge_shape_orientations.getD (2 * i + 1) false).toNat) default) := by
  show (recomputeEdges t (recomputeVerts t)).getD i default = _
  unfold recomputeEdges
  rw [foldl_set_getD _ _ _ _ _ hi (by omega)]
  rfl

/-- The images of the canonical end points `(0,0)` and `(1,0)` under
`match( p, q ) * M_orients[ 2*fl+ro ]`: `p` and `q` when `fl = ro`, exchanged otherwise. -/
theorem match_orient_apply (p q : dvec2) (fl ro : Bool) :
    ((«match» p q).mul (M_orients.getD (2 * fl.toNat + ro.toNat) default)).apply ⟨0, 0⟩
        = (if xor fl ro then q else p) ∧
    ((«match» p q).mul (M_orients.getD (2 * fl.toNat + ro.toNat) default)).apply ⟨1, 0⟩
        = (if xor fl ro then p else q) := by
  cases fl <;> cases ro <;>
    simp [«match», M_orients, dmat3.mul, dmat3.apply]

/-- The end points of edge `i` after `recompute`. -/
theorem recompute_edge_apply (t : IsohedralTiling) (i : ℕ) (hi : i < t.numVertices)
    (he : t.numVertices ≤ t.edges.length) (hr : t.numVertices ≤ t.reversals.length) :
    (t.recompute.edges.getD i default).apply ⟨0, 0⟩
        = (if t.recompute.reversals.getD i false
            then t.recompute.getVertex ((i + 1) % t.recompute.numVertices)
            else t.recompute.getVertex i) ∧
    (t.recompute.edges.getD i default).apply ⟨1, 0⟩
        = (if t.recompute.reversals.getD i false
            then t.recompute.getVertex i
            else t.recompute.getVertex ((i + 1) % t.recompute.numVertices)) := by
  rw [recompute_edge t i hi he, recompute_reversal t i hi hr]
  exact match_orient_apply _ _ _ _

end IsohedralTiling

/-- C11: after `recompute`, for every tiling edge `i < n = numVertices`, with the flags
`fl`, `ro` of the orientation table: the reversal flag is `fl XOR ro`; the edge transform
is `match( v_i, v_((i+1) mod n) )` times the orientation matrix of index `2·fl+ro`; it
maps `(0,0)` to `v_i` and `(1,0)` to `v_((i+1) mod n)` when the edge is not reversed, and
`(0,0)` to `v_((i+1) mod n)` and `(1,0)` to `v_i` when it is; so a caller that runs the
path backwards exactly when `isReversed()` holds draws edge `i` from `v_i` to
`v_((i+1) mod n)`, where the next edge starts: the outline is a closed loop. -/
theorem edge_transform_endpoints (t : IsohedralTiling) (i : ℕ) (hi : i < t.numVertices)
    (he : t.numVertices ≤ t.edges.length) (hr : t.numVertices ≤ t.reversals.length) :
    (TileShapeIterator.mk i).isReversed t.recompute
        = xor (t.edge_shape_orientations.getD (2 * i) false)
            (t.edge_shape_orientations.getD (2 * i + 1) false) ∧
    (TileShapeIterator.mk i).getTransform t.recompute
        = («match» (t.recompute.getVertex i)
              (t.recompute.getVertex ((i + 1) % t.recompute.numVertices))).mul
            (M_orients.getD (2 * (t.edge_shape_orientations.getD (2 * i) false).toNat
              + (t.edge_shape_orientations.getD (2 * i + 1) false).toNat) default) ∧
    ((TileShapeIterator.mk i).isReversed t.recompute = false →
      ((TileShapeIterator.mk i).getTransform t.recompute).apply ⟨0, 0⟩
          = t.recompute.getVertex i ∧
      ((TileShapeIterator.mk i).getTransform t.recompute).apply ⟨1, 0⟩
          = t.recompute.getVertex ((i + 1) % t.recompute.numVertices)) ∧
    ((TileShapeIterator.mk i).isReversed t.recompute = true →
      ((TileShapeIterator.mk i).getTransform t.recompute).apply ⟨0, 0⟩
          = t.recompute.getVertex ((i + 1) % t.recompute.numVertices) ∧
      ((TileShapeIterator.mk i).getTransform t.recompute).apply ⟨1, 0⟩
          = t.recompute.getVertex i) ∧
    (TileShapeIterator.mk i).traceStart t.recompute = t.recompute.getVertex i ∧
    (TileShapeIterator.mk i).traceEnd t.recompute
        = t.recompute.getVertex ((i + 1) % t.recompute.numVertices) ∧
    (TileShapeIterator.mk i).traceEnd t.recompute
        = (TileShapeIterator.mk ((i + 1) % t.recompute.numVertices)).traceStart t.recompute := by
  have hn : t.recompute.numVertices = t.numVertices := rfl
  have hnext : (i + 1) % t.numVertices < t.numVertices := Nat.mod_lt _ (by omega)
  have h := t.recompute_edge_apply i hi he hr
  have h' := t.recompute_edge_apply _ hnext he hr
  have hstart : ∀ j, j < t.numVertices →
      (TileShapeIterator.mk j).traceStart t.recompute = t.recompute.getVertex j := by
    intro j hj
    have hj' := t.recompute_edge_apply j hj he hr
    unfold TileShapeIterator.traceStart TileShapeIterator.isReversed
      TileShapeIterator.getTransform
    cases hrev : t.recompute.reversals.getD j false
    · simp only [hrev, Bool.false_eq_true, if_false] at hj' ⊢; exact hj'.1
    · simp only [hrev, if_true] at hj' ⊢; exact hj'.2
  have hend : (TileShapeIterator.mk i).traceEnd t.recompute
      = t.recompute.getVertex ((i + 1) % t.recompute.numVertices) := by
    unfold TileShapeIterator.traceEnd TileShapeIterator.isReversed
      TileShapeIterator.getTransform
    cases hrev : t.recompute.reversals.getD i false
    · simp only [hrev, Bool.false_eq_true, if_false] at h ⊢; exact h.2
    · simp only [hrev, if_true] at h ⊢; exact h.1
  refine ⟨t.recompute_reversal i hi hr, t.recompute_edge i hi he, ?_, ?_, hstart i hi, hend, ?_⟩
  · intro hrev
    have hrev' : t.recompute.reversals.getD i false = false := hrev
    simp only [hrev', Bool.false_eq_true, if_false] at h
    exact h
  · intro hrev
    have hrev' : t.recompute.reversals.getD i false = true := hrev
    simp only [hrev', if_true] at h
    exact h
  · rw [hend, hn, hstart _ hnext]

/-- C11 at edge 1 of the tiling with one edge of each class. -/
theorem edge_transform_endpoints_witness :
    1 < halvedTiling.numVertices ∧ halvedTiling.numVertices ≤ halvedTiling.edges.length ∧
    halvedTiling.numVertices ≤ halvedTiling.reversals.length ∧
    ((TileShapeIterator.mk 1).isReversed halvedTiling.recompute
        = xor (halvedTiling.edge_shape_orientations.getD (2 * 1) false)
            (halvedTiling.edge_shape_orientations.getD (2 * 1 + 1) false) ∧
    (TileShapeIterator.mk 1).getTransform halvedTiling.recompute
        = («match» (halvedTiling.recompute.getVertex 1)
              (halvedTiling.recompute.getVertex ((1 + 1) % halvedTiling.recompute.numVertices))).mul
            (M_orients.getD (2 * (halvedTiling.edge_shape_orientations.getD (2 * 1) false).toNat
              + (halvedTiling.edge_shape_orientations.getD (2 * 1 + 1) false).toNat) default) ∧
    ((TileShapeIterator.mk 1).isReversed halvedTiling.recompute = false →
      ((TileShapeIterator.mk 1).getTransform halvedTiling.recompute).apply ⟨0, 0⟩
          = halvedTiling.recompute.getVertex 1 ∧
      ((TileShapeIterator.mk 1).getTransform halvedTiling.recompute).apply ⟨1, 0⟩
          = halvedTiling.recompute.getVertex ((1 + 1) % halvedTiling.recompute.numVertices)) ∧
    ((TileShapeIterator.mk 1).isReversed halvedTiling.recompute = true →
      ((TileShapeIterator.mk 1).getTransform halvedTiling.recompute).apply ⟨0, 0⟩
          = halvedTiling.recompute.getVertex ((1 + 1) % halvedTiling.recompute.numVertices) ∧
      ((TileShapeIterator.mk 1).getTransform halvedTiling.recompute).apply ⟨1, 0⟩
          = halvedTiling.recompute.getVertex 1) ∧
    (TileShapeIterator.mk 1).traceStart halvedTiling.recompute = halvedTiling.recompute.getVertex 1 ∧
    (TileShapeIterator.mk 1).traceEnd halvedTiling.recompute
        = halvedTiling.recompute.getVertex ((1 + 1) % halvedTiling.recompute.numVertices) ∧
    (TileShapeIterator.mk 1).traceEnd halvedTiling.recompute
        = (TileShapeIterator.mk ((1 + 1) % halvedTiling.recompute.numVertices)).traceStart halvedTiling.recompute) :=
  ⟨by decide!, by decide!, by decide!,
    edge_transform_endpoints halvedTiling 1 (by decide!) (by decide!) (by decide!)⟩

end csk

namespace csk

/-! ## Whole-edge traversal -/

namespace TileShapeIterator

/-- Below 256 steps the counter of the whole-edge iterator does not wrap. -/
theorem iterate_inc (k : ℕ) (hk : k < 256) (t : IsohedralTiling) :
    inc^[k] t.beginShape = ⟨k⟩ := by
  induction k with
  | zero => rfl
  | succ k ih =>
    rw [Function.iterate_succ_apply', ih (by omega)]
    simp only [inc, Nat.mod_eq_of_lt hk]

end TileShapeIterator

/-- C12: whole-edge traversal.  Starting from `beginShape()` and advancing with `++`, the
iterator equals `endShape()` after exactly `numVertices` steps and not before (and
`operator !=` then says the opposite); the entry after `i < numVertices` steps exposes
`getId()` = the edge shape id of tiling edge `i`, `getShape()` = the class of that edge
shape, `getTransform()` = the stored transform of edge `i`, and `isReversed()` = the
stored reversal flag of edge `i`.  `numVertices()` is a `U8`. -/
theorem shape_traversal (t : IsohedralTiling) (hn : t.numVertices < 256) :
    TileShapeIterator.eq true (TileShapeIterator.inc^[t.numVertices] t.beginShape) t.endShape
        = true ∧
    TileShapeIterator.ne true (TileShapeIterator.inc^[t.numVertices] t.beginShape) t.endShape
        = false ∧
    (∀ k, k < t.numVertices →
      TileShapeIterator.eq true (TileShapeIterator.inc^[k] t.beginShape) t.endShape = false ∧
      TileShapeIterator.ne true (TileShapeIterator.inc^[k] t.beginShape) t.endShape = true) ∧
    (∀ i, i < t.numVertices →
      (TileShapeIterator.inc^[i] t.beginShape).getId t = t.edge_shape_ids.getD i 0 ∧
      (TileShapeIterator.inc^[i] t.beginShape).getShape t
        = t.getEdgeShape (t.edge_shape_ids.getD i 0) ∧
      (TileShapeIterator.inc^[i] t.beginShape).getTransform t = t.edges.getD i default ∧
      (TileShapeIterator.inc^[i] t.beginShape).isReversed t = t.reversals.getD i false) := by
  have hend : t.endShape = ⟨t.numVertices⟩ := by
    simp only [IsohedralTiling.endShape, TileShapeIterator.create, Nat.mod_eq_of_lt hn]
  refine ⟨?_, ?_, ?_, ?_⟩
  · rw [TileShapeIterator.iterate_inc _ hn, hend]
    simp [TileShapeIterator.eq]
  · rw [TileShapeIterator.iterate_inc _ hn, hend]
    simp [TileShapeIterator.ne]
  · intro k hk
    rw [TileShapeIterator.iterate_inc _ (by omega), hend]
    have : k ≠ t.numVertices := by omega
    simp [TileShapeIterator.eq, TileShapeIterator.ne, this]
  · intro i hi
    rw [TileShapeIterator.iterate_inc _ (by omega)]
    exact ⟨rfl, rfl, rfl, rfl⟩

/-- C12 at the tiling with one edge of each class. -/
theorem shape_traversal_witness :
    halvedTiling.numVertices < 256 ∧
    (TileShapeIterator.eq true
        (TileShapeIterator.inc^[halvedTiling.numVertices] halvedTiling.beginShape)
        halvedTiling.endShape = true ∧
    TileShapeIterator.ne true
        (TileShapeIterator.inc^[halvedTiling.numVertices] halvedTiling.beginShape)
        halvedTiling.endShape = false ∧
    (∀ k, k < halvedTiling.numVertices →
      TileShapeIterator.eq true (TileShapeIterator.inc^[k] halvedTiling.beginShape)
        halvedTiling.endShape = false ∧
      TileShapeIterator.ne true (TileShapeIterator.inc^[k] halvedTiling.beginShape)
        halvedTiling.endShape = true) ∧
    (∀ i, i < halvedTiling.numVertices →
      (TileShapeIterator.inc^[i] halvedTiling.beginShape).getId halvedTiling
        = halvedTiling.edge_shape_ids.getD i 0 ∧
      (TileShapeIterator.inc^[i] halvedTiling.beginShape).getShape halvedTiling
        = halvedTiling.getEdgeShape (halvedTiling.edge_shape_ids.getD i 0) ∧
      (TileShapeIterator.inc^[i] halvedTiling.beginShape).getTransform halvedTiling
        = halvedTiling.edges.getD i default ∧
      (TileShapeIterator.inc^[i] halvedTiling.beginShape).isReversed halvedTiling
        = halvedTiling.reversals.getD i false)) :=
  ⟨by decide!, shape_traversal halvedTiling (by decide!)⟩

/-! ## Part traversal -/

namespace TileShapePartIterator

/-- On a tiling edge, `computeEdgeInfo` overwrites every member but `edge_num` and `part`. -/
theorem computeEdgeInfo_eq_partAt (t : IsohedralTiling) (it : TileShapePartIterator)
    (h : it.edge_num < t.numVertices) :
    computeEdgeInfo t it = partAt t it.edge_num it.part := by
  have h' : ¬ it.edge_num ≥ t.numVertices := not_le.2 h
  simp only [computeEdgeInfo, partAt, if_neg h']

/-- Past the last edge, `computeEdgeInfo` changes nothing. -/
theorem computeEdgeInfo_end (t : IsohedralTiling) (it : TileShapePartIterator)
    (h : t.numVertices ≤ it.edge_num) : computeEdgeInfo t it = it := by
  simp only [computeEdgeInfo, if_pos (show it.edge_num ≥ t.numVertices from h)]

theorem partAt_edge_num (t : IsohedralTiling) (i p : ℕ) : (partAt t i p).edge_num = i := by
  simp only [partAt, computeEdgeInfo]
  split_ifs <;> rfl

theorem partAt_part (t : IsohedralTiling) (i p : ℕ) : (partAt t i p).part = p := by
  simp only [partAt, computeEdgeInfo]
  split_ifs <;> rfl

theorem partAt_shape (t : IsohedralTiling) (i p : ℕ) (h : i < t.numVertices) :
    (partAt t i p).shape = t.edgeClass i := by
  have h' : ¬ i ≥ t.numVertices := not_le.2 h
  simp only [partAt, computeEdgeInfo, if_neg h', IsohedralTiling.edgeClass]
  split_ifs <;> rfl

theorem partAt_id (t : IsohedralTiling) (i p : ℕ) (h : i < t.numVertices) :
    (partAt t i p).edge_shape_id = t.edge_shape_ids.getD i 0 := by
  have h' : ¬ i ≥ t.numVertices := not_le.2 h
  simp only [partAt, computeEdgeInfo, if_neg h']
  split_ifs <;> rfl

/-- On an edge of class J or I the part carries the transform and the reversal flag of
the edge. -/
theorem partAt_whole (t : IsohedralTiling) (i p : ℕ) (h : i < t.numVertices)
    (hc : t.edgeClass i = EdgeShape.J ∨ t.edgeClass i = EdgeShape.I) :
    (partAt t i p).xform = t.edges.getD i default ∧
      (partAt t i p).rev = t.reversals.getD i false := by
  have h' : ¬ i ≥ t.numVertices := not_le.2 h
  have hc' : t.edge_shapes.getD (t.edge_shape_ids.getD i 0) default = EdgeShape.J ∨
      t.edge_shapes.getD (t.edge_shape_ids.getD i 0) default = EdgeShape.I := hc
  simp only [partAt, computeEdgeInfo, if_neg h', if_pos hc', and_self]

/-- On an edge of class U or S the part carries the edge transform times a half
transform, and is reported reversed exactly when it is the second part. -/
theorem partAt_half (t : IsohedralTiling) (i p : ℕ) (h : i < t.numVertices)
    (hc : ¬ (t.edgeClass i = EdgeShape.J ∨ t.edgeClass i = EdgeShape.I)) :
    (partAt t i p).xform
        = (t.edges.getD i default).mul
            ((if t.edgeClass i = EdgeShape.U then TSPI_U else TSPI_S).getD
              (if t.reversals.getD i false then 1 - p else p) default) ∧
      (partAt t i p).rev = (p == 1) := by
  have h' : ¬ i ≥ t.numVertices := not_le.2 h
  have hc' : ¬ (t.edge_shapes.getD (t.edge_shape_ids.getD i 0) default = EdgeShape.J ∨
      t.edge_shapes.getD (t.edge_shape_ids.getD i 0) default = EdgeShape.I) := hc
  simp only [partAt, computeEdgeInfo, if_neg h', if_neg hc', IsohedralTiling.edgeClass, and_self]

theorem endParts_eq (t : IsohedralTiling) (hn : t.numVertices < 256) :
    t.endParts.edge_num = t.numVertices ∧ t.endParts.part = 0 := by
  simp only [IsohedralTiling.endParts, create, Nat.mod_eq_of_lt hn]
  rw [computeEdgeInfo_end t _ (le_refl _)]
  exact ⟨rfl, rfl⟩

/-- The step from the only part of an edge of class J or I, or from the second part of
an edge: to part 0 of the next edge. -/
theorem inc_next_edge (t : IsohedralTiling) (hn : t.numVertices < 256) (i p : ℕ)
    (hi : i < t.numVertices)
    (hc : p = 1 ∨ t.edgeClass i = EdgeShape.J ∨ t.edgeClass i = EdgeShape.I) :
    (inc t (partAt t i p)).edge_num = i + 1 ∧ (inc t (partAt t i p)).part = 0 ∧
      (i + 1 < t.numVertices → inc t (partAt t i p) = partAt t (i + 1) 0) := by
  have hc' : (partAt t i p).part = 1 ∨ (partAt t i p).shape = EdgeShape.J ∨
      (partAt t i p).shape = EdgeShape.I := by
    rw [partAt_part, partAt_shape t i p hi]; exact hc
  have hmod : (i + 1) % 256 = i + 1 := Nat.mod_eq_of_lt (by omega)
  unfold inc
  rw [if_pos hc']
  simp only [partAt_edge_num, hmod]
  rcases Nat.lt_or_ge (i + 1) t.numVertices with h | h
  · rw [computeEdgeInfo_eq_partAt t _ h]
    exact ⟨partAt_edge_num _ _ _, partAt_part _ _ _, fun _ => rfl⟩
  · rw [computeEdgeInfo_end t _ h]
    exact ⟨rfl, rfl, fun h' => absurd h' (not_lt.2 h)⟩

/-- The step from the first part of an edge of class U or S: to its second part. -/
theorem inc_second_part (t : IsohedralTiling) (i : ℕ) (hi : i < t.numVertices)
    (hc : ¬ (t.edgeClass i = EdgeShape.J ∨ t.edgeClass i = EdgeShape.I)) :
    inc t (partAt t i 0) = partAt t i 1 := by
  have hc' : ¬ ((partAt t i 0).part = 1 ∨ (partAt t i 0).shape = EdgeShape.J ∨
      (partAt t i 0).shape = EdgeShape.I) := by
    rw [partAt_part, partAt_shape t i 0 hi]
    rintro (h | h)
    · exact absurd h (by decide)
    · exact hc h
  unfold inc
  rw [if_neg hc', computeEdgeInfo_eq_partAt t _ (by rw [partAt_edge_num]; exact hi)]
  simp only [partAt_edge_num, partAt_part]

/-- The loop from part 0 of edge `i` visits the parts of the specification for the
edges from `i` on, and stops at `endParts()`. -/
theorem visited_from (t : IsohedralTiling) (hn : t.numVertices < 256) (k : ℕ) :
    ∀ (i fuel : ℕ) (s : TileShapePartIterator), i + k = t.numVertices → 2 * k ≤ fuel →
      s.edge_num = i → s.part = 0 → (i < t.numVertices → s = partAt t i 0) →
      visited t fuel s = (slotsFrom t i k).map (fun q => partAt t q.1 q.2) := by
  induction k with
  | zero =>
    intro i fuel s hik _ he hp _
    obtain ⟨hen, hep⟩ := endParts_eq t hn
    have hne : ne true s t.endParts = false := by
      simp only [ne, he, hp, hen, hep]
      simp only [Nat.add_zero] at hik
      simp [hik]
    cases fuel with
    | zero => rfl
    | succ fuel => simp [visited, hne, slotsFrom]
  | succ k ih =>
    intro i fuel s hik hf _ _ hs
    have hi : i < t.numVertices := by omega
    have hs' := hs hi
    subst hs'
    obtain ⟨hen, hep⟩ := endParts_eq t hn
    have hne : ∀ p, ne true (partAt t i p) t.endParts = true := by
      intro p
      have : i ≠ t.numVertices := by omega
      simp [ne, partAt_edge_num, hen, this]
    obtain ⟨fuel, rfl⟩ : ∃ f', fuel = f' + 1 := ⟨fuel - 1, by omega⟩
    by_cases hc : t.edgeClass i = EdgeShape.J ∨ t.edgeClass i = EdgeShape.I
    · obtain ⟨h1, h2, h3⟩ := inc_next_edge t hn i 0 hi (Or.inr hc)
      simp only [visited, hne 0, if_true, slotsFrom, if_pos hc, List.singleton_append,
        List.map_cons]
      rw [ih (i + 1) fuel _ (by omega) (by omega) h1 h2 h3]
    · obtain ⟨fuel, rfl⟩ : ∃ f', fuel = f' + 1 := ⟨fuel - 1, by omega⟩
      obtain ⟨h1, h2, h3⟩ := inc_next_edge t hn i 1 hi (Or.inl rfl)
      simp only [visited, hne 0, if_true, slotsFrom, if_neg hc, List.cons_append,
        List.nil_append, List.map_cons, inc_second_part t i hi hc, hne 1]
      rw [ih (i + 1) fuel _ (by omega) (by omega) h1 h2 h3]

theorem countHalved_le (t : IsohedralTiling) (k : ℕ) : ∀ i, countHalved t i k ≤ k := by
  induction k with
  | zero => intro i; exact le_refl 0
  | succ k ih =>
    intro i
    have := ih (i + 1)
    simp only [countHalved]
    split_ifs <;> omega

/-- A loop that visits fewer parts than its fuel allows has stopped at `endParts()`. -/
theorem visited_stops (t : IsohedralTiling) (fuel : ℕ) :
    ∀ s : TileShapePartIterator, (visited t fuel s).length < fuel →
      ne true ((inc t)^[(visited t fuel s).length] s) t.endParts = false := by
  induction fuel with
  | zero => intro s h; exact absurd h (Nat.not_lt_zero _)
  | succ fuel ih =>
    intro s h
    simp only [visited] at h ⊢
    split_ifs at h ⊢ with hne
    · simp only [List.length_cons] at h ⊢
      rw [Function.iterate_succ_apply]
      exact ih (inc t s) (by omega)
    · simpa using hne

theorem length_slotsFrom (t : IsohedralTiling) (k : ℕ) :
    ∀ i, (slotsFrom t i k).length = k + countHalved t i k := by
  induction k with
  | zero => intro i; rfl
  | succ k ih =>
    intro i
    simp only [slotsFrom, countHalved, List.length_append, ih]
    split_ifs <;> simp <;> omega

/-- Every part of the specification sits on an edge, is part 0 or part 1, and is part 1
only on an edge of class U or S. -/
theorem mem_slotsFrom (t : IsohedralTiling) (k : ℕ) :
    ∀ (i : ℕ) (q : ℕ × ℕ), q ∈ slotsFrom t i k →
      i ≤ q.1 ∧ q.1 < i + k ∧ (q.2 = 0 ∨
        (q.2 = 1 ∧ ¬ (t.edgeClass q.1 = EdgeShape.J ∨ t.edgeClass q.1 = EdgeShape.I))) := by
  induction k with
  | zero => intro i q hq; simp [slotsFrom] at hq
  | succ k ih =>
    intro i q hq
    simp only [slotsFrom, List.mem_append] at hq
    rcases hq with hq | hq
    · split_ifs at hq with hc
      · simp only [List.mem_singleton] at hq
        subst hq
        exact ⟨le_refl _, by omega, Or.inl rfl⟩
      · simp only [List.mem_cons, List.mem_singleton, List.not_mem_nil, or_false] at hq
        rcases hq with rfl | rfl
        · exact ⟨le_refl _, by omega, Or.inl rfl⟩
        · exact ⟨le_refl _, by omega, Or.inr ⟨rfl, hc⟩⟩
    · obtain ⟨h1, h2, h3⟩ := ih (i + 1) q hq
      exact ⟨by omega, by omega, h3⟩

end TileShapePartIterator

/-- C13: part traversal.  The loop from `beginParts()` to `endParts()` with the prefix
`++` visits exactly the parts `slots`: the tiling edges in the order `0 .. n-1`, one part
for an edge of class J or I and two consecutive parts (part 0, then part 1) for an edge
of class U or S, and then stops at `endParts()` however much fuel is left; their number
is `numVertices` plus the number of edges of class U or S; every part carries the id and
the class of its edge, `isSecondPart()` holds exactly on part 1, never on an edge of
class J or I, and the only part of such an edge has the id, shape, transform and
reversal flag of the whole-edge entry.  `numVertices()` is a `U8`. -/
theorem part_traversal (t : IsohedralTiling) (hn : t.numVertices < 256) (fuel : ℕ)
    (hf : 2 * t.numVertices ≤ fuel) :
    TileShapePartIterator.visited t fuel t.beginParts
        = (TileShapePartIterator.slots t).map
            (fun q => TileShapePartIterator.partAt t q.1 q.2) ∧
    (TileShapePartIterator.slots t).length
        = t.numVertices + TileShapePartIterator.countHalved t 0 t.numVertices ∧
    TileShapePartIterator.eq true
        ((TileShapePartIterator.inc t)^[(TileShapePartIterator.slots t).length] t.beginParts)
        t.endParts = true ∧
    (∀ q ∈ TileShapePartIterator.slots t,
      q.1 < t.numVertices ∧
      (TileShapePartIterator.partAt t q.1 q.2).getId = t.edge_shape_ids.getD q.1 0 ∧
      (TileShapePartIterator.partAt t q.1 q.2).getShape t = t.edgeClass q.1 ∧
      (TileShapePartIterator.partAt t q.1 q.2).isSecondPart = (q.2 == 1) ∧
      (t.edgeClass q.1 = EdgeShape.J ∨ t.edgeClass q.1 = EdgeShape.I →
        (TileShapePartIterator.partAt t q.1 q.2).isSecondPart = false ∧
        (TileShapePartIterator.partAt t q.1 q.2).getId
          = (TileShapeIterator.mk q.1).getId t ∧
        (TileShapePartIterator.partAt t q.1 q.2).getShape t
          = (TileShapeIterator.mk q.1).getShape t ∧
        (TileShapePartIterator.partAt t q.1 q.2).getTransform
          = (TileShapeIterator.mk q.1).getTransform t ∧
        (TileShapePartIterator.partAt t q.1 q.2).isReversed
          = (TileShapeIterator.mk q.1).isReversed t)) := by
  have hvis : ∀ fuel', 2 * t.numVertices ≤ fuel' →
      TileShapePartIterator.visited t fuel' t.beginParts
        = (TileShapePartIterator.slots t).map
            (fun q => TileShapePartIterator.partAt t q.1 q.2) := by
    intro fuel' hf'
    have hb : t.numVertices = 0 ∨ 0 < t.numVertices := Nat.eq_zero_or_pos _
    apply TileShapePartIterator.visited_from t hn t.numVertices 0 fuel' _ (by omega) hf'
    · simp only [IsohedralTiling.beginParts, TileShapePartIterator.create, Nat.zero_mod]
      rcases hb with h | h
      · rw [TileShapePartIterator.computeEdgeInfo_end t _ (by simp [h])]
      · rw [TileShapePartIterator.computeEdgeInfo_eq_partAt t _ h]
        exact TileShapePartIterator.partAt_edge_num _ _ _
    · simp only [IsohedralTiling.beginParts, TileShapePartIterator.create, Nat.zero_mod]
      rcases hb with h | h
      · rw [TileShapePartIterator.computeEdgeInfo_end t _ (by simp [h])]
      · rw [TileShapePartIterator.computeEdgeInfo_eq_partAt t _ h]
        exact TileShapePartIterator.partAt_part _ _ _
    · intro _
      rfl
  have hlen : (TileShapePartIterator.slots t).length
      = t.numVertices + TileShapePartIterator.countHalved t 0 t.numVertices :=
    TileShapePartIterator.length_slotsFrom t t.numVertices 0
  refine ⟨hvis fuel hf, hlen, ?_, ?_⟩
  · have hstop := TileShapePartIterator.visited_stops t (2 * t.numVertices + 1) t.beginParts
    rw [hvis _ (by omega), List.length_map] at hstop
    have hc := TileShapePartIterator.countHalved_le t t.numVertices 0
    have hne := hstop (by rw [hlen]; omega)
    simp only [TileShapePartIterator.ne, Bool.not_true, Bool.false_or, Bool.or_eq_false_iff,
      bne_eq_false_iff_eq] at hne
    simp only [TileShapePartIterator.eq, Bool.true_and, Bool.and_eq_true, beq_iff_eq]
    exact hne
  · intro q hq
    obtain ⟨-, h2, h3⟩ := TileShapePartIterator.mem_slotsFrom t _ 0 q hq
    have hq1 : q.1 < t.numVertices := by omega
    have hid := TileShapePartIterator.partAt_id t q.1 q.2 hq1
    have hpart := TileShapePartIterator.partAt_part t q.1 q.2
    refine ⟨hq1, hid, ?_, ?_, ?_⟩
    · simp only [TileShapePartIterator.getShape, hid, IsohedralTiling.edgeClass]
    · simp only [TileShapePartIterator.isSecondPart, hpart]
    · intro hc
      obtain ⟨hx, hr⟩ := TileShapePartIterator.partAt_whole t q.1 q.2 hq1 hc
      have hq2 : q.2 = 0 := by
        rcases h3 with h | ⟨_, h⟩
        · exact h
        · exact absurd hc h
      refine ⟨?_, hid, ?_, hx, hr⟩
      · show ((TileShapePartIterator.partAt t q.1 q.2).part == 1) = false
        rw [hpart, hq2]
        rfl
      · simp only [TileShapePartIterator.getShape, hid, TileShapeIterator.getShape,
          TileShapeIterator.getId]

/-- C13 at the tiling with one edge of each class, with fuel 8. -/
theorem part_traversal_witness :
    halvedTiling.numVertices < 256 ∧ 2 * halvedTiling.numVertices ≤ 8 ∧
    (TileShapePartIterator.visited halvedTiling 8 halvedTiling.beginParts
        = (TileShapePartIterator.slots halvedTiling).map
            (fun q => TileShapePartIterator.partAt halvedTiling q.1 q.2) ∧
    (TileShapePartIterator.slots halvedTiling).length
        = halvedTiling.numVertices + TileShapePartIterator.countHalved halvedTiling 0 halvedTiling.numVertices ∧
    TileShapePartIterator.eq true
        ((TileShapePartIterator.inc halvedTiling)^[(TileShapePartIterator.slots
          halvedTiling).length] halvedTiling.beginParts)
        halvedTiling.endParts = true ∧
    (∀ q ∈ TileShapePartIterator.slots halvedTiling,
      q.1 < halvedTiling.numVertices ∧
      (TileShapePartIterator.partAt halvedTiling q.1 q.2).getId = halvedTiling.edge_shape_ids.getD q.1 0 ∧
      (TileShapePartIterator.partAt halvedTiling q.1 q.2).getShape halvedTiling = halvedTiling.edgeClass q.1 ∧
      (TileShapePartIterator.partAt halvedTiling q.1 q.2).isSecondPart = (q.2 == 1) ∧
      (halvedTiling.edgeClass q.1 = EdgeShape.J ∨ halvedTiling.edgeClass q.1 = EdgeShape.I →
        (TileShapePartIterator.partAt halvedTiling q.1 q.2).isSecondPart = false ∧
        (TileShapePartIterator.partAt halvedTiling q.1 q.2).getId
          = (TileShapeIterator.mk q.1).getId halvedTiling ∧
        (TileShapePartIterator.partAt halvedTiling q.1 q.2).getShape halvedTiling
          = (TileShapeIterator.mk q.1).getShape halvedTiling ∧
        (TileShapePartIterator.partAt halvedTiling q.1 q.2).getTransform
          = (TileShapeIterator.mk q.1).getTransform halvedTiling ∧
        (TileShapePartIterator.partAt halvedTiling q.1 q.2).isReversed
          = (TileShapeIterator.mk q.1).isReversed halvedTiling))) :=
  ⟨by decide!, by decide!, part_traversal halvedTiling (by decide!) 8 (by decide!)⟩

end csk

namespace csk

/-! ## The two halves of an edge of class U or S -/

/-- The images of `(0,0)` and `(1,0)` under an edge transform `E` times each of the half
transforms: the first half transform leads to `E(0,0)` and to the midpoint of `E(0,0)`
and `E(1,0)`, the second one to `E(1,0)` and to the same midpoint. -/
theorem half_transform_apply (E : dmat3) (u : Bool) :
    (E.mul ((if u then TSPI_U else TSPI_S).getD 0 default)).apply ⟨0, 0⟩ = E.apply ⟨0, 0⟩ ∧
    (E.mul ((if u then TSPI_U else TSPI_S).getD 0 default)).apply ⟨1, 0⟩
      = mid (E.apply ⟨0, 0⟩) (E.apply ⟨1, 0⟩) ∧
    (E.mul ((if u then TSPI_U else TSPI_S).getD 1 default)).apply ⟨0, 0⟩ = E.apply ⟨1, 0⟩ ∧
    (E.mul ((if u then TSPI_U else TSPI_S).getD 1 default)).apply ⟨1, 0⟩
      = mid (E.apply ⟨0, 0⟩) (E.apply ⟨1, 0⟩) := by
  cases u <;>
    simp only [TSPI_U, TSPI_S, dmat3.mul, dmat3.apply, mid, List.getD_cons_zero,
      List.getD_cons_succ, if_true, if_false, Bool.false_eq_true, dvec2.mk.injEq] <;>
    refine ⟨⟨?_, ?_⟩, ⟨?_, ?_⟩, ⟨?_, ?_⟩, ⟨?_, ?_⟩⟩ <;> ring

theorem mid_comm (p q : dvec2) : mid p q = mid q p := by
  simp only [mid, add_comm]

/-- The two parts of an edge of class U or S in terms of the end points of the edge
transform: part 0 leads from the traced start of the edge to the midpoint, part 1 maps
`(1,0)` to the midpoint and `(0,0)` to the traced end. -/
theorem partAt_half_apply (t : IsohedralTiling) (i : ℕ) (hi : i < t.numVertices)
    (hc : ¬ (t.edgeClass i = EdgeShape.J ∨ t.edgeClass i = EdgeShape.I)) :
    (TileShapePartIterator.partAt t i 0).xform.apply ⟨0, 0⟩
        = (TileShapeIterator.mk i).traceStart t ∧
    (TileShapePartIterator.partAt t i 0).xform.apply ⟨1, 0⟩
        = mid ((TileShapeIterator.mk i).traceStart t) ((TileShapeIterator.mk i).traceEnd t) ∧
    (TileShapePartIterator.partAt t i 1).xform.apply ⟨1, 0⟩
        = mid ((TileShapeIterator.mk i).traceStart t) ((TileShapeIterator.mk i).traceEnd t) ∧
    (TileShapePartIterator.partAt t i 1).xform.apply ⟨0, 0⟩
        = (TileShapeIterator.mk i).traceEnd t := by
  obtain ⟨h0, -⟩ := TileShapePartIterator.partAt_half t i 0 hi hc
  obtain ⟨h1, -⟩ := TileShapePartIterator.partAt_half t i 1 hi hc
  have hu : ∀ idx, (if t.edgeClass i = EdgeShape.U then TSPI_U else TSPI_S).getD idx default
      = (if decide (t.edgeClass i = EdgeShape.U) then TSPI_U else TSPI_S).getD idx default := by
    intro idx; by_cases h : t.edgeClass i = EdgeShape.U <;> simp [h]
  obtain ⟨a0, a1, b0, b1⟩ :=
    half_transform_apply (t.edges.getD i default) (decide (t.edgeClass i = EdgeShape.U))
  rw [h0, h1]
  simp only [TileShapeIterator.traceStart, TileShapeIterator.traceEnd,
    TileShapeIterator.isReversed, TileShapeIterator.getTransform, hu]
  cases t.reversals.getD i false
  · simp only [Bool.false_eq_true, if_false]
    exact ⟨a0, a1, b1, b0⟩
  · simp only [if_true, Nat.sub_zero, Nat.sub_self]
    exact ⟨b0, by rw [mid_comm]; exact b1, by rw [mid_comm]; exact a1, a0⟩

/-- C14, as stated, fails: on edge 0 (class U) of the unit square tiling with one edge of
each class, part 0 maps `(1,0)` to the midpoint `(1/2, 0)` of the edge but part 1 maps
`(0,0)` to its far end `(1, 0)`; both are parts of the traversal. -/
theorem half_continuity_counterexample :
    halvedTiling.edgeClass 0 = EdgeShape.U ∧
    (TileShapePartIterator.visited halvedTiling 8 halvedTiling.beginParts).take 2
      = [TileShapePartIterator.partAt halvedTiling 0 0,
         TileShapePartIterator.partAt halvedTiling 0 1] ∧
    (TileShapePartIterator.partAt halvedTiling 0 0).getTransform.apply ⟨1, 0⟩ = ⟨1 / 2, 0⟩ ∧
    (TileShapePartIterator.partAt halvedTiling 0 1).getTransform.apply ⟨0, 0⟩ = ⟨1, 0⟩ ∧
    (TileShapePartIterator.partAt halvedTiling 0 0).getTransform.apply ⟨1, 0⟩
      ≠ (TileShapePartIterator.partAt halvedTiling 0 1).getTransform.apply ⟨0, 0⟩ := by
  decide!

/-- C14, amended: continuity of an edge of class U or S.  For every tiling and every
tiling edge of class U or S, the image of the local point `(1,0)` under the transform of
part 0 coincides with the image of the local point `(1,0)` under the transform of part 1;
part 0 is reported not reversed and part 1 reversed, so a caller runs the path of part 1
from `(1,0)` to `(0,0)`. -/
theorem half_continuity (t : IsohedralTiling) (i : ℕ) (hi : i < t.numVertices)
    (hc : t.edgeClass i = EdgeShape.U ∨ t.edgeClass i = EdgeShape.S) :
    (TileShapePartIterator.partAt t i 0).getTransform.apply ⟨1, 0⟩
        = (TileShapePartIterator.partAt t i 1).getTransform.apply ⟨1, 0⟩ ∧
    (TileShapePartIterator.partAt t i 0).isReversed = false ∧
    (TileShapePartIterator.partAt t i 1).isReversed = true := by
  have hc' : ¬ (t.edgeClass i = EdgeShape.J ∨ t.edgeClass i = EdgeShape.I) := by
    rcases hc with h | h <;> rw [h] <;> decide
  obtain ⟨-, h1, h2, -⟩ := partAt_half_apply t i hi hc'
  exact ⟨h1.trans h2.symm, (TileShapePartIterator.partAt_half t i 0 hi hc').2,
    (TileShapePartIterator.partAt_half t i 1 hi hc').2⟩

/-- C14, amended, at edge 1 (class S, reversed) of the tiling with one edge of each
class. -/
theorem half_continuity_witness :
    1 < halvedTiling.numVertices ∧
    (halvedTiling.edgeClass 1 = EdgeShape.U ∨ halvedTiling.edgeClass 1 = EdgeShape.S) ∧
    ((TileShapePartIterator.partAt halvedTiling 1 0).getTransform.apply ⟨1, 0⟩
        = (TileShapePartIterator.partAt halvedTiling 1 1).getTransform.apply ⟨1, 0⟩ ∧
    (TileShapePartIterator.partAt halvedTiling 1 0).isReversed = false ∧
    (TileShapePartIterator.partAt halvedTiling 1 1).isReversed = true) :=
  ⟨by decide!, by decide!, half_continuity halvedTiling 1 (by decide!) (by decide!)⟩

/-- C15: after `recompute`, for every tiling edge `i` of class U or S, reversed or not:
part 0 is reported not reversed and its transform maps `(0,0)` to `v_i` and `(1,0)` to
the midpoint of `v_i` and `v_((i+1) mod n)`; part 1 is reported reversed and its
transform maps `(1,0)` to the same midpoint and `(0,0)` to `v_((i+1) mod n)`; and part 1
is what `++` makes of part 0.  So the two halves, drawn in order with part 1 run
backwards, lead from `v_i` through the midpoint to `v_((i+1) mod n)`. -/
theorem half_edges (t : IsohedralTiling) (i : ℕ) (hi : i < t.numVertices)
    (he : t.numVertices ≤ t.edges.length) (hr : t.numVertices ≤ t.reversals.length)
    (hc : t.recompute.edgeClass i = EdgeShape.U ∨ t.recompute.edgeClass i = EdgeShape.S) :
    (TileShapePartIterator.partAt t.recompute i 0).isReversed = false ∧
    (TileShapePartIterator.partAt t.recompute i 0).getTransform.apply ⟨0, 0⟩
        = t.recompute.getVertex i ∧
    (TileShapePartIterator.partAt t.recompute i 0).getTransform.apply ⟨1, 0⟩
        = mid (t.recompute.getVertex i)
            (t.recompute.getVertex ((i + 1) % t.recompute.numVertices)) ∧
    (TileShapePartIterator.partAt t.recompute i 1).isReversed = true ∧
    (TileShapePartIterator.partAt t.recompute i 1).getTransform.apply ⟨1, 0⟩
        = mid (t.recompute.getVertex i)
            (t.recompute.getVertex ((i + 1) % t.recompute.numVertices)) ∧
    (TileShapePartIterator.partAt t.recompute i 1).getTransform.apply ⟨0, 0⟩
        = t.recompute.getVertex ((i + 1) % t.recompute.numVertices) ∧
    TileShapePartIterator.inc t.recompute (TileShapePartIterator.partAt t.recompute i 0)
        = TileShapePartIterator.partAt t.recompute i 1 := by
  have hc' : ¬ (t.recompute.edgeClass i = EdgeShape.J ∨ t.recompute.edgeClass i = EdgeShape.I) := by
    rcases hc with h | h <;> rw [h] <;> decide
  have hi' : i < t.recompute.numVertices := hi
  obtain ⟨h1, h2, h3, h4⟩ := partAt_half_apply t.recompute i hi' hc'
  have hnext : (i + 1) % t.numVertices < t.numVertices := Nat.mod_lt _ (by omega)
  have hE := t.recompute_edge_apply i hi he hr
  have hstart : (TileShapeIterator.mk i).traceStart t.recompute = t.recompute.getVertex i := by
    unfold TileShapeIterator.traceStart TileShapeIterator.isReversed
      TileShapeIterator.getTransform
    cases hrev : t.recompute.reversals.getD i false
    · simp only [hrev, Bool.false_eq_true, if_false] at hE ⊢; exact hE.1
    · simp only [hrev, if_true] at hE ⊢; exact hE.2
  have hend : (TileShapeIterator.mk i).traceEnd t.recompute
      = t.recompute.getVertex ((i + 1) % t.recompute.numVertices) := by
    unfold TileShapeIterator.traceEnd TileShapeIterator.isReversed
      TileShapeIterator.getTransform
    cases hrev : t.recompute.reversals.getD i false
    · simp only [hrev, Bool.false_eq_true, if_false] at hE ⊢; exact hE.2
    · simp only [hrev, if_true] at hE ⊢; exact hE.1
  simp only [hstart, hend] at h1 h2 h3 h4
  exact ⟨(TileShapePartIterator.partAt_half t.recompute i 0 hi' hc').2, h1, h2,
    (TileShapePartIterator.partAt_half t.recompute i 1 hi' hc').2, h3, h4,
    TileShapePartIterator.inc_second_part t.recompute i hi' hc'⟩

/-- C15 at edge 1 (class S, reversed) of the tiling with one edge of each class. -/
theorem half_edges_witness :
    1 < halvedTiling.numVertices ∧ halvedTiling.numVertices ≤ halvedTiling.edges.length ∧
    halvedTiling.numVertices ≤ halvedTiling.reversals.length ∧
    (halvedTiling.recompute.edgeClass 1 = EdgeShape.U ∨
      halvedTiling.recompute.edgeClass 1 = EdgeShape.S) ∧
    ((TileShapePartIterator.partAt halvedTiling.recompute 1 0).isReversed = false ∧
    (TileShapePartIterator.partAt halvedTiling.recompute 1 0).getTransform.apply ⟨0, 0⟩
        = halvedTiling.recompute.getVertex 1 ∧
    (TileShapePartIterator.partAt halvedTiling.recompute 1 0).getTransform.apply ⟨1, 0⟩
        = mid (halvedTiling.recompute.getVertex 1)
            (halvedTiling.recompute.getVertex ((1 + 1) % halvedTiling.recompute.numVertices)) ∧
    (TileShapePartIterator.partAt halvedTiling.recompute 1 1).isReversed = true ∧
    (TileShapePartIterator.partAt halvedTiling.recompute 1 1).getTransform.apply ⟨1, 0⟩
        = mid (halvedTiling.recompute.getVertex 1)
            (halvedTiling.recompute.getVertex ((1 + 1) % halvedTiling.recompute.numVertices)) ∧
    (TileShapePartIterator.partAt halvedTiling.recompute 1 1).getTransform.apply ⟨0, 0⟩
        = halvedTiling.recompute.getVertex ((1 + 1) % halvedTiling.recompute.numVertices) ∧
    TileShapePartIterator.inc halvedTiling.recompute (TileShapePartIterator.partAt halvedTiling.recompute 1 0)
        = TileShapePartIterator.partAt halvedTiling.recompute 1 1) :=
  ⟨by decide!, by decide!, by decide!, by decide!,
    half_edges halvedTiling 1 (by decide!) (by decide!) (by decide!) (by decide!)⟩

end csk

namespace csk

/-! ## The derived state is a function of type and parameters -/

theorem getD_of_take_eq {α : Type} (p q : List α) (n i : ℕ) (d : α) (h : p.take n = q.take n)
    (hi : i < n) : p.getD i d = q.getD i d := by
  rw [List.getD_eq_getElem?_getD, List.getD_eq_getElem?_getD,
    ← List.getElem?_take_of_lt hi, ← List.getElem?_take_of_lt (l := q) hi, h]

/-- `ddot` reads the first `np` parameters only. -/
theorem ddot_congr (coeffs p q : List ℚ) (np : ℕ) (h : p.take np = q.take np) :
    ddot coeffs p np = ddot coeffs q np := by
  unfold ddot
  congr 1
  apply List.foldl_ext
  intro a idx hidx
  rw [getD_of_take_eq p q np idx 0 h (List.mem_range.1 hidx)]

theorem fillVector_congr (coeffs p q : List ℚ) (np : ℕ) (h : p.take np = q.take np) :
    fillVector coeffs p np = fillVector coeffs q np := by
  simp only [fillVector, ddot_congr _ p q np h]

theorem fillMatrix_congr (coeffs p q : List ℚ) (np : ℕ) (h : p.take np = q.take np) :
    fillMatrix coeffs p np = fillMatrix coeffs q np := by
  simp only [fillMatrix, ddot_congr _ p q np h]

namespace IsohedralTiling

/-- Two tilings with the same descriptor and tables, the same first `num_params`
parameters and arrays of the same sizes have the same derived state after `recompute`. -/
theorem derived_recompute_congr (x y : IsohedralTiling)
    (h1 : x.ttd = y.ttd) (h2 : x.num_params = y.num_params)
    (h3 : x.tiling_vertex_coefficients = y.tiling_vertex_coefficients)
    (h4 : x.edge_shape_orientations = y.edge_shape_orientations)
    (h5 : x.aspect_xform_coefficients = y.aspect_xform_coefficients)
    (h6 : x.translation_vector_coefficients = y.translation_vector_coefficients)
    (hp : x.parameters.take x.num_params = y.parameters.take x.num_params)
    (lv : x.verts.length = y.verts.length) (le : x.edges.length = y.edges.length)
    (lr : x.reversals.length = y.reversals.length) (la : x.aspects.length = y.aspects.length) :
    x.recompute.derived = y.recompute.derived := by
  have hnv : x.numVertices = y.numVertices := by simp only [numVertices, h1]
  have hna : x.numAspects = y.numAspects := by simp only [numAspects, h1]
  have hV : x.recomputeVerts.take x.numVertices = y.recomputeVerts.take y.numVertices := by
    unfold recomputeVerts
    rw [foldl_set_take, foldl_set_take, ← hnv, ← lv, ← h3, ← h2]
    apply List.map_congr_left
    intro idx _
    exact fillVector_congr _ _ _ _ hp
  have hR : x.recomputeReversals.take x.numVertices
      = y.recomputeReversals.take y.numVertices := by
    unfold recomputeReversals
    rw [foldl_set_take, foldl_set_take, ← hnv, ← lr, ← h4]
  have hA : x.recomputeAspects.take x.numAspects = y.recomputeAspects.take y.numAspects := by
    unfold recomputeAspects
    rw [foldl_set_take, foldl_set_take, ← hna, ← la, ← h5, ← h2]
    apply List.map_congr_left
    intro idx _
    exact fillMatrix_congr _ _ _ _ hp
  have hE : (x.recomputeEdges x.recomputeVerts).take x.numVertices
      = (y.recomputeEdges y.recomputeVerts).take y.numVertices := by
    unfold recomputeEdges
    rw [foldl_set_take, foldl_set_take, ← hnv, ← le, ← h4]
    apply List.map_congr_left
    intro idx hidx
    have hidx' : idx < x.numVertices := by
      have := List.mem_range.1 hidx
      omega
    have hnext : (idx + 1) % x.numVertices < x.numVertices := Nat.mod_lt _ (by omega)
    rw [hnv] at hV
    simp only [getD_of_take_eq _ _ _ idx default hV (hnv ▸ hidx'),
      getD_of_take_eq _ _ _ ((idx + 1) % x.numVertices) default hV (hnv ▸ hnext)]
  show (x.recomputeVerts.take x.numVertices,
      (x.recomputeEdges x.recomputeVerts).take x.numVertices,
      x.recomputeReversals.take x.numVertices, x.recomputeAspects.take x.numAspects,
      fillVector x.translation_vector_coefficients x.parameters x.num_params,
      fillVector (x.translation_vector_coefficients.drop (2 * (x.num_params + 1)))
        x.parameters x.num_params)
    = (y.recomputeVerts.take y.numVertices,
      (y.recomputeEdges y.recomputeVerts).take y.numVertices,
      y.recomputeReversals.take y.numVertices, y.recomputeAspects.take y.numAspects,
      fillVector y.translation_vector_coefficients y.parameters y.num_params,
      fillVector (y.translation_vector_coefficients.drop (2 * (y.num_params + 1)))
        y.parameters y.num_params)
  rw [hV, hE, hR, hA, ← h6, ← h2, fillVector_congr _ _ _ _ hp,
    fillVector_congr (x.translation_vector_coefficients.drop _) _ _ _ hp]

theorem recompute_lengths (x : IsohedralTiling) :
    x.recompute.verts.length = x.verts.length ∧ x.recompute.edges.length = x.edges.length ∧
    x.recompute.reversals.length = x.reversals.length ∧
    x.recompute.aspects.length = x.aspects.length := by
  refine ⟨?_, ?_, ?_, ?_⟩
  · show x.recomputeVerts.length = _
    unfold recomputeVerts; exact foldl_set_length _ _ _
  · show (x.recomputeEdges x.recomputeVerts).length = _
    unfold recomputeEdges; exact foldl_set_length _ _ _
  · show x.recomputeReversals.length = _
    unfold recomputeReversals; exact foldl_set_length _ _ _
  · show x.recomputeAspects.length = _
    unfold recomputeAspects; exact foldl_set_length _ _ _

/-- What `reset` builds before it calls `recompute`. -/
theorem reset_eq (table : List TilingTypeData) (s : IsohedralTiling) (T : ℕ)
    (d : TilingTypeData) (hT : table.get? T = some d) :
    reset table s T = some (recompute
      { s with
        tiling_type := T
        ttd := d
        num_params := d.num_params
        edge_shape_ids := d.edge_shape_ids
        edge_shapes := d.edge_shapes
        edge_shape_orientations := d.edge_orientations
        aspect_xform_coefficients := d.aspect_xform_coeffs
        translation_vector_coefficients := d.translation_vector_coeffs
        tiling_vertex_coefficients := d.tiling_vertex_coeffs
        colouring := d.colouring
        parameters := d.default_params.take d.num_params ++ s.parameters.drop d.num_params }) := by
  simp only [reset, hT]
  rfl

theorem reset_none (table : List TilingTypeData) (s : IsohedralTiling) (T : ℕ)
    (hT : table.get? T = none) : reset table s T = none := by
  simp only [reset, hT]

/-- Every reachable tiling is the result of `recompute` on a tiling that holds the
descriptor of its type, arrays of the declared sizes and at least `num_params`
parameters. -/
theorem reachable_inv (table : List TilingTypeData)
    (hwf : ∀ T d, table.get? T = some d → d.num_params ≤ d.default_params.length)
    (s : IsohedralTiling) (h : Reachable table s) :
    ∃ (x : IsohedralTiling) (d : TilingTypeData), s = x.recompute ∧
      table.get? x.tiling_type = some d ∧ x.ttd = d ∧
      x.num_params = d.num_params ∧
      x.tiling_vertex_coefficients = d.tiling_vertex_coeffs ∧
      x.edge_shape_orientations = d.edge_orientations ∧
      x.aspect_xform_coefficients = d.aspect_xform_coeffs ∧
      x.translation_vector_coefficients = d.translation_vector_coeffs ∧
      x.verts.length = 6 ∧ x.edges.length = 6 ∧ x.reversals.length = 6 ∧
      x.aspects.length = 12 ∧ x.num_params ≤ x.parameters.length := by
  induction h with
  | create T t hc =>
    unfold create at hc
    cases hT : table.get? T with
    | none => rw [reset_none table _ T hT] at hc; cases hc
    | some d =>
      rw [reset_eq table _ T d hT] at hc
      refine ⟨_, d, (Option.some.inj hc).symm, hT, rfl, rfl, rfl, rfl, rfl, rfl, rfl, rfl, rfl,
        rfl, ?_⟩
      have := hwf T d hT
      simp only [List.length_append, List.length_take, List.length_drop]
      omega
  | reset s T t _ hr ih =>
    obtain ⟨x, _, hx, -, -, -, -, -, -, -, lv, le, lr, la, -⟩ := ih
    obtain ⟨l1, l2, l3, l4⟩ := recompute_lengths x
    cases hT : table.get? T with
    | none => rw [reset_none table _ T hT] at hr; cases hr
    | some d =>
      rw [reset_eq table _ T d hT] at hr
      refine ⟨_, d, (Option.some.inj hr).symm, hT, rfl, rfl, rfl, rfl, rfl, rfl, ?_, ?_, ?_,
        ?_, ?_⟩
      · show s.verts.length = 6
        rw [hx, l1, lv]
      · show s.edges.length = 6
        rw [hx, l2, le]
      · show s.reversals.length = 6
        rw [hx, l3, lr]
      · show s.aspects.length = 12
        rw [hx, l4, la]
      · have := hwf T d hT
        simp only [List.length_append, List.length_take, List.length_drop]
        omega
  | setParameters s p _ hp ih =>
    obtain ⟨x, d, hx, hT, e1, e2, e3, e4, e5, e6, lv, le, lr, la, -⟩ := ih
    obtain ⟨l1, l2, l3, l4⟩ := recompute_lengths x
    have hs1 : s.tiling_type = x.tiling_type := by rw [hx]; rfl
    have hs2 : s.ttd = x.ttd := by rw [hx]; rfl
    have hs3 : s.num_params = x.num_params := by rw [hx]; rfl
    have hs4 : s.tiling_vertex_coefficients = x.tiling_vertex_coefficients := by rw [hx]; rfl
    have hs5 : s.edge_shape_orientations = x.edge_shape_orientations := by rw [hx]; rfl
    have hs6 : s.aspect_xform_coefficients = x.aspect_xform_coefficients := by rw [hx]; rfl
    have hs7 : s.translation_vector_coefficients = x.translation_vector_coefficients := by
      rw [hx]; rfl
    refine ⟨{ s with parameters := p.take s.num_params ++ s.parameters.drop s.num_params }, d,
      rfl, ?_, ?_, ?_, ?_, ?_, ?_, ?_, ?_, ?_, ?_, ?_, ?_⟩
    · show table.get? s.tiling_type = some d
      rw [hs1]; exact hT
    · show s.ttd = d
      rw [hs2]; exact e1
    · show s.num_params = d.num_params
      rw [hs3]; exact e2
    · show s.tiling_vertex_coefficients = _
      rw [hs4]; exact e3
    · show s.edge_shape_orientations = _
      rw [hs5]; exact e4
    · show s.aspect_xform_coefficients = _
      rw [hs6]; exact e5
    · show s.translation_vector_coefficients = _
      rw [hs7]; exact e6
    · show s.verts.length = 6
      rw [hx, l1, lv]
    · show s.edges.length = 6
      rw [hx, l2, le]
    · show s.reversals.length = 6
      rw [hx, l3, lr]
    · show s.aspects.length = 12
      rw [hx, l4, la]
    · show s.num_params ≤ (p.take s.num_params ++ s.parameters.drop s.num_params).length
      have hp' : s.num_params ≤ p.length := hp
      simp only [List.length_append, List.length_take, List.length_drop]
      omega

end IsohedralTiling

/-- C16: the derived state is a function of type and parameters.  For a table whose
descriptors hold at least `num_params` default parameters, every tiling `s` reached from
the constructor by any sequence of `reset` and `setParameters` calls has the derived
state (vertex positions, edge transforms and reversal flags, aspect transforms, `t1`,
`t2`) of a freshly constructed tiling of the type of `s` followed by `setParameters` with
the parameters of `s`, whatever types and parameters it held before. -/
theorem derived_state_pure (table : List TilingTypeData)
    (hwf : ∀ T d, table.get? T = some d → d.num_params ≤ d.default_params.length)
    (s : IsohedralTiling) (h : IsohedralTiling.Reachable table s) :
    ∃ fresh, IsohedralTiling.create table s.getTilingType = some fresh ∧
      (fresh.setParameters s.getParameters).derived = s.derived := by
  obtain ⟨x, d, hx, hT, e1, e2, e3, e4, e5, e6, lv, le, lr, la, hlen⟩ :=
    IsohedralTiling.reachable_inv table hwf s h
  have hty : s.getTilingType = x.tiling_type := by rw [hx]; rfl
  have hpar : s.getParameters = x.parameters.take x.num_params := by rw [hx]; rfl
  rw [hty, hpar]
  refine ⟨_, by unfold IsohedralTiling.create; exact IsohedralTiling.reset_eq table _ _ d hT,
    ?_⟩
  rw [hx]
  obtain ⟨l1, l2, l3, l4⟩ := IsohedralTiling.recompute_lengths
    { IsohedralTiling.uninitialised with
      tiling_type := x.tiling_type
      ttd := d
      num_params := d.num_params
      edge_shape_ids := d.edge_shape_ids
      edge_shapes := d.edge_shapes
      edge_shape_orientations := d.edge_orientations
      aspect_xform_coefficients := d.aspect_xform_coeffs
      translation_vector_coefficients := d.translation_vector_coeffs
      tiling_vertex_coefficients := d.tiling_vertex_coeffs
      colouring := d.colouring
      parameters := d.default_params.take d.num_params
        ++ IsohedralTiling.uninitialised.parameters.drop d.num_params }
  apply IsohedralTiling.derived_recompute_congr
  · exact e1.symm
  · exact e2.symm
  · exact e3.symm
  · exact e4.symm
  · exact e5.symm
  · exact e6.symm
  · show (((x.parameters.take x.num_params).take d.num_params ++ _).take d.num_params)
      = x.parameters.take d.num_params
    rw [← e2, List.take_take, Nat.min_self]
    exact List.take_left' (by simp only [List.length_take]; omega)
  · rw [lv]; exact l1
  · rw [le]; exact l2
  · rw [lr]; exact l3
  · rw [la]; exact l4

theorem sampleTable_defaults :
    ∀ T d, sampleTable.get? T = some d → d.num_params ≤ d.default_params.length := by
  intro T d h
  rcases T with _ | _ | _ | _ | T
  · cases h; decide
  · cases h; decide
  · cases h; decide
  · cases h; decide
  · cases h

theorem historyTiling_reachable : IsohedralTiling.Reachable sampleTable historyTiling := by
  have h1 : IsohedralTiling.create sampleTable 3 = some halvedTiling := rfl
  have h2 : IsohedralTiling.reset sampleTable halvedTiling 1
      = some ((IsohedralTiling.reset sampleTable halvedTiling 1).getD
          IsohedralTiling.uninitialised) := rfl
  exact IsohedralTiling.Reachable.setParameters _ [1 / 3, 2]
    (IsohedralTiling.Reachable.reset halvedTiling 1 _
      (IsohedralTiling.Reachable.create 3 halvedTiling h1) h2)
    (by decide!)

/-- C16 at a tiling constructed with one type, reset to another and given new
parameters. -/
theorem derived_state_pure_witness :
    (∀ T d, sampleTable.get? T = some d → d.num_params ≤ d.default_params.length) ∧
    IsohedralTiling.Reachable sampleTable historyTiling ∧
    ∃ fresh, IsohedralTiling.create sampleTable historyTiling.getTilingType = some fresh ∧
      (fresh.setParameters historyTiling.getParameters).derived = historyTiling.derived :=
  ⟨sampleTable_defaults, historyTiling_reachable,
    derived_state_pure sampleTable sampleTable_defaults historyTiling historyTiling_reachable⟩

end csk

namespace csk

/-! ## Comparison of fill cursors -/

/-- C17, as stated, fails: the two cursors `end()` of two different fill results are
both done, yet `operator ==` returns `false` for them, because it first compares the
fill results they reference. -/
theorem cursor_eq_counterexample :
    syntheticFill.end.done = true ∧ slantedFill.end.done = true ∧
      FillRegionIterator.eq false syntheticFill.end slantedFill.end = false ∧
      FillRegionIterator.ne false syntheticFill.end slantedFill.end = true := by
  decide!

/-- C17, amended: equality of fill cursors.  Two cursors compare equal if and only if
they reference the same fill result and either both are done, or neither is done and
they agree on the slab index, on `x` and on `y` within `1e-7`, and on the aspect;
`operator !=` is the negation of `operator ==`. -/
theorem cursor_eq_iff (sameAlgo : Bool) (a b : FillRegionIterator) :
    (FillRegionIterator.eq sameAlgo a b = true ↔
      sameAlgo = true ∧
        ((a.done = true ∧ b.done = true) ∨
          (a.done = false ∧ b.done = false ∧ a.call_idx = b.call_idx ∧
            |a.x - b.x| < tol ∧ |a.y - b.y| < tol ∧ a.asp = b.asp))) ∧
    FillRegionIterator.ne sameAlgo a b = !(FillRegionIterator.eq sameAlgo a b) := by
  refine ⟨?_, rfl⟩
  unfold FillRegionIterator.eq
  cases sameAlgo <;> cases ha : a.done <;> cases hb : b.done <;>
    simp [and_assoc]

end csk

namespace csk

/-! ## The number of slabs -/

namespace FillAlgorithm

theorem doFill_num_calls (f : FillAlgorithm) (A B C D : dvec2) (do_top : Bool) :
    (f.doFill A B C D do_top).num_calls = f.num_calls + 1 := rfl

theorem fillFixX_num_calls (f : FillAlgorithm) (A B C D : dvec2) (do_top : Bool) :
    (f.fillFixX A B C D do_top).num_calls = f.num_calls + 1 := by
  unfold fillFixX
  split_ifs <;> rfl

theorem fillFixY_num_calls (f : FillAlgorithm) (A B C D : dvec2) (do_top : Bool) :
    (f.fillFixY A B C D do_top).num_calls = f.num_calls + 1 := by
  unfold fillFixY
  split_ifs <;> rfl

end FillAlgorithm

/-- C18: for every tiling and every input quadrilateral, the fill result holds exactly
one slab when the first two mapped corners, or the second and the third mapped corners,
have lattice `y` within `1e-7` of each other, and exactly three slabs otherwise; so it
holds between 1 and 3 slabs, the size of the array `data`. -/
theorem fill_slab_count (t : IsohedralTiling) (A B C D : dvec2) (dbg : Bool) :
    (FillAlgorithm.create t A B C D dbg).num_calls
        = (if |((FillAlgorithm.pts t A B C D).getD 0 default).y
                - ((FillAlgorithm.pts t A B C D).getD 1 default).y| < tol ∨
              |((FillAlgorithm.pts t A B C D).getD 1 default).y
                - ((FillAlgorithm.pts t A B C D).getD 2 default).y| < tol
            then 1 else 3) ∧
    1 ≤ (FillAlgorithm.create t A B C D dbg).num_calls ∧
    (FillAlgorithm.create t A B C D dbg).num_calls ≤ 3 ∧
    (FillAlgorithm.create t A B C D dbg).data.length = 3 := by
  have key : (FillAlgorithm.create t A B C D dbg).num_calls
        = (if |((FillAlgorithm.pts t A B C D).getD 0 default).y
                - ((FillAlgorithm.pts t A B C D).getD 1 default).y| < tol ∨
              |((FillAlgorithm.pts t A B C D).getD 1 default).y
                - ((FillAlgorithm.pts t A B C D).getD 2 default).y| < tol
            then 1 else 3) := by
    by_cases h1 : |((FillAlgorithm.pts t A B C D).getD 0 default).y
        - ((FillAlgorithm.pts t A B C D).getD 1 default).y| < tol
    · simp only [FillAlgorithm.create, if_pos h1, h1, true_or, if_true,
        FillAlgorithm.fillFixY_num_calls]
    · by_cases h2 : |((FillAlgorithm.pts t A B C D).getD 1 default).y
          - ((FillAlgorithm.pts t A B C D).getD 2 default).y| < tol
      · simp only [FillAlgorithm.create, if_neg h1, if_pos h2, h2, or_true, if_true,
          FillAlgorithm.fillFixY_num_calls]
      · simp only [FillAlgorithm.create, if_neg h1, if_neg h2, h1, h2, or_self, if_false]
        split_ifs <;> simp only [FillAlgorithm.fillFixX_num_calls]
  have hlen : (FillAlgorithm.create t A B C D dbg).data.length = 3 := by
    simp only [FillAlgorithm.create]
    split_ifs <;>
      simp only [FillAlgorithm.fillFixX, FillAlgorithm.fillFixY, FillAlgorithm.doFill] <;>
      split_ifs <;> simp
  refine ⟨key, ?_, ?_, hlen⟩
  · rw [key]; split_ifs <;> omega
  · rw [key]; split_ifs <;> omega

end csk

namespace csk

/-! ## The divisions of the fill constructor -/

/-- C19, as stated, fails: over the unit lattice (determinant 1) the constructor run on
the diamond with the corners `(1,0)`, `(0,1)`, `(-1,0)`, `(0,-1)`, a strictly convex
quadrilateral passed counter-clockwise, divides by zero: the left and the right corner
have the same `y`, so both slopes of the middle slab are `0/0`. -/
theorem fill_division_counterexample :
    syntheticTiling.getT1.x * syntheticTiling.getT2.y
        - syntheticTiling.getT2.x * syntheticTiling.getT1.y ≠ 0 ∧
    (0 < turn ⟨1, 0⟩ ⟨0, 1⟩ ⟨-1, 0⟩ ∧ 0 < turn ⟨0, 1⟩ ⟨-1, 0⟩ ⟨0, -1⟩ ∧
      0 < turn ⟨-1, 0⟩ ⟨0, -1⟩ ⟨1, 0⟩ ∧ 0 < turn ⟨0, -1⟩ ⟨1, 0⟩ ⟨0, 1⟩) ∧
    (0 : ℚ) ∈ FillAlgorithm.denominators syntheticTiling ⟨1, 0⟩ ⟨0, 1⟩ ⟨-1, 0⟩ ⟨0, -1⟩ ∧
    FillAlgorithm.denominators syntheticTiling ⟨1, 0⟩ ⟨0, 1⟩ ⟨-1, 0⟩ ⟨0, -1⟩
      = [1, 1, 1, 1, 1, 0, 0, 1, 1] := by
  decide!

theorem diamond_convex : ConvexCCW ⟨1, 0⟩ ⟨0, 1⟩ ⟨-1, 0⟩ ⟨0, -1⟩ := by
  unfold ConvexCCW
  decide!

theorem fillFixX_denominators_ne (A B C D : dvec2) (h1 : D.y ≠ A.y) (h2 : C.y ≠ B.y) :
    ∀ q ∈ fillFixXDenominators A B C D, q ≠ 0 := by
  intro q hq
  unfold fillFixXDenominators doFillDenominators at hq
  split_ifs at hq <;>
    simp only [List.mem_cons, List.mem_singleton, List.not_mem_nil, or_false] at hq <;>
    rcases hq with rfl | rfl <;> intro h0
  · exact h2 (sub_eq_zero.1 h0)
  · exact h1 (sub_eq_zero.1 h0)
  · exact h1 (sub_eq_zero.1 h0)
  · exact h2 (sub_eq_zero.1 h0)

theorem fillFixY_denominators_ne (A B C D : dvec2) (h1 : D.y ≠ A.y) (h2 : C.y ≠ B.y) :
    ∀ q ∈ fillFixYDenominators A B C D, q ≠ 0 := by
  intro q hq
  unfold fillFixYDenominators doFillDenominators at hq
  split_ifs at hq <;>
    simp only [List.mem_cons, List.mem_singleton, List.not_mem_nil, or_false] at hq <;>
    rcases hq with rfl | rfl <;> intro h0
  · exact h2 (sub_eq_zero.1 h0).symm
  · exact h1 (sub_eq_zero.1 h0).symm
  · exact h1 (sub_eq_zero.1 h0)
  · exact h2 (sub_eq_zero.1 h0)

theorem threeSlab_denominators_ne (b l t r : dvec2) (hbl : b.y ≠ l.y) (hbr : b.y ≠ r.y)
    (hlt : l.y ≠ t.y) (hlr : l.y ≠ r.y) (htr : t.y ≠ r.y) :
    ∀ q ∈ threeSlabDenominators b l t r, q ≠ 0 := by
  intro q hq
  unfold threeSlabDenominators at hq
  by_cases hx : l.x > r.x
  · simp only [if_pos hx] at hq
    split_ifs at hq <;>
      simp only [List.mem_append, List.mem_cons, List.mem_singleton, List.not_mem_nil,
        or_false, sampleAtHeightDenominator] at hq <;>
      rcases hq with (((rfl | rfl) | h) | h) | h <;>
      first
      | (refine sub_ne_zero.2 ?_
         first | exact hbl | exact hbl.symm | exact hbr | exact hbr.symm | exact hlt
               | exact hlt.symm | exact hlr | exact hlr.symm | exact htr)
      | (refine fillFixX_denominators_ne _ _ _ _ ?_ ?_ q h <;>
         first | exact hbl | exact hbl.symm | exact hbr | exact hbr.symm | exact hlt
               | exact hlt.symm | exact hlr | exact hlr.symm | exact htr)
  · simp only [if_neg hx] at hq
    split_ifs at hq <;>
      simp only [List.mem_append, List.mem_cons, List.mem_singleton, List.not_mem_nil,
        or_false, sampleAtHeightDenominator] at hq <;>
      rcases hq with (((rfl | rfl) | h) | h) | h <;>
      first
      | (refine sub_ne_zero.2 ?_
         first | exact hbl | exact hbl.symm | exact hbr | exact hbr.symm | exact hlt
               | exact hlt.symm | exact hlr | exact hlr.symm | exact htr)
      | (refine fillFixX_denominators_ne _ _ _ _ ?_ ?_ q h <;>
         first | exact hbl | exact hbl.symm | exact hbr | exact hbr.symm | exact hlt
               | exact hlt.symm | exact hlr | exact hlr.symm | exact htr)

theorem FillAlgorithm.pts_eq_four (t : IsohedralTiling) (A B C D : dvec2) :
    ∃ q0 q1 q2 q3 : dvec2, FillAlgorithm.pts t A B C D = [q0, q1, q2, q3] := by
  unfold FillAlgorithm.pts
  split_ifs
  · exact ⟨_, _, _, _, rfl⟩
  · exact ⟨_, _, _, _, rfl⟩

theorem FillAlgorithm.lowest_four (q0 q1 q2 q3 : dvec2) :
    FillAlgorithm.lowest [q0, q1, q2, q3] = 0 ∨ FillAlgorithm.lowest [q0, q1, q2, q3] = 1 ∨
    FillAlgorithm.lowest [q0, q1, q2, q3] = 2 ∨ FillAlgorithm.lowest [q0, q1, q2, q3] = 3 := by
  unfold FillAlgorithm.lowest
  simp only [List.foldl]
  split_ifs <;> simp

/-- C19 (amended): for a lattice basis with `t1.x·t2.y − t2.x·t1.y ≠ 0` and a
quadrilateral whose corners `pts[0..3]` in lattice coordinates either have `pts[0]` and
`pts[1]` at the same `y` with the `y` of `pts[2]` and `pts[3]` different from their
neighbours, or have `pts[1]` and `pts[2]` at the same `y` with `pts[0]` at least the
tolerance away and `pts[3]` at a different `y`, or have four pairwise different `y`,
no division performed by the constructor of the fill result (the inverse determinant,
`sampleAtHeight`, the slab slopes of `doFill`) has a zero denominator. -/
theorem fill_divisions (t : IsohedralTiling) (A B C D : dvec2)
    (hd : t.getT1.x * t.getT2.y - t.getT2.x * t.getT1.y ≠ 0)
    (h : (((FillAlgorithm.pts t A B C D).getD 0 default).y
            = ((FillAlgorithm.pts t A B C D).getD 1 default).y ∧
          ((FillAlgorithm.pts t A B C D).getD 3 default).y
            ≠ ((FillAlgorithm.pts t A B C D).getD 0 default).y ∧
          ((FillAlgorithm.pts t A B C D).getD 2 default).y
            ≠ ((FillAlgorithm.pts t A B C D).getD 1 default).y) ∨
        (((FillAlgorithm.pts t A B C D).getD 1 default).y
            = ((FillAlgorithm.pts t A B C D).getD 2 default).y ∧
          tol ≤ |((FillAlgorithm.pts t A B C D).getD 0 default).y
                  - ((FillAlgorithm.pts t A B C D).getD 1 default).y| ∧
          ((FillAlgorithm.pts t A B C D).getD 3 default).y
            ≠ ((FillAlgorithm.pts t A B C D).getD 2 default).y) ∨
        ((FillAlgorithm.pts t A B C D).map (fun p => p.y)).Nodup) :
    ∀ q ∈ FillAlgorithm.denominators t A B C D, q ≠ 0 := by
  obtain ⟨q0, q1, q2, q3, hps⟩ := FillAlgorithm.pts_eq_four t A B C D
  have htol : (0 : ℚ) < tol := by unfold tol; norm_num
  intro q hq
  unfold FillAlgorithm.denominators at hq
  rw [hps] at h hq
  simp only [List.getD_cons_zero, List.getD_cons_succ, List.map_cons, List.map_nil,
    List.nodup_cons, List.mem_cons, List.mem_singleton, List.not_mem_nil, not_or,
    List.nodup_nil, and_true, not_false_eq_true] at h hq
  rcases hq with rfl | hq
  · exact hd
  rcases h with ⟨h01, h30, h21⟩ | ⟨h12, h01, h32⟩ | ⟨⟨h01, h02, h03⟩, ⟨h12, h13⟩, h23⟩
  · rw [if_pos (by rw [h01, sub_self, abs_zero]; exact htol)] at hq
    exact fillFixY_denominators_ne _ _ _ _ h30 h21 q hq
  · rw [if_neg (not_lt.2 h01), if_pos (by rw [h12, sub_self, abs_zero]; exact htol)] at hq
    refine fillFixY_denominators_ne _ _ _ _ ?_ h32 q hq
    intro h
    rw [h, sub_self, abs_zero] at h01
    exact absurd htol (not_lt.2 h01)
  · split_ifs at hq
    · exact fillFixY_denominators_ne _ _ _ _ (Ne.symm h03) (Ne.symm h12) q hq
    · exact fillFixY_denominators_ne _ _ _ _ h01 (Ne.symm h23) q hq
    · rcases FillAlgorithm.lowest_four q0 q1 q2 q3 with hl | hl | hl | hl <;>
        rw [hl] at hq <;>
        simp only [List.getD_cons_zero, List.getD_cons_succ, Nat.reduceAdd, Nat.reduceMod]
          at hq
      · exact threeSlab_denominators_ne _ _ _ _ h01 h03 h12 h13 h23 q hq
      · exact threeSlab_denominators_ne _ _ _ _ h12 (Ne.symm h01) h23 (Ne.symm h02)
          (Ne.symm h03) q hq
      · exact threeSlab_denominators_ne _ _ _ _ h23 (Ne.symm h12) (Ne.symm h03)
          (Ne.symm h13) h01 q hq
      · exact threeSlab_denominators_ne _ _ _ _ (Ne.symm h03) (Ne.symm h23) h01 h02 h12 q hq

theorem fill_divisions_witness :
    (syntheticTiling.getT1.x * syntheticTiling.getT2.y
        - syntheticTiling.getT2.x * syntheticTiling.getT1.y ≠ 0 ∧
     ((FillAlgorithm.pts syntheticTiling ⟨0, 0⟩ ⟨3, 1⟩ ⟨4, 3⟩ ⟨1, 2⟩).map
        (fun p => p.y)).Nodup) ∧
    ∀ q ∈ FillAlgorithm.denominators syntheticTiling ⟨0, 0⟩ ⟨3, 1⟩ ⟨4, 3⟩ ⟨1, 2⟩, q ≠ 0 :=
  ⟨by decide!, fill_divisions syntheticTiling ⟨0, 0⟩ ⟨3, 1⟩ ⟨4, 3⟩ ⟨1, 2⟩ (by decide!)
    (Or.inr (Or.inr (by decide!)))⟩

end csk

namespace csk

/-! ## The range of the colour index -/

theorem colourLoop_spec (colouring : List ℕ) (off n : ℕ)
    (hrow : ∀ c, c < n → colouring.getD (off + c) 0 < n) :
    ∀ (m col : ℕ), col < n →
      (IsohedralTiling.colourLoop colouring off m col).1
          = (fun c => colouring.getD (off + c) 0)^[m] col ∧
      (IsohedralTiling.colourLoop colouring off m col).1 < n ∧
      ∀ i ∈ (IsohedralTiling.colourLoop colouring off m col).2, off ≤ i ∧ i < off + n := by
  intro m
  induction m with
  | zero =>
    intro col hcol
    refine ⟨rfl, hcol, ?_⟩
    intro i hi
    simp [IsohedralTiling.colourLoop] at hi
  | succ m ih =>
    intro col hcol
    obtain ⟨h1, h2, h3⟩ := ih (colouring.getD (off + col) 0) (hrow col hcol)
    refine ⟨?_, ?_, ?_⟩
    · rw [Function.iterate_succ_apply]
      exact h1
    · exact h2
    · intro i hi
      simp only [IsohedralTiling.colourLoop, List.mem_cons] at hi
      rcases hi with rfl | hi
      · exact ⟨Nat.le_add_right _ _, Nat.add_lt_add_left hcol _⟩
      · exact h3 i hi

/-- C20: for a colouring table whose colour count `n` (entry 18) is 2 or 3 and whose
base colours (entries 0 to 11) and two permutation rows (entries 12 to 14 and 15 to
17) hold only values below `n`, `getColour( t1, t2, k )` is below `n` for all integers
`t1`, `t2` and every aspect `k < 12`, and every index that the first loop reads is in
the row 12..14 and every index that the second loop reads is in the row 15..17. -/
theorem colour_index_range (t : IsohedralTiling) (n : ℕ)
    (hn : t.colouring.getD 18 0 = n) (h23 : n = 2 ∨ n = 3)
    (hlt : ∀ i, i < 18 → t.colouring.getD i 0 < n)
    (t1 t2 : ℤ) (k : ℕ) (hk : k < 12) :
    (t.getColourReads t1 t2 k).1 = t.getColour t1 t2 k ∧
    t.getColour t1 t2 k < n ∧
    (∀ i ∈ (t.getColourReads t1 t2 k).2.1, 12 ≤ i ∧ i < 15) ∧
    (∀ i ∈ (t.getColourReads t1 t2 k).2.2, 15 ≤ i ∧ i < 18) := by
  have hn3 : n ≤ 3 := by rcases h23 with rfl | rfl <;> decide
  have hrow1 : ∀ c, c < n → t.colouring.getD (12 + c) 0 < n := fun c hc =>
    hlt (12 + c) (by omega)
  have hrow2 : ∀ c, c < n → t.colouring.getD (15 + c) 0 < n := fun c hc =>
    hlt (15 + c) (by omega)
  have hcol : t.colouring.getD k 0 < n := hlt k (by omega)
  unfold IsohedralTiling.getColourReads IsohedralTiling.getColour
  simp only
  obtain ⟨a1, a2, a3⟩ := colourLoop_spec t.colouring 12 n hrow1
    ((if Int.tmod t1 ((t.colouring.getD 18 0 : ℕ) : ℤ) < 0
        then Int.tmod t1 ((t.colouring.getD 18 0 : ℕ) : ℤ) + ((t.colouring.getD 18 0 : ℕ) : ℤ)
        else Int.tmod t1 ((t.colouring.getD 18 0 : ℕ) : ℤ)).toNat) (t.colouring.getD k 0) hcol
  obtain ⟨b1, b2, b3⟩ := colourLoop_spec t.colouring 15 n hrow2
    ((if Int.tmod t2 ((t.colouring.getD 18 0 : ℕ) : ℤ) < 0
        then Int.tmod t2 ((t.colouring.getD 18 0 : ℕ) : ℤ) + ((t.colouring.getD 18 0 : ℕ) : ℤ)
        else Int.tmod t2 ((t.colouring.getD 18 0 : ℕ) : ℤ)).toNat) _ a2
  refine ⟨?_, ?_, ?_, ?_⟩
  · rw [b1, a1]
  · rw [← a1, ← b1]
    exact b2
  · intro i hi
    have := a3 i hi
    omega
  · intro i hi
    have := b3 i hi
    omega

theorem colour_index_range_witness :
    (shearedTiling.colouring.getD 18 0 = 3 ∧ ((3 : ℕ) = 2 ∨ (3 : ℕ) = 3) ∧
      (∀ i, i < 18 → shearedTiling.colouring.getD i 0 < 3) ∧ (7 : ℕ) < 12) ∧
    ((shearedTiling.getColourReads (-4) 5 7).1 = shearedTiling.getColour (-4) 5 7 ∧
      shearedTiling.getColour (-4) 5 7 < 3 ∧
      (∀ i ∈ (shearedTiling.getColourReads (-4) 5 7).2.1, 12 ≤ i ∧ i < 15) ∧
      (∀ i ∈ (shearedTiling.getColourReads (-4) 5 7).2.2, 15 ≤ i ∧ i < 18)) :=
  ⟨⟨by decide!, Or.inr rfl, by decide!, by decide⟩,
    colour_index_range shearedTiling 3 (by decide!) (Or.inr rfl) (by decide!) (-4) 5 7
      (by decide)⟩

end csk

namespace csk

/-! ## A fill result and later changes of its tiling -/

theorem inc_congr_numAspects (t s : IsohedralTiling) (h : s.numAspects = t.numAspects)
    (algo : FillAlgorithm) (it : FillRegionIterator) :
    FillRegionIterator.inc s algo it = FillRegionIterator.inc t algo it := by
  unfold FillRegionIterator.inc
  rw [h]

theorem visited_congr_numAspects (t s : IsohedralTiling) (h : s.numAspects = t.numAspects)
    (algo : FillAlgorithm) (fuel : ℕ) :
    ∀ it : FillRegionIterator,
      FillRegionIterator.visited s algo fuel it = FillRegionIterator.visited t algo fuel it := by
  induction fuel with
  | zero => intro it; rfl
  | succ n ih =>
    intro it
    simp only [FillRegionIterator.visited]
    rw [inc_congr_numAspects t s h, ih]

/-- C21: slabs are frozen at construction.  The fill result built for a tiling holds its
slabs as data of its own, which `setParameters` on the tiling does not write; iterating
the fill result after `setParameters( p )` visits the same cursors, hence yields the same
sequence of `(getT1, getT2, getAspect)`; and `getTransform` of a cursor is then the new
aspect transform with `getT1·t1 + getT2·t2` of the new lattice vectors added. -/
theorem slabs_frozen (t : IsohedralTiling) (A B C D : dvec2) (dbg : Bool) (p : List ℚ)
    (fuel : ℕ) :
    FillRegionIterator.visited (t.setParameters p) (FillAlgorithm.create t A B C D dbg) fuel
        (FillAlgorithm.create t A B C D dbg).begin
      = FillRegionIterator.visited t (FillAlgorithm.create t A B C D dbg) fuel
          (FillAlgorithm.create t A B C D dbg).begin ∧
    (FillRegionIterator.visited (t.setParameters p) (FillAlgorithm.create t A B C D dbg) fuel
        (FillAlgorithm.create t A B C D dbg).begin).map
          (fun it => (it.getT1, it.getT2, it.getAspect))
      = (FillRegionIterator.visited t (FillAlgorithm.create t A B C D dbg) fuel
          (FillAlgorithm.create t A B C D dbg).begin).map
            (fun it => (it.getT1, it.getT2, it.getAspect)) ∧
    (∀ (it : FillRegionIterator) (q : dvec2),
      (it.getTransform (t.setParameters p)).apply q
        = ⟨(((t.setParameters p).getAspectTransform it.getAspect).apply q).x
              + ((it.getT1 : ℚ) * (t.setParameters p).getT1.x
                + (it.getT2 : ℚ) * (t.setParameters p).getT2.x),
            (((t.setParameters p).getAspectTransform it.getAspect).apply q).y
              + ((it.getT1 : ℚ) * (t.setParameters p).getT1.y
                + (it.getT2 : ℚ) * (t.setParameters p).getT2.y)⟩) := by
  have h : (t.setParameters p).numAspects = t.numAspects := rfl
  refine ⟨visited_congr_numAspects t _ h _ fuel _, ?_, ?_⟩
  · rw [visited_congr_numAspects t _ h _ fuel _]
  · intro it q
    simp only [FillRegionIterator.getTransform, FillRegionIterator.getT1,
      FillRegionIterator.getT2, FillRegionIterator.getAspect, dmat3.apply, dvec2.mk.injEq]
    constructor <;> ring

/-- The frozen slabs at work: the fill of the box `[0,2] × [0,2]` built for the lattice
`t2 = (1/2, 1)` keeps its slab after the parameters change to `t2 = (1, 1)`, a fill built
afterwards has another slab, and the transform of the fourth cursor, at `(-1, 1)`, is read from
the new lattice. -/
theorem frozen_slabs_example :
    shearedFill.data.getD 0 default = ⟨0, 3, 0, 2, -(1 / 2), -(1 / 2)⟩ ∧
    ((shearedTiling.setParameters [1, 1]).fillRegionBox 0 0 2 2 false).data.getD 0 default
      = ⟨0, 3, 0, 2, -1, -1⟩ ∧
    (FillRegionIterator.visited (shearedTiling.setParameters [1, 1]) shearedFill 20
        shearedFill.begin).map (fun it => (it.getT1, it.getT2, it.getAspect))
      = [(0, 0, 0), (1, 0, 0), (2, 0, 0), (-1, 1, 0), (0, 1, 0), (1, 1, 0), (-1, 2, 0), (0, 2, 0),
          (1, 2, 0)] ∧
    (((FillRegionIterator.inc shearedTiling shearedFill)^[3] shearedFill.begin).getTransform
          shearedTiling).apply ⟨0, 0⟩ = ⟨-(1 / 2), 1⟩ ∧
    (((FillRegionIterator.inc shearedTiling shearedFill)^[3] shearedFill.begin).getTransform
          (shearedTiling.setParameters [1, 1])).apply ⟨0, 0⟩ = ⟨0, 1⟩ := by
  decide!

/-! ## The outcome of `reset` -/

theorem resetOutcome_of_lt (table : List TilingTypeData) (t : IsohedralTiling) (T : ℕ)
    (h : T < table.length) : ∃ s, IsohedralTiling.resetOutcome table t T = Outcome.returned s := by
  obtain ⟨d, hd⟩ : ∃ d, table.get? T = some d := ⟨table.get ⟨T, h⟩, List.get?_eq_get h⟩
  unfold IsohedralTiling.resetOutcome
  rw [IsohedralTiling.reset_eq table t T d hd]
  exact ⟨_, rfl⟩

theorem resetOutcome_of_le (table : List TilingTypeData) (t : IsohedralTiling) (T : ℕ)
    (h : table.length ≤ T) : IsohedralTiling.resetOutcome table t T = Outcome.undefined := by
  unfold IsohedralTiling.resetOutcome
  rw [IsohedralTiling.reset_none table t T (List.get?_eq_none.2 h)]

/-- C22, as stated, fails: with a table of four types, `reset( 4 )` reads the table past
its end; the function has no check and reports nothing, its behaviour is undefined. -/
theorem reset_outcome_counterexample :
    sampleTable.length = 4 ∧
    IsohedralTiling.resetOutcome sampleTable IsohedralTiling.uninitialised 4
      = Outcome.undefined ∧
    IsohedralTiling.resetOutcome sampleTable IsohedralTiling.uninitialised 4
      ≠ Outcome.reported := by
  have h := resetOutcome_of_le sampleTable IsohedralTiling.uninitialised 4 (le_refl 4)
  refine ⟨rfl, h, ?_⟩
  rw [h]
  exact fun e => Outcome.noConfusion e

/-- C22, amended: `reset( type )` returns, with a descriptor installed, exactly when
`type` is inside the range of the table of tiling types; for a type outside the range
the read of the descriptor is unchecked and the behaviour is undefined; in no case does
`reset` report an error. -/
theorem reset_outcome (table : List TilingTypeData) (t : IsohedralTiling) (T : ℕ) :
    ((∃ s, IsohedralTiling.resetOutcome table t T = Outcome.returned s) ↔ T < table.length) ∧
    (IsohedralTiling.resetOutcome table t T = Outcome.undefined ↔ table.length ≤ T) ∧
    IsohedralTiling.resetOutcome table t T ≠ Outcome.reported := by
  rcases Nat.lt_or_ge T table.length with h | h
  · obtain ⟨s, hs⟩ := resetOutcome_of_lt table t T h
    refine ⟨⟨fun _ => h, fun _ => ⟨s, hs⟩⟩, ⟨?_, ?_⟩, ?_⟩
    · intro e
      rw [hs] at e
      exact Outcome.noConfusion e
    · intro h'
      exact absurd h (not_lt.2 h')
    · rw [hs]
      exact fun e => Outcome.noConfusion e
  · have hu := resetOutcome_of_le table t T h
    refine ⟨⟨?_, ?_⟩, ⟨fun _ => h, fun _ => hu⟩, ?_⟩
    · rintro ⟨s, hs⟩
      rw [hu] at hs
      exact Outcome.noConfusion hs
    · intro h'
      exact absurd h' (not_lt.2 h)
    · rw [hu]
      exact fun e => Outcome.noConfusion e

end csk

namespace csk

/-! ## The lattice coordinate map -/

/-- C26: for every basis with `t1.x·t2.y − t2.x·t1.y ≠ 0` the matrix `Mbc` of the
fill constructor is the inverse of the basis: `Mbc·(a·t1 + b·t2) = (a, b)` for all
`a`, `b`, and `(Mbc·p).x·t1 + (Mbc·p).y·t2 = p` for every point `p`. -/
theorem Mbc_inverse (t : IsohedralTiling)
    (hd : t.getT1.x * t.getT2.y - t.getT2.x * t.getT1.y ≠ 0) :
    (∀ a b : ℚ,
      (FillAlgorithm.Mbc t).mulVec
          ⟨a * t.getT1.x + b * t.getT2.x, a * t.getT1.y + b * t.getT2.y⟩ = ⟨a, b⟩) ∧
    (∀ p : dvec2,
      (⟨((FillAlgorithm.Mbc t).mulVec p).x * t.getT1.x
          + ((FillAlgorithm.Mbc t).mulVec p).y * t.getT2.x,
        ((FillAlgorithm.Mbc t).mulVec p).x * t.getT1.y
          + ((FillAlgorithm.Mbc t).mulVec p).y * t.getT2.y⟩ : dvec2) = p) := by
  constructor
  · intro a b
    simp only [FillAlgorithm.Mbc, FillAlgorithm.det, dmat2.mulVec, dvec2.mk.injEq]
    constructor
    · field_simp
      ring
    · field_simp
      ring
  · intro p
    obtain ⟨px, py⟩ := p
    simp only [FillAlgorithm.Mbc, FillAlgorithm.det, dmat2.mulVec, dvec2.mk.injEq]
    constructor
    · field_simp
      ring
    · field_simp
      ring

/-- C26 on the sheared lattice `t1 = (1,0)`, `t2 = (1/2,1)`. -/
theorem Mbc_inverse_witness :
    shearedTiling.getT1.x * shearedTiling.getT2.y
        - shearedTiling.getT2.x * shearedTiling.getT1.y ≠ 0 ∧
    (∀ a b : ℚ,
      (FillAlgorithm.Mbc shearedTiling).mulVec
          ⟨a * shearedTiling.getT1.x + b * shearedTiling.getT2.x,
            a * shearedTiling.getT1.y + b * shearedTiling.getT2.y⟩ = ⟨a, b⟩) ∧
    (∀ p : dvec2,
      (⟨((FillAlgorithm.Mbc shearedTiling).mulVec p).x * shearedTiling.getT1.x
          + ((FillAlgorithm.Mbc shearedTiling).mulVec p).y * shearedTiling.getT2.x,
        ((FillAlgorithm.Mbc shearedTiling).mulVec p).x * shearedTiling.getT1.y
          + ((FillAlgorithm.Mbc shearedTiling).mulVec p).y * shearedTiling.getT2.y⟩
        : dvec2) = p) :=
  ⟨by decide!, Mbc_inverse shearedTiling (by decide!)⟩

/-- The area of the mapped corners: the area of the input scaled by `|det|`. -/
theorem ptsArea2_eq (t : IsohedralTiling)
    (hd : t.getT1.x * t.getT2.y - t.getT2.x * t.getT1.y ≠ 0) (A B C D : dvec2) :
    ptsArea2 (FillAlgorithm.pts t A B C D) = |FillAlgorithm.det t| * signedArea2 A B C D := by
  have hinv : FillAlgorithm.det t * (t.getT1.x * t.getT2.y - t.getT2.x * t.getT1.y) = 1 := by
    unfold FillAlgorithm.det
    field_simp
  unfold FillAlgorithm.pts
  by_cases hneg : FillAlgorithm.det t < 0
  · simp only [if_pos hneg, ptsArea2, List.getD_cons_zero, List.getD_cons_succ,
      abs_of_neg hneg, signedArea2, FillAlgorithm.Mbc, dmat2.mulVec]
    linear_combination
      (-(FillAlgorithm.det t) *
        ((A.x * B.y - B.x * A.y) + (B.x * C.y - C.x * B.y) + (C.x * D.y - D.x * C.y) + (D.x * A.y - A.x * D.y))) * hinv
  · simp only [if_neg hneg, ptsArea2, List.getD_cons_zero, List.getD_cons_succ,
      abs_of_nonneg (not_lt.1 hneg), signedArea2, FillAlgorithm.Mbc, dmat2.mulVec]
    linear_combination
      ((FillAlgorithm.det t) *
        ((A.x * B.y - B.x * A.y) + (B.x * C.y - C.x * B.y) + (C.x * D.y - D.x * C.y) + (D.x * A.y - A.x * D.y))) * hinv

/-- C27: the handedness correction preserves winding.  For every lattice basis that is
not degenerate and every quadrilateral `(A, B, C, D)`, the mapped corners `pts[0..3]`
after the conditional swap of `pts[1]` and `pts[3]` have a signed area of the same sign
as the signed area of `(A, B, C, D)` (it is the area of the input times `|det|`), for a
right-handed and for a left-handed basis alike. -/
theorem handedness_preserves_winding (t : IsohedralTiling)
    (hd : t.getT1.x * t.getT2.y - t.getT2.x * t.getT1.y ≠ 0) (A B C D : dvec2) :
    ptsArea2 (FillAlgorithm.pts t A B C D) = |FillAlgorithm.det t| * signedArea2 A B C D ∧
    0 < |FillAlgorithm.det t| ∧
    (0 < ptsArea2 (FillAlgorithm.pts t A B C D) ↔ 0 < signedArea2 A B C D) ∧
    (ptsArea2 (FillAlgorithm.pts t A B C D) < 0 ↔ signedArea2 A B C D < 0) ∧
    (ptsArea2 (FillAlgorithm.pts t A B C D) = 0 ↔ signedArea2 A B C D = 0) := by
  have hdet : FillAlgorithm.det t ≠ 0 := by
    unfold FillAlgorithm.det
    exact one_div_ne_zero hd
  have hpos : 0 < |FillAlgorithm.det t| := abs_pos.2 hdet
  have harea := ptsArea2_eq t hd A B C D
  refine ⟨harea, hpos, ?_, ?_, ?_⟩
  · rw [harea]
    exact mul_pos_iff_of_pos_left hpos
  · rw [harea]
    constructor
    · intro h
      by_contra hn
      exact absurd h (not_lt.2 (mul_nonneg hpos.le (not_lt.1 hn)))
    · intro h
      exact mul_neg_of_pos_of_neg hpos h
  · rw [harea, mul_eq_zero]
    constructor
    · rintro (h | h)
      · exact absurd h hpos.ne.symm
      · exact h
    · intro h
      exact Or.inr h

/-- C27 on the left-handed lattice `t1 = (1,0)`, `t2 = (1/2,-1)` with the unit square
passed counter-clockwise. -/
theorem handedness_preserves_winding_witness :
    ((shearedTiling.setParameters [1 / 2, -1]).getT1.x
          * (shearedTiling.setParameters [1 / 2, -1]).getT2.y
        - (shearedTiling.setParameters [1 / 2, -1]).getT2.x
          * (shearedTiling.setParameters [1 / 2, -1]).getT1.y < 0) ∧
    0 < signedArea2 ⟨0, 0⟩ ⟨1, 0⟩ ⟨1, 1⟩ ⟨0, 1⟩ ∧
    0 < ptsArea2 (FillAlgorithm.pts (shearedTiling.setParameters [1 / 2, -1])
          ⟨0, 0⟩ ⟨1, 0⟩ ⟨1, 1⟩ ⟨0, 1⟩) :=
  ⟨by decide!, by decide!,
    (handedness_preserves_winding (shearedTiling.setParameters [1 / 2, -1]) (by decide!)
      ⟨0, 0⟩ ⟨1, 0⟩ ⟨1, 1⟩ ⟨0, 1⟩).2.2.1.2 (by decide!)⟩

end csk

namespace csk

/-! ## Edge transforms are similarities -/

theorem match_similarity (p q a b : dvec2) :
    distSq ((«match» p q).apply a) ((«match» p q).apply b) = distSq q p * distSq a b := by
  simp only [distSq, «match», dmat3.apply]
  ring

theorem orient_isometry (fl ro : Bool) (a b : dvec2) :
    distSq ((M_orients.getD (2 * fl.toNat + ro.toNat) default).apply a)
        ((M_orients.getD (2 * fl.toNat + ro.toNat) default).apply b) = distSq a b := by
  cases fl <;> cases ro <;>
    simp only [M_orients, Bool.toNat_false, Bool.toNat_true, Nat.reduceMul, Nat.reduceAdd,
      List.getD_cons_zero, List.getD_cons_succ, distSq, dmat3.apply] <;> ring

theorem mul_apply (A B : dmat3) (hB : B.m02 = 0 ∧ B.m12 = 0 ∧ B.m22 = 1) (p : dvec2) :
    (A.mul B).apply p = A.apply (B.apply p) := by
  obtain ⟨h0, h1, h2⟩ := hB
  simp only [dmat3.mul, dmat3.apply, h0, h1, h2, dvec2.mk.injEq]
  constructor <;> ring

theorem orient_affine (fl ro : Bool) :
    (M_orients.getD (2 * fl.toNat + ro.toNat) default).m02 = 0 ∧
    (M_orients.getD (2 * fl.toNat + ro.toNat) default).m12 = 0 ∧
    (M_orients.getD (2 * fl.toNat + ro.toNat) default).m22 = 1 := by
  cases fl <;> cases ro <;> decide!

/-- C29: every edge transform is a similarity whose scale is the edge length.  After
`recompute`, for every tiling edge `i` and all points `a`, `b`,
`|E_i(a) − E_i(b)|² = |v_(i+1) − v_i|² · |a − b|²`; `match( p, q )` maps `(0,0)` to `p`
and `(1,0)` to `q` with the linear part `[[q.x−p.x, −(q.y−p.y)], [q.y−p.y, q.x−p.x]]`;
and each of the four orientation matrices keeps distances and maps the point `(s, 0)`
of the canonical segment to `(s, 0)` or to `(1−s, 0)`. -/
theorem edge_transform_similarity (t : IsohedralTiling) (i : ℕ) (hi : i < t.numVertices)
    (he : t.numVertices ≤ t.edges.length) :
    (∀ a b : dvec2,
      distSq ((t.recompute.edges.getD i default).apply a)
          ((t.recompute.edges.getD i default).apply b)
        = distSq (t.recompute.getVertex ((i + 1) % t.recompute.numVertices))
            (t.recompute.getVertex i) * distSq a b) ∧
    (∀ p q : dvec2,
      («match» p q).apply ⟨0, 0⟩ = p ∧ («match» p q).apply ⟨1, 0⟩ = q ∧
      («match» p q).m00 = q.x - p.x ∧ («match» p q).m10 = -(q.y - p.y) ∧
      («match» p q).m01 = q.y - p.y ∧ («match» p q).m11 = q.x - p.x) ∧
    (∀ k, k < 4 → ∀ a b : dvec2,
      distSq ((M_orients.getD k default).apply a) ((M_orients.getD k default).apply b)
        = distSq a b) ∧
    (∀ k, k < 4 → ∀ s : ℚ,
      (M_orients.getD k default).apply ⟨s, 0⟩ = ⟨s, 0⟩ ∨
      (M_orients.getD k default).apply ⟨s, 0⟩ = ⟨1 - s, 0⟩) := by
  refine ⟨?_, ?_, ?_, ?_⟩
  · intro a b
    rw [IsohedralTiling.recompute_edge t i hi he, mul_apply _ _ (orient_affine _ _),
      mul_apply _ _ (orient_affine _ _), match_similarity, orient_isometry]
  · intro p q
    obtain ⟨px, py⟩ := p
    obtain ⟨qx, qy⟩ := q
    refine ⟨?_, ?_, rfl, ?_, rfl, rfl⟩
    · simp only [«match», dmat3.apply, dvec2.mk.injEq]
      constructor <;> ring
    · simp only [«match», dmat3.apply, dvec2.mk.injEq]
      constructor <;> ring
    · simp only [«match»]
      ring
  · intro k hk a b
    have h : k = 0 ∨ k = 1 ∨ k = 2 ∨ k = 3 := by omega
    rcases h with rfl | rfl | rfl | rfl
    · exact orient_isometry false false a b
    · exact orient_isometry false true a b
    · exact orient_isometry true false a b
    · exact orient_isometry true true a b
  · intro k hk s
    have h : k = 0 ∨ k = 1 ∨ k = 2 ∨ k = 3 := by omega
    rcases h with rfl | rfl | rfl | rfl <;>
      simp only [M_orients, List.getD_cons_zero, List.getD_cons_succ, dmat3.apply,
        dvec2.mk.injEq]
    · left; constructor <;> ring
    · right; constructor <;> ring
    · right; constructor <;> ring
    · left; constructor <;> ring

/-- C29 at edge 1 of the sheared parallelogram tiling with the parameters `(1/3, 2)`. -/
theorem edge_transform_similarity_witness :
    1 < (shearedTiling.setParameters [1 / 3, 2]).numVertices ∧
    (shearedTiling.setParameters [1 / 3, 2]).numVertices
      ≤ (shearedTiling.setParameters [1 / 3, 2]).edges.length ∧
    (∀ a b : dvec2,
      distSq (((shearedTiling.setParameters [1 / 3, 2]).recompute.edges.getD 1 default).apply a)
          (((shearedTiling.setParameters [1 / 3, 2]).recompute.edges.getD 1 default).apply b)
        = distSq ((shearedTiling.setParameters [1 / 3, 2]).recompute.getVertex
              ((1 + 1) % (shearedTiling.setParameters [1 / 3, 2]).recompute.numVertices))
            ((shearedTiling.setParameters [1 / 3, 2]).recompute.getVertex 1) * distSq a b) ∧
    distSq ((shearedTiling.setParameters [1 / 3, 2]).recompute.getVertex 2)
        ((shearedTiling.setParameters [1 / 3, 2]).recompute.getVertex 1) = 37 / 9 :=
  ⟨by decide!, by decide!,
    (edge_transform_similarity (shearedTiling.setParameters [1 / 3, 2]) 1 (by decide!)
      (by decide!)).1, by decide!⟩

/-! ## The symmetry of the two halves of an edge -/

/-- The mirror image across the perpendicular bisector of `v w`, in the frame of the edge:
the image of `(x, y)` goes to the image of `(1 - x, y)`. -/
theorem mirror_match_orient (v w : dvec2) (hd : distSq v w ≠ 0) (fl ro : Bool) (x y : ℚ) :
    mirrorAcrossBisector v w
        (((«match» v w).mul (M_orients.getD (2 * fl.toNat + ro.toNat) default)).apply ⟨x, y⟩)
      = ((«match» v w).mul (M_orients.getD (2 * fl.toNat + ro.toNat) default)).apply
          ⟨1 - x, y⟩ := by
  have hd' : (v.x - w.x) ^ 2 + (v.y - w.y) ^ 2 ≠ 0 := hd
  cases fl <;> cases ro <;>
    simp only [M_orients, Bool.toNat_false, Bool.toNat_true, Nat.reduceMul, Nat.reduceAdd,
      List.getD_cons_zero, List.getD_cons_succ, mirrorAcrossBisector, distSq, «match»,
      dmat3.mul, dmat3.apply, dvec2.mk.injEq] <;>
    constructor <;> field_simp <;> ring

/-- The point reflection through the midpoint of `v w`, in the frame of the edge: the
images of `(x, y)` and of `(1 - x, -y)` add up to `v + w`. -/
theorem reflect_match_orient (v w : dvec2) (fl ro : Bool) (x y : ℚ) :
    ((«match» v w).mul (M_orients.getD (2 * fl.toNat + ro.toNat) default)).apply ⟨x, y⟩
      = ⟨v.x + w.x - (((«match» v w).mul
            (M_orients.getD (2 * fl.toNat + ro.toNat) default)).apply ⟨1 - x, -y⟩).x,
          v.y + w.y - (((«match» v w).mul
            (M_orients.getD (2 * fl.toNat + ro.toNat) default)).apply ⟨1 - x, -y⟩).y⟩ := by
  cases fl <;> cases ro <;>
    simp only [M_orients, Bool.toNat_false, Bool.toNat_true, Nat.reduceMul, Nat.reduceAdd,
      List.getD_cons_zero, List.getD_cons_succ, «match», dmat3.mul, dmat3.apply,
      dvec2.mk.injEq] <;>
    constructor <;> ring

theorem half_apply (E : dmat3) (p : dvec2) :
    (E.mul (TSPI_U.getD 0 default)).apply p = E.apply ⟨p.x / 2, p.y / 2⟩ ∧
    (E.mul (TSPI_U.getD 1 default)).apply p = E.apply ⟨1 - p.x / 2, p.y / 2⟩ ∧
    (E.mul (TSPI_S.getD 0 default)).apply p = E.apply ⟨p.x / 2, p.y / 2⟩ ∧
    (E.mul (TSPI_S.getD 1 default)).apply p = E.apply ⟨1 - p.x / 2, -(p.y / 2)⟩ := by
  simp only [TSPI_U, TSPI_S, List.getD_cons_zero, List.getD_cons_succ, dmat3.mul,
    dmat3.apply, dvec2.mk.injEq]
  refine ⟨⟨?_, ?_⟩, ⟨?_, ?_⟩, ⟨?_, ?_⟩, ⟨?_, ?_⟩⟩ <;> ring

/-- C28: half-edge symmetry.  After `recompute`, for every tiling edge `i` of class U
(with `v_i ≠ v_(i+1)`) and every local point `p`, the image of `p` under part 1 is the
mirror image of the image of `p` under part 0 across the perpendicular bisector of the
segment `v_i v_(i+1)`; for every edge of class S and every `p` the two images add up to
`v_i + v_(i+1)`.  Both hold whether the edge is reversed or not. -/
theorem half_edge_symmetry (t : IsohedralTiling) (i : ℕ) (hi : i < t.numVertices)
    (he : t.numVertices ≤ t.edges.length) :
    (t.recompute.edgeClass i = EdgeShape.U →
      distSq (t.recompute.getVertex i)
        (t.recompute.getVertex ((i + 1) % t.recompute.numVertices)) ≠ 0 →
      ∀ p : dvec2,
        (TileShapePartIterator.partAt t.recompute i 1).getTransform.apply p
          = mirrorAcrossBisector (t.recompute.getVertex i)
              (t.recompute.getVertex ((i + 1) % t.recompute.numVertices))
              ((TileShapePartIterator.partAt t.recompute i 0).getTransform.apply p)) ∧
    (t.recompute.edgeClass i = EdgeShape.S →
      ∀ p : dvec2,
        ((TileShapePartIterator.partAt t.recompute i 0).getTransform.apply p).x
            + ((TileShapePartIterator.partAt t.recompute i 1).getTransform.apply p).x
          = (t.recompute.getVertex i).x
            + (t.recompute.getVertex ((i + 1) % t.recompute.numVertices)).x ∧
        ((TileShapePartIterator.partAt t.recompute i 0).getTransform.apply p).y
            + ((TileShapePartIterator.partAt t.recompute i 1).getTransform.apply p).y
          = (t.recompute.getVertex i).y
            + (t.recompute.getVertex ((i + 1) % t.recompute.numVertices)).y) := by
  have hi' : i < t.recompute.numVertices := hi
  have hE := t.recompute_edge i hi he
  constructor
  · intro hU hd p
    have hc' : ¬ (t.recompute.edgeClass i = EdgeShape.J ∨
        t.recompute.edgeClass i = EdgeShape.I) := by rw [hU]; decide
    have h0 := (TileShapePartIterator.partAt_half t.recompute i 0 hi' hc').1
    have h1 := (TileShapePartIterator.partAt_half t.recompute i 1 hi' hc').1
    simp only [TileShapePartIterator.getTransform]
    rw [h0, h1, if_pos hU]
    cases t.recompute.reversals.getD i false
    · simp only [Bool.false_eq_true, if_false]
      rw [(half_apply _ p).1, (half_apply _ p).2.1, hE, mirror_match_orient _ _ hd]
    · simp only [if_true, Nat.sub_zero, Nat.sub_self]
      rw [(half_apply _ p).1, (half_apply _ p).2.1, hE, mirror_match_orient _ _ hd]
      have hx : (1 : ℚ) - (1 - p.x / 2) = p.x / 2 := by ring
      rw [hx]
  · intro hS p
    have hc' : ¬ (t.recompute.edgeClass i = EdgeShape.J ∨
        t.recompute.edgeClass i = EdgeShape.I) := by rw [hS]; decide
    have hnU : ¬ t.recompute.edgeClass i = EdgeShape.U := by rw [hS]; decide
    have h0 := (TileShapePartIterator.partAt_half t.recompute i 0 hi' hc').1
    have h1 := (TileShapePartIterator.partAt_half t.recompute i 1 hi' hc').1
    simp only [TileShapePartIterator.getTransform]
    rw [h0, h1, if_neg hnU]
    cases t.recompute.reversals.getD i false
    · simp only [Bool.false_eq_true, if_false]
      rw [(half_apply _ p).2.2.1, (half_apply _ p).2.2.2, hE,
        reflect_match_orient _ _ _ _ (p.x / 2) (p.y / 2)]
      constructor <;> simp only [] <;> ring
    · simp only [if_true, Nat.sub_zero, Nat.sub_self]
      rw [(half_apply _ p).2.2.1, (half_apply _ p).2.2.2, hE,
        reflect_match_orient _ _ _ _ (p.x / 2) (p.y / 2)]
      constructor <;> simp only [] <;> ring

/-- C28 at edge 0 (class U) of the tiling with one edge of each class. -/
theorem half_edge_symmetry_witness :
    0 < halvedTiling.numVertices ∧ halvedTiling.numVertices ≤ halvedTiling.edges.length ∧
    halvedTiling.recompute.edgeClass 0 = EdgeShape.U ∧
    distSq (halvedTiling.recompute.getVertex 0)
      (halvedTiling.recompute.getVertex ((0 + 1) % halvedTiling.recompute.numVertices)) ≠ 0 ∧
    ∀ p : dvec2,
      (TileShapePartIterator.partAt halvedTiling.recompute 0 1).getTransform.apply p
        = mirrorAcrossBisector (halvedTiling.recompute.getVertex 0)
            (halvedTiling.recompute.getVertex
              ((0 + 1) % halvedTiling.recompute.numVertices))
            ((TileShapePartIterator.partAt halvedTiling.recompute 0 0).getTransform.apply p) :=
  ⟨by decide!, by decide!, by decide!, by decide!,
    (half_edge_symmetry halvedTiling 0 (by decide!) (by decide!)).1 (by decide!) (by decide!)⟩

end csk

namespace csk

/-! ## Affine evaluation -/

theorem foldl_add_eq_sum (f : ℕ → ℚ) (n : ℕ) :
    (List.range n).foldl (fun total idx => total + f idx) 0 = ((List.range n).map f).sum := by
  induction n with
  | zero => rfl
  | succ n ih =>
    rw [List.range_succ, List.foldl_append, List.map_append, List.sum_append, ih]
    simp

theorem getD_take_of_lt (l : List ℚ) (m j : ℕ) (hj : j < m) :
    (l.take m).getD j 0 = l.getD j 0 := by
  simp [List.getD_eq_getElem?_getD, List.getElem?_take, hj]

/-- The function `ddot` on the coefficients from row `k` on is the affine value of
row `k`. -/
theorem ddot_eq_affineValue (table p : List ℚ) (np k : ℕ) :
    ddot (table.drop (k * (np + 1))) p np = affineValue (coeffRow table np k) p np := by
  unfold ddot affineValue coeffRow
  rw [foldl_add_eq_sum, getD_take_of_lt _ _ _ (Nat.lt_succ_self np)]
  congr 1
  congr 1
  apply List.map_congr_left
  intro j hj
  rw [getD_take_of_lt _ _ _ (Nat.lt_succ_of_lt (List.mem_range.1 hj))]

theorem fillVector_eq_rows (table p : List ℚ) (np k : ℕ) :
    fillVector (table.drop (k * (np + 1))) p np
      = ⟨affineValue (coeffRow table np k) p np, affineValue (coeffRow table np (k + 1)) p np⟩ := by
  unfold fillVector
  rw [List.drop_drop, ddot_eq_affineValue]
  have h : k * (np + 1) + (np + 1) = (k + 1) * (np + 1) := by ring
  rw [h, ddot_eq_affineValue]

theorem fillMatrix_eq_rows (table p : List ℚ) (np k : ℕ) :
    fillMatrix (table.drop (k * (np + 1))) p np
      = { m00 := affineValue (coeffRow table np k) p np
          m10 := affineValue (coeffRow table np (k + 1)) p np
          m20 := affineValue (coeffRow table np (k + 2)) p np
          m01 := affineValue (coeffRow table np (k + 3)) p np
          m11 := affineValue (coeffRow table np (k + 4)) p np
          m21 := affineValue (coeffRow table np (k + 5)) p np
          m02 := 0
          m12 := 0
          m22 := 1 } := by
  unfold fillMatrix
  have h1 : k * (np + 1) + (np + 1) = (k + 1) * (np + 1) := by ring
  have h2 : k * (np + 1) + 2 * (np + 1) = (k + 2) * (np + 1) := by ring
  have h3 : k * (np + 1) + 3 * (np + 1) = (k + 3) * (np + 1) := by ring
  have h4 : k * (np + 1) + 4 * (np + 1) = (k + 4) * (np + 1) := by ring
  have h5 : k * (np + 1) + 5 * (np + 1) = (k + 5) * (np + 1) := by ring
  simp only [List.drop_drop, h1, h2, h3, h4, h5, ddot_eq_affineValue]

theorem affineValue_zero (row p : List ℚ) : affineValue row p 0 = row.getD 0 0 := by
  simp [affineValue]

/-- C30: affine evaluation.  With `np` parameters `p` and coefficient rows of length
`np + 1`, `recompute` sets vertex `i` to `(row(2i)·p + bias, row(2i+1)·p + bias)` of the
vertex table, aspect `j` to the matrix whose entry in row `r` and column `c` is
`row(6j + 3r + c)·p + bias` of the aspect table with the bottom row `(0, 0, 1)`, `t1` to
the rows 0, 1 and `t2` to the rows 2, 3 of the translation table; the bias is the last
entry of the row, and without parameters every value is the bias of its row. -/
theorem affine_evaluation (t : IsohedralTiling) (hv : t.numVertices ≤ t.verts.length)
    (ha : t.numAspects ≤ t.aspects.length) :
    (∀ i, i < t.numVertices →
      t.recompute.getVertex i
        = ⟨affineValue (coeffRow t.tiling_vertex_coefficients t.num_params (2 * i))
              t.parameters t.num_params,
            affineValue (coeffRow t.tiling_vertex_coefficients t.num_params (2 * i + 1))
              t.parameters t.num_params⟩) ∧
    (∀ j, j < t.numAspects →
      t.recompute.getAspectTransform j
        = { m00 := affineValue (coeffRow t.aspect_xform_coefficients t.num_params (6 * j))
              t.parameters t.num_params
            m10 := affineValue (coeffRow t.aspect_xform_coefficients t.num_params (6 * j + 1))
              t.parameters t.num_params
            m20 := affineValue (coeffRow t.aspect_xform_coefficients t.num_params (6 * j + 2))
              t.parameters t.num_params
            m01 := affineValue (coeffRow t.aspect_xform_coefficients t.num_params (6 * j + 3))
              t.parameters t.num_params
            m11 := affineValue (coeffRow t.aspect_xform_coefficients t.num_params (6 * j + 4))
              t.parameters t.num_params
            m21 := affineValue (coeffRow t.aspect_xform_coefficients t.num_params (6 * j + 5))
              t.parameters t.num_params
            m02 := 0
            m12 := 0
            m22 := 1 }) ∧
    t.recompute.getT1
      = ⟨affineValue (coeffRow t.translation_vector_coefficients t.num_params 0)
            t.parameters t.num_params,
          affineValue (coeffRow t.translation_vector_coefficients t.num_params 1)
            t.parameters t.num_params⟩ ∧
    t.recompute.getT2
      = ⟨affineValue (coeffRow t.translation_vector_coefficients t.num_params 2)
            t.parameters t.num_params,
          affineValue (coeffRow t.translation_vector_coefficients t.num_params 3)
            t.parameters t.num_params⟩ ∧
    (∀ (row p : List ℚ) (np : ℕ),
      affineValue row p np
        = ((List.range np).map (fun j => row.getD j 0 * p.getD j 0)).sum + row.getD np 0) ∧
    (t.num_params = 0 → ∀ (table : List ℚ) (k : ℕ),
      affineValue (coeffRow table t.num_params k) t.parameters t.num_params
        = table.getD k 0) := by
  refine ⟨?_, ?_, ?_, ?_, fun _ _ _ => rfl, ?_⟩
  · intro i hi
    have h : i * (2 * (t.num_params + 1)) = 2 * i * (t.num_params + 1) := by ring
    simp only [IsohedralTiling.getVertex, IsohedralTiling.recompute,
      IsohedralTiling.recomputeVerts]
    rw [foldl_set_getD _ _ _ _ _ hi (lt_of_lt_of_le hi hv), h, fillVector_eq_rows]
  · intro j hj
    have h : j * (6 * (t.num_params + 1)) = 6 * j * (t.num_params + 1) := by ring
    simp only [IsohedralTiling.getAspectTransform, IsohedralTiling.recompute,
      IsohedralTiling.recomputeAspects]
    rw [foldl_set_getD _ _ _ _ _ hj (lt_of_lt_of_le hj ha), h, fillMatrix_eq_rows]
  · have h := fillVector_eq_rows t.translation_vector_coefficients t.parameters t.num_params 0
    rw [Nat.zero_mul, List.drop_zero] at h
    exact h
  · exact fillVector_eq_rows t.translation_vector_coefficients t.parameters t.num_params 2
  · intro h0 table k
    rw [h0, affineValue_zero]
    simp [coeffRow, List.getD_eq_getElem?_getD, List.getElem?_take, List.getElem?_drop]

/-- C30 at the sheared parallelogram tiling with the parameters `(1/3, 2)`: vertex 2 is
`(1 + 1/3, 2)` and `t2` is `(1/3, 2)`. -/
theorem affine_evaluation_witness :
    (shearedTiling.setParameters [1 / 3, 2]).numVertices
      ≤ (shearedTiling.setParameters [1 / 3, 2]).verts.length ∧
    (shearedTiling.setParameters [1 / 3, 2]).numAspects
      ≤ (shearedTiling.setParameters [1 / 3, 2]).aspects.length ∧
    (shearedTiling.setParameters [1 / 3, 2]).recompute.getVertex 2
      = ⟨affineValue (coeffRow (shearedTiling.setParameters [1 / 3, 2]).tiling_vertex_coefficients
            (shearedTiling.setParameters [1 / 3, 2]).num_params (2 * 2))
            (shearedTiling.setParameters [1 / 3, 2]).parameters
            (shearedTiling.setParameters [1 / 3, 2]).num_params,
          affineValue (coeffRow (shearedTiling.setParameters [1 / 3, 2]).tiling_vertex_coefficients
            (shearedTiling.setParameters [1 / 3, 2]).num_params (2 * 2 + 1))
            (shearedTiling.setParameters [1 / 3, 2]).parameters
            (shearedTiling.setParameters [1 / 3, 2]).num_params⟩ ∧
    (shearedTiling.setParameters [1 / 3, 2]).recompute.getVertex 2 = ⟨4 / 3, 2⟩ ∧
    (shearedTiling.setParameters [1 / 3, 2]).recompute.getT2 = ⟨1 / 3, 2⟩ :=
  ⟨by decide!, by decide!,
    (affine_evaluation (shearedTiling.setParameters [1 / 3, 2]) (by decide!) (by decide!)).1 2
      (by decide!), by decide!, by decide!⟩

end csk

namespace csk

/-! ## The sides of a slab -/

/-- C23 fails on the code: over the unit lattice the strictly convex parallelogram with
the corners `(0,0)`, `(10,1)`, `(21,12)`, `(11,11)`, passed counter-clockwise, gives a
first slab of height 1 whose left side starts at `x = 0` with slope 10 and whose right
side starts at `x = 0` with slope 1: at `s = 1` the left side is at 10, to the right of
the right side at 1.  The corner `(10,1)` is taken for the left one because its `x` is
the smaller, and `fillFixX` cannot tell the sides of a slab that starts in a point. -/
theorem left_right_inverted :
    syntheticTiling.getT1.x * syntheticTiling.getT2.y
        - syntheticTiling.getT2.x * syntheticTiling.getT1.y ≠ 0 ∧
    (0 < turn ⟨0, 0⟩ ⟨10, 1⟩ ⟨21, 12⟩ ∧ 0 < turn ⟨10, 1⟩ ⟨21, 12⟩ ⟨11, 11⟩ ∧
      0 < turn ⟨21, 12⟩ ⟨11, 11⟩ ⟨0, 0⟩ ∧ 0 < turn ⟨11, 11⟩ ⟨0, 0⟩ ⟨10, 1⟩) ∧
    skewFill.num_calls = 3 ∧
    skewFill.slab 0 = ⟨0, 1, 0, 0, 10, 1⟩ ∧
    (0 : ℚ) ≤ 1 ∧ (1 : ℚ) ≤ (skewFill.slab 0).ymax - (skewFill.slab 0).ymin ∧
    ¬ ((skewFill.slab 0).xlo + (skewFill.slab 0).dxlo * 1
        ≤ (skewFill.slab 0).xhi + (skewFill.slab 0).dxhi * 1) ∧
    ((FillRegionIterator.visited syntheticTiling skewFill 400 skewFill.begin).map
        (fun it => (it.getT1, it.getT2))).take 3 = [(0, 0), (1, 1), (2, 1)] := by
  decide!

/-! ## The `y` ranges of the slabs -/

theorem fillFixX_yrange (n : ℕ) (dbg : Bool) (data : List Slab) (A B C D : dvec2)
    (top : Bool) (hAB : A.y = B.y) (hCD : C.y = D.y) :
    ∃ s : Slab, FillAlgorithm.fillFixX ⟨n, dbg, data⟩ A B C D top = ⟨n + 1, dbg, data.set n s⟩ ∧
      s.ymin = A.y ∧ s.ymax = (if top then C.y + 1 else C.y) := by
  unfold FillAlgorithm.fillFixX FillAlgorithm.doFill
  split_ifs
  · exact ⟨_, rfl, hAB.symm, by simp only [hCD, if_true]⟩
  · exact ⟨_, rfl, hAB.symm, by simp only [hCD, if_false, Bool.false_eq_true]⟩
  · exact ⟨_, rfl, rfl, by simp only [if_true]⟩
  · exact ⟨_, rfl, rfl, by simp only [if_false, Bool.false_eq_true]⟩

theorem fillFixY_yrange (dbg : Bool) (A B C D : dvec2) :
    ∃ s : Slab,
      FillAlgorithm.fillFixY ⟨0, dbg, List.replicate 3 default⟩ A B C D true
        = ⟨1, dbg, [s, default, default]⟩ ∧
      s.ymin = min A.y C.y ∧ s.ymax = max A.y C.y + 1 := by
  unfold FillAlgorithm.fillFixY FillAlgorithm.doFill
  by_cases h : A.y > C.y
  · rw [if_pos h]
    exact ⟨_, rfl, (min_eq_right (le_of_lt h)).symm, by
      simp only [if_true, max_eq_left (le_of_lt h)]⟩
  · rw [if_neg h]
    exact ⟨_, rfl, (min_eq_left (not_lt.1 h)).symm, by
      simp only [if_true, max_eq_right (not_lt.1 h)]⟩

/-- The `y` ranges of the three slabs of the last branch of the constructor: from the
lowest corner to the lower of its two neighbours, on to the higher of them, and from
there to the corner opposite the lowest one, plus one. -/
theorem create_slow_yranges (t : IsohedralTiling) (A B C D : dvec2) (dbg : Bool)
    (h1 : ¬ |((FillAlgorithm.pts t A B C D).getD 0 default).y
        - ((FillAlgorithm.pts t A B C D).getD 1 default).y| < tol)
    (h2 : ¬ |((FillAlgorithm.pts t A B C D).getD 1 default).y
        - ((FillAlgorithm.pts t A B C D).getD 2 default).y| < tol) :
    ∃ s0 s1 s2 : Slab,
      FillAlgorithm.create t A B C D dbg = ⟨3, dbg, [s0, s1, s2]⟩ ∧
      s0.ymin = ((FillAlgorithm.pts t A B C D).getD
        (FillAlgorithm.lowest (FillAlgorithm.pts t A B C D)) default).y ∧
      s0.ymax = min
        ((FillAlgorithm.pts t A B C D).getD
          ((FillAlgorithm.lowest (FillAlgorithm.pts t A B C D) + 1) % 4) default).y
        ((FillAlgorithm.pts t A B C D).getD
          ((FillAlgorithm.lowest (FillAlgorithm.pts t A B C D) + 3) % 4) default).y ∧
      s1.ymin = s0.ymax ∧
      s1.ymax = max
        ((FillAlgorithm.pts t A B C D).getD
          ((FillAlgorithm.lowest (FillAlgorithm.pts t A B C D) + 1) % 4) default).y
        ((FillAlgorithm.pts t A B C D).getD
          ((FillAlgorithm.lowest (FillAlgorithm.pts t A B C D) + 3) % 4) default).y ∧
      s2.ymin = s1.ymax ∧
      s2.ymax = ((FillAlgorithm.pts t A B C D).getD
          ((FillAlgorithm.lowest (FillAlgorithm.pts t A B C D) + 2) % 4) default).y + 1 := by
  simp only [FillAlgorithm.create, if_neg h1, if_neg h2]
  generalize (FillAlgorithm.pts t A B C D).getD
    (FillAlgorithm.lowest (FillAlgorithm.pts t A B C D)) default = b
  generalize (FillAlgorithm.pts t A B C D).getD
    ((FillAlgorithm.lowest (FillAlgorithm.pts t A B C D) + 1) % 4) default = l
  generalize (FillAlgorithm.pts t A B C D).getD
    ((FillAlgorithm.lowest (FillAlgorithm.pts t A B C D) + 2) % 4) default = tp
  generalize (FillAlgorithm.pts t A B C D).getD
    ((FillAlgorithm.lowest (FillAlgorithm.pts t A B C D) + 3) % 4) default = r
  by_cases hx : l.x > r.x
  · simp only [if_pos hx]
    by_cases hy : r.y < l.y
    · rw [if_pos hy]
      obtain ⟨s0, e0, a0, b0⟩ := fillFixX_yrange 0 dbg (List.replicate 3 default) b b
        (sampleAtHeight b l r.y) r false rfl rfl
      obtain ⟨s1, e1, a1, b1⟩ := fillFixX_yrange 1 dbg ((List.replicate 3 default).set 0 s0) r
        (sampleAtHeight b l r.y) l (sampleAtHeight r tp l.y) false rfl rfl
      obtain ⟨s2, e2, a2, b2⟩ := fillFixX_yrange 2 dbg
        (((List.replicate 3 default).set 0 s0).set 1 s1) (sampleAtHeight r tp l.y) l tp tp
        true rfl rfl
      rw [e0, e1, e2]
      refine ⟨s0, s1, s2, rfl, a0, ?_, ?_, ?_, ?_, ?_⟩
      · rw [b0]; exact (min_eq_right hy.le).symm
      · rw [a1, b0]; rfl
      · rw [b1]; exact (max_eq_left hy.le).symm
      · rw [a2, b1]; rfl
      · rw [b2]; rfl
    · rw [if_neg hy]
      obtain ⟨s0, e0, a0, b0⟩ := fillFixX_yrange 0 dbg (List.replicate 3 default) b b l
        (sampleAtHeight b r l.y) false rfl rfl
      obtain ⟨s1, e1, a1, b1⟩ := fillFixX_yrange 1 dbg ((List.replicate 3 default).set 0 s0)
        (sampleAtHeight b r l.y) l (sampleAtHeight l tp r.y) r false rfl rfl
      obtain ⟨s2, e2, a2, b2⟩ := fillFixX_yrange 2 dbg
        (((List.replicate 3 default).set 0 s0).set 1 s1) r (sampleAtHeight l tp r.y) tp tp
        true rfl rfl
      rw [e0, e1, e2]
      refine ⟨s0, s1, s2, rfl, a0, ?_, ?_, ?_, ?_, ?_⟩
      · rw [b0]; exact (min_eq_left (not_lt.1 hy)).symm
      · rw [a1, b0]; rfl
      · rw [b1]; exact (max_eq_right (not_lt.1 hy)).symm
      · rw [a2, b1]; rfl
      · rw [b2]; rfl
  · simp only [if_neg hx]
    by_cases hy : l.y < r.y
    · rw [if_pos hy]
      obtain ⟨s0, e0, a0, b0⟩ := fillFixX_yrange 0 dbg (List.replicate 3 default) b b
        (sampleAtHeight b r l.y) l false rfl rfl
      obtain ⟨s1, e1, a1, b1⟩ := fillFixX_yrange 1 dbg ((List.replicate 3 default).set 0 s0) l
        (sampleAtHeight b r l.y) r (sampleAtHeight l tp r.y) false rfl rfl
      obtain ⟨s2, e2, a2, b2⟩ := fillFixX_yrange 2 dbg
        (((List.replicate 3 default).set 0 s0).set 1 s1) (sampleAtHeight l tp r.y) r tp tp
        true rfl rfl
      rw [e0, e1, e2]
      refine ⟨s0, s1, s2, rfl, a0, ?_, ?_, ?_, ?_, ?_⟩
      · rw [b0]; exact (min_eq_left hy.le).symm
      · rw [a1, b0]; rfl
      · rw [b1]; exact (max_eq_right hy.le).symm
      · rw [a2, b1]; rfl
      · rw [b2]; rfl
    · rw [if_neg hy]
      obtain ⟨s0, e0, a0, b0⟩ := fillFixX_yrange 0 dbg (List.replicate 3 default) b b r
        (sampleAtHeight b l r.y) false rfl rfl
      obtain ⟨s1, e1, a1, b1⟩ := fillFixX_yrange 1 dbg ((List.replicate 3 default).set 0 s0)
        (sampleAtHeight b l r.y) r (sampleAtHeight r tp l.y) l false rfl rfl
      obtain ⟨s2, e2, a2, b2⟩ := fillFixX_yrange 2 dbg
        (((List.replicate 3 default).set 0 s0).set 1 s1) l (sampleAtHeight r tp l.y) tp tp
        true rfl rfl
      rw [e0, e1, e2]
      refine ⟨s0, s1, s2, rfl, a0, ?_, ?_, ?_, ?_, ?_⟩
      · rw [b0]; exact (min_eq_right (not_lt.1 hy)).symm
      · rw [a1, b0]; rfl
      · rw [b1]; exact (max_eq_left (not_lt.1 hy)).symm
      · rw [a2, b1]; rfl
      · rw [b2]; rfl

theorem create_fast2 (t : IsohedralTiling) (A B C D : dvec2) (dbg : Bool)
    (h1 : ¬ |((FillAlgorithm.pts t A B C D).getD 0 default).y
        - ((FillAlgorithm.pts t A B C D).getD 1 default).y| < tol)
    (h2 : |((FillAlgorithm.pts t A B C D).getD 1 default).y
        - ((FillAlgorithm.pts t A B C D).getD 2 default).y| < tol) :
    FillAlgorithm.create t A B C D dbg
      = FillAlgorithm.fillFixY ⟨0, dbg, List.replicate 3 default⟩
          ((FillAlgorithm.pts t A B C D).getD 1 default)
          ((FillAlgorithm.pts t A B C D).getD 2 default)
          ((FillAlgorithm.pts t A B C D).getD 3 default)
          ((FillAlgorithm.pts t A B C D).getD 0 default) true := by
  simp only [FillAlgorithm.create, if_neg h1, if_pos h2]

/-- The corner found by the `lowest` scan has the least `y` of the four. -/
theorem lowest_le (q0 q1 q2 q3 : dvec2) :
    (([q0, q1, q2, q3] : List dvec2).getD (FillAlgorithm.lowest [q0, q1, q2, q3]) default).y
        ≤ q0.y ∧
    (([q0, q1, q2, q3] : List dvec2).getD (FillAlgorithm.lowest [q0, q1, q2, q3]) default).y
        ≤ q1.y ∧
    (([q0, q1, q2, q3] : List dvec2).getD (FillAlgorithm.lowest [q0, q1, q2, q3]) default).y
        ≤ q2.y ∧
    (([q0, q1, q2, q3] : List dvec2).getD (FillAlgorithm.lowest [q0, q1, q2, q3]) default).y
        ≤ q3.y := by
  unfold FillAlgorithm.lowest
  simp only [List.foldl, List.getD_cons_zero, List.getD_cons_succ]
  split_ifs <;> simp only [List.getD_cons_zero, List.getD_cons_succ] at * <;>
    refine ⟨?_, ?_, ?_, ?_⟩ <;> linarith

theorem min4_eq (a b c d m : ℚ) (ha : m ≤ a) (hb : m ≤ b) (hc : m ≤ c) (hd : m ≤ d)
    (hm : m = a ∨ m = b ∨ m = c ∨ m = d) : min (min (min a b) c) d = m := by
  apply le_antisymm
  · rcases hm with rfl | rfl | rfl | rfl
    · exact le_trans (min_le_left _ _) (le_trans (min_le_left _ _) (min_le_left _ _))
    · exact le_trans (min_le_left _ _) (le_trans (min_le_left _ _) (min_le_right _ _))
    · exact le_trans (min_le_left _ _) (min_le_right _ _)
    · exact min_le_right _ _
  · exact le_min (le_min (le_min ha hb) hc) hd

theorem max4_eq (a b c d m : ℚ) (ha : a ≤ m) (hb : b ≤ m) (hc : c ≤ m) (hd : d ≤ m)
    (hm : m = a ∨ m = b ∨ m = c ∨ m = d) : max (max (max a b) c) d = m := by
  apply le_antisymm
  · exact max_le (max_le (max_le ha hb) hc) hd
  · rcases hm with rfl | rfl | rfl | rfl
    · exact le_trans (le_trans (le_max_left _ _) (le_max_left _ _)) (le_max_left _ _)
    · exact le_trans (le_trans (le_max_right _ _) (le_max_left _ _)) (le_max_left _ _)
    · exact le_trans (le_max_right _ _) (le_max_left _ _)
    · exact le_max_right _ _

/-- C24, as stated, fails: over the unit lattice the convex quadrilateral with the
corners `(0,0)`, `(4,1)`, `(4,2)`, `(0,5)`, passed counter-clockwise, gives three slabs
of which the last one runs from `ymin = 5` to `ymax = 3`: the corner opposite the lowest
one, which the constructor takes for the top, is not the highest, and the greatest
lattice `y` plus one is 6. -/
theorem slab_ranges_counterexample :
    (0 < turn ⟨0, 0⟩ ⟨4, 1⟩ ⟨4, 2⟩ ∧ 0 < turn ⟨4, 1⟩ ⟨4, 2⟩ ⟨0, 5⟩ ∧
      0 < turn ⟨4, 2⟩ ⟨0, 5⟩ ⟨0, 0⟩ ∧ 0 < turn ⟨0, 5⟩ ⟨0, 0⟩ ⟨4, 1⟩) ∧
    tallFill.num_calls = 3 ∧
    (tallFill.slab 2).ymin = 5 ∧ (tallFill.slab 2).ymax = 3 ∧
    ¬ (tallFill.slab 2).ymin ≤ (tallFill.slab 2).ymax ∧
    maxY (FillAlgorithm.pts syntheticTiling ⟨0, 0⟩ ⟨4, 1⟩ ⟨4, 2⟩ ⟨0, 5⟩) + 1 = 6 ∧
    (tallFill.slab (tallFill.num_calls - 1)).ymax
      ≠ maxY (FillAlgorithm.pts syntheticTiling ⟨0, 0⟩ ⟨4, 1⟩ ⟨4, 2⟩ ⟨0, 5⟩) + 1 := by
  decide!

/-- C24, amended: the `y` ranges of the slabs of a parallelogram.  For every
quadrilateral whose mapped corners satisfy `pts[0].y + pts[2].y = pts[1].y + pts[3].y`
(the mapped corners of every parallelogram do), and for which each of the two fast-path
tests that succeeds does so with equal `y`, the first slab starts at the least lattice
`y` of the four mapped corners, the `ymax` of each slab is the `ymin` of the next one,
`ymin ≤ ymax` in every slab, and the `ymax` of the last slab is the greatest lattice
`y` of the four mapped corners plus 1. -/
theorem slab_ranges (t : IsohedralTiling) (A B C D : dvec2) (dbg : Bool)
    (hpar : ((FillAlgorithm.pts t A B C D).getD 0 default).y
        + ((FillAlgorithm.pts t A B C D).getD 2 default).y
      = ((FillAlgorithm.pts t A B C D).getD 1 default).y
        + ((FillAlgorithm.pts t A B C D).getD 3 default).y)
    (hfast1 : |((FillAlgorithm.pts t A B C D).getD 0 default).y
          - ((FillAlgorithm.pts t A B C D).getD 1 default).y| < tol →
        ((FillAlgorithm.pts t A B C D).getD 0 default).y
          = ((FillAlgorithm.pts t A B C D).getD 1 default).y)
    (hfast2 : |((FillAlgorithm.pts t A B C D).getD 1 default).y
          - ((FillAlgorithm.pts t A B C D).getD 2 default).y| < tol →
        ((FillAlgorithm.pts t A B C D).getD 1 default).y
          = ((FillAlgorithm.pts t A B C D).getD 2 default).y) :
    ((FillAlgorithm.create t A B C D dbg).slab 0).ymin = minY (FillAlgorithm.pts t A B C D) ∧
    (∀ i, i + 1 < (FillAlgorithm.create t A B C D dbg).num_calls →
      ((FillAlgorithm.create t A B C D dbg).slab i).ymax
        = ((FillAlgorithm.create t A B C D dbg).slab (i + 1)).ymin) ∧
    (∀ i, i < (FillAlgorithm.create t A B C D dbg).num_calls →
      ((FillAlgorithm.create t A B C D dbg).slab i).ymin
        ≤ ((FillAlgorithm.create t A B C D dbg).slab i).ymax) ∧
    ((FillAlgorithm.create t A B C D dbg).slab
        ((FillAlgorithm.create t A B C D dbg).num_calls - 1)).ymax
      = maxY (FillAlgorithm.pts t A B C D) + 1 := by
  obtain ⟨q0, q1, q2, q3, hps⟩ := FillAlgorithm.pts_eq_four t A B C D
  by_cases c1 : |((FillAlgorithm.pts t A B C D).getD 0 default).y
      - ((FillAlgorithm.pts t A B C D).getD 1 default).y| < tol
  · have h01 := hfast1 c1
    obtain ⟨s, es, hmin, hmax⟩ := fillFixY_yrange dbg
      ((FillAlgorithm.pts t A B C D).getD 0 default)
      ((FillAlgorithm.pts t A B C D).getD 1 default)
      ((FillAlgorithm.pts t A B C D).getD 2 default)
      ((FillAlgorithm.pts t A B C D).getD 3 default)
    rw [FillAlgorithm.create_fast t A B C D dbg c1, es]
    simp only [hps, List.getD_cons_zero, List.getD_cons_succ] at hpar h01 hmin hmax
    simp only [FillAlgorithm.slab, minY, maxY, hps, List.getD_cons_zero, List.getD_cons_succ,
      Nat.sub_self]
    have h23 : q2.y = q3.y := by linarith
    refine ⟨?_, ?_, ?_, ?_⟩
    · rw [hmin, ← h01, ← h23, min_self, min_assoc, min_self]
    · intro i hi
      omega
    · intro i hi
      have hi0 : i = 0 := by omega
      subst hi0
      simp only [List.getD_cons_zero]
      rw [hmin, hmax]
      have := min_le_max (a := q0.y) (b := q2.y)
      linarith
    · rw [hmax, ← h01, ← h23, max_self, max_assoc, max_self]
  · by_cases c2 : |((FillAlgorithm.pts t A B C D).getD 1 default).y
        - ((FillAlgorithm.pts t A B C D).getD 2 default).y| < tol
    · have h12 := hfast2 c2
      obtain ⟨s, es, hmin, hmax⟩ := fillFixY_yrange dbg
        ((FillAlgorithm.pts t A B C D).getD 1 default)
        ((FillAlgorithm.pts t A B C D).getD 2 default)
        ((FillAlgorithm.pts t A B C D).getD 3 default)
        ((FillAlgorithm.pts t A B C D).getD 0 default)
      rw [create_fast2 t A B C D dbg c1 c2, es]
      simp only [hps, List.getD_cons_zero, List.getD_cons_succ] at hpar h12 hmin hmax
      simp only [FillAlgorithm.slab, minY, maxY, hps, List.getD_cons_zero,
        List.getD_cons_succ, Nat.sub_self]
      have h03 : q0.y = q3.y := by linarith
      refine ⟨?_, ?_, ?_, ?_⟩
      · rw [hmin]
        exact (min4_eq _ _ _ _ _ (by rw [h03]; exact min_le_right _ _) (min_le_left _ _)
          (by rw [← h12]; exact min_le_left _ _) (min_le_right _ _)
          (by rcases min_choice q1.y q3.y with h | h
              · exact Or.inr (Or.inl h)
              · exact Or.inr (Or.inr (Or.inr h)))).symm
      · intro i hi
        omega
      · intro i hi
        have hi0 : i = 0 := by omega
        subst hi0
        simp only [List.getD_cons_zero]
        rw [hmin, hmax]
        have := min_le_max (a := q1.y) (b := q3.y)
        linarith
      · rw [hmax]
        congr 1
        exact (max4_eq _ _ _ _ _ (by rw [h03]; exact le_max_right _ _) (le_max_left _ _)
          (by rw [← h12]; exact le_max_left _ _) (le_max_right _ _)
          (by rcases max_choice q1.y q3.y with h | h
              · exact Or.inr (Or.inl h)
              · exact Or.inr (Or.inr (Or.inr h)))).symm
    · obtain ⟨s0, s1, s2, e, a0, b0, a1, b1, a2, b2⟩ := create_slow_yranges t A B C D dbg c1 c2
      rw [e]
      obtain ⟨l0, l1, l2, l3⟩ := lowest_le q0 q1 q2 q3
      simp only [hps, List.getD_cons_zero, List.getD_cons_succ] at hpar
      rw [hps] at a0 b0 b1 b2
      simp only [FillAlgorithm.slab, minY, maxY, hps, List.getD_cons_zero, List.getD_cons_succ,
        Nat.add_one_sub_one]
      have key : s0.ymin = min (min (min q0.y q1.y) q2.y) q3.y ∧ s0.ymin ≤ s0.ymax ∧
          s1.ymin ≤ s1.ymax ∧ s2.ymin ≤ s2.ymax ∧
          s2.ymax = max (max (max q0.y q1.y) q2.y) q3.y + 1 := by
        rw [a2, a1, b2, b1, b0, a0]
        rcases FillAlgorithm.lowest_four q0 q1 q2 q3 with hl | hl | hl | hl <;>
          rw [hl] at l0 l1 l2 l3 ⊢ <;>
          simp only [List.getD_cons_zero, List.getD_cons_succ, Nat.reduceAdd, Nat.reduceMod,
            min_def, max_def] at l0 l1 l2 l3 ⊢ <;>
          refine ⟨?_, ?_, ?_, ?_, ?_⟩ <;> split_ifs <;> linarith
      obtain ⟨k0, k1, k2, k3, k4⟩ := key
      refine ⟨k0, ?_, ?_, k4⟩
      · intro i hi
        have hi' : i = 0 ∨ i = 1 := by omega
        rcases hi' with rfl | rfl
        · exact a1.symm
        · exact a2.symm
      · intro i hi
        have hi' : i = 0 ∨ i = 1 ∨ i = 2 := by omega
        rcases hi' with rfl | rfl | rfl
        · exact k1
        · exact k2
        · exact k3

/-- C24, amended, at the parallelogram with the corners `(0,0)`, `(3,1)`, `(4,3)`, `(1,2)`
over the unit lattice: three slabs with the `y` ranges `[0,1]`, `[1,2]` and `[2,4]`. -/
theorem slab_ranges_witness :
    (((FillAlgorithm.pts syntheticTiling ⟨0, 0⟩ ⟨3, 1⟩ ⟨4, 3⟩ ⟨1, 2⟩).getD 0 default).y
        + ((FillAlgorithm.pts syntheticTiling ⟨0, 0⟩ ⟨3, 1⟩ ⟨4, 3⟩ ⟨1, 2⟩).getD 2 default).y
      = ((FillAlgorithm.pts syntheticTiling ⟨0, 0⟩ ⟨3, 1⟩ ⟨4, 3⟩ ⟨1, 2⟩).getD 1 default).y
        + ((FillAlgorithm.pts syntheticTiling ⟨0, 0⟩ ⟨3, 1⟩ ⟨4, 3⟩ ⟨1, 2⟩).getD 3 default).y) ∧
    (|((FillAlgorithm.pts syntheticTiling ⟨0, 0⟩ ⟨3, 1⟩ ⟨4, 3⟩ ⟨1, 2⟩).getD 0 default).y
          - ((FillAlgorithm.pts syntheticTiling ⟨0, 0⟩ ⟨3, 1⟩ ⟨4, 3⟩ ⟨1, 2⟩).getD 1 default).y| < tol →
        ((FillAlgorithm.pts syntheticTiling ⟨0, 0⟩ ⟨3, 1⟩ ⟨4, 3⟩ ⟨1, 2⟩).getD 0 default).y
          = ((FillAlgorithm.pts syntheticTiling ⟨0, 0⟩ ⟨3, 1⟩ ⟨4, 3⟩ ⟨1, 2⟩).getD 1 default).y) ∧
    (|((FillAlgorithm.pts syntheticTiling ⟨0, 0⟩ ⟨3, 1⟩ ⟨4, 3⟩ ⟨1, 2⟩).getD 1 default).y
          - ((FillAlgorithm.pts syntheticTiling ⟨0, 0⟩ ⟨3, 1⟩ ⟨4, 3⟩ ⟨1, 2⟩).getD 2 default).y| < tol →
        ((FillAlgorithm.pts syntheticTiling ⟨0, 0⟩ ⟨3, 1⟩ ⟨4, 3⟩ ⟨1, 2⟩).getD 1 default).y
          = ((FillAlgorithm.pts syntheticTiling ⟨0, 0⟩ ⟨3, 1⟩ ⟨4, 3⟩ ⟨1, 2⟩).getD 2 default).y) ∧
    ((FillAlgorithm.create syntheticTiling ⟨0, 0⟩ ⟨3, 1⟩ ⟨4, 3⟩ ⟨1, 2⟩ false).slab 0).ymin
      = minY (FillAlgorithm.pts syntheticTiling ⟨0, 0⟩ ⟨3, 1⟩ ⟨4, 3⟩ ⟨1, 2⟩) ∧
    (∀ i, i + 1 < (FillAlgorithm.create syntheticTiling ⟨0, 0⟩ ⟨3, 1⟩ ⟨4, 3⟩ ⟨1, 2⟩ false).num_calls →
      ((FillAlgorithm.create syntheticTiling ⟨0, 0⟩ ⟨3, 1⟩ ⟨4, 3⟩ ⟨1, 2⟩ false).slab i).ymax
        = ((FillAlgorithm.create syntheticTiling ⟨0, 0⟩ ⟨3, 1⟩ ⟨4, 3⟩ ⟨1, 2⟩ false).slab (i + 1)).ymin) ∧
    (∀ i, i < (FillAlgorithm.create syntheticTiling ⟨0, 0⟩ ⟨3, 1⟩ ⟨4, 3⟩ ⟨1, 2⟩ false).num_calls →
      ((FillAlgorithm.create syntheticTiling ⟨0, 0⟩ ⟨3, 1⟩ ⟨4, 3⟩ ⟨1, 2⟩ false).slab i).ymin
        ≤ ((FillAlgorithm.create syntheticTiling ⟨0, 0⟩ ⟨3, 1⟩ ⟨4, 3⟩ ⟨1, 2⟩ false).slab i).ymax) ∧
    ((FillAlgorithm.create syntheticTiling ⟨0, 0⟩ ⟨3, 1⟩ ⟨4, 3⟩ ⟨1, 2⟩ false).slab
        ((FillAlgorithm.create syntheticTiling ⟨0, 0⟩ ⟨3, 1⟩ ⟨4, 3⟩ ⟨1, 2⟩ false).num_calls - 1)).ymax
      = maxY (FillAlgorithm.pts syntheticTiling ⟨0, 0⟩ ⟨3, 1⟩ ⟨4, 3⟩ ⟨1, 2⟩) + 1 :=
  ⟨by decide!, by decide!, by decide!,
    slab_ranges syntheticTiling ⟨0, 0⟩ ⟨3, 1⟩ ⟨4, 3⟩ ⟨1, 2⟩ false (by decide!) (by decide!)
      (by decide!)⟩

end csk

namespace csk

/-! ## The traversal of a single slab -/

theorem range_sumTo_map {α : Type} (h : ℕ → ℕ) (g : ℕ → α) (n : ℕ) :
    (List.range (sumTo h n)).map g
      = (List.range n).flatMap (fun r => (List.range (h r)).map (fun k => g (sumTo h r + k))) := by
  induction n with
  | zero => rfl
  | succ n ih =>
    rw [sumTo, List.range_add, List.map_append, ih, List.range_succ, List.flatMap_append,
      List.flatMap_singleton, List.map_map]
    rfl

theorem sumTo_const (m c : ℕ) : sumTo (fun _ => m) c = c * m := by
  induction c with
  | zero => simp [sumTo]
  | succ c ih => rw [sumTo, ih]; ring

theorem range_mul_map {α : Type} (g : ℕ → α) (c m : ℕ) :
    (List.range (c * m)).map g
      = (List.range c).flatMap (fun j => (List.range m).map (fun a => g (j * m + a))) := by
  rw [← sumTo_const m c, range_sumTo_map]
  apply List.flatMap_congr
  intro j _
  rw [sumTo_const]

/-- The columns of the specification are the first column and the later ones below the
bound. -/
theorem mem_specColumns (x0 : ℤ) (bound : ℚ) (c : ℕ) :
    c < (specColumns x0 bound).length ↔ c = 0 ∨ ((x0 + (c : ℤ) : ℤ) : ℚ) < bound := by
  simp only [specColumns, List.length_map, List.length_range, lt_max_iff, Int.lt_toNat,
    Int.lt_ceil]
  constructor
  · rintro (h | h)
    · left; omega
    · right
      push_cast at h ⊢
      linarith
  · rintro (h | h)
    · left; omega
    · right
      push_cast at h ⊢
      linarith

theorem single_rows (f : FillAlgorithm) :
    (f.slab 0).rows (f.entryY 0) = max 1 (⌊(f.slab 0).ymax⌋ - ⌊(f.slab 0).ymin⌋).toNat := by
  simp only [Slab.rows, FillAlgorithm.entryY, floor, Int.floor_intCast]

end csk

namespace csk

/-! ## Invariants of the cursors reached by the loop -/

theorem reached_iterate (t : IsohedralTiling) (f : FillAlgorithm) (k : ℕ) :
    (∀ j, j < k → ((FillRegionIterator.inc t f)^[j] f.begin).done = false) →
    FillRegionIterator.Reached t f ((FillRegionIterator.inc t f)^[k] f.begin) := by
  induction k with
  | zero => intro _; exact FillRegionIterator.Reached.start
  | succ k ih =>
    intro h
    rw [Function.iterate_succ_apply']
    exact FillRegionIterator.Reached.step _ (ih (fun j hj => h j (Nat.lt_succ_of_lt hj)))
      (h k (Nat.lt_succ_self k))

/-! ## The slab index -/

/-- The constructor leaves one or three slabs in an array of three. -/
theorem create_slab_bounds (t : IsohedralTiling) (A B C D : dvec2) (dbg : Bool) :
    ((FillAlgorithm.create t A B C D dbg).num_calls = 1 ∨
      (FillAlgorithm.create t A B C D dbg).num_calls = 3) ∧
    (FillAlgorithm.create t A B C D dbg).data.length = 3 := by
  constructor
  · simp only [FillAlgorithm.create]
    split_ifs <;>
      simp only [FillAlgorithm.fillFixX_num_calls, FillAlgorithm.fillFixY_num_calls] <;>
      simp
  · simp only [FillAlgorithm.create]
    split_ifs <;>
      simp only [FillAlgorithm.fillFixX, FillAlgorithm.fillFixY, FillAlgorithm.doFill] <;>
      split_ifs <;> simp

/-- The step of a cursor that is not done and whose slab index is in range: the slab
index stays in range while the cursor is not done, and is the number of slabs when the
cursor becomes done. -/
theorem inc_call_idx (t : IsohedralTiling) (f : FillAlgorithm) (it : FillRegionIterator)
    (hnd : it.done = false) (hi : it.call_idx < f.num_calls) :
    ((FillRegionIterator.inc t f it).done = false ∧
        (FillRegionIterator.inc t f it).call_idx < f.num_calls) ∨
    ((FillRegionIterator.inc t f it).done = true ∧
        (FillRegionIterator.inc t f it).call_idx = f.num_calls) := by
  by_cases h1 : it.asp + 1 < t.numAspects
  · rw [FillRegionIterator.inc_asp t f it h1]
    exact Or.inl ⟨hnd, hi⟩
  by_cases h2 : it.x + 1 < it.xhi + tol
  · rw [FillRegionIterator.inc_col t f it h1 h2]
    exact Or.inl ⟨hnd, hi⟩
  by_cases h3 : floor (it.y + 1) < floor (f.data.getD it.call_idx default).ymax
  · rw [FillRegionIterator.inc_row t f it h1 h2 h3]
    exact Or.inl ⟨hnd, hi⟩
  by_cases h4 : it.call_idx + 1 < f.num_calls
  · rw [FillRegionIterator.inc_slab t f it h1 h2 h3 h4]
    exact Or.inl ⟨hnd, h4⟩
  · rw [FillRegionIterator.inc_done t f it h1 h2 h3 h4]
    refine Or.inr ⟨rfl, ?_⟩
    show it.call_idx + 1 = f.num_calls
    omega

theorem reached_call_idx (t : IsohedralTiling) (f : FillAlgorithm) (hs : 1 ≤ f.num_calls)
    (it : FillRegionIterator) (h : FillRegionIterator.Reached t f it) :
    (it.done = false ∧ it.call_idx < f.num_calls) ∨
    (it.done = true ∧ it.call_idx = f.num_calls) := by
  induction h with
  | start => exact Or.inl ⟨rfl, hs⟩
  | step it _ hnd ih =>
    rcases ih with ⟨_, hi⟩ | ⟨hd, _⟩
    · exact inc_call_idx t f it hnd hi
    · rw [hnd] at hd
      exact absurd hd (by decide)

/-- C35: the slab index stays in bounds.  For every cursor that the loop from `begin()`
of a fill result reaches by advancing: the number of slabs is at most 3, the size of the
slab array; while the cursor is not done its slab index is smaller than the number of
slabs, so the reads `data[call_idx]` of `inc` are in bounds, as is its read
`data[call_idx + 1]`, made only when `call_idx + 1` is smaller than the number of slabs;
and the cursor is done exactly when its slab index is the number of slabs. -/
theorem slab_index_in_bounds (t : IsohedralTiling) (A B C D : dvec2) (dbg : Bool)
    (it : FillRegionIterator)
    (h : FillRegionIterator.Reached t (FillAlgorithm.create t A B C D dbg) it) :
    (FillAlgorithm.create t A B C D dbg).num_calls ≤ 3 ∧
    (FillAlgorithm.create t A B C D dbg).data.length = 3 ∧
    (it.done = false →
      it.call_idx < (FillAlgorithm.create t A B C D dbg).num_calls ∧
      it.call_idx < (FillAlgorithm.create t A B C D dbg).data.length) ∧
    (it.done = false → it.call_idx + 1 < (FillAlgorithm.create t A B C D dbg).num_calls →
      it.call_idx + 1 < (FillAlgorithm.create t A B C D dbg).data.length) ∧
    (it.done = true ↔ it.call_idx = (FillAlgorithm.create t A B C D dbg).num_calls) := by
  obtain ⟨hn, hlen⟩ := create_slab_bounds t A B C D dbg
  have hs : 1 ≤ (FillAlgorithm.create t A B C D dbg).num_calls := by omega
  have hinv := reached_call_idx t _ hs it h
  refine ⟨by omega, hlen, ?_, ?_, ?_⟩
  · intro hnd
    rcases hinv with ⟨_, hi⟩ | ⟨hd, _⟩
    · exact ⟨hi, by omega⟩
    · rw [hnd] at hd
      exact absurd hd (by decide)
  · intro _ h1
    omega
  · constructor
    · intro hd
      rcases hinv with ⟨hnd, _⟩ | ⟨_, hi⟩
      · rw [hd] at hnd
        exact absurd hnd (by decide)
      · exact hi
    · intro hi
      rcases hinv with ⟨_, hlt⟩ | ⟨hd, _⟩
      · omega
      · exact hd

/-- C35 at the fill of the region with the corners `(0,0)`, `(1,1)`, `(2,2)`, `(3,3)` over
the unit lattice: three slabs, and the cursor after four steps is done with slab index 3. -/
theorem slab_index_in_bounds_witness :
    FillRegionIterator.Reached syntheticTiling
      (FillAlgorithm.create syntheticTiling ⟨0, 0⟩ ⟨1, 1⟩ ⟨2, 2⟩ ⟨3, 3⟩ false)
      ((FillRegionIterator.inc syntheticTiling
        (FillAlgorithm.create syntheticTiling ⟨0, 0⟩ ⟨1, 1⟩ ⟨2, 2⟩ ⟨3, 3⟩ false))^[4]
        (FillAlgorithm.create syntheticTiling ⟨0, 0⟩ ⟨1, 1⟩ ⟨2, 2⟩ ⟨3, 3⟩ false).begin) ∧
    ((FillRegionIterator.inc syntheticTiling
        (FillAlgorithm.create syntheticTiling ⟨0, 0⟩ ⟨1, 1⟩ ⟨2, 2⟩ ⟨3, 3⟩ false))^[4]
        (FillAlgorithm.create syntheticTiling ⟨0, 0⟩ ⟨1, 1⟩ ⟨2, 2⟩ ⟨3, 3⟩ false).begin).done
      = true ∧
    ((FillRegionIterator.inc syntheticTiling
        (FillAlgorithm.create syntheticTiling ⟨0, 0⟩ ⟨1, 1⟩ ⟨2, 2⟩ ⟨3, 3⟩ false))^[4]
        (FillAlgorithm.create syntheticTiling ⟨0, 0⟩ ⟨1, 1⟩ ⟨2, 2⟩ ⟨3, 3⟩ false).begin).call_idx
      = (FillAlgorithm.create syntheticTiling ⟨0, 0⟩ ⟨1, 1⟩ ⟨2, 2⟩ ⟨3, 3⟩ false).num_calls ∧
    (FillAlgorithm.create syntheticTiling ⟨0, 0⟩ ⟨1, 1⟩ ⟨2, 2⟩ ⟨3, 3⟩ false).num_calls = 3 :=
  ⟨reached_iterate syntheticTiling _ 4 (by decide!), by decide!,
    (slab_index_in_bounds syntheticTiling ⟨0, 0⟩ ⟨1, 1⟩ ⟨2, 2⟩ ⟨3, 3⟩ false _
      (reached_iterate syntheticTiling _ 4 (by decide!))).2.2.2.2.1 (by decide!),
    by decide!⟩

/-! ## The first position -/

/-- The first cursors of the loop from a cursor that is not done at aspect `a`: the
same position at the aspects `a, a+1, ...` up to the aspect count. -/
theorem visited_take_aspects (t : IsohedralTiling) (f : FillAlgorithm) (n : ℕ) :
    ∀ (fuel : ℕ) (it : FillRegionIterator), it.done = false → n ≤ fuel →
      it.asp + n ≤ t.numAspects →
      (FillRegionIterator.visited t f fuel it).take n
        = (List.range n).map (fun (i : ℕ) => { it with asp := it.asp + i }) := by
  induction n with
  | zero => intro fuel it _ _ _; rfl
  | succ n ih =>
    intro fuel it hnd hfuel ha
    obtain ⟨fuel', rfl⟩ : ∃ k, fuel = k + 1 := ⟨fuel - 1, by omega⟩
    obtain ⟨d, ci, x, y, xl, xh, asp⟩ := it
    simp only at hnd ha
    subst hnd
    rw [List.range_succ_eq_map, List.map_cons, List.map_map]
    simp only [FillRegionIterator.visited, Bool.false_eq_true, if_false, List.take_succ_cons,
      Nat.add_zero]
    congr 1
    rcases Nat.eq_zero_or_pos n with rfl | hn
    · rfl
    · have h1 : asp + 1 < t.numAspects := by omega
      rw [FillRegionIterator.inc_asp t f _ h1, ih fuel' _ rfl (by omega) (by simp only []; omega)]
      apply List.map_congr_left
      intro i _
      simp only [Function.comp, Nat.succ_eq_add_one]
      congr 1
      omega

/-- C32: `begin()` of a fill result is at the first position (slab 0, the first row and
column of that slab, aspect 0) and is not done; a fill result holds at least one slab;
`begin()` is never equal to `end()`; and the loop visits at least `numAspects`
placements, the first position at every aspect, whatever the region is. -/
theorem begin_first_position (t : IsohedralTiling) (A B C D : dvec2) (dbg : Bool)
    (sameAlgo : Bool) (fuel : ℕ) (hfuel : t.numAspects ≤ fuel) :
    (FillAlgorithm.create t A B C D dbg).begin.done = false ∧
    (FillAlgorithm.create t A B C D dbg).begin = (FillAlgorithm.create t A B C D dbg).cursorAt 0 0 0 0 ∧
    ((FillAlgorithm.create t A B C D dbg).begin.call_idx = 0 ∧
      (FillAlgorithm.create t A B C D dbg).begin.x = floor ((FillAlgorithm.create t A B C D dbg).slab 0).xlo ∧
      (FillAlgorithm.create t A B C D dbg).begin.y = floor ((FillAlgorithm.create t A B C D dbg).slab 0).ymin ∧
      (FillAlgorithm.create t A B C D dbg).begin.asp = 0) ∧
    1 ≤ (FillAlgorithm.create t A B C D dbg).num_calls ∧
    FillRegionIterator.eq sameAlgo (FillAlgorithm.create t A B C D dbg).begin (FillAlgorithm.create t A B C D dbg).end = false ∧
    FillRegionIterator.ne sameAlgo (FillAlgorithm.create t A B C D dbg).begin (FillAlgorithm.create t A B C D dbg).end = true ∧
    (FillRegionIterator.visited t (FillAlgorithm.create t A B C D dbg) fuel (FillAlgorithm.create t A B C D dbg).begin).take t.numAspects
      = (List.range t.numAspects).map
          (fun (a : ℕ) => { (FillAlgorithm.create t A B C D dbg).begin with asp := a }) ∧
    t.numAspects ≤ (FillRegionIterator.visited t (FillAlgorithm.create t A B C D dbg) fuel (FillAlgorithm.create t A B C D dbg).begin).length := by
  have hn := (create_slab_bounds t A B C D dbg).1
  have htake := visited_take_aspects t (FillAlgorithm.create t A B C D dbg) t.numAspects fuel (FillAlgorithm.create t A B C D dbg).begin rfl hfuel
    (by simp only [FillAlgorithm.begin, Nat.zero_add, le_refl])
  have htake' : (FillRegionIterator.visited t (FillAlgorithm.create t A B C D dbg) fuel (FillAlgorithm.create t A B C D dbg).begin).take t.numAspects
      = (List.range t.numAspects).map
          (fun (a : ℕ) => { (FillAlgorithm.create t A B C D dbg).begin with asp := a }) := by
    rw [htake]
    apply List.map_congr_left
    intro i _
    simp only [FillAlgorithm.begin, Nat.zero_add]
  refine ⟨rfl, FillAlgorithm.begin_eq_cursorAt _, ⟨rfl, rfl, rfl, rfl⟩, by omega, ?_, ?_, htake', ?_⟩
  · cases sameAlgo <;> rfl
  · cases sameAlgo <;> rfl
  · have hlen := congrArg List.length htake'
    rw [List.length_take, List.length_map, List.length_range] at hlen
    omega

/-- C32 at the region with the corners `(0,0)`, `(1,1)`, `(2,2)`, `(3,3)`, which has no
area, over the unit lattice with its single aspect. -/
theorem begin_first_position_witness :
    syntheticTiling.numAspects ≤ 10 ∧ syntheticTiling.numAspects = 1 ∧
    1 ≤ syntheticTiling.numAspects ∧
    signedArea2 ⟨0, 0⟩ ⟨1, 1⟩ ⟨2, 2⟩ ⟨3, 3⟩ = 0 ∧
    syntheticTiling.numAspects
      ≤ (FillRegionIterator.visited syntheticTiling
          (FillAlgorithm.create syntheticTiling ⟨0, 0⟩ ⟨1, 1⟩ ⟨2, 2⟩ ⟨3, 3⟩ false) 10
          (FillAlgorithm.create syntheticTiling ⟨0, 0⟩ ⟨1, 1⟩ ⟨2, 2⟩ ⟨3, 3⟩ false).begin).length ∧
    FillRegionIterator.ne true
        (FillAlgorithm.create syntheticTiling ⟨0, 0⟩ ⟨1, 1⟩ ⟨2, 2⟩ ⟨3, 3⟩ false).begin
        (FillAlgorithm.create syntheticTiling ⟨0, 0⟩ ⟨1, 1⟩ ⟨2, 2⟩ ⟨3, 3⟩ false).end = true :=
  ⟨by decide!, by decide!, by decide!, by decide!,
    (begin_first_position syntheticTiling ⟨0, 0⟩ ⟨1, 1⟩ ⟨2, 2⟩ ⟨3, 3⟩ false true 10
      (by decide!)).2.2.2.2.2.2.2,
    (begin_first_position syntheticTiling ⟨0, 0⟩ ⟨1, 1⟩ ⟨2, 2⟩ ⟨3, 3⟩ false true 10
      (by decide!)).2.2.2.2.2.1⟩

end csk

namespace csk

/-! ## The postfix increment of the part iterator -/

/-- C33 fails on the code: the postfix increment only adds one to the edge number.  At
`beginParts()` of the unit square tiling with one edge of each class (edge 0 of class
U), `it++` returns the state before the increment but leaves the iterator at edge 1,
part 0 with the transform, id, shape and reversal flag of part 0 of edge 0, while
`++it` leaves it at edge 0, part 1 with the transform of the second half, reported
reversed; at edge 2 (class J) `it++` leaves the id, shape and transform of edge 2 at
edge 3.  The loop written with `it++` visits four states instead of six parts. -/
theorem postfix_increment_diverges :
    (TileShapePartIterator.postInc halvedTiling.beginParts).1 = halvedTiling.beginParts ∧
    (TileShapePartIterator.postInc halvedTiling.beginParts).2.xform
      = halvedTiling.beginParts.xform ∧
    TileShapePartIterator.inc halvedTiling halvedTiling.beginParts
      = TileShapePartIterator.partAt halvedTiling 0 1 ∧
    (TileShapePartIterator.postInc halvedTiling.beginParts).2
      ≠ TileShapePartIterator.inc halvedTiling halvedTiling.beginParts ∧
    ((TileShapePartIterator.postInc halvedTiling.beginParts).2.label halvedTiling
        = (1, 0, 0, EdgeShape.U, false, false) ∧
      (TileShapePartIterator.inc halvedTiling halvedTiling.beginParts).label halvedTiling
        = (0, 1, 0, EdgeShape.U, true, true)) ∧
    ((TileShapePartIterator.postInc (TileShapePartIterator.partAt halvedTiling 2 0)).2.label
          halvedTiling = (3, 0, 2, EdgeShape.J, true, false) ∧
      (TileShapePartIterator.inc halvedTiling
          (TileShapePartIterator.partAt halvedTiling 2 0)).label halvedTiling
        = (3, 0, 3, EdgeShape.I, false, false) ∧
      (TileShapePartIterator.postInc (TileShapePartIterator.partAt halvedTiling 2 0)).2.xform
        ≠ (TileShapePartIterator.inc halvedTiling
            (TileShapePartIterator.partAt halvedTiling 2 0)).xform) ∧
    (TileShapePartIterator.visitedPost halvedTiling 8 halvedTiling.beginParts).map
        (TileShapePartIterator.label halvedTiling)
      = [(0, 0, 0, EdgeShape.U, false, false), (1, 0, 0, EdgeShape.U, false, false),
          (2, 0, 0, EdgeShape.U, false, false), (3, 0, 0, EdgeShape.U, false, false)] ∧
    (TileShapePartIterator.visited halvedTiling 8 halvedTiling.beginParts).map
        (TileShapePartIterator.label halvedTiling)
      = [(0, 0, 0, EdgeShape.U, false, false), (0, 1, 0, EdgeShape.U, true, true),
          (1, 0, 1, EdgeShape.S, false, false), (1, 1, 1, EdgeShape.S, true, true),
          (2, 0, 2, EdgeShape.J, true, false), (3, 0, 3, EdgeShape.I, false, false)] := by
  refine ⟨?_, ?_, ?_, ?_, ⟨?_, ?_⟩, ⟨?_, ?_, ?_⟩, ?_, ?_⟩ <;> decide!

/-! ## What `setParameters` leaves alone -/

theorem foldl_set_idem {α : Type} (f : ℕ → α) (n : ℕ) (l : List α) :
    (List.range n).foldl (fun acc idx => acc.set idx (f idx))
        ((List.range n).foldl (fun acc idx => acc.set idx (f idx)) l)
      = (List.range n).foldl (fun acc idx => acc.set idx (f idx)) l := by
  rw [foldl_set_eq f n ((List.range n).foldl (fun acc idx => acc.set idx (f idx)) l),
    foldl_set_length, foldl_set_eq f n l]
  congr 1
  rcases Nat.le_total n l.length with h | h
  · rw [List.drop_append_of_le_length (by simp [h]), List.drop_eq_nil_of_le (by simp [h]),
      List.nil_append]
  · rw [List.drop_eq_nil_of_le h, List.append_nil, List.drop_eq_nil_of_le (by simp [h])]

/-- Every tiling that a caller can hold is the result of `recompute`. -/
theorem reachable_recompute (table : List TilingTypeData) (t : IsohedralTiling)
    (h : IsohedralTiling.Reachable table t) : ∃ x : IsohedralTiling, t = x.recompute := by
  cases h with
  | create T t hc =>
    unfold IsohedralTiling.create IsohedralTiling.reset at hc
    split at hc
    · cases hc
    · exact ⟨_, (Option.some.inj hc).symm⟩
  | reset s T t _ hr =>
    unfold IsohedralTiling.reset at hr
    split at hr
    · cases hr
    · exact ⟨_, (Option.some.inj hr).symm⟩
  | setParameters s p _ _ => exact ⟨_, rfl⟩

/-- The reversal flags of a recomputed tiling are not changed by `setParameters`. -/
theorem setParameters_reversals (x : IsohedralTiling) (p : List ℚ) :
    (x.recompute.setParameters p).reversals = x.recompute.reversals := by
  simp only [IsohedralTiling.setParameters, IsohedralTiling.recompute,
    IsohedralTiling.recomputeReversals, IsohedralTiling.numVertices]
  exact foldl_set_idem _ _ _

namespace TileShapePartIterator

theorem strip_eq_iff (a b : TileShapePartIterator) :
    a.strip = b.strip ↔ a.edge_num = b.edge_num ∧ a.part = b.part ∧
      a.edge_shape_id = b.edge_shape_id ∧ a.rev = b.rev ∧ a.shape = b.shape := by
  obtain ⟨e, p, x, i, r, s⟩ := a
  obtain ⟨e', p', x', i', r', s'⟩ := b
  simp only [strip, mk.injEq, true_and]

/-- Two tilings that agree on the number of vertices, the edge shape ids, the edge
shapes and the reversal flags fill two part iterators that agree up to their transform
with the same information, up to the transform. -/
theorem computeEdgeInfo_strip (t s : IsohedralTiling) (hn : s.numVertices = t.numVertices)
    (hid : s.edge_shape_ids = t.edge_shape_ids) (hsh : s.edge_shapes = t.edge_shapes)
    (hrev : s.reversals = t.reversals) (a b : TileShapePartIterator) (h : a.strip = b.strip) :
    (computeEdgeInfo s a).strip = (computeEdgeInfo t b).strip := by
  obtain ⟨h1, h2, h3, h4, h5⟩ := (strip_eq_iff a b).1 h
  rw [strip_eq_iff]
  unfold computeEdgeInfo
  simp only [hn, hid, hsh, hrev, h1, h2]
  by_cases hge : b.edge_num ≥ t.numVertices
  · simp only [if_pos hge]
    exact ⟨h1, h2, h3, h4, h5⟩
  · simp only [if_neg hge]
    by_cases hc : t.edge_shapes.getD (t.edge_shape_ids.getD b.edge_num 0) default = EdgeShape.J ∨
        t.edge_shapes.getD (t.edge_shape_ids.getD b.edge_num 0) default = EdgeShape.I
    · simp only [if_pos hc, and_self]
    · simp only [if_neg hc, and_self]

theorem inc_strip (t s : IsohedralTiling) (hn : s.numVertices = t.numVertices)
    (hid : s.edge_shape_ids = t.edge_shape_ids) (hsh : s.edge_shapes = t.edge_shapes)
    (hrev : s.reversals = t.reversals) (a b : TileShapePartIterator) (h : a.strip = b.strip) :
    (inc s a).strip = (inc t b).strip := by
  obtain ⟨h1, h2, h3, h4, h5⟩ := (strip_eq_iff a b).1 h
  unfold inc
  apply computeEdgeInfo_strip t s hn hid hsh hrev
  rw [strip_eq_iff, h1, h2, h5]
  by_cases hc : b.part = 1 ∨ b.shape = EdgeShape.J ∨ b.shape = EdgeShape.I
  · simp only [if_pos hc, h3, h4, h5, and_self]
  · simp only [if_neg hc, h1, h3, h4, h5, and_self]

theorem visited_strip (t s : IsohedralTiling) (hn : s.numVertices = t.numVertices)
    (hid : s.edge_shape_ids = t.edge_shape_ids) (hsh : s.edge_shapes = t.edge_shapes)
    (hrev : s.reversals = t.reversals) (fuel : ℕ) :
    ∀ a b : TileShapePartIterator, a.strip = b.strip →
      (visited s fuel a).map strip = (visited t fuel b).map strip := by
  have hend : s.endParts.strip = t.endParts.strip := by
    unfold IsohedralTiling.endParts create
    rw [hn]
    exact computeEdgeInfo_strip t s hn hid hsh hrev _ _ rfl
  obtain ⟨e1, e2, -, -, -⟩ := (strip_eq_iff _ _).1 hend
  induction fuel with
  | zero => intro a b _; rfl
  | succ n ih =>
    intro a b h
    obtain ⟨h1, h2, -, -, -⟩ := (strip_eq_iff a b).1 h
    have hne : ne true a s.endParts = ne true b t.endParts := by
      simp only [ne, h1, h2, e1, e2]
    simp only [visited, hne]
    split_ifs
    · rw [List.map_cons, List.map_cons, h, ih _ _ (inc_strip t s hn hid hsh hrev a b h)]
    · rfl

end TileShapePartIterator

/-- C34: `setParameters` changes geometry only.  For every tiling that a caller can
hold (made by the constructor and changed by `reset` and `setParameters`) and every
parameter buffer, `setParameters` leaves unchanged the tiling type, `numParameters`,
`numVertices`, `numAspects`, `numEdgeShapes`, the shape id, the symmetry class and the
reversal flag of every edge, the parts of the part traversal in number and order (each
with its edge, part, id, shape, reversal flag and second-part flag), and the value of
`getColour( t1, t2, k )` for all arguments. -/
theorem setParameters_frame (table : List TilingTypeData) (t : IsohedralTiling)
    (h : IsohedralTiling.Reachable table t) (p : List ℚ) :
    ((t.setParameters p).getTilingType = t.getTilingType ∧
      (t.setParameters p).numParameters = t.numParameters ∧
      (t.setParameters p).numVertices = t.numVertices ∧
      (t.setParameters p).numAspects = t.numAspects ∧
      (t.setParameters p).numEdgeShapes = t.numEdgeShapes) ∧
    (∀ i : ℕ,
      (TileShapeIterator.mk i).getId (t.setParameters p) = (TileShapeIterator.mk i).getId t ∧
      (TileShapeIterator.mk i).getShape (t.setParameters p)
        = (TileShapeIterator.mk i).getShape t ∧
      (t.setParameters p).edgeClass i = t.edgeClass i ∧
      (TileShapeIterator.mk i).isReversed (t.setParameters p)
        = (TileShapeIterator.mk i).isReversed t) ∧
    (∀ fuel : ℕ,
      (TileShapePartIterator.visited (t.setParameters p) fuel
          (t.setParameters p).beginParts).map
            (TileShapePartIterator.label (t.setParameters p))
        = (TileShapePartIterator.visited t fuel t.beginParts).map
            (TileShapePartIterator.label t)) ∧
    (∀ (t1 t2 : ℤ) (k : ℕ), (t.setParameters p).getColour t1 t2 k = t.getColour t1 t2 k) := by
  obtain ⟨x, rfl⟩ := reachable_recompute table t h
  have hrev := setParameters_reversals x p
  refine ⟨⟨rfl, rfl, rfl, rfl, rfl⟩, ?_, ?_, fun _ _ _ => rfl⟩
  · intro i
    refine ⟨rfl, rfl, rfl, ?_⟩
    simp only [TileShapeIterator.isReversed, hrev]
  · intro fuel
    have hbegin : (x.recompute.setParameters p).beginParts.strip
        = x.recompute.beginParts.strip :=
      TileShapePartIterator.computeEdgeInfo_strip x.recompute (x.recompute.setParameters p)
        rfl rfl rfl hrev _ _ rfl
    have hs := TileShapePartIterator.visited_strip x.recompute (x.recompute.setParameters p)
      rfl rfl rfl hrev fuel _ _ hbegin
    have hl : ∀ l : List TileShapePartIterator,
        l.map (TileShapePartIterator.label (x.recompute.setParameters p))
          = (l.map TileShapePartIterator.strip).map
              (TileShapePartIterator.label x.recompute) := by
      intro l
      rw [List.map_map]
      rfl
    have hr : ∀ l : List TileShapePartIterator,
        l.map (TileShapePartIterator.label x.recompute)
          = (l.map TileShapePartIterator.strip).map
              (TileShapePartIterator.label x.recompute) := by
      intro l
      rw [List.map_map]
      rfl
    rw [hl, hs]
    exact (hr _).symm

/-- C34 at the sheared parallelogram tiling with a history, whose parameters go from
`(1/3, 2)` to `(1/4, 3)`: the four parts keep their labels, the second vertex moves. -/
theorem setParameters_frame_witness :
    IsohedralTiling.Reachable sampleTable historyTiling ∧
    (TileShapePartIterator.visited (historyTiling.setParameters [1 / 4, 3]) 8
        (historyTiling.setParameters [1 / 4, 3]).beginParts).map
          (TileShapePartIterator.label (historyTiling.setParameters [1 / 4, 3]))
      = (TileShapePartIterator.visited historyTiling 8 historyTiling.beginParts).map
          (TileShapePartIterator.label historyTiling) ∧
    (TileShapePartIterator.visited historyTiling 8 historyTiling.beginParts).map
        (TileShapePartIterator.label historyTiling)
      = [(0, 0, 0, EdgeShape.J, false, false), (1, 0, 1, EdgeShape.J, false, false),
          (2, 0, 0, EdgeShape.J, false, false), (3, 0, 1, EdgeShape.J, false, false)] ∧
    (historyTiling.setParameters [1 / 4, 3]).getVertex 2 ≠ historyTiling.getVertex 2 :=
  ⟨historyTiling_reachable,
    (setParameters_frame sampleTable historyTiling historyTiling_reachable [1 / 4, 3]).2.2.1 8,
    by decide!, by decide!⟩

end csk

namespace csk

/-! ## Rounding to a binary format -/

namespace Machine

theorem pow2_eq (e : ℤ) : pow2 e = (2 : ℚ) ^ e := by
  unfold pow2
  split_ifs with h
  · obtain ⟨n, rfl⟩ := Int.eq_ofNat_of_zero_le h
    simp
  · obtain ⟨n, rfl⟩ : ∃ n : ℕ, e = -((n : ℤ) + 1) := ⟨(-e - 1).toNat, by omega⟩
    have h1 : (-(-((n : ℤ) + 1))).toNat = n + 1 := by omega
    rw [h1, zpow_neg, one_div]
    congr 1
    have h2 : ((n : ℤ) + 1) = ((n + 1 : ℕ) : ℤ) := by push_cast; ring
    rw [h2, zpow_natCast]
    push_cast
    rfl

theorem pow2_pos (e : ℤ) : 0 < pow2 e := by
  rw [pow2_eq]
  positivity

theorem pow2_add (a b : ℤ) : pow2 (a + b) = pow2 a * pow2 b := by
  simp only [pow2_eq]
  exact zpow_add₀ (by norm_num) a b

theorem pow2_zero : pow2 0 = 1 := by
  simp [pow2_eq]

theorem pow2_natCast (n : ℕ) : pow2 (n : ℤ) = ((2 ^ n : ℕ) : ℚ) := by
  rw [pow2_eq, zpow_natCast]
  push_cast
  rfl

theorem pow2_le_pow2 {a b : ℤ} (h : a ≤ b) : pow2 a ≤ pow2 b := by
  simp only [pow2_eq]
  exact zpow_le_zpow_right₀ (by norm_num) h

/-- For a non-negative exponent, `2^e` is an integer. -/
theorem pow2_int {e : ℤ} (h : 0 ≤ e) : ∃ z : ℤ, 0 < z ∧ pow2 e = z := by
  obtain ⟨n, rfl⟩ := Int.eq_ofNat_of_zero_le h
  refine ⟨((2 ^ n : ℕ) : ℤ), ?_, ?_⟩
  · positivity
  · rw [pow2_natCast]
    push_cast
    rfl

theorem log2Fuel_spec (fuel : ℕ) : ∀ n : ℕ, n ≤ fuel → n ≠ 0 →
    2 ^ log2Fuel fuel n ≤ n ∧ n < 2 ^ (log2Fuel fuel n + 1) := by
  induction fuel with
  | zero => intro n h0 hn; omega
  | succ fuel ih =>
    intro n hle hn
    unfold log2Fuel
    split_ifs with h2
    · have hdiv : n / 2 ≤ fuel := by omega
      have hne : n / 2 ≠ 0 := by omega
      obtain ⟨h1, h3⟩ := ih (n / 2) hdiv hne
      constructor
      · rw [pow_succ]
        omega
      · rw [pow_succ]
        omega
    · constructor
      · simp; omega
      · simp; omega

theorem log2_spec (n : ℕ) (hn : n ≠ 0) : 2 ^ log2 n ≤ n ∧ n < 2 ^ (log2 n + 1) :=
  log2Fuel_spec n n (le_refl n) hn

/-- The exponent `ilog2 q` brackets `|q|` between two powers of two. -/
theorem ilog2_spec (q : ℚ) (hq : q ≠ 0) :
    pow2 (ilog2 q) ≤ |q| ∧ |q| < pow2 (ilog2 q + 1) := by
  have hnum : q.num.natAbs ≠ 0 := by
    simpa [Int.natAbs_eq_zero] using hq
  have hden : q.den ≠ 0 := q.den_nz
  obtain ⟨ha1, ha2⟩ := log2_spec _ hnum
  obtain ⟨hb1, hb2⟩ := log2_spec _ hden
  have habs : |q| = (q.num.natAbs : ℚ) / (q.den : ℚ) := by
    conv_lhs => rw [← Rat.num_div_den q]
    rw [abs_div, Nat.cast_natAbs, Int.cast_abs]
    congr 1
    exact abs_of_pos (by exact_mod_cast q.den_pos)
  have hdpos : (0 : ℚ) < (q.den : ℚ) := by exact_mod_cast q.den_pos
  set a := log2 q.num.natAbs with ha
  set b := log2 q.den with hb
  have ha1' : ((2 : ℚ) ^ a) ≤ (q.num.natAbs : ℚ) := by exact_mod_cast ha1
  have ha2' : (q.num.natAbs : ℚ) < (2 : ℚ) ^ (a + 1) := by exact_mod_cast ha2
  have hb1' : ((2 : ℚ) ^ b) ≤ (q.den : ℚ) := by exact_mod_cast hb1
  have hb2' : (q.den : ℚ) < (2 : ℚ) ^ (b + 1) := by exact_mod_cast hb2
  have hpa : (0 : ℚ) < 2 ^ a := by positivity
  have hpb : (0 : ℚ) < 2 ^ b := by positivity
  have hsub : ∀ c : ℤ, pow2 ((a : ℤ) - (b : ℤ) + c) = (2 : ℚ) ^ a / (2 : ℚ) ^ b * pow2 c := by
    intro c
    rw [pow2_add, pow2_eq ((a : ℤ) - (b : ℤ)), zpow_sub₀ (by norm_num), zpow_natCast,
      zpow_natCast]
  have h0 := hsub 0
  rw [add_zero, pow2_zero, mul_one] at h0
  have h1 := hsub 1
  have hm1 := hsub (-1)
  have hp1 : pow2 1 = 2 := by simp [pow2_eq]
  have hpm1 : pow2 (-1) = 1 / 2 := by simp [pow2_eq]
  rw [hp1] at h1
  rw [hpm1] at hm1
  unfold ilog2
  split_ifs with hc
  · refine ⟨hc, ?_⟩
    rw [h1, habs, div_lt_iff₀ hdpos]
    have : (2 : ℚ) ^ a / 2 ^ b * 2 * (q.den : ℚ) = 2 ^ (a + 1) * ((q.den : ℚ) / 2 ^ b) := by
      rw [pow_succ]; field_simp
    rw [this]
    have hge : (1 : ℚ) ≤ (q.den : ℚ) / 2 ^ b := by
      rw [le_div_iff₀ hpb]; linarith
    nlinarith
  · have hlt : |q| < pow2 ((a : ℤ) - (b : ℤ)) := not_le.1 hc
    have e1 : (a : ℤ) - (b : ℤ) - 1 = (a : ℤ) - (b : ℤ) + (-1) := by ring
    have e2 : (a : ℤ) - (b : ℤ) - 1 + 1 = (a : ℤ) - (b : ℤ) := by ring
    rw [e2]
    refine ⟨?_, hlt⟩
    rw [e1, hm1, habs, le_div_iff₀ hdpos]
    have : (2 : ℚ) ^ a / 2 ^ b * (1 / 2) * (q.den : ℚ)
        = 2 ^ a * ((q.den : ℚ) / 2 ^ (b + 1)) := by
      rw [pow_succ]; field_simp
    rw [this]
    have hle : (q.den : ℚ) / 2 ^ (b + 1) ≤ 1 := by
      rw [div_le_iff₀ (by positivity)]; linarith
    nlinarith

theorem floor_le_roundHalfEven (t : ℚ) : ⌊t⌋ ≤ roundHalfEven t := by
  unfold roundHalfEven
  split_ifs <;> omega

theorem roundHalfEven_le_floor_succ (t : ℚ) : roundHalfEven t ≤ ⌊t⌋ + 1 := by
  unfold roundHalfEven
  split_ifs <;> omega

theorem roundHalfEven_intCast (z : ℤ) : roundHalfEven (z : ℚ) = z := by
  unfold roundHalfEven
  simp

theorem le_roundHalfEven {z : ℤ} {t : ℚ} (h : (z : ℚ) ≤ t) : z ≤ roundHalfEven t :=
  le_trans (Int.le_floor.2 h) (floor_le_roundHalfEven t)

theorem roundHalfEven_le {z : ℤ} {t : ℚ} (h : t ≤ (z : ℚ)) : roundHalfEven t ≤ z := by
  by_cases hint : t = (⌊t⌋ : ℚ)
  · rw [hint, roundHalfEven_intCast]
    have : (⌊t⌋ : ℚ) ≤ z := by rw [← hint]; exact h
    exact_mod_cast this
  · have h1 : (⌊t⌋ : ℚ) < t := lt_of_le_of_ne (Int.floor_le t) (Ne.symm hint)
    have h2 : (⌊t⌋ : ℚ) < z := lt_of_lt_of_le h1 h
    have h3 : ⌊t⌋ < z := by exact_mod_cast h2
    have := roundHalfEven_le_floor_succ t
    omega

theorem roundTo_zero (p : ℕ) (emin : ℤ) : roundTo p emin 0 = 0 := by
  simp [roundTo]

theorem roundTo_eq (p : ℕ) (emin : ℤ) (q : ℚ) (hq : q ≠ 0) :
    roundTo p emin q
      = (roundHalfEven (q / pow2 (ulpExp p emin q)) : ℚ) * pow2 (ulpExp p emin q) := by
  simp [roundTo, hq]

/-- A representable number lies on the grid that `q` is rounded to, or it is smaller
than the least number of the binade of `q`. -/
theorem repr_grid_or_small (p : ℕ) (emin : ℤ) (q r : ℚ) (hp : 1 ≤ p)
    (hr : Representable p emin r) :
    (∃ z : ℤ, r = z * pow2 (ulpExp p emin q)) ∨
    (|r| < pow2 (ilog2 q) ∧
      pow2 (ilog2 q) = ((2 ^ (p - 1) : ℕ) : ℚ) * pow2 (ulpExp p emin q)) := by
  obtain ⟨m, k, hm, hk, rfl⟩ := hr
  by_cases hke : ulpExp p emin q ≤ k
  · left
    obtain ⟨z, _, hz⟩ := pow2_int (sub_nonneg.2 hke)
    refine ⟨m * z, ?_⟩
    have : k = (k - ulpExp p emin q) + ulpExp p emin q := by ring
    conv_lhs => rw [this, pow2_add, hz]
    push_cast
    ring
  · right
    have hlt : k < ulpExp p emin q := not_le.1 hke
    have he : ulpExp p emin q = ilog2 q - ((p : ℤ) - 1) := by
      unfold ulpExp at hlt ⊢
      rcases max_cases (ilog2 q - ((p : ℤ) - 1)) emin with ⟨h1, _⟩ | ⟨h1, _⟩
      · exact h1
      · rw [h1] at hlt; omega
    have hpow : pow2 (ilog2 q) = ((2 ^ (p - 1) : ℕ) : ℚ) * pow2 (ulpExp p emin q) := by
      have : ilog2 q = ((p - 1 : ℕ) : ℤ) + ulpExp p emin q := by
        rw [he]; push_cast [Nat.cast_sub hp]; ring
      conv_lhs => rw [this, pow2_add, pow2_natCast]
    refine ⟨?_, hpow⟩
    rw [hpow, abs_mul, abs_of_pos (pow2_pos k)]
    have hk1 : pow2 k ≤ pow2 (ulpExp p emin q + (-1)) := pow2_le_pow2 (by omega)
    rw [pow2_add] at hk1
    have hpm1 : pow2 (-1) = 1 / 2 := by simp [pow2_eq]
    rw [hpm1] at hk1
    have hm' : (|m| : ℚ) < (2 : ℚ) ^ p := by exact_mod_cast hm
    have hpp : (2 : ℚ) ^ p = 2 * ((2 ^ (p - 1) : ℕ) : ℚ) := by
      obtain ⟨n, rfl⟩ : ∃ n, p = n + 1 := ⟨p - 1, by omega⟩
      simp [pow_succ]
      ring
    have hu := pow2_pos (ulpExp p emin q)
    have hk0 := pow2_pos k
    have hm0 : (0 : ℚ) ≤ |(m : ℚ)| := abs_nonneg _
    have hcast : (|(m : ℚ)|) < 2 * ((2 ^ (p - 1) : ℕ) : ℚ) := by
      rw [← hpp]; exact_mod_cast hm
    have hn0 : (0 : ℚ) < ((2 ^ (p - 1) : ℕ) : ℚ) := by positivity
    calc |(m : ℚ)| * pow2 k
        ≤ |(m : ℚ)| * (pow2 (ulpExp p emin q) * (1 / 2)) :=
          mul_le_mul_of_nonneg_left hk1 hm0
      _ < (2 * ((2 ^ (p - 1) : ℕ) : ℚ)) * (pow2 (ulpExp p emin q) * (1 / 2)) :=
          mul_lt_mul_of_pos_right hcast (by positivity)
      _ = ((2 ^ (p - 1) : ℕ) : ℚ) * pow2 (ulpExp p emin q) := by ring

/-- Rounding does not go below a representable number that is not above `q`. -/
theorem le_roundTo (p : ℕ) (emin : ℤ) (q r : ℚ) (hp : 1 ≤ p)
    (hr : Representable p emin r) (h : r ≤ q) : r ≤ roundTo p emin q := by
  by_cases hq : q = 0
  · rw [hq, roundTo_zero]; rw [hq] at h; exact h
  rw [roundTo_eq p emin q hq]
  have hu := pow2_pos (ulpExp p emin q)
  rcases repr_grid_or_small p emin q r hp hr with ⟨z, hz⟩ | ⟨hsmall, hpow⟩
  · rw [hz]
    apply mul_le_mul_of_nonneg_right _ (le_of_lt hu)
    have : (z : ℚ) ≤ q / pow2 (ulpExp p emin q) := by
      rw [le_div_iff₀ hu, ← hz]; exact h
    exact_mod_cast le_roundHalfEven this
  · obtain ⟨hlo, _⟩ := ilog2_spec q hq
    rcases lt_or_gt_of_ne hq with hneg | hpos
    · exfalso
      have h1 : |q| = -q := abs_of_neg hneg
      have h2 : |r| = -r := abs_of_neg (lt_of_le_of_lt h hneg)
      rw [h1] at hlo
      rw [h2] at hsmall
      linarith
    · have h1 : |q| = q := abs_of_pos hpos
      rw [h1] at hlo
      have h2 : (((2 ^ (p - 1) : ℕ) : ℤ) : ℚ) ≤ q / pow2 (ulpExp p emin q) := by
        rw [le_div_iff₀ hu]
        push_cast
        rw [hpow] at hlo
        exact_mod_cast hlo
      have h3 := le_roundHalfEven h2
      have h4 : (((2 ^ (p - 1) : ℕ) : ℤ) : ℚ)
          ≤ (roundHalfEven (q / pow2 (ulpExp p emin q)) : ℚ) := by exact_mod_cast h3
      have h5 : r < pow2 (ilog2 q) := lt_of_le_of_lt (le_abs_self r) hsmall
      rw [hpow] at h5
      have h6 := mul_le_mul_of_nonneg_right h4 (le_of_lt hu)
      push_cast at h6
      push_cast at h5
      linarith

/-- Rounding does not go above a representable number that is not below `q`. -/
theorem roundTo_le (p : ℕ) (emin : ℤ) (q r : ℚ) (hp : 1 ≤ p)
    (hr : Representable p emin r) (h : q ≤ r) : roundTo p emin q ≤ r := by
  by_cases hq : q = 0
  · rw [hq, roundTo_zero]; rw [hq] at h; exact h
  rw [roundTo_eq p emin q hq]
  have hu := pow2_pos (ulpExp p emin q)
  rcases repr_grid_or_small p emin q r hp hr with ⟨z, hz⟩ | ⟨hsmall, hpow⟩
  · rw [hz]
    apply mul_le_mul_of_nonneg_right _ (le_of_lt hu)
    have : q / pow2 (ulpExp p emin q) ≤ (z : ℚ) := by
      rw [div_le_iff₀ hu, ← hz]; exact h
    exact_mod_cast roundHalfEven_le this
  · obtain ⟨hlo, _⟩ := ilog2_spec q hq
    rcases lt_or_gt_of_ne hq with hneg | hpos
    · have h1 : |q| = -q := abs_of_neg hneg
      rw [h1] at hlo
      have h2 : q / pow2 (ulpExp p emin q) ≤ ((-((2 ^ (p - 1) : ℕ) : ℤ) : ℤ) : ℚ) := by
        rw [div_le_iff₀ hu]
        push_cast
        rw [hpow] at hlo
        push_cast at hlo
        linarith
      have h3 := roundHalfEven_le h2
      have h4 : (roundHalfEven (q / pow2 (ulpExp p emin q)) : ℚ)
          ≤ ((-((2 ^ (p - 1) : ℕ) : ℤ) : ℤ) : ℚ) := by exact_mod_cast h3
      have h5 : -pow2 (ilog2 q) < r := by
        have := neg_abs_le r
        linarith
      rw [hpow] at h5
      have h6 := mul_le_mul_of_nonneg_right h4 (le_of_lt hu)
      push_cast at h6
      push_cast at h5
      linarith
    · exfalso
      have h1 : |q| = q := abs_of_pos hpos
      have h2 : |r| = r := abs_of_pos (lt_of_lt_of_le hpos h)
      rw [h1] at hlo
      rw [h2] at hsmall
      linarith

/-- Rounding keeps a representable number. -/
theorem roundTo_of_repr (p : ℕ) (emin : ℤ) (r : ℚ) (hp : 1 ≤ p)
    (hr : Representable p emin r) : roundTo p emin r = r :=
  le_antisymm (roundTo_le p emin r r hp hr (le_refl r)) (le_roundTo p emin r r hp hr (le_refl r))

theorem repr_neg (p : ℕ) (emin : ℤ) (r : ℚ) (hr : Representable p emin r) :
    Representable p emin (-r) := by
  obtain ⟨m, k, hm, hk, rfl⟩ := hr
  exact ⟨-m, k, by rwa [abs_neg], hk, by push_cast; ring⟩

theorem repr_intCast (p : ℕ) (emin : ℤ) (n : ℤ) (hn : |n| < 2 ^ p) (he : emin ≤ 0) :
    Representable p emin (n : ℚ) :=
  ⟨n, 0, hn, he, by rw [pow2_zero, mul_one]⟩

/-- Rounding keeps the absolute value below a representable bound. -/
theorem abs_roundTo_le (p : ℕ) (emin : ℤ) (q M : ℚ) (hp : 1 ≤ p)
    (hM : Representable p emin M) (h : |q| ≤ M) : |roundTo p emin q| ≤ M := by
  obtain ⟨h1, h2⟩ := abs_le.1 h
  exact abs_le.2 ⟨le_roundTo p emin q (-M) hp (repr_neg p emin M hM) h1,
    roundTo_le p emin q M hp hM h2⟩

/-- Rounding an integer gives an integer, whatever its size. -/
theorem roundTo_intCast_isInt (p : ℕ) (emin : ℤ) (n : ℤ) :
    ∃ z : ℤ, roundTo p emin (n : ℚ) = z := by
  by_cases hn : (n : ℚ) = 0
  · exact ⟨0, by rw [hn, roundTo_zero]; simp⟩
  rw [roundTo_eq p emin _ hn]
  rcases le_or_lt 0 (ulpExp p emin (n : ℚ)) with h | h
  · obtain ⟨z, _, hz⟩ := pow2_int h
    exact ⟨roundHalfEven ((n : ℚ) / pow2 (ulpExp p emin (n : ℚ))) * z, by rw [hz]; push_cast; rfl⟩
  · obtain ⟨z, hz0, hz⟩ := pow2_int (by omega : 0 ≤ -ulpExp p emin (n : ℚ))
    have hprod : pow2 (ulpExp p emin (n : ℚ)) * (z : ℚ) = 1 := by
      rw [← hz, ← pow2_add, add_neg_cancel, pow2_zero]
    have hzq : (0 : ℚ) < z := by exact_mod_cast hz0
    have hu : pow2 (ulpExp p emin (n : ℚ)) = 1 / (z : ℚ) := by
      field_simp; linarith
    refine ⟨n, ?_⟩
    rw [hu]
    have : (n : ℚ) / (1 / (z : ℚ)) = ((n * z : ℤ) : ℚ) := by
      push_cast; field_simp
    rw [this, roundHalfEven_intCast]
    push_cast
    field_simp

theorem pow2_1024_gt : (2 : ℚ) ^ 53 < pow2 1024 := by
  have : pow2 1024 = ((2 ^ 1024 : ℕ) : ℚ) := pow2_natCast 1024
  rw [this]
  norm_num

theorem rnd_intCast (n : ℤ) (hn : |n| < 2 ^ 53) : rnd (n : ℚ) = n :=
  roundTo_of_repr 53 (-1074) _ (by norm_num) (repr_intCast 53 (-1074) n hn (by norm_num))

/-- An integer of fewer than 54 bits is a `double`. -/
theorem double_intCast (n : ℤ) (hn : |n| < 2 ^ 53) : double (n : ℚ) = some (n : ℚ) := by
  unfold double
  rw [rnd_intCast n hn, if_pos]
  have h1 : (|(n : ℚ)|) < (2 : ℚ) ^ 53 := by exact_mod_cast hn
  exact lt_trans h1 pow2_1024_gt

theorem add_one_intCast (n : ℤ) (hn : |n + 1| < 2 ^ 53) :
    add (n : ℚ) 1 = some ((n + 1 : ℤ) : ℚ) := by
  unfold add
  have : (n : ℚ) + 1 = ((n + 1 : ℤ) : ℚ) := by push_cast; rfl
  rw [this]
  exact double_intCast (n + 1) hn

/-- The sum of an integer and one is an integer, whatever its size. -/
theorem add_one_isInt (n : ℤ) (x : ℚ) (h : add (n : ℚ) 1 = some x) : ∃ z : ℤ, x = z := by
  unfold add double at h
  split_ifs at h
  have : (n : ℚ) + 1 = ((n + 1 : ℤ) : ℚ) := by push_cast; rfl
  rw [this] at h
  obtain ⟨z, hz⟩ := roundTo_intCast_isInt 53 (-1074) (n + 1)
  exact ⟨z, by rw [← Option.some.inj h]; exact hz⟩

/-- The shape of a rounded number: an integer of at most `p + 1` bits times a power of
two that is not below `2^emin`. -/
theorem roundTo_form (p : ℕ) (emin : ℤ) (q : ℚ) :
    ∃ m k : ℤ, |m| ≤ 2 ^ p ∧ emin ≤ k ∧ roundTo p emin q = m * pow2 k := by
  by_cases hq : q = 0
  · exact ⟨0, emin, by simp, le_refl _, by rw [hq, roundTo_zero]; simp⟩
  refine ⟨roundHalfEven (q / pow2 (ulpExp p emin q)), ulpExp p emin q, ?_, le_max_right _ _,
    roundTo_eq p emin q hq⟩
  have hu := pow2_pos (ulpExp p emin q)
  obtain ⟨_, hhi⟩ := ilog2_spec q hq
  have hle : pow2 (ilog2 q + 1) ≤ pow2 (ulpExp p emin q + (p : ℤ)) := by
    apply pow2_le_pow2
    have : ilog2 q - ((p : ℤ) - 1) ≤ ulpExp p emin q := le_max_left _ _
    omega
  rw [pow2_add (ulpExp p emin q) (p : ℤ), pow2_natCast] at hle
  have hq' : |q| < pow2 (ulpExp p emin q) * ((2 ^ p : ℕ) : ℚ) := lt_of_lt_of_le hhi hle
  obtain ⟨h1, h2⟩ := abs_lt.1 hq'
  have hup : q / pow2 (ulpExp p emin q) ≤ (((2 ^ p : ℕ) : ℤ) : ℚ) := by
    rw [div_le_iff₀ hu]
    push_cast
    push_cast at h2
    linarith
  have hdn : ((-((2 ^ p : ℕ) : ℤ) : ℤ) : ℚ) ≤ q / pow2 (ulpExp p emin q) := by
    rw [le_div_iff₀ hu]
    push_cast
    push_cast at h1
    linarith
  have h3 := roundHalfEven_le hup
  have h4 := le_roundHalfEven hdn
  rw [abs_le]
  push_cast at h3 h4
  exact ⟨h4, h3⟩

/-- A `float` is a `double`, and a multiple of the least positive `float`. -/
theorem single_spec (q r : ℚ) (h : single q = some r) :
    Representable 53 (-1074) r ∧ ∃ z : ℤ, r = z * pow2 (-149) := by
  unfold single at h
  split_ifs at h
  have hr : rndf q = r := Option.some.inj h
  obtain ⟨m, k, hm, hk, hmk⟩ := roundTo_form 24 (-149) q
  rw [← hr]
  unfold rndf
  rw [hmk]
  constructor
  · exact ⟨m, k, lt_of_le_of_lt hm (by norm_num), by omega, rfl⟩
  · obtain ⟨z, _, hz⟩ := pow2_int (by omega : 0 ≤ k + 149)
    refine ⟨m * z, ?_⟩
    have : k = (k + 149) + (-149) := by ring
    conv_lhs => rw [this, pow2_add, hz]
    push_cast
    ring

/-- A `double` of finite size is kept by the rounding. -/
theorem double_of_repr (r : ℚ) (hr : Representable 53 (-1074) r) (hs : |r| < pow2 1024) :
    double r = some r := by
  unfold double rnd
  rw [roundTo_of_repr 53 (-1074) r (by norm_num) hr, if_pos hs]

/-- A sum, difference, product or quotient whose exact value is at most `2^53` in
absolute value has a finite `double`. -/
theorem double_of_abs_le (q : ℚ) (M : ℤ) (hM : |M| < 2 ^ 53) (h : |q| ≤ (M : ℚ)) :
    double q = some (rnd q) ∧ |rnd q| ≤ (M : ℚ) := by
  have h1 : |rnd q| ≤ (M : ℚ) :=
    abs_roundTo_le 53 (-1074) q M (by norm_num) (repr_intCast 53 (-1074) M hM (by norm_num)) h
  refine ⟨?_, h1⟩
  unfold double
  rw [if_pos]
  have h2 : ((M : ℚ)) ≤ |(M : ℚ)| := le_abs_self _
  have h3 : (|(M : ℚ)|) < (2 : ℚ) ^ 53 := by exact_mod_cast hM
  exact lt_of_le_of_lt h1 (lt_trans (lt_of_le_of_lt h2 h3) pow2_1024_gt)

theorem double_zero : double 0 = some 0 := by
  have h := double_intCast 0 (by norm_num)
  simpa using h

theorem single_zero : single 0 = some 0 := by
  unfold single rndf
  rw [roundTo_zero, if_pos]
  simpa using pow2_pos 128

end Machine

end csk

namespace csk

/-! ## The steps of the cursor in machine arithmetic -/

namespace Machine

/-- First exit of `inc`: the next aspect of the same cell. -/
theorem inc_asp_rounded (t : IsohedralTiling) (algo : FillAlgorithm) (it : FillRegionIterator)
    (h1 : it.asp + 1 < t.numAspects) :
    inc t algo it = some { it with asp := it.asp + 1 } := by
  simp only [inc, if_pos h1]

/-- Second exit of `inc`: the next column of the same row. -/
theorem inc_col_rounded (t : IsohedralTiling) (algo : FillAlgorithm) (it : FillRegionIterator)
    (x b : ℚ) (h1 : ¬ it.asp + 1 < t.numAspects) (hx : add it.x 1 = some x)
    (hb : add it.xhi tolD = some b) (h2 : x < b) :
    inc t algo it = some { it with asp := 0, x := x } := by
  simp only [inc, if_neg h1, hx, hb, Option.some_bind, if_pos h2]

/-- Third exit of `inc`: the next row of the same slab. -/
theorem inc_row_rounded (t : IsohedralTiling) (algo : FillAlgorithm) (it : FillRegionIterator)
    (x b xlo xhi y : ℚ) (h1 : ¬ it.asp + 1 < t.numAspects) (hx : add it.x 1 = some x)
    (hb : add it.xhi tolD = some b) (h2 : ¬ x < b)
    (hlo : add it.xlo (algo.data.getD it.call_idx default).dxlo = some xlo)
    (hhi : add it.xhi (algo.data.getD it.call_idx default).dxhi = some xhi)
    (hy : add it.y 1 = some y)
    (h3 : floor y < floor (algo.data.getD it.call_idx default).ymax) :
    inc t algo it
      = some { it with asp := 0, x := floor xlo, y := y, xlo := xlo, xhi := xhi } := by
  simp only [inc, if_neg h1, hx, hb, hlo, hhi, hy, Option.some_bind, if_neg h2, if_pos h3]

/-- Fourth exit of `inc`: the first row of the next slab. -/
theorem inc_slab_rounded (t : IsohedralTiling) (algo : FillAlgorithm) (it : FillRegionIterator)
    (x b xlo xhi y : ℚ) (h1 : ¬ it.asp + 1 < t.numAspects) (hx : add it.x 1 = some x)
    (hb : add it.xhi tolD = some b) (h2 : ¬ x < b)
    (hlo : add it.xlo (algo.data.getD it.call_idx default).dxlo = some xlo)
    (hhi : add it.xhi (algo.data.getD it.call_idx default).dxhi = some xhi)
    (hy : add it.y 1 = some y)
    (h3 : ¬ floor y < floor (algo.data.getD it.call_idx default).ymax)
    (h4 : it.call_idx + 1 < algo.num_calls) :
    inc t algo it
      = some { it with
          asp := 0
          call_idx := it.call_idx + 1
          xlo := (algo.data.getD (it.call_idx + 1) default).xlo
          xhi := (algo.data.getD (it.call_idx + 1) default).xhi
          y := max y (floor (algo.data.getD (it.call_idx + 1) default).ymin)
          x := floor (algo.data.getD (it.call_idx + 1) default).xlo } := by
  simp only [inc, if_neg h1, hx, hb, hlo, hhi, hy, Option.some_bind, if_neg h2, if_neg h3,
    if_pos h4]

/-- Last exit of `inc`: no slab is left and the cursor is done. -/
theorem inc_done_rounded (t : IsohedralTiling) (algo : FillAlgorithm) (it : FillRegionIterator)
    (x b xlo xhi y : ℚ) (h1 : ¬ it.asp + 1 < t.numAspects) (hx : add it.x 1 = some x)
    (hb : add it.xhi tolD = some b) (h2 : ¬ x < b)
    (hlo : add it.xlo (algo.data.getD it.call_idx default).dxlo = some xlo)
    (hhi : add it.xhi (algo.data.getD it.call_idx default).dxhi = some xhi)
    (hy : add it.y 1 = some y)
    (h3 : ¬ floor y < floor (algo.data.getD it.call_idx default).ymax)
    (h4 : ¬ it.call_idx + 1 < algo.num_calls) :
    inc t algo it
      = some { it with
          asp := 0, x := floor xlo, y := y, xlo := xlo, xhi := xhi
          call_idx := it.call_idx + 1
          done := true } := by
  simp only [inc, if_neg h1, hx, hb, hlo, hhi, hy, Option.some_bind, if_neg h2, if_neg h3,
    if_neg h4]

/-- The five exits of `inc`, read off a step that has a result. -/
theorem inc_cases (t : IsohedralTiling) (algo : FillAlgorithm) (it next : FillRegionIterator)
    (h : inc t algo it = some next) :
    (it.asp + 1 < t.numAspects ∧ next = { it with asp := it.asp + 1 }) ∨
    (¬ it.asp + 1 < t.numAspects ∧ ∃ x b : ℚ, add it.x 1 = some x ∧
      add it.xhi tolD = some b ∧
      ((x < b ∧ next = { it with asp := 0, x := x }) ∨
       (¬ x < b ∧ ∃ xlo xhi y : ℚ,
          add it.xlo (algo.data.getD it.call_idx default).dxlo = some xlo ∧
          add it.xhi (algo.data.getD it.call_idx default).dxhi = some xhi ∧
          add it.y 1 = some y ∧
          ((floor y < floor (algo.data.getD it.call_idx default).ymax ∧
              next = { it with asp := 0, x := floor xlo, y := y, xlo := xlo, xhi := xhi }) ∨
           (¬ floor y < floor (algo.data.getD it.call_idx default).ymax ∧
              it.call_idx + 1 < algo.num_calls ∧
              next = { it with
                asp := 0
                call_idx := it.call_idx + 1
                xlo := (algo.data.getD (it.call_idx + 1) default).xlo
                xhi := (algo.data.getD (it.call_idx + 1) default).xhi
                y := max y (floor (algo.data.getD (it.call_idx + 1) default).ymin)
                x := floor (algo.data.getD (it.call_idx + 1) default).xlo }) ∨
           (¬ floor y < floor (algo.data.getD it.call_idx default).ymax ∧
              ¬ it.call_idx + 1 < algo.num_calls ∧
              next = { it with
                asp := 0, x := floor xlo, y := y, xlo := xlo, xhi := xhi
                call_idx := it.call_idx + 1
                done := true }))))) := by
  by_cases h1 : it.asp + 1 < t.numAspects
  · left
    rw [inc_asp_rounded t algo it h1] at h
    exact ⟨h1, (Option.some.inj h).symm⟩
  right
  refine ⟨h1, ?_⟩
  cases hx : add it.x 1 with
  | none =>
    simp only [inc, if_neg h1, hx, Option.none_bind] at h
    exact Option.noConfusion h
  | some x =>
  cases hb : add it.xhi tolD with
  | none =>
    simp only [inc, if_neg h1, hx, hb, Option.some_bind, Option.none_bind] at h
    exact Option.noConfusion h
  | some b =>
  refine ⟨x, b, rfl, rfl, ?_⟩
  by_cases h2 : x < b
  · left
    rw [inc_col_rounded t algo it x b h1 hx hb h2] at h
    exact ⟨h2, (Option.some.inj h).symm⟩
  right
  refine ⟨h2, ?_⟩
  cases hlo : add it.xlo (algo.data.getD it.call_idx default).dxlo with
  | none =>
    simp only [inc, if_neg h1, hx, hb, Option.some_bind, if_neg h2, hlo, Option.none_bind] at h
    exact Option.noConfusion h
  | some xlo =>
  cases hhi : add it.xhi (algo.data.getD it.call_idx default).dxhi with
  | none =>
    simp only [inc, if_neg h1, hx, hb, Option.some_bind, if_neg h2, hlo, hhi,
      Option.none_bind] at h
    exact Option.noConfusion h
  | some xhi =>
  cases hy : add it.y 1 with
  | none =>
    simp only [inc, if_neg h1, hx, hb, Option.some_bind, if_neg h2, hlo, hhi, hy,
      Option.none_bind] at h
    exact Option.noConfusion h
  | some y =>
  refine ⟨xlo, xhi, y, rfl, rfl, rfl, ?_⟩
  by_cases h3 : floor y < floor (algo.data.getD it.call_idx default).ymax
  · left
    rw [inc_row_rounded t algo it x b xlo xhi y h1 hx hb h2 hlo hhi hy h3] at h
    exact ⟨h3, (Option.some.inj h).symm⟩
  right
  by_cases h4 : it.call_idx + 1 < algo.num_calls
  · left
    rw [inc_slab_rounded t algo it x b xlo xhi y h1 hx hb h2 hlo hhi hy h3 h4] at h
    exact ⟨h3, h4, (Option.some.inj h).symm⟩
  · right
    rw [inc_done_rounded t algo it x b xlo xhi y h1 hx hb h2 hlo hhi hy h3 h4] at h
    exact ⟨h3, h4, (Option.some.inj h).symm⟩

/-- Advancing keeps `x` and `y` integer valued. -/
theorem inc_integral_rounded (t : IsohedralTiling) (algo : FillAlgorithm) (it next : FillRegionIterator)
    (hI : it.Integral) (h : inc t algo it = some next) : next.Integral := by
  obtain ⟨⟨a, ha⟩, ⟨b, hb⟩⟩ := hI
  rcases inc_cases t algo it next h with ⟨_, rfl⟩ | ⟨_, x, bd, hx, _, hrest⟩
  · exact ⟨⟨a, ha⟩, ⟨b, hb⟩⟩
  rw [ha] at hx
  rcases hrest with ⟨_, rfl⟩ | ⟨_, xlo, xhi, y, _, _, hy, hrest⟩
  · exact ⟨add_one_isInt a x hx, ⟨b, hb⟩⟩
  rw [hb] at hy
  obtain ⟨c, hc⟩ := add_one_isInt b y hy
  rcases hrest with ⟨_, rfl⟩ | ⟨_, _, rfl⟩ | ⟨_, _, rfl⟩
  · exact ⟨⟨_, rfl⟩, ⟨c, hc⟩⟩
  · refine ⟨⟨_, rfl⟩, ⟨max c ⌊(algo.data.getD (it.call_idx + 1) default).ymin⌋, ?_⟩⟩
    simp [hc, floor, Int.cast_max]
  · exact ⟨⟨_, rfl⟩, ⟨c, hc⟩⟩

theorem reached_integral_rounded (t : IsohedralTiling) (f : FillAlgorithm) (it : FillRegionIterator)
    (h : Reached t f it) : it.Integral := by
  induction h with
  | start => exact FillRegionIterator.begin_integral f
  | step it next _ _ hstep ih => exact inc_integral_rounded t f it next ih hstep

/-- The conversion to `int` of an integer valued `double`. -/
theorem toInt_intCast_rounded (z : ℤ) :
    toInt (z : ℚ) = if -2147483648 ≤ z ∧ z ≤ 2147483647 then some z else none := by
  simp only [toInt, csk.toInt_intCast]

end Machine

end csk

namespace csk

/-! ## Integer coordinates and the order of the traversal in machine arithmetic -/

namespace Machine

/-- The cursor after `k` steps is one that the loop holds, when no cursor before it is
done. -/
theorem reached_iter (t : IsohedralTiling) (f : FillAlgorithm) (k : ℕ) :
    ∀ it : FillRegionIterator, iter t f k f.begin = some it →
      (∀ j, j < k → (iter t f j f.begin).map FillRegionIterator.done = some false) →
      Reached t f it := by
  induction k with
  | zero =>
    intro it h _
    rw [iter] at h
    rw [← Option.some.inj h]
    exact Reached.start
  | succ k ih =>
    intro it h hnd
    rw [iter] at h
    cases hk : iter t f k f.begin with
    | none => rw [hk] at h; exact Option.noConfusion h
    | some prev =>
      rw [hk, Option.some_bind] at h
      have hprev := ih prev hk (fun j hj => hnd j (Nat.lt_succ_of_lt hj))
      have hd := hnd k (Nat.lt_succ_self k)
      rw [hk] at hd
      exact Reached.step prev it hprev (Option.some.inj hd) h

/-- The key of a cursor with integer coordinates `a`, `b`, when it is defined. -/
theorem key_eq_some (it : FillRegionIterator) (a b : ℤ) (ha : it.x = a) (hb : it.y = b)
    (k : ℤ × ℤ × ℕ) (hk : key it = some k) :
    k = (b, a, it.asp) ∧ (-2147483648 ≤ a ∧ a ≤ 2147483647) ∧
      (-2147483648 ≤ b ∧ b ≤ 2147483647) := by
  simp only [key, getT1, getT2, ha, hb, toInt_intCast_rounded, FillRegionIterator.getAspect] at hk
  by_cases h1 : -2147483648 ≤ b ∧ b ≤ 2147483647
  · by_cases h2 : -2147483648 ≤ a ∧ a ≤ 2147483647
    · rw [if_pos h1, if_pos h2] at hk
      simp only [Option.some_bind, Option.some.injEq] at hk
      exact ⟨hk.symm, h2, h1⟩
    · rw [if_pos h1, if_neg h2] at hk
      simp only [Option.some_bind, Option.none_bind] at hk
      exact Option.noConfusion hk
  · rw [if_neg h1] at hk
    simp only [Option.none_bind] at hk
    exact Option.noConfusion hk

/-- Advancing an integer valued cursor within the range of `int` to a cursor that is
not done strictly raises `(getT2, getT1, getAspect)` in the lexicographic order. -/
theorem inc_key_lt_rounded (t : IsohedralTiling) (algo : FillAlgorithm) (it next : FillRegionIterator)
    (hI : it.Integral) (h : inc t algo it = some next) (hnd : next.done = false)
    (ka kb : ℤ × ℤ × ℕ) (hka : key it = some ka) (hkb : key next = some kb) :
    keyLt ka kb := by
  obtain ⟨⟨a, ha⟩, ⟨b, hb⟩⟩ := hI
  obtain ⟨rfl, hra, hrb⟩ := key_eq_some it a b ha hb ka hka
  have hxa : add it.x 1 = some ((a + 1 : ℤ) : ℚ) := by
    rw [ha]
    exact add_one_intCast a (by rw [abs_lt]; constructor <;> omega)
  have hyb : add it.y 1 = some ((b + 1 : ℤ) : ℚ) := by
    rw [hb]
    exact add_one_intCast b (by rw [abs_lt]; constructor <;> omega)
  rcases inc_cases t algo it next h with ⟨_, hn⟩ | ⟨_, x, bd, hx, _, hrest⟩
  · have e1 : next.x = a := by rw [hn]; exact ha
    have e2 : next.y = b := by rw [hn]; exact hb
    have e3 : next.asp = it.asp + 1 := by rw [hn]
    obtain ⟨rfl, _, _⟩ := key_eq_some next a b e1 e2 kb hkb
    right
    exact ⟨rfl, Or.inr ⟨rfl, by show it.asp < next.asp; omega⟩⟩
  rw [hxa] at hx
  have hx' := Option.some.inj hx
  rcases hrest with ⟨_, hn⟩ | ⟨_, xlo, xhi, y, _, _, hy, hrest⟩
  · have e1 : next.x = ((a + 1 : ℤ) : ℚ) := by rw [hn]; exact hx'.symm
    have e2 : next.y = b := by rw [hn]; exact hb
    obtain ⟨rfl, _, _⟩ := key_eq_some next (a + 1) b e1 e2 kb hkb
    right
    exact ⟨rfl, Or.inl (Int.lt_succ_self a)⟩
  rw [hyb] at hy
  have hy' := Option.some.inj hy
  rcases hrest with ⟨_, hn⟩ | ⟨_, _, hn⟩ | ⟨_, _, hn⟩
  · have e1 : next.x = ((⌊xlo⌋ : ℤ) : ℚ) := by rw [hn]; rfl
    have e2 : next.y = ((b + 1 : ℤ) : ℚ) := by rw [hn]; exact hy'.symm
    obtain ⟨rfl, _, _⟩ := key_eq_some next ⌊xlo⌋ (b + 1) e1 e2 kb hkb
    left
    exact Int.lt_succ_self b
  · have e1 : next.x = ((⌊(algo.data.getD (it.call_idx + 1) default).xlo⌋ : ℤ) : ℚ) := by
      rw [hn]; rfl
    have e2 : next.y
        = ((max (b + 1) ⌊(algo.data.getD (it.call_idx + 1) default).ymin⌋ : ℤ) : ℚ) := by
      rw [hn]
      show max y (floor (algo.data.getD (it.call_idx + 1) default).ymin) = _
      rw [← hy']
      simp [floor, Int.cast_max]
    obtain ⟨rfl, _, _⟩ := key_eq_some next _ _ e1 e2 kb hkb
    left
    exact lt_of_lt_of_le (Int.lt_succ_self b) (le_max_left _ _)
  · rw [hn] at hnd
    exact Bool.noConfusion hnd

theorem visited_done (t : IsohedralTiling) (algo : FillAlgorithm) (fuel : ℕ)
    (it : FillRegionIterator) (h : it.done = true) : visited t algo fuel it = some [] := by
  cases fuel with
  | zero => rfl
  | succ fuel => simp [visited, h]

/-- The loop from a cursor that is not done: the cursor, then the loop from its
successor. -/
theorem visited_succ (t : IsohedralTiling) (algo : FillAlgorithm) (fuel : ℕ)
    (it : FillRegionIterator) (l : List FillRegionIterator) (hd : it.done = false)
    (h : visited t algo (fuel + 1) it = some l) :
    ∃ next l', inc t algo it = some next ∧ visited t algo fuel next = some l' ∧
      l = it :: l' := by
  simp only [visited, hd, Bool.false_eq_true, if_false] at h
  cases hn : inc t algo it with
  | none => rw [hn] at h; exact Option.noConfusion h
  | some next =>
    rw [hn, Option.some_bind] at h
    cases hl : visited t algo fuel next with
    | none => rw [hl] at h; exact Option.noConfusion h
    | some l' =>
      rw [hl, Option.some_bind] at h
      exact ⟨next, l', rfl, hl, (Option.some.inj h).symm⟩

/-- Every cursor visited from an integer valued cursor `it` has a key above `k`, when
the key of `it` is above `k` and all visited cursors lie within the range of `int`. -/
theorem visited_key_gt_rounded (t : IsohedralTiling) (algo : FillAlgorithm) (fuel : ℕ) :
    ∀ (it : FillRegionIterator) (l : List FillRegionIterator) (k : ℤ × ℤ × ℕ),
      it.Integral → visited t algo fuel it = some l → (∀ c ∈ l, (key c).isSome) →
      (∀ ki, key it = some ki → keyLt k ki) →
      ∀ b ∈ l, ∃ kb, key b = some kb ∧ keyLt k kb := by
  induction fuel with
  | zero =>
    intro it l k _ hv _ _ b hb
    rw [visited] at hv
    rw [← Option.some.inj hv] at hb
    simp at hb
  | succ fuel ih =>
    intro it l k hI hv hdef hk b hb
    by_cases hd : it.done = true
    · rw [visited_done t algo _ it hd] at hv
      rw [← Option.some.inj hv] at hb
      simp at hb
    have hd' : it.done = false := by simpa using hd
    obtain ⟨next, l', hn, hl', rfl⟩ := visited_succ t algo fuel it l hd' hv
    obtain ⟨ki, hki⟩ := Option.isSome_iff_exists.1 (hdef it (List.mem_cons_self _ _))
    rcases List.mem_cons.1 hb with rfl | hb'
    · exact ⟨ki, hki, hk ki hki⟩
    · by_cases hnd : next.done = true
      · rw [visited_done t algo _ next hnd] at hl'
        rw [← Option.some.inj hl'] at hb'
        simp at hb'
      have hnd' : next.done = false := by simpa using hnd
      refine ih next l' k (inc_integral_rounded t algo it next hI hn) hl'
        (fun c hc => hdef c (List.mem_cons_of_mem _ hc)) ?_ b hb'
      intro kn hkn
      exact keyLt_trans (hk ki hki) (inc_key_lt_rounded t algo it next hI hn hnd' ki kn hki hkn)

theorem visited_pairwise_rounded (t : IsohedralTiling) (algo : FillAlgorithm) (fuel : ℕ) :
    ∀ (it : FillRegionIterator) (l : List FillRegionIterator),
      it.Integral → visited t algo fuel it = some l → (∀ c ∈ l, (key c).isSome) →
      l.Pairwise (fun a b => ∃ ka kb, key a = some ka ∧ key b = some kb ∧ keyLt ka kb) := by
  induction fuel with
  | zero =>
    intro it l _ hv _
    rw [visited] at hv
    rw [← Option.some.inj hv]
    exact List.Pairwise.nil
  | succ fuel ih =>
    intro it l hI hv hdef
    by_cases hd : it.done = true
    · rw [visited_done t algo _ it hd] at hv
      rw [← Option.some.inj hv]
      exact List.Pairwise.nil
    have hd' : it.done = false := by simpa using hd
    obtain ⟨next, l', hn, hl', rfl⟩ := visited_succ t algo fuel it l hd' hv
    obtain ⟨ki, hki⟩ := Option.isSome_iff_exists.1 (hdef it (List.mem_cons_self _ _))
    have hdef' : ∀ c ∈ l', (key c).isSome := fun c hc => hdef c (List.mem_cons_of_mem _ hc)
    refine List.Pairwise.cons ?_ (ih next l' (inc_integral_rounded t algo it next hI hn) hl' hdef')
    intro b hb
    by_cases hnd : next.done = true
    · rw [visited_done t algo _ next hnd] at hl'
      rw [← Option.some.inj hl'] at hb
      simp at hb
    have hnd' : next.done = false := by simpa using hnd
    obtain ⟨kb, hkb, hlt⟩ := visited_key_gt_rounded t algo fuel next l' ki
      (inc_integral_rounded t algo it next hI hn) hl' hdef'
      (fun kn hkn => inc_key_lt_rounded t algo it next hI hn hnd' ki kn hki hkn) b hb
    exact ⟨ki, kb, hki, hkb, hlt⟩

/-- The keys read off a list of cursors: each is defined, and they are the keys of the
cursors in order. -/
theorem keysOf_spec : ∀ (l : List FillRegionIterator) (ks : List (ℕ × ℤ × ℤ × ℕ)),
    keysOf l = some ks →
      (∀ c ∈ l, (key c).isSome) ∧ l.map (fun c => (c.call_idx, key c))
        = ks.map (fun k => (k.1, some k.2)) := by
  intro l
  induction l with
  | nil =>
    intro ks h
    rw [keysOf] at h
    rw [← Option.some.inj h]
    simp
  | cons it l ih =>
    intro ks h
    rw [keysOf] at h
    cases hk : key it with
    | none => rw [hk] at h; exact Option.noConfusion h
    | some k =>
      rw [hk, Option.some_bind] at h
      cases hl : keysOf l with
      | none => rw [hl] at h; exact Option.noConfusion h
      | some ks' =>
        rw [hl, Option.some_bind] at h
        obtain ⟨h1, h2⟩ := ih ks' hl
        rw [← Option.some.inj h]
        refine ⟨?_, ?_⟩
        · intro c hc
          rcases List.mem_cons.1 hc with rfl | hc
          · rw [hk]; rfl
          · exact h1 c hc
        · simp only [List.map_cons, hk, h2]

end Machine

/-- C8, as stated, fails: the loop over the fill of the box `[1e17, 2e17] × [0, 1]` over
the unit lattice with one aspect holds the same cursor again after every step, because
the sum `x + 1.0` is rounded back to `x`; so the same `(slab, x, y, aspect)` is visited
more than once, and `getT1()` is undefined at it (its `x` is no `int`). -/
theorem fill_keys_counterexample :
    Machine.fillRegionBox syntheticTiling (10 ^ 17) 0 (2 * 10 ^ 17) 1 false
      = some Machine.hugeFill ∧
    Machine.hugeFill.begin.done = false ∧
    Machine.inc syntheticTiling Machine.hugeFill Machine.hugeFill.begin
      = some Machine.hugeFill.begin ∧
    Machine.visited syntheticTiling Machine.hugeFill 3 Machine.hugeFill.begin
      = some [Machine.hugeFill.begin, Machine.hugeFill.begin, Machine.hugeFill.begin] ∧
    Machine.getT1 Machine.hugeFill.begin = none := by
  refine ⟨?_, ?_, ?_, ?_, ?_⟩ <;> decide!

/-- A division by zero in `doFill`: over the unit lattice, the region with the corners
`(0,0)`, `(3,5e-8)`, `(3,5)`, `(-1,0)` takes the first fast path of the constructor (its
first two mapped corners differ by less than `1e-7` in `y`), and the left slope is the
quotient of `-1` by `0`, which has no finite value: there is no fill result with finite
slab data for this region. -/
theorem fill_infinite_slope :
    Machine.pts syntheticTiling ⟨0, 0⟩ ⟨3, Machine.rnd (5 / 100000000)⟩ ⟨3, 5⟩ ⟨-1, 0⟩
      = some [⟨0, 0⟩, ⟨3, Machine.rndf (5 / 100000000)⟩, ⟨3, 5⟩, ⟨-1, 0⟩] ∧
    Machine.close 0 (Machine.rndf (5 / 100000000)) = true ∧
    Machine.div (-1 - 0) (0 - 0) = none ∧
    Machine.fillRegion syntheticTiling ⟨0, 0⟩ ⟨3, Machine.rnd (5 / 100000000)⟩ ⟨3, 5⟩ ⟨-1, 0⟩
      false = none := by
  refine ⟨?_, ?_, ?_, ?_⟩ <;> decide!

/-- C8, amended: no duplicates and row-major order within the range of `int`.  For
every tiling, every fill result and every bound on the number of steps: when the steps
of the loop from `begin()` have finite results and `getT1()`, `getT2()` are defined at
every cursor it visits (their `x` and `y` lie in the range of `int`), the triples
`(getT2, getT1, getAspect)` of the visited cursors are strictly increasing in the
lexicographic order, also across slab boundaries; so no `(x, y, aspect)` and no
`(slab, x, y, aspect)` is visited twice. -/
theorem machine_keys_strictly_increasing (t : IsohedralTiling) (algo : FillAlgorithm)
    (fuel : ℕ) (ks : List (ℕ × ℤ × ℤ × ℕ)) (h : Machine.keys t algo fuel = some ks) :
    (ks.map (fun k => k.2)).Pairwise keyLt ∧
    (ks.map (fun k => (k.2.2.1, k.2.1, k.2.2.2))).Nodup ∧
    ks.Nodup := by
  unfold Machine.keys at h
  cases hv : Machine.visited t algo fuel algo.begin with
  | none => rw [hv] at h; exact Option.noConfusion h
  | some l =>
    rw [hv, Option.some_bind] at h
    obtain ⟨hdef, hmap⟩ := Machine.keysOf_spec l ks h
    have hp := Machine.visited_pairwise_rounded t algo fuel algo.begin l
      (FillRegionIterator.begin_integral algo) hv hdef
    have hp2 : (l.map (fun c => (c.call_idx, Machine.key c))).Pairwise
        (fun a b => ∃ ka kb, a.2 = some ka ∧ b.2 = some kb ∧ keyLt ka kb) :=
      List.pairwise_map.2 hp
    rw [hmap, List.pairwise_map] at hp2
    have hp3 : ks.Pairwise (fun a b => keyLt a.2 b.2) := by
      refine hp2.imp ?_
      rintro a b ⟨ka, kb, h1, h2, h3⟩
      rw [← Option.some.inj h1, ← Option.some.inj h2] at h3
      exact h3
    refine ⟨List.pairwise_map.2 hp3, ?_, ?_⟩
    · refine List.pairwise_map.2 (hp3.imp ?_)
      intro a b hab heq
      have h1 : a.2.2.1 = b.2.2.1 := congrArg (fun p => p.1) heq
      have h2 : a.2.1 = b.2.1 := congrArg (fun p => p.2.1) heq
      have h3 : a.2.2.2 = b.2.2.2 := congrArg (fun p => p.2.2) heq
      unfold keyLt at hab
      omega
    · refine hp3.imp ?_
      intro a b hab heq
      rw [heq] at hab
      exact keyLt_irrefl _ hab

/-- C8, amended, at the fill of the box `[0,2] × [0,2]` over the sheared tiling. -/
theorem machine_keys_strictly_increasing_witness :
    Machine.fillRegionBox shearedTiling 0 0 2 2 false = some shearedFill ∧
    Machine.keys shearedTiling shearedFill 20
      = some [(0, 0, 0, 0), (0, 0, 1, 0), (0, 0, 2, 0), (0, 1, -1, 0), (0, 1, 0, 0),
          (0, 1, 1, 0), (0, 2, -1, 0), (0, 2, 0, 0), (0, 2, 1, 0)] ∧
    (([(0, 0, 0, 0), (0, 0, 1, 0), (0, 0, 2, 0), (0, 1, -1, 0), (0, 1, 0, 0),
          (0, 1, 1, 0), (0, 2, -1, 0), (0, 2, 0, 0), (0, 2, 1, 0)] :
        List (ℕ × ℤ × ℤ × ℕ)).map (fun k => k.2)).Pairwise keyLt :=
  ⟨by decide!, by decide!,
    (machine_keys_strictly_increasing shearedTiling shearedFill 20 _ (by decide!)).1⟩

/-- C31, as stated, fails: `begin()` of the fill of the box `[3e9, 3e9+512] × [0, 1]`
over the unit lattice is a cursor that is not done and whose `x` is the integer
`3000000000`, which is no `int`: the conversion `int( x )` of `getT1()` is undefined
there, so `getT1()` is not `floor( x )`. -/
theorem cursor_int_range_counterexample :
    Machine.fillRegionBox syntheticTiling 3000000000 0 3000000512 1 false
      = some Machine.farFill ∧
    Machine.Reached syntheticTiling Machine.farFill Machine.farFill.begin ∧
    Machine.farFill.begin.done = false ∧
    Machine.farFill.begin.x = 3000000000 ∧
    Machine.getT1 Machine.farFill.begin = none :=
  ⟨by decide!, Machine.Reached.start, by decide!, by decide!, by decide!⟩

/-- C31, amended: integer cursor coordinates.  For every cursor that the loop from
`begin()` reaches by advancing (each step with finite results), `x` and `y` hold
integer values; `getT1()` is defined exactly when `x` lies in the range of `int`,
`-2^31 ≤ x ≤ 2^31 - 1`, and is then `floor( x )`, for negative coordinates too; and
likewise `getT2()` and `y`. -/
theorem machine_cursor_integral (t : IsohedralTiling) (f : FillAlgorithm)
    (it : FillRegionIterator) (h : Machine.Reached t f it) :
    it.Integral ∧
    Machine.getT1 it
      = (if -2147483648 ≤ ⌊it.x⌋ ∧ ⌊it.x⌋ ≤ 2147483647 then some ⌊it.x⌋ else none) ∧
    Machine.getT2 it
      = (if -2147483648 ≤ ⌊it.y⌋ ∧ ⌊it.y⌋ ≤ 2147483647 then some ⌊it.y⌋ else none) := by
  have hI := Machine.reached_integral_rounded t f it h
  obtain ⟨⟨a, ha⟩, ⟨b, hb⟩⟩ := hI
  refine ⟨⟨⟨a, ha⟩, ⟨b, hb⟩⟩, ?_, ?_⟩
  · simp only [Machine.getT1, ha, Machine.toInt_intCast_rounded, Int.floor_intCast]
  · simp only [Machine.getT2, hb, Machine.toInt_intCast_rounded, Int.floor_intCast]

/-- C31, amended, at the fourth cursor of the fill of the box `[0,2] × [0,2]` over the
sheared tiling, which is at `x = -1`, `y = 1`. -/
theorem machine_cursor_integral_witness :
    Machine.fillRegionBox shearedTiling 0 0 2 2 false = some shearedFill ∧
    Machine.iter shearedTiling shearedFill 3 shearedFill.begin
      = some ⟨false, 0, -1, 1, -1 / 2, 3 / 2, 0⟩ ∧
    Machine.Reached shearedTiling shearedFill ⟨false, 0, -1, 1, -1 / 2, 3 / 2, 0⟩ ∧
    Machine.getT1 ⟨false, 0, -1, 1, -1 / 2, 3 / 2, 0⟩ = some (-1) ∧
    Machine.getT1 (⟨false, 0, -1, 1, -1 / 2, 3 / 2, 0⟩ : FillRegionIterator)
      = (if -2147483648 ≤ ⌊(-1 : ℚ)⌋ ∧ ⌊(-1 : ℚ)⌋ ≤ 2147483647 then some ⌊(-1 : ℚ)⌋
          else none) :=
  have hr : Machine.Reached shearedTiling shearedFill ⟨false, 0, -1, 1, -1 / 2, 3 / 2, 0⟩ :=
    Machine.reached_iter shearedTiling shearedFill 3 _ (by decide!) (by decide!)
  ⟨by decide!, by decide!, hr, by decide!,
    (machine_cursor_integral shearedTiling shearedFill _ hr).2.1⟩

end csk

namespace csk

/-! ## The traversal in closed form, in machine arithmetic -/

namespace Machine

theorem cols_pos_rounded (s : Slab) (r : ℕ) : 1 ≤ cols s r := le_max_left _ _

/-- The test `x + 1 < xhi + 1e-7` of `inc` at column `j` of row `r`. -/
theorem next_col_iff_rounded (s : Slab) (r j : ℕ) :
    floor (rowXlo s r) + j + 1 < rowBound s r ↔ j + 1 < cols s r := by
  unfold cols
  have h1 : j + 1 < max 1 (⌈rowBound s r - floor (rowXlo s r)⌉).toNat
      ↔ ((j + 1 : ℕ) : ℤ) < ⌈rowBound s r - floor (rowXlo s r)⌉ := by
    omega
  rw [h1, Int.lt_ceil]
  push_cast
  constructor <;> intro h <;> linarith

/-- The row at which the cursor enters a slab is an integer. -/
theorem entryY_int (f : FillAlgorithm) (i : ℕ) : ∃ z : ℤ, f.entryY i = z := by
  induction i with
  | zero => exact ⟨_, rfl⟩
  | succ i ih =>
    obtain ⟨z, hz⟩ := ih
    refine ⟨max (z + ((f.slab i).rows (f.entryY i) : ℕ)) ⌊(f.slab (i + 1)).ymin⌋, ?_⟩
    simp only [FillAlgorithm.entryY, hz, floor]
    push_cast
    rfl

/-- The column of a cursor of a bounded slab is an integer within the range of `int`. -/
theorem cursorAt_x (f : FillAlgorithm) (i r j a : ℕ) (hb : SlabBounded f i)
    (hr : r < (f.slab i).rows (f.entryY i)) (hj : j < cols (f.slab i) r) :
    ∃ z : ℤ, (cursorAt f i r j a).x = z ∧ -2147483647 ≤ z ∧ z ≤ 2147483647 := by
  obtain ⟨_, _, hrow⟩ := hb
  obtain ⟨hlo, _, hbd⟩ := hrow r (Nat.lt_succ_of_lt hr)
  simp only [intMax] at hlo hbd
  obtain ⟨hlo1, hlo2⟩ := abs_le.1 hlo
  obtain ⟨_, hbd2⟩ := abs_le.1 hbd
  refine ⟨⌊rowXlo (f.slab i) r⌋ + j, ?_, ?_, ?_⟩
  · simp only [cursorAt, floor]
    push_cast
    rfl
  · have h1 : (-2147483647 : ℤ) ≤ ⌊rowXlo (f.slab i) r⌋ :=
      Int.le_floor.2 (by push_cast; linarith)
    omega
  · rcases Nat.eq_zero_or_pos j with h0 | hpos
    · have h1 : ((⌊rowXlo (f.slab i) r⌋ : ℤ) : ℚ) ≤ ((2147483647 : ℤ) : ℚ) := by
        push_cast
        exact le_trans (Int.floor_le _) hlo2
      have h2 : ⌊rowXlo (f.slab i) r⌋ ≤ 2147483647 := by exact_mod_cast h1
      omega
    · obtain ⟨j', rfl⟩ : ∃ j', j = j' + 1 := ⟨j - 1, by omega⟩
      have h1 := (next_col_iff_rounded (f.slab i) r j').2 hj
      have h2 : ((⌊rowXlo (f.slab i) r⌋ + (j' + 1 : ℕ) : ℤ) : ℚ) < ((2147483647 : ℤ) : ℚ) := by
        simp only [floor] at h1
        push_cast at h1 ⊢
        linarith
      have h3 : ⌊rowXlo (f.slab i) r⌋ + (j' + 1 : ℕ) < 2147483647 := by exact_mod_cast h2
      omega

/-- The row of a cursor of a bounded slab is an integer within the range of `int`. -/
theorem cursorAt_y (f : FillAlgorithm) (i r j a : ℕ) (hb : SlabBounded f i)
    (hr : r < (f.slab i).rows (f.entryY i)) :
    ∃ z : ℤ, (cursorAt f i r j a).y = z ∧ -2147483647 ≤ z ∧ z < 2147483647 := by
  obtain ⟨h1, h2, _⟩ := hb
  obtain ⟨e, he⟩ := entryY_int f i
  generalize (f.slab i).rows (f.entryY i) = R at h2 hr
  simp only [intMax] at h1 h2
  rw [he] at h1 h2
  have h1' : -2147483647 ≤ e := by exact_mod_cast h1
  have h2' : e + (R : ℤ) ≤ 2147483647 := by exact_mod_cast h2
  refine ⟨e + r, ?_, by omega, by omega⟩
  simp only [cursorAt, he]
  push_cast
  rfl

theorem double_of_abs_le_intMax (q : ℚ) (h : |rnd q| ≤ intMax) : double q = some (rnd q) := by
  unfold double
  rw [if_pos]
  have h1 : intMax < (2 : ℚ) ^ 53 := by norm_num [intMax]
  exact lt_of_le_of_lt h (lt_trans h1 pow2_1024_gt)

/-- The sum `x + 1.0` at a cursor of a bounded slab is exact. -/
theorem cursorAt_add_x (f : FillAlgorithm) (i r j a : ℕ) (hb : SlabBounded f i)
    (hr : r < (f.slab i).rows (f.entryY i)) (hj : j < cols (f.slab i) r) :
    add (cursorAt f i r j a).x 1 = some ((cursorAt f i r j a).x + 1) := by
  obtain ⟨z, hz, h1, h2⟩ := cursorAt_x f i r j a hb hr hj
  rw [hz, add_one_intCast z (by rw [abs_lt]; constructor <;> omega)]
  push_cast
  rfl

/-- The sum `y + 1.0` at a cursor of a bounded slab is exact. -/
theorem cursorAt_add_y (f : FillAlgorithm) (i r j a : ℕ) (hb : SlabBounded f i)
    (hr : r < (f.slab i).rows (f.entryY i)) :
    add (cursorAt f i r j a).y 1 = some ((cursorAt f i r j a).y + 1) := by
  obtain ⟨z, hz, h1, h2⟩ := cursorAt_y f i r j a hb hr
  rw [hz, add_one_intCast z (by rw [abs_lt]; constructor <;> omega)]
  push_cast
  rfl

/-- The sum `xhi + 1e-7` at a cursor of a bounded slab. -/
theorem cursorAt_add_tol (f : FillAlgorithm) (i r j a : ℕ) (hb : SlabBounded f i)
    (hr : r < (f.slab i).rows (f.entryY i)) :
    add (cursorAt f i r j a).xhi tolD = some (rowBound (f.slab i) r) := by
  obtain ⟨_, _, hrow⟩ := hb
  obtain ⟨_, _, hbd⟩ := hrow r (Nat.lt_succ_of_lt hr)
  exact double_of_abs_le_intMax _ hbd

/-- The sum `xlo + dxlo` at a cursor of a bounded slab. -/
theorem cursorAt_add_xlo (f : FillAlgorithm) (i r j a : ℕ) (hb : SlabBounded f i)
    (hr : r < (f.slab i).rows (f.entryY i)) :
    add (cursorAt f i r j a).xlo (f.data.getD (cursorAt f i r j a).call_idx default).dxlo
      = some (rowXlo (f.slab i) (r + 1)) := by
  obtain ⟨_, _, hrow⟩ := hb
  obtain ⟨hlo, _, _⟩ := hrow (r + 1) (Nat.succ_lt_succ hr)
  exact double_of_abs_le_intMax _ hlo

/-- The sum `xhi + dxhi` at a cursor of a bounded slab. -/
theorem cursorAt_add_xhi (f : FillAlgorithm) (i r j a : ℕ) (hb : SlabBounded f i)
    (hr : r < (f.slab i).rows (f.entryY i)) :
    add (cursorAt f i r j a).xhi (f.data.getD (cursorAt f i r j a).call_idx default).dxhi
      = some (rowXhi (f.slab i) (r + 1)) := by
  obtain ⟨_, _, hrow⟩ := hb
  obtain ⟨_, hhi, _⟩ := hrow (r + 1) (Nat.succ_lt_succ hr)
  exact double_of_abs_le_intMax _ hhi

theorem begin_eq_cursorAt_rounded (f : FillAlgorithm) : f.begin = cursorAt f 0 0 0 0 := by
  simp [FillAlgorithm.begin, cursorAt, FillAlgorithm.slab, FillAlgorithm.entryY, rowXlo, rowXhi]

/-- One step inside a cell: the next aspect. -/
theorem step_asp_rounded (t : IsohedralTiling) (f : FillAlgorithm) (i r j a : ℕ)
    (ha : a + 1 < t.numAspects) :
    inc t f (cursorAt f i r j a) = some (cursorAt f i r j (a + 1)) := by
  rw [inc_asp_rounded t f _ ha]
  rfl

/-- One step from the last aspect of a cell that is not the last of its row: the next
column. -/
theorem step_col_rounded (t : IsohedralTiling) (f : FillAlgorithm) (i r j a : ℕ)
    (hb : SlabBounded f i) (hr : r < (f.slab i).rows (f.entryY i))
    (ha : ¬ a + 1 < t.numAspects) (hj : j + 1 < cols (f.slab i) r) :
    inc t f (cursorAt f i r j a) = some (cursorAt f i r (j + 1) 0) := by
  have h2 : (cursorAt f i r j a).x + 1 < rowBound (f.slab i) r :=
    (next_col_iff_rounded (f.slab i) r j).2 hj
  rw [inc_col_rounded t f _ _ _ ha (cursorAt_add_x f i r j a hb hr (by omega))
    (cursorAt_add_tol f i r j a hb hr) h2]
  simp only [cursorAt, Nat.cast_add, Nat.cast_one, add_assoc]

/-- One step from the last aspect of the last cell of a row that is not the last of
its slab: the next row. -/
theorem step_row_rounded (t : IsohedralTiling) (f : FillAlgorithm) (i r j a : ℕ)
    (hb : SlabBounded f i) (hjc : j < cols (f.slab i) r)
    (ha : ¬ a + 1 < t.numAspects) (hj : ¬ j + 1 < cols (f.slab i) r)
    (hr : r + 1 < (f.slab i).rows (f.entryY i)) :
    inc t f (cursorAt f i r j a) = some (cursorAt f i (r + 1) 0 0) := by
  have hr' : r < (f.slab i).rows (f.entryY i) := by omega
  have h2 : ¬ (cursorAt f i r j a).x + 1 < rowBound (f.slab i) r :=
    fun h => hj ((next_col_iff_rounded (f.slab i) r j).1 h)
  have h3 : floor ((cursorAt f i r j a).y + 1)
      < floor (f.data.getD (cursorAt f i r j a).call_idx default).ymax :=
    ((f.slab i).next_row_iff (f.entryY i) r).2 hr
  rw [inc_row_rounded t f _ _ _ _ _ _ ha (cursorAt_add_x f i r j a hb hr' hjc)
    (cursorAt_add_tol f i r j a hb hr') h2 (cursorAt_add_xlo f i r j a hb hr')
    (cursorAt_add_xhi f i r j a hb hr') (cursorAt_add_y f i r j a hb hr') h3]
  simp only [cursorAt, Nat.cast_add, Nat.cast_one, add_assoc, Nat.cast_zero, add_zero]

/-- One step from the last aspect of the last cell of the last row of a slab that is
not the last: the first cell of the next slab. -/
theorem step_slab_rounded (t : IsohedralTiling) (f : FillAlgorithm) (i r j a : ℕ)
    (hb : SlabBounded f i) (hjc : j < cols (f.slab i) r)
    (ha : ¬ a + 1 < t.numAspects) (hj : ¬ j + 1 < cols (f.slab i) r)
    (hr : r + 1 = (f.slab i).rows (f.entryY i)) (hi : i + 1 < f.num_calls) :
    inc t f (cursorAt f i r j a) = some (cursorAt f (i + 1) 0 0 0) := by
  have hr' : r < (f.slab i).rows (f.entryY i) := by omega
  have h2 : ¬ (cursorAt f i r j a).x + 1 < rowBound (f.slab i) r :=
    fun h => hj ((next_col_iff_rounded (f.slab i) r j).1 h)
  have h3 : ¬ floor ((cursorAt f i r j a).y + 1)
      < floor (f.data.getD (cursorAt f i r j a).call_idx default).ymax := by
    intro h
    have := ((f.slab i).next_row_iff (f.entryY i) r).1 h
    omega
  have h4 : (cursorAt f i r j a).call_idx + 1 < f.num_calls := hi
  rw [inc_slab_rounded t f _ _ _ _ _ _ ha (cursorAt_add_x f i r j a hb hr' hjc)
    (cursorAt_add_tol f i r j a hb hr') h2 (cursorAt_add_xlo f i r j a hb hr')
    (cursorAt_add_xhi f i r j a hb hr') (cursorAt_add_y f i r j a hb hr') h3 h4]
  have hrq : (((f.data.getD i default).rows (f.entryY i) : ℕ) : ℚ) = (r : ℚ) + 1 := by
    have : (f.data.getD i default).rows (f.entryY i) = r + 1 := hr.symm
    rw [this]; push_cast; rfl
  simp only [cursorAt, FillAlgorithm.slab, FillAlgorithm.entryY, rowXlo, rowXhi, hrq,
    add_assoc, Nat.cast_zero, add_zero]

/-- One step from the last aspect of the last cell of the last row of the last slab:
the done state. -/
theorem step_done_rounded (t : IsohedralTiling) (f : FillAlgorithm) (i r j a : ℕ)
    (hb : SlabBounded f i) (hjc : j < cols (f.slab i) r)
    (ha : ¬ a + 1 < t.numAspects) (hj : ¬ j + 1 < cols (f.slab i) r)
    (hr : r + 1 = (f.slab i).rows (f.entryY i)) (hi : ¬ i + 1 < f.num_calls) :
    ∃ c, inc t f (cursorAt f i r j a) = some c ∧ c.done = true := by
  have hr' : r < (f.slab i).rows (f.entryY i) := by omega
  have h2 : ¬ (cursorAt f i r j a).x + 1 < rowBound (f.slab i) r :=
    fun h => hj ((next_col_iff_rounded (f.slab i) r j).1 h)
  have h3 : ¬ floor ((cursorAt f i r j a).y + 1)
      < floor (f.data.getD (cursorAt f i r j a).call_idx default).ymax := by
    intro h
    have := ((f.slab i).next_row_iff (f.entryY i) r).1 h
    omega
  have h4 : ¬ (cursorAt f i r j a).call_idx + 1 < f.num_calls := hi
  exact ⟨_, inc_done_rounded t f _ _ _ _ _ _ ha (cursorAt_add_x f i r j a hb hr' hjc)
    (cursorAt_add_tol f i r j a hb hr') h2 (cursorAt_add_xlo f i r j a hb hr')
    (cursorAt_add_xhi f i r j a hb hr') (cursorAt_add_y f i r j a hb hr') h3 h4, rfl⟩

/-- Within a cell: from its first aspect to each of its aspects. -/
theorem iter_to_asp (t : IsohedralTiling) (f : FillAlgorithm) (i r j : ℕ)
    (h0 : iter t f (position f t.numAspects i r j 0) f.begin = some (cursorAt f i r j 0)) :
    ∀ a, a < t.numAspects →
      iter t f (position f t.numAspects i r j a) f.begin = some (cursorAt f i r j a) := by
  intro a
  induction a with
  | zero => intro _; exact h0
  | succ a ih =>
    intro ha
    have hp : position f t.numAspects i r j (a + 1) = position f t.numAspects i r j a + 1 := by
      simp only [position]; ring
    rw [hp, iter, ih (Nat.lt_of_succ_lt ha), Option.some_bind, step_asp_rounded t f i r j a ha]

/-- Within a row: from its first cell to the first aspect of each of its cells. -/
theorem iter_to_col (t : IsohedralTiling) (f : FillAlgorithm) (i r : ℕ)
    (hb : SlabBounded f i) (hr : r < (f.slab i).rows (f.entryY i)) (hm : 1 ≤ t.numAspects)
    (h0 : iter t f (position f t.numAspects i r 0 0) f.begin = some (cursorAt f i r 0 0)) :
    ∀ j, j < cols (f.slab i) r →
      iter t f (position f t.numAspects i r j 0) f.begin = some (cursorAt f i r j 0) := by
  obtain ⟨m, hm'⟩ : ∃ m, t.numAspects = m + 1 := ⟨t.numAspects - 1, by omega⟩
  intro j
  induction j with
  | zero => intro _; exact h0
  | succ j ih =>
    intro hj
    have hlast := iter_to_asp t f i r j (ih (Nat.lt_of_succ_lt hj)) m (by omega)
    have hp : position f t.numAspects i r (j + 1) 0 = position f t.numAspects i r j m + 1 := by
      simp only [position, hm']; ring
    rw [hp, iter, hlast, Option.some_bind, step_col_rounded t f i r j m hb hr (by omega) hj]

/-- Within a slab: from its first cell to the first cell of each of its rows. -/
theorem iter_to_row (t : IsohedralTiling) (f : FillAlgorithm) (i : ℕ)
    (hb : SlabBounded f i) (hm : 1 ≤ t.numAspects)
    (h0 : iter t f (position f t.numAspects i 0 0 0) f.begin = some (cursorAt f i 0 0 0)) :
    ∀ r, r < (f.slab i).rows (f.entryY i) →
      iter t f (position f t.numAspects i r 0 0) f.begin = some (cursorAt f i r 0 0) := by
  obtain ⟨m, hm'⟩ : ∃ m, t.numAspects = m + 1 := ⟨t.numAspects - 1, by omega⟩
  intro r
  induction r with
  | zero => intro _; exact h0
  | succ r ih =>
    intro hr
    have hr' : r < (f.slab i).rows (f.entryY i) := Nat.lt_of_succ_lt hr
    obtain ⟨c, hc⟩ : ∃ c, cols (f.slab i) r = c + 1 :=
      ⟨cols (f.slab i) r - 1, by have := cols_pos_rounded (f.slab i) r; omega⟩
    have hcol := iter_to_col t f i r hb hr' hm (ih hr') c (by omega)
    have hlast := iter_to_asp t f i r c hcol m (by omega)
    have hp : position f t.numAspects i (r + 1) 0 0 = position f t.numAspects i r c m + 1 := by
      simp only [position, sumTo, hm', hc]; ring
    rw [hp, iter, hlast, Option.some_bind,
      step_row_rounded t f i r c m hb (by omega) (by omega) (by omega) hr]

/-- From `begin()` to the first cell of each slab. -/
theorem iter_to_slab (t : IsohedralTiling) (f : FillAlgorithm) (hb : Bounded f)
    (hm : 1 ≤ t.numAspects) :
    ∀ i, i < f.num_calls →
      iter t f (position f t.numAspects i 0 0 0) f.begin = some (cursorAt f i 0 0 0) := by
  obtain ⟨m, hm'⟩ : ∃ m, t.numAspects = m + 1 := ⟨t.numAspects - 1, by omega⟩
  intro i
  induction i with
  | zero =>
    intro _
    have : position f t.numAspects 0 0 0 0 = 0 := by simp [position, sumTo]
    rw [this, iter, begin_eq_cursorAt_rounded]
  | succ i ih =>
    intro hi
    have hi' : i < f.num_calls := Nat.lt_of_succ_lt hi
    have hbi := hb i hi'
    obtain ⟨R, hR⟩ : ∃ R, (f.slab i).rows (f.entryY i) = R + 1 :=
      ⟨(f.slab i).rows (f.entryY i) - 1, by have := (f.slab i).rows_pos (f.entryY i); omega⟩
    obtain ⟨c, hc⟩ : ∃ c, cols (f.slab i) R = c + 1 :=
      ⟨cols (f.slab i) R - 1, by have := cols_pos_rounded (f.slab i) R; omega⟩
    have hrow := iter_to_row t f i hbi hm (ih hi') R (by omega)
    have hcol := iter_to_col t f i R hbi (by omega) hm hrow c (by omega)
    have hlast := iter_to_asp t f i R c hcol m (by omega)
    have hp : position f t.numAspects (i + 1) 0 0 0 = position f t.numAspects i R c m + 1 := by
      simp only [position, sumTo, slabSteps, hR, hm', hc]; ring
    rw [hp, iter, hlast, Option.some_bind,
      step_slab_rounded t f i R c m hbi (by omega) (by omega) (by omega) hR.symm hi]

/-- The traversal in closed form: with at least one aspect and within the range of
`int`, `position i r j a` steps from `begin()` lead to aspect `a` of column `j` of row
`r` of slab `i`. -/
theorem iter_position (t : IsohedralTiling) (f : FillAlgorithm) (hb : Bounded f)
    (hm : 1 ≤ t.numAspects) (i r j a : ℕ) (hi : i < f.num_calls)
    (hr : r < (f.slab i).rows (f.entryY i)) (hj : j < cols (f.slab i) r)
    (ha : a < t.numAspects) :
    iter t f (position f t.numAspects i r j a) f.begin = some (cursorAt f i r j a) :=
  iter_to_asp t f i r j
    (iter_to_col t f i r (hb i hi) hr hm
      (iter_to_row t f i (hb i hi) hm (iter_to_slab t f hb hm i hi) r hr) j hj)
    a ha

/-- With at least one aspect and one slab, and within the range of `int`, `totalSteps`
steps from `begin()` lead to the done state. -/
theorem iter_totalSteps_done (t : IsohedralTiling) (f : FillAlgorithm) (hb : Bounded f)
    (hm : 1 ≤ t.numAspects) (hs : 1 ≤ f.num_calls) :
    (∃ c, iter t f (totalSteps f t.numAspects) f.begin = some c ∧ c.done = true) ∧
      ∃ i r j a, totalSteps f t.numAspects = position f t.numAspects i r j a + 1 ∧
        iter t f (position f t.numAspects i r j a) f.begin = some (cursorAt f i r j a) := by
  obtain ⟨m, hm'⟩ : ∃ m, t.numAspects = m + 1 := ⟨t.numAspects - 1, by omega⟩
  obtain ⟨n, hn⟩ : ∃ n, f.num_calls = n + 1 := ⟨f.num_calls - 1, by omega⟩
  obtain ⟨R, hR⟩ : ∃ R, (f.slab n).rows (f.entryY n) = R + 1 :=
    ⟨(f.slab n).rows (f.entryY n) - 1, by have := (f.slab n).rows_pos (f.entryY n); omega⟩
  obtain ⟨c, hc⟩ : ∃ c, cols (f.slab n) R = c + 1 :=
    ⟨cols (f.slab n) R - 1, by have := cols_pos_rounded (f.slab n) R; omega⟩
  have hlast := iter_position t f hb hm n R c m (by omega) (by omega) (by omega) (by omega)
  have hp : totalSteps f t.numAspects = position f t.numAspects n R c m + 1 := by
    simp only [totalSteps, position, sumTo, slabSteps, hn, hR, hm', hc]; ring
  refine ⟨?_, n, R, c, m, hp, hlast⟩
  rw [hp, iter, hlast, Option.some_bind]
  exact step_done_rounded t f n R c m (hb n (by omega)) (by omega) (by omega) (by omega) hR.symm
    (by omega)

/-- The steps of the traversal stay below the bound of the specification. -/
theorem totalSteps_le_stepBound_rounded (f : FillAlgorithm) (m : ℕ) :
    totalSteps f m ≤ stepBound f m := by
  unfold totalSteps stepBound
  apply sumTo_le_sumTo
  intro i _
  unfold slabSteps
  have h := sumTo_le_mul (fun r => cols (f.slab i) r * m) ((f.slab i).rows (f.entryY i))
    (maxCols (f.slab i) (f.entryY i) * m)
    (fun r hr => Nat.mul_le_mul_right m (le_maxTo _ _ r hr))
  calc sumTo (fun r => cols (f.slab i) r * m) ((f.slab i).rows (f.entryY i))
      ≤ (f.slab i).rows (f.entryY i) * (maxCols (f.slab i) (f.entryY i) * m) := h
    _ = (f.slab i).rows (f.entryY i) * maxCols (f.slab i) (f.entryY i) * m := by ring

end Machine

end csk

namespace csk

/-! ## Termination of the traversal in machine arithmetic -/

namespace Machine

/-- A cursor that is done stays done. -/
theorem inc_done_of_done_rounded (t : IsohedralTiling) (algo : FillAlgorithm)
    (it next : FillRegionIterator) (h : inc t algo it = some next) (hd : it.done = true) :
    next.done = true := by
  rcases inc_cases t algo it next h with ⟨_, rfl⟩ | ⟨_, x, b, _, _, hrest⟩
  · exact hd
  rcases hrest with ⟨_, rfl⟩ | ⟨_, xlo, xhi, y, _, _, _, hrest⟩
  · exact hd
  rcases hrest with ⟨_, rfl⟩ | ⟨_, _, rfl⟩ | ⟨_, _, rfl⟩
  · exact hd
  · exact hd
  · rfl

theorem iter_succ_front (t : IsohedralTiling) (algo : FillAlgorithm) (n : ℕ)
    (it : FillRegionIterator) :
    iter t algo (n + 1) it = (inc t algo it).bind (iter t algo n) := by
  induction n with
  | zero =>
    simp only [iter, Option.some_bind]
    cases inc t algo it <;> rfl
  | succ n ih =>
    rw [iter, ih]
    cases inc t algo it with
    | none => rfl
    | some next => simp only [Option.some_bind, iter]

/-- Before a cursor that is not done, every step has a result and no cursor is done. -/
theorem iter_not_done_before (t : IsohedralTiling) (algo : FillAlgorithm)
    (it : FillRegionIterator) (n : ℕ) :
    ∀ c : FillRegionIterator, iter t algo n it = some c → c.done = false →
      ∀ k, k ≤ n → (iter t algo k it).map FillRegionIterator.done = some false := by
  induction n with
  | zero =>
    intro c h hd k hk
    have : k = 0 := by omega
    subst this
    rw [h, Option.map_some', hd]
  | succ n ih =>
    intro c h hd k hk
    rcases Nat.lt_or_ge k (n + 1) with h1 | h1
    · rw [iter] at h
      cases hp : iter t algo n it with
      | none => rw [hp] at h; exact Option.noConfusion h
      | some prev =>
        rw [hp, Option.some_bind] at h
        have hpd : prev.done = false := by
          by_contra hcon
          have := inc_done_of_done_rounded t algo prev c h (by simpa using hcon)
          rw [hd] at this
          exact Bool.noConfusion this
        exact ih prev hp hpd k (by omega)
    · have : k = n + 1 := by omega
      subst this
      rw [h, Option.map_some', hd]

/-- The cursors of the loop are the iterates of `inc` up to the first one that is
done, whatever fuel is left over. -/
theorem visited_eq_map_iter (t : IsohedralTiling) (algo : FillAlgorithm) (N : ℕ) :
    ∀ it : FillRegionIterator,
      (iter t algo N it).map FillRegionIterator.done = some true →
      (∀ k, k < N → (iter t algo k it).map FillRegionIterator.done = some false) →
      ∀ fuel, N ≤ fuel →
        visited t algo fuel it
          = some ((List.range N).map (fun k => (iter t algo k it).getD algo.end)) := by
  induction N with
  | zero =>
    intro it hd _ fuel _
    have : it.done = true := by
      rw [iter, Option.map_some'] at hd
      exact Option.some.inj hd
    rw [visited_done t algo fuel it this]
    rfl
  | succ N ih =>
    intro it hd hnd fuel hfuel
    obtain ⟨fuel, rfl⟩ : ∃ f', fuel = f' + 1 := ⟨fuel - 1, by omega⟩
    have h0 : it.done = false := by
      have := hnd 0 (Nat.succ_pos N)
      rw [iter, Option.map_some'] at this
      exact Option.some.inj this
    cases hn : inc t algo it with
    | none =>
      rw [iter_succ_front, hn] at hd
      exact Option.noConfusion hd
    | some next =>
      have hshift : ∀ k, iter t algo (k + 1) it = iter t algo k next := by
        intro k
        rw [iter_succ_front, hn, Option.some_bind]
      have hd' : (iter t algo N next).map FillRegionIterator.done = some true := by
        rw [← hshift]; exact hd
      have hnd' : ∀ k, k < N →
          (iter t algo k next).map FillRegionIterator.done = some false := by
        intro k hk
        rw [← hshift]
        exact hnd (k + 1) (Nat.succ_lt_succ hk)
      have hrec := ih next hd' hnd' fuel (by omega)
      simp only [visited, h0, Bool.false_eq_true, if_false, hn, Option.some_bind, hrec]
      rw [List.range_succ_eq_map, List.map_cons, List.map_map]
      congr 1
      congr 1
      · apply List.map_congr_left
        intro k _
        simp only [Function.comp, Nat.succ_eq_add_one, hshift]

end Machine

/-- C9, as stated, fails: the slab of the fill of the box `[1e17, 2e17] × [0, 1]` over
the unit lattice with one aspect has finite data, but the sum `x + 1.0` is rounded
back to `x`, so every step of the cursor from `begin()` leads to the same cursor, which
is not done: the done state is never reached. -/
theorem fill_termination_counterexample :
    Machine.fillRegionBox syntheticTiling (10 ^ 17) 0 (2 * 10 ^ 17) 1 false
      = some Machine.hugeFill ∧
    1 ≤ syntheticTiling.numAspects ∧ 1 ≤ Machine.hugeFill.num_calls ∧
    Machine.hugeFill.begin.done = false ∧
    ∀ n, Machine.iter syntheticTiling Machine.hugeFill n Machine.hugeFill.begin
      = some Machine.hugeFill.begin := by
  refine ⟨by decide!, by decide!, by decide!, by decide!, ?_⟩
  intro n
  induction n with
  | zero => rfl
  | succ n ih =>
    rw [Machine.iter, ih, Option.some_bind]
    decide!

/-- C9, amended: termination within the range of `int`.  For every tiling with at least
one aspect and every fill result with at least one slab whose rows and row bounds (the
members `xlo`, `xhi` and the value of `xhi + 1e-7` in every row) stay within the range
of `int`, advancing the cursor from `begin()` reaches the done state after a number `N`
of steps and not before; `N` is at most the sum over the slabs of (rows visited in the
slab) × (largest number of columns in one of its rows) × (aspect count), and the loop
from `begin()` to `end()` visits exactly `N` cursors however much fuel it is given
beyond `N`. -/
theorem machine_fill_terminates (t : IsohedralTiling) (f : FillAlgorithm)
    (hm : 1 ≤ t.numAspects) (hs : 1 ≤ f.num_calls) (hb : Machine.Bounded f) :
    ∃ N, N ≤ Machine.stepBound f t.numAspects ∧
      (Machine.iter t f N f.begin).map FillRegionIterator.done = some true ∧
      (∀ k, k < N → (Machine.iter t f k f.begin).map FillRegionIterator.done = some false) ∧
      (∀ fuel, N ≤ fuel →
        ∃ l, Machine.visited t f fuel f.begin = some l ∧ l.length = N) := by
  obtain ⟨⟨c, hc, hcd⟩, i, r, j, a, hN, hlast⟩ := Machine.iter_totalSteps_done t f hb hm hs
  have hdone : (Machine.iter t f (Machine.totalSteps f t.numAspects) f.begin).map
      FillRegionIterator.done = some true := by
    rw [hc, Option.map_some', hcd]
  have hbefore : ∀ k, k < Machine.totalSteps f t.numAspects →
      (Machine.iter t f k f.begin).map FillRegionIterator.done = some false := by
    intro k hk
    exact Machine.iter_not_done_before t f f.begin _ _ hlast rfl k (by omega)
  refine ⟨Machine.totalSteps f t.numAspects, Machine.totalSteps_le_stepBound_rounded f _, hdone,
    hbefore, ?_⟩
  intro fuel hfuel
  refine ⟨_, Machine.visited_eq_map_iter t f _ f.begin hdone hbefore fuel hfuel, ?_⟩
  simp

/-- C9, amended, at the fill of the region with the corners `(0,0)`, `(3,0)`, `(3,2)`,
`(0,2)` over the synthetic tiling. -/
theorem machine_fill_terminates_witness :
    Machine.fillRegion syntheticTiling ⟨0, 0⟩ ⟨3, 0⟩ ⟨3, 2⟩ ⟨0, 2⟩ false = some syntheticFill ∧
    1 ≤ syntheticTiling.numAspects ∧ 1 ≤ syntheticFill.num_calls ∧
    Machine.Bounded syntheticFill ∧
    ∃ N, N ≤ Machine.stepBound syntheticFill syntheticTiling.numAspects ∧
      (Machine.iter syntheticTiling syntheticFill N syntheticFill.begin).map
        FillRegionIterator.done = some true ∧
      (∀ k, k < N → (Machine.iter syntheticTiling syntheticFill k syntheticFill.begin).map
        FillRegionIterator.done = some false) ∧
      (∀ fuel, N ≤ fuel →
        ∃ l, Machine.visited syntheticTiling syntheticFill fuel syntheticFill.begin = some l ∧
          l.length = N) :=
  ⟨by decide!, by decide!, by decide!, by decide!,
    machine_fill_terminates syntheticTiling syntheticFill (by decide!) (by decide!)
      (by decide!)⟩

end csk

namespace csk

/-! ## The traversal of a single slab in machine arithmetic -/

namespace Machine

/-- The cursors of a bounded fill result from `begin()` to `end()` are the iterates of
`inc` up to the total number of steps, whatever fuel is left over. -/
theorem visited_eq_range_rounded (t : IsohedralTiling) (f : FillAlgorithm) (hb : Bounded f)
    (hm : 1 ≤ t.numAspects) (hs : 1 ≤ f.num_calls) (fuel : ℕ)
    (hfuel : totalSteps f t.numAspects ≤ fuel) :
    visited t f fuel f.begin
      = some ((List.range (totalSteps f t.numAspects)).map
          (fun k => (iter t f k f.begin).getD f.end)) := by
  obtain ⟨⟨c, hc, hcd⟩, i, r, j, a, hN, hlast⟩ := iter_totalSteps_done t f hb hm hs
  have hdone : (iter t f (totalSteps f t.numAspects) f.begin).map
      FillRegionIterator.done = some true := by
    rw [hc, Option.map_some', hcd]
  have hbefore : ∀ k, k < totalSteps f t.numAspects →
      (iter t f k f.begin).map FillRegionIterator.done = some false := by
    intro k hk
    exact iter_not_done_before t f f.begin _ _ hlast rfl k (by omega)
  exact visited_eq_map_iter t f _ f.begin hdone hbefore fuel hfuel

/-- What `getT1` reads at a cursor of a bounded slab. -/
theorem cursorAt_getT1 (f : FillAlgorithm) (i r j a : ℕ) (hb : SlabBounded f i)
    (hr : r < (f.slab i).rows (f.entryY i)) (hj : j < cols (f.slab i) r) :
    getT1 (cursorAt f i r j a) = some (⌊rowXlo (f.slab i) r⌋ + (j : ℤ)) := by
  obtain ⟨z, hz, h1, h2⟩ := cursorAt_x f i r j a hb hr hj
  have hx : (cursorAt f i r j a).x = ((⌊rowXlo (f.slab i) r⌋ + (j : ℤ) : ℤ) : ℚ) := by
    simp only [cursorAt, floor]
    push_cast
    rfl
  have hzz : z = ⌊rowXlo (f.slab i) r⌋ + (j : ℤ) := by
    have := hz.symm.trans hx
    exact_mod_cast this
  rw [getT1, hx, toInt_intCast_rounded, if_pos (by omega)]

/-- What `getT2` reads at a cursor of a bounded slab. -/
theorem cursorAt_getT2 (f : FillAlgorithm) (i r j a : ℕ) (hb : SlabBounded f i)
    (hr : r < (f.slab i).rows (f.entryY i)) :
    ∃ e : ℤ, f.entryY i = e ∧ getT2 (cursorAt f i r j a) = some (e + (r : ℤ)) := by
  obtain ⟨z, hz, h1, h2⟩ := cursorAt_y f i r j a hb hr
  obtain ⟨e, he⟩ := entryY_int f i
  have hy : (cursorAt f i r j a).y = ((e + (r : ℤ) : ℤ) : ℚ) := by
    simp only [cursorAt, he]
    push_cast
    rfl
  have hzz : z = e + (r : ℤ) := by
    have := hz.symm.trans hy
    exact_mod_cast this
  refine ⟨e, he, ?_⟩
  rw [getT2, hy, toInt_intCast_rounded, if_pos (by omega)]

theorem single_cols_rounded (s : Slab) (r : ℕ) :
    cols s r = max 1 (⌈rowBound s r - ((⌊rowXlo s r⌋ : ℤ) : ℚ)⌉).toNat := by
  simp only [cols, floor]

end Machine

/-- C25, as stated, fails: for the slab of the fill of the region with the corners
`(0,0)`, `(5,0)`, `(6,10)`, `(1,10)` over the unit lattice with one aspect, whose slopes
are the `double` nearest to `1/10`, ten rounded additions of the slope to `xlo = 0` give
a value below 1, so row 10 of the traversal starts at column 0; the closed form of the
specification, `floor( xlo + 10·dxlo )`, starts it at column 1 and has 66 entries where
the traversal visits 67 cursors. -/
theorem single_slab_counterexample :
    Machine.fillRegion syntheticTiling ⟨0, 0⟩ ⟨5, 0⟩ ⟨6, 10⟩ ⟨1, 10⟩ false
      = some Machine.tenthFill ∧
    Machine.tenthFill.num_calls = 1 ∧
    Machine.rowXlo (Machine.tenthFill.slab 0) 10 = 9007199254740991 / 9007199254740992 ∧
    ⌊(Machine.tenthFill.slab 0).xlo + 10 * (Machine.tenthFill.slab 0).dxlo⌋ = 1 ∧
    (Machine.keys syntheticTiling Machine.tenthFill 200).map
        (fun ks => (ks.length, ks.drop 60))
      = some (67, [(0, 10, 0, 0), (0, 10, 1, 0), (0, 10, 2, 0), (0, 10, 3, 0), (0, 10, 4, 0),
          (0, 10, 5, 0), (0, 10, 6, 0)]) ∧
    (specSingleSlab (Machine.tenthFill.slab 0) 1).length = 66 ∧
    (specSingleSlab (Machine.tenthFill.slab 0) 1).drop 60
      = [(1, 10, 0), (2, 10, 0), (3, 10, 0), (4, 10, 0), (5, 10, 0), (6, 10, 0)] := by
  refine ⟨?_, ?_, ?_, ?_, ?_, ?_, ?_⟩ <;> decide!

/-- C25, amended: the iteration of a single slab equals its closed form with rounded
row bounds.  For a fill result with one slab whose rows and row bounds stay within the
range of `int`, and `m ≥ 1` aspects, the sequence of `(getT1, getT2, getAspect)` from
`begin()` to `end()` is: for `r = 0 .. R-1` with `R = max( 1, floor(ymax) − floor(ymin) )`
the row `y = floor(ymin) + r`; in that row the columns `floor( xlo_r )`, the next one and
so on for as long as the column is below the rounded sum `xhi_r + 1e-7`, the first
column always, where `xlo_r` and `xhi_r` are `xlo` and `xhi` after `r` rounded additions
of `dxlo` and `dxhi`; and at each `(x, y)` the aspects `0, 1, ..., m-1` in order. -/
theorem machine_single_slab_closed_form (t : IsohedralTiling) (f : FillAlgorithm)
    (hm : 1 ≤ t.numAspects) (h1 : f.num_calls = 1) (hb : Machine.Bounded f) (fuel : ℕ)
    (hfuel : Machine.totalSteps f t.numAspects ≤ fuel) :
    (∃ l, Machine.visited t f fuel f.begin = some l ∧
      l.map (fun it => (Machine.getT1 it, Machine.getT2 it, it.getAspect))
        = (Machine.specSingleSlab (f.slab 0) t.numAspects).map
            (fun k => (some k.1, some k.2.1, k.2.2))) ∧
    (∀ (x0 : ℤ) (bound : ℚ) (c : ℕ),
      c < (specColumns x0 bound).length ↔ c = 0 ∨ ((x0 + (c : ℤ) : ℤ) : ℚ) < bound) := by
  refine ⟨?_, mem_specColumns⟩
  have hs : 1 ≤ f.num_calls := by omega
  have hb0 : Machine.SlabBounded f 0 := hb 0 (by omega)
  have hN : Machine.totalSteps f t.numAspects
      = sumTo (fun r => Machine.cols (f.slab 0) r * t.numAspects)
          ((f.slab 0).rows (f.entryY 0)) := by
    simp only [Machine.totalSteps, h1, sumTo, Machine.slabSteps, Nat.zero_add]
  refine ⟨_, Machine.visited_eq_range_rounded t f hb hm hs fuel hfuel, ?_⟩
  rw [List.map_map, hN, range_sumTo_map]
  unfold Machine.specSingleSlab
  rw [← single_rows, List.map_flatMap]
  apply List.flatMap_congr
  intro r hr
  rw [range_mul_map, specColumns, List.flatMap_map, ← Machine.single_cols_rounded, List.map_flatMap]
  apply List.flatMap_congr
  intro j hj
  rw [List.map_map]
  apply List.map_congr_left
  intro a ha
  have hpos : sumTo (fun r => Machine.cols (f.slab 0) r * t.numAspects) r
      + (j * t.numAspects + a) = Machine.position f t.numAspects 0 r j a := by
    simp only [Machine.position, sumTo]
    omega
  have hr' := List.mem_range.1 hr
  have hj' := List.mem_range.1 hj
  simp only [Function.comp]
  rw [hpos, Machine.iter_position t f hb hm 0 r j a (by omega) hr' hj' (List.mem_range.1 ha),
    Option.getD_some, Machine.cursorAt_getT1 f 0 r j a hb0 hr' hj']
  obtain ⟨e, he, hy⟩ := Machine.cursorAt_getT2 f 0 r j a hb0 hr'
  have hee : e = ⌊(f.slab 0).ymin⌋ := by
    have h2 : f.entryY 0 = ((⌊(f.slab 0).ymin⌋ : ℤ) : ℚ) := rfl
    have := he.symm.trans h2
    exact_mod_cast this
  rw [hy, hee]
  rfl

/-- C25, amended, at the slab with the slopes nearest to `1/10`: 67 cursors, row 10
starting at column 0. -/
theorem machine_single_slab_closed_form_witness :
    1 ≤ syntheticTiling.numAspects ∧ Machine.tenthFill.num_calls = 1 ∧
    Machine.Bounded Machine.tenthFill ∧
    Machine.totalSteps Machine.tenthFill syntheticTiling.numAspects ≤ 100 ∧
    (∃ l, Machine.visited syntheticTiling Machine.tenthFill 100 Machine.tenthFill.begin
        = some l ∧
      l.map (fun it => (Machine.getT1 it, Machine.getT2 it, it.getAspect))
        = (Machine.specSingleSlab (Machine.tenthFill.slab 0) syntheticTiling.numAspects).map
            (fun k => (some k.1, some k.2.1, k.2.2))) ∧
    (Machine.specSingleSlab (Machine.tenthFill.slab 0) syntheticTiling.numAspects).drop 60
      = [(0, 10, 0), (1, 10, 0), (2, 10, 0), (3, 10, 0), (4, 10, 0), (5, 10, 0), (6, 10, 0)] :=
  ⟨by decide!, by decide!, by decide!, by decide!,
    (machine_single_slab_closed_form syntheticTiling Machine.tenthFill (by decide!)
      (by decide!) (by decide!) 100 (by decide!)).1, by decide!⟩

end csk

namespace csk

/-! ## Which cells a fill visits, in machine arithmetic -/

namespace Machine

theorem position_lt_totalSteps (f : FillAlgorithm) (m i r j a : ℕ) (hi : i < f.num_calls)
    (hr : r < (f.slab i).rows (f.entryY i)) (hj : j < cols (f.slab i) r) (ha : a < m) :
    position f m i r j a < totalSteps f m := by
  unfold position totalSteps
  have h1 : sumTo (slabSteps f m) (i + 1) ≤ sumTo (slabSteps f m) f.num_calls :=
    sumTo_mono _ (by omega)
  have h2 : sumTo (fun r' => cols (f.slab i) r' * m) (r + 1)
      ≤ sumTo (fun r' => cols (f.slab i) r' * m) ((f.slab i).rows (f.entryY i)) :=
    sumTo_mono _ (by omega)
  have h3 : (j + 1) * m ≤ cols (f.slab i) r * m := Nat.mul_le_mul_right m (by omega)
  have h4 : (j + 1) * m = j * m + m := by ring
  have h5 : slabSteps f m i
      = sumTo (fun r' => cols (f.slab i) r' * m) ((f.slab i).rows (f.entryY i)) := rfl
  simp only [sumTo] at h1 h2
  omega

/-- Every cell of a bounded fill result that the closed form names is visited by the
loop from `begin()` to `end()`. -/
theorem yields_cursorAt (t : IsohedralTiling) (f : FillAlgorithm) (hb : Bounded f)
    (i r j a : ℕ) (hi : i < f.num_calls) (hr : r < (f.slab i).rows (f.entryY i))
    (hj : j < cols (f.slab i) r) (ha : a < t.numAspects) :
    ∃ l, visited t f (totalSteps f t.numAspects) f.begin = some l ∧ cursorAt f i r j a ∈ l := by
  have hm : 1 ≤ t.numAspects := by omega
  have hs : 1 ≤ f.num_calls := by omega
  refine ⟨_, visited_eq_range_rounded t f hb hm hs _ (le_refl _), ?_⟩
  refine List.mem_map.2 ⟨position f t.numAspects i r j a,
    List.mem_range.2 (position_lt_totalSteps f _ i r j a hi hr hj ha), ?_⟩
  rw [iter_position t f hb hm i r j a hi hr hj ha]
  rfl

theorem narrow_spec (v p : dvec2) (h : narrow v = some p) :
    single v.x = some p.x ∧ single v.y = some p.y := by
  unfold narrow at h
  cases hx : single v.x with
  | none => rw [hx] at h; exact Option.noConfusion h
  | some x =>
    cases hy : single v.y with
    | none => rw [hx, hy] at h; exact Option.noConfusion h
    | some y =>
      rw [hx, hy] at h
      simp only [Option.some_bind, Option.some.injEq] at h
      rw [← h]
      exact ⟨rfl, rfl⟩

/-- The first and the third mapped corner are `float`s. -/
theorem pts_spec (t : IsohedralTiling) (A B C D : dvec2) (ps : List dvec2)
    (h : pts t A B C D = some ps) :
    ∃ v0 v2, narrow v0 = some (ps.getD 0 default) ∧ narrow v2 = some (ps.getD 2 default) := by
  unfold pts at h
  obtain ⟨d, _, h⟩ := Option.bind_eq_some.1 h
  obtain ⟨M, _, h⟩ := Option.bind_eq_some.1 h
  obtain ⟨p0, h0, h⟩ := Option.bind_eq_some.1 h
  obtain ⟨p1, _, h⟩ := Option.bind_eq_some.1 h
  obtain ⟨p2, h2, h⟩ := Option.bind_eq_some.1 h
  obtain ⟨p3, _, h⟩ := Option.bind_eq_some.1 h
  obtain ⟨v0, _, h0⟩ := Option.bind_eq_some.1 h0
  obtain ⟨v2, _, h2⟩ := Option.bind_eq_some.1 h2
  have hps := Option.some.inj h
  refine ⟨v0, v2, ?_, ?_⟩
  · rw [← hps]
    split_ifs
    · exact h0
    · exact h0
  · rw [← hps]
    split_ifs
    · exact h2
    · exact h2

theorem tolD_pos : 0 < tolD := by norm_num [tolD]

theorem close_self (y : ℚ) : close y y = true := by
  have h : fsub y y = some 0 := by
    unfold fsub
    rw [sub_self]
    exact single_zero
  unfold close
  rw [h]
  exact decide_eq_true (by rw [abs_zero]; exact tolD_pos)

/-- Two different `float`s differ by at least the least positive `float`, so their
difference as `double`s is finite and not zero, when they are of moderate size. -/
theorem sub_floats (a b : ℚ) (hab : a < b) (ha : ∃ z : ℤ, a = z * pow2 (-149))
    (hb : ∃ z : ℤ, b = z * pow2 (-149)) (hsize : b - a ≤ 67108864) :
    ∃ d, sub b a = some d ∧ d ≠ 0 := by
  obtain ⟨za, rfl⟩ := ha
  obtain ⟨zb, rfl⟩ := hb
  have hu := pow2_pos (-149)
  have hz : za < zb := by
    have : (za : ℚ) < zb := lt_of_mul_lt_mul_right hab (le_of_lt hu)
    exact_mod_cast this
  have hge : pow2 (-149) ≤ (zb : ℚ) * pow2 (-149) - (za : ℚ) * pow2 (-149) := by
    have h1 : (1 : ℚ) ≤ (zb : ℚ) - za := by
      have : za + 1 ≤ zb := hz
      have h2 : ((za + 1 : ℤ) : ℚ) ≤ (zb : ℚ) := by exact_mod_cast this
      push_cast at h2
      linarith
    nlinarith
  have hrep : Representable 53 (-1074) (pow2 (-149)) :=
    ⟨1, -149, by norm_num, by norm_num, by simp⟩
  have hlow := le_roundTo 53 (-1074) _ _ (by norm_num) hrep hge
  have habs : |(zb : ℚ) * pow2 (-149) - (za : ℚ) * pow2 (-149)| ≤ ((67108864 : ℤ) : ℚ) := by
    rw [abs_of_pos (lt_of_lt_of_le hu hge)]
    push_cast
    exact hsize
  obtain ⟨hd, _⟩ := double_of_abs_le _ 67108864 (by norm_num) habs
  refine ⟨_, hd, ?_⟩
  have : 0 < rnd ((zb : ℚ) * pow2 (-149) - (za : ℚ) * pow2 (-149)) := lt_of_lt_of_le hu hlow
  exact ne_of_gt this

theorem sub_self_eq (a : ℚ) : sub a a = some 0 := by
  simp only [sub, sub_self, double_zero]

theorem div_zero_left (d : ℚ) (hd : d ≠ 0) : div 0 d = some 0 := by
  simp only [div, if_neg hd, zero_div, double_zero]

/-- The slab that `doFill` writes for a box with the lower left corner `(x0, y0)` and
the upper right corner `(x1, y1)`. -/
theorem doFill_box (f : FillAlgorithm) (x0 y0 x1 y1 : ℚ) (hy : y0 < y1)
    (hy0 : ∃ z : ℤ, y0 = z * pow2 (-149)) (hy1 : ∃ z : ℤ, y1 = z * pow2 (-149))
    (hb0 : |y0| ≤ 16777216) (hb1 : |y1| ≤ 16777216) :
    doFill f ⟨x0, y0⟩ ⟨x1, y0⟩ ⟨x1, y1⟩ ⟨x0, y1⟩ true
      = some { f with
          data := f.data.set f.num_calls ⟨y0, rnd (y1 + 1), x0, x1, 0, 0⟩
          num_calls := f.num_calls + 1 } ∧
    |rnd (y1 + 1)| ≤ 16777217 ∧ ((⌊y1⌋ + 1 : ℤ) : ℚ) ≤ rnd (y1 + 1) := by
  obtain ⟨h0l, h0u⟩ := abs_le.1 hb0
  obtain ⟨h1l, h1u⟩ := abs_le.1 hb1
  obtain ⟨d, hd, hd0⟩ := sub_floats y0 y1 hy hy0 hy1 (by linarith)
  have habs : |y1 + 1| ≤ ((16777217 : ℤ) : ℚ) := by
    rw [abs_le]; push_cast; constructor <;> linarith
  obtain ⟨hadd, hbound⟩ := double_of_abs_le (y1 + 1) 16777217 (by norm_num) habs
  have hfl : |⌊y1⌋ + 1| < (2 : ℤ) ^ 53 := by
    have h1 : ⌊y1⌋ ≤ 16777216 := by
      have : ((⌊y1⌋ : ℤ) : ℚ) ≤ ((16777216 : ℤ) : ℚ) := by
        push_cast; exact le_trans (Int.floor_le _) h1u
      exact_mod_cast this
    have h2 : (-16777216 : ℤ) ≤ ⌊y1⌋ := Int.le_floor.2 (by push_cast; linarith)
    rw [abs_lt]
    constructor <;> omega
  have hlow : ((⌊y1⌋ + 1 : ℤ) : ℚ) ≤ rnd (y1 + 1) :=
    le_roundTo 53 (-1074) _ _ (by norm_num)
      (repr_intCast 53 (-1074) _ hfl (by norm_num))
      (by push_cast; linarith [Int.floor_le y1])
  refine ⟨?_, by push_cast at hbound; exact hbound, hlow⟩
  simp only [doFill, sub_self_eq, hd, Option.some_bind, div_zero_left d hd0, if_true]
  have : add y1 1 = some (rnd (y1 + 1)) := hadd
  rw [this]
  rfl

/-- The constructor on mapped corners that form a box: a single slab with vertical
sides. -/
theorem create_box (t : IsohedralTiling) (A B C D : dvec2) (x0 y0 x1 y1 : ℚ) (dbg : Bool)
    (hpts : pts t A B C D = some [⟨x0, y0⟩, ⟨x1, y0⟩, ⟨x1, y1⟩, ⟨x0, y1⟩])
    (hy : y0 < y1) (hb0 : |y0| ≤ 16777216) (hb1 : |y1| ≤ 16777216) :
    create t A B C D dbg
      = some ⟨1, dbg, [⟨y0, rnd (y1 + 1), x0, x1, 0, 0⟩, default, default]⟩ ∧
    |rnd (y1 + 1)| ≤ 16777217 ∧ ((⌊y1⌋ + 1 : ℤ) : ℚ) ≤ rnd (y1 + 1) ∧
    Representable 53 (-1074) x0 ∧ Representable 53 (-1074) x1 := by
  obtain ⟨v0, v2, h0, h2⟩ := pts_spec t A B C D _ hpts
  obtain ⟨hx0, hy0⟩ := narrow_spec v0 _ h0
  obtain ⟨hx1, hy1⟩ := narrow_spec v2 _ h2
  have hy0' := (single_spec _ _ hy0).2
  have hy1' := (single_spec _ _ hy1).2
  have hx0' := (single_spec _ _ hx0).1
  have hx1' := (single_spec _ _ hx1).1
  obtain ⟨hfill, hbound, hlow⟩ :=
    doFill_box ⟨0, dbg, List.replicate 3 default⟩ x0 y0 x1 y1 hy hy0' hy1' hb0 hb1
  refine ⟨?_, hbound, hlow, hx0', hx1'⟩
  unfold create
  rw [hpts, Option.some_bind]
  show (if close y0 y0 = true then
      fillFixY ⟨0, dbg, List.replicate 3 default⟩ ⟨x0, y0⟩ ⟨x1, y0⟩ ⟨x1, y1⟩ ⟨x0, y1⟩ true
    else _) = _
  rw [if_pos (close_self y0)]
  unfold fillFixY
  rw [if_neg (not_lt.2 (le_of_lt hy)), hfill]
  rfl

/-- The rows of a slab with vertical sides keep its bounds. -/
theorem vertical_rows (s : Slab) (h0 : s.dxlo = 0) (h1 : s.dxhi = 0)
    (hx0 : Representable 53 (-1074) s.xlo) (hx1 : Representable 53 (-1074) s.xhi) (r : ℕ) :
    rowXlo s r = s.xlo ∧ rowXhi s r = s.xhi := by
  induction r with
  | zero => exact ⟨rfl, rfl⟩
  | succ r ih =>
    simp only [rowXlo, rowXhi, ih.1, ih.2, h0, h1, add_zero]
    exact ⟨roundTo_of_repr 53 (-1074) _ (by norm_num) hx0,
      roundTo_of_repr 53 (-1074) _ (by norm_num) hx1⟩

theorem pow2_neg24 : pow2 (-24) = 1 / 16777216 := by
  simp only [pow2_eq]
  norm_num

/-- The rounded sum `xhi + 1e-7` lies above every integer column that is not above
`xhi`. -/
theorem bound_gt (x1 : ℚ) (x : ℤ) (hx : |x| ≤ 16777216) (hle : (x : ℚ) ≤ x1) :
    (x : ℚ) < rnd (x1 + tolD) := by
  obtain ⟨hl, hu⟩ := abs_le.1 hx
  have hrep : Representable 53 (-1074) ((x : ℚ) + 1 / 16777216) := by
    refine ⟨x * 16777216 + 1, -24, ?_, by norm_num, ?_⟩
    · rw [abs_lt]
      constructor <;> omega
    · rw [pow2_neg24]
      push_cast
      ring
  have hsum : (x : ℚ) + 1 / 16777216 ≤ x1 + tolD := by
    have : (1 : ℚ) / 16777216 ≤ tolD := by norm_num [tolD]
    linarith
  have := le_roundTo 53 (-1074) _ _ (by norm_num) hrep hsum
  have hpos : (0 : ℚ) < 1 / 16777216 := by norm_num
  unfold rnd
  linarith

theorem bound_le (x1 : ℚ) (hx : |x1| ≤ 16777216) : |rnd (x1 + tolD)| ≤ 16777217 := by
  obtain ⟨hl, hu⟩ := abs_le.1 hx
  have h1 : tolD ≤ 1 := by norm_num [tolD]
  have h2 := tolD_pos
  have habs : |x1 + tolD| ≤ ((16777217 : ℤ) : ℚ) := by
    rw [abs_le]; push_cast; constructor <;> linarith
  have := (double_of_abs_le (x1 + tolD) 16777217 (by norm_num) habs).2
  push_cast at this
  exact this

/-- A convex combination of four corners does not depend on the order in which the
second and the fourth corner are named. -/
theorem inQuad_swap (A B C D p : dvec2) (h : InQuad A B C D p) : InQuad A D C B p := by
  obtain ⟨wa, wb, wc, wd, ha, hb, hc, hd, hsum, hx, hy⟩ := h
  exact ⟨wa, wd, wc, wb, ha, hd, hc, hb, by linarith, by linarith, by linarith⟩

/-- Every cursor visited with any fuel is visited with fuel `N`, when the done state is
reached after `N` steps. -/
theorem mem_visited_of_done_rounded (t : IsohedralTiling) (algo : FillAlgorithm) (N : ℕ) :
    ∀ (it : FillRegionIterator) (fuel : ℕ) (l lN : List FillRegionIterator),
      (iter t algo N it).map FillRegionIterator.done = some true →
      visited t algo fuel it = some l → visited t algo N it = some lN →
      ∀ b ∈ l, b ∈ lN := by
  induction N with
  | zero =>
    intro it fuel l lN hd hv _ b hb
    have hdone : it.done = true := by
      rw [iter, Option.map_some'] at hd
      exact Option.some.inj hd
    rw [visited_done t algo fuel it hdone] at hv
    rw [← Option.some.inj hv] at hb
    simp at hb
  | succ N ih =>
    intro it fuel l lN hd hv hvN b hb
    by_cases hdone : it.done = true
    · rw [visited_done t algo fuel it hdone] at hv
      rw [← Option.some.inj hv] at hb
      simp at hb
    have hnd : it.done = false := by simpa using hdone
    cases fuel with
    | zero =>
      rw [visited] at hv
      rw [← Option.some.inj hv] at hb
      simp at hb
    | succ fuel =>
      obtain ⟨next, l', hn, hl', rfl⟩ := visited_succ t algo fuel it l hnd hv
      obtain ⟨next', lN', hn', hlN', rfl⟩ := visited_succ t algo N it lN hnd hvN
      have hsame : next' = next := by
        rw [hn] at hn'
        exact (Option.some.inj hn').symm
      rw [hsame] at hlN'
      rcases List.mem_cons.1 hb with rfl | hb'
      · exact List.mem_cons_self _ _
      · refine List.mem_cons_of_mem _ (ih next fuel l' lN' ?_ hl' hlN' b hb')
        rw [iter_succ_front, hn, Option.some_bind] at hd
        exact hd

/-- A cell is not yielded when the loop is complete after `N` steps and none of its
cursors is at the cell. -/
theorem not_yields (t : IsohedralTiling) (algo : FillAlgorithm) (N : ℕ) (x y : ℤ) (a : ℕ)
    (hd : (iter t algo N algo.begin).map FillRegionIterator.done = some true)
    (hsome : (visited t algo N algo.begin).isSome = true)
    (hall : ∀ b ∈ (visited t algo N algo.begin).getD [],
      ¬ (getT1 b = some x ∧ getT2 b = some y ∧ b.getAspect = a)) :
    ¬ Yields t algo x y a := by
  rintro ⟨fuel, l, hv, it, hmem, h⟩
  obtain ⟨lN, hlN⟩ := Option.isSome_iff_exists.1 hsome
  have := mem_visited_of_done_rounded t algo N algo.begin fuel l lN hd hv hlN it hmem
  rw [hlN] at hall
  exact hall it this h

end Machine

/-- C7, as stated, fails: over the unit lattice, the unit cell of the lattice cell
`(0, 0)` meets the trapezium with the corners `(1,0)`, `(3,0)`, `(3,1)`, `(0,1)` (the point
`(1/2, 3/4)` lies in both), but the traversal of the fill of this trapezium, complete
after 7 steps, never visits the cell `(0, 0)`. -/
theorem fill_slanted_counterexample :
    CellMeets syntheticTiling ⟨1, 0⟩ ⟨3, 0⟩ ⟨3, 1⟩ ⟨0, 1⟩ 0 0 ∧
    Machine.fillRegion syntheticTiling ⟨1, 0⟩ ⟨3, 0⟩ ⟨3, 1⟩ ⟨0, 1⟩ false = some slantedFill ∧
    ¬ Machine.Yields syntheticTiling slantedFill 0 0 0 := by
  refine ⟨?_, by decide!, ?_⟩
  · refine ⟨1 / 2, 3 / 4, by norm_num, by norm_num, by norm_num, by norm_num,
      1 / 4, 0, 1 / 12, 2 / 3, by norm_num, by norm_num, by norm_num, by norm_num,
      by norm_num, ?_, ?_⟩
    · decide!
    · decide!
  · exact Machine.not_yields syntheticTiling slantedFill 7 0 0 0 (by decide!) (by decide!)
      (by decide!)

/-- The mapped corners are rounded to `float`: over the unit lattice, the half open unit
cell of the lattice cell `(0, 0)` meets the box `[0.99999999, 3] × [0, 1]` (in the point
`(0.99999999, 0)`), but the constructor holds the corner abscissa as the `float` 1, so
the traversal, complete after 6 steps, starts every row at column 1 and never visits the
cell `(0, 0)`. -/
theorem fill_rounded_corner_skips_cell :
    HalfOpenCellMeets syntheticTiling ⟨Machine.rnd (99999999 / 100000000), 0⟩ ⟨3, 0⟩ ⟨3, 1⟩
      ⟨Machine.rnd (99999999 / 100000000), 1⟩ 0 0 ∧
    Machine.rnd (99999999 / 100000000) < 1 ∧
    Machine.fillRegionBox syntheticTiling (Machine.rnd (99999999 / 100000000)) 0 3 1 false
      = some ⟨1, false, [⟨0, 2, 1, 3, 0, 0⟩, default, default]⟩ ∧
    ¬ Machine.Yields syntheticTiling ⟨1, false, [⟨0, 2, 1, 3, 0, 0⟩, default, default]⟩ 0 0 0 := by
  refine ⟨?_, by decide!, by decide!, ?_⟩
  · refine ⟨Machine.rnd (99999999 / 100000000), 0, by decide!, by decide!, le_refl 0,
      by norm_num, 1, 0, 0, 0, by norm_num, le_refl 0, le_refl 0, le_refl 0, by norm_num,
      ?_, ?_⟩
    · decide!
    · decide!
  · exact Machine.not_yields syntheticTiling _ 6 0 0 0 (by decide!) (by decide!) (by decide!)

/-- A cell that only touches the region is not visited: over the unit lattice the unit
cell of `(-1, 0)` meets the region with the corners `(0,0)`, `(3,0)`, `(3,2)`, `(0,2)` in
the point `(0, 0)`, and the traversal, complete after 12 steps, never visits it. -/
theorem fill_skips_touching_cell :
    CellMeets syntheticTiling ⟨0, 0⟩ ⟨3, 0⟩ ⟨3, 2⟩ ⟨0, 2⟩ (-1) 0 ∧
    Machine.fillRegion syntheticTiling ⟨0, 0⟩ ⟨3, 0⟩ ⟨3, 2⟩ ⟨0, 2⟩ false = some syntheticFill ∧
    ¬ Machine.Yields syntheticTiling syntheticFill (-1) 0 0 := by
  refine ⟨?_, by decide!, ?_⟩
  · refine ⟨1, 0, by norm_num, by norm_num, by norm_num, by norm_num,
      1, 0, 0, 0, by norm_num, by norm_num, by norm_num, by norm_num, by norm_num, ?_, ?_⟩
    · decide!
    · decide!
  · exact Machine.not_yields syntheticTiling syntheticFill 12 (-1) 0 0 (by decide!)
      (by decide!) (by decide!)

/-- Corners passed clockwise: over the unit lattice, the fill of the region with the
corners `(0,0)`, `(0,2)`, `(3,2)`, `(3,0)` visits column 3 only, so the cell `(0, 0)`,
which lies in the region, is never visited. -/
theorem fill_clockwise_skips_cell :
    CellMeets syntheticTiling ⟨0, 0⟩ ⟨0, 2⟩ ⟨3, 2⟩ ⟨3, 0⟩ 0 0 ∧
    Machine.fillRegion syntheticTiling ⟨0, 0⟩ ⟨0, 2⟩ ⟨3, 2⟩ ⟨3, 0⟩ false = some clockwiseFill ∧
    ¬ Machine.Yields syntheticTiling clockwiseFill 0 0 0 := by
  refine ⟨?_, by decide!, ?_⟩
  · refine ⟨1 / 2, 1 / 2, by norm_num, by norm_num, by norm_num, by norm_num,
      3 / 4, 1 / 12, 1 / 6, 0, by norm_num, by norm_num, by norm_num, by norm_num, by norm_num,
      ?_, ?_⟩
    · decide!
    · decide!
  · exact Machine.not_yields syntheticTiling clockwiseFill 3 0 0 0 (by decide!) (by decide!)
      (by decide!)

/-- C7, amended: fill totality for regions along the lattice whose corners are mapped
exactly.  For every tiling with a lattice basis that is not degenerate, and every
parallelogram `Q` with the corners `x0·t1 + y0·t2`, `x1·t1 + y0·t2`, `x1·t1 + y1·t2`,
`x0·t1 + y1·t2` (`x0 ≤ x1`, `y0 < y1`, all four numbers at most `2^24` in absolute value)
passed as `A`, `B`, `C`, `D` from the first of them in either direction, for which the
constructor holds exactly `(x0,y0)`, `(x1,y0)`, `(x1,y1)`, `(x0,y1)` as the mapped
corners `pts`: the constructor succeeds, and every integer lattice cell `(x, y)` whose
half open unit cell `{(x+s)·t1 + (y+u)·t2 : 0 ≤ s, u < 1}` intersects `Q` is yielded by
the fill iteration with every aspect `0 .. numAspects-1`. -/
theorem machine_fill_total_aligned (t : IsohedralTiling) (A B C D : dvec2)
    (x0 y0 x1 y1 : ℚ) (dbg : Bool)
    (hd : t.getT1.x * t.getT2.y - t.getT2.x * t.getT1.y ≠ 0)
    (hQ : [A, B, C, D] = [latticePoint t x0 y0, latticePoint t x1 y0, latticePoint t x1 y1,
        latticePoint t x0 y1] ∨
      [A, B, C, D] = [latticePoint t x0 y0, latticePoint t x0 y1, latticePoint t x1 y1,
        latticePoint t x1 y0])
    (hpts : Machine.pts t A B C D = some [⟨x0, y0⟩, ⟨x1, y0⟩, ⟨x1, y1⟩, ⟨x0, y1⟩])
    (hx : x0 ≤ x1) (hy : y0 < y1)
    (hsize : |x0| ≤ 16777216 ∧ |x1| ≤ 16777216 ∧ |y0| ≤ 16777216 ∧ |y1| ≤ 16777216)
    (x y : ℤ) (hcell : HalfOpenCellMeets t A B C D x y) (a : ℕ) (ha : a < t.numAspects) :
    ∃ f, Machine.create t A B C D dbg = some f ∧ Machine.Yields t f x y a := by
  obtain ⟨hsx0, hsx1, hsy0, hsy1⟩ := hsize
  obtain ⟨hcreate, hym, hylow, hrx0, hrx1⟩ :=
    Machine.create_box t A B C D x0 y0 x1 y1 dbg hpts hy hsy0 hsy1
  refine ⟨_, hcreate, ?_⟩
  -- the cell in lattice coordinates
  obtain ⟨s, u, hs0, hs1, hu0, hu1, hin⟩ := hcell
  have hin' : InQuad (latticePoint t x0 y0) (latticePoint t x1 y0) (latticePoint t x1 y1)
      (latticePoint t x0 y1) (latticePoint t (x + s) (y + u)) := by
    rcases hQ with h | h
    · simp only [List.cons.injEq, and_true] at h
      obtain ⟨rfl, rfl, rfl, rfl⟩ := h
      exact hin
    · simp only [List.cons.injEq, and_true] at h
      obtain ⟨rfl, rfl, rfl, rfl⟩ := h
      exact Machine.inQuad_swap _ _ _ _ _ hin
  obtain ⟨hc0, hc1, he0, he1⟩ :=
    inQuad_aligned t hd x0 y0 x1 y1 (x + s) (y + u) hx (le_of_lt hy) hin'
  obtain ⟨hx0l, hx0u⟩ := abs_le.1 hsx0
  obtain ⟨hx1l, hx1u⟩ := abs_le.1 hsx1
  obtain ⟨hy0l, hy0u⟩ := abs_le.1 hsy0
  obtain ⟨hy1l, hy1u⟩ := abs_le.1 hsy1
  obtain ⟨hyml, hymu⟩ := abs_le.1 hym
  have hx_lo : ⌊x0⌋ ≤ x := by
    have : ⌊x0⌋ < x + 1 := Int.floor_lt.2 (by push_cast; linarith)
    omega
  have hx_hi : (x : ℚ) ≤ x1 := by linarith
  have hy_lo : ⌊y0⌋ ≤ y := by
    have : ⌊y0⌋ < y + 1 := Int.floor_lt.2 (by push_cast; linarith)
    omega
  have hy_hi : y ≤ ⌊y1⌋ := Int.le_floor.2 (by linarith)
  have hfx0 : (-16777216 : ℤ) ≤ ⌊x0⌋ := Int.le_floor.2 (by push_cast; linarith)
  have hfy0 : (-16777216 : ℤ) ≤ ⌊y0⌋ := Int.le_floor.2 (by push_cast; linarith)
  have hfy0u : ⌊y0⌋ ≤ 16777216 := by
    have : ((⌊y0⌋ : ℤ) : ℚ) ≤ ((16777216 : ℤ) : ℚ) := by
      push_cast; exact le_trans (Int.floor_le _) hy0u
    exact_mod_cast this
  have hxabs : |x| ≤ 16777216 := by
    have : (x : ℚ) ≤ ((16777216 : ℤ) : ℚ) := by push_cast; linarith
    have h2 : x ≤ 16777216 := by exact_mod_cast this
    rw [abs_le]
    constructor <;> omega
  have hfym : ⌊y1⌋ + 1 ≤ ⌊Machine.rnd (y1 + 1)⌋ := Int.le_floor.2 hylow
  have hfymu : ⌊Machine.rnd (y1 + 1)⌋ ≤ 16777217 := by
    have : ((⌊Machine.rnd (y1 + 1)⌋ : ℤ) : ℚ) ≤ ((16777217 : ℤ) : ℚ) := by
      push_cast; exact le_trans (Int.floor_le _) hymu
    exact_mod_cast this
  -- the slab
  generalize hf : (⟨1, dbg, [⟨y0, Machine.rnd (y1 + 1), x0, x1, 0, 0⟩, default, default]⟩ :
    FillAlgorithm) = f
  have hslab : f.slab 0 = ⟨y0, Machine.rnd (y1 + 1), x0, x1, 0, 0⟩ := by rw [← hf]; rfl
  have hnum : f.num_calls = 1 := by rw [← hf]
  have hrows := fun r => Machine.vertical_rows (f.slab 0) (by rw [hslab]) (by rw [hslab])
    (by rw [hslab]; exact hrx0) (by rw [hslab]; exact hrx1) r
  have hxlo : ∀ r, Machine.rowXlo (f.slab 0) r = x0 := by
    intro r; rw [(hrows r).1, hslab]
  have hxhi : ∀ r, Machine.rowXhi (f.slab 0) r = x1 := by
    intro r; rw [(hrows r).2, hslab]
  have hbd : ∀ r, Machine.rowBound (f.slab 0) r = Machine.rnd (x1 + Machine.tolD) := by
    intro r; rw [Machine.rowBound, hxhi]
  have hentry : f.entryY 0 = ((⌊y0⌋ : ℤ) : ℚ) := by
    simp only [FillAlgorithm.entryY, hslab, floor]
  have hrowsv : (f.slab 0).rows (f.entryY 0)
      = max 1 (⌊Machine.rnd (y1 + 1)⌋ - ⌊y0⌋).toNat := by
    rw [hentry, hslab]
    simp only [Slab.rows, Int.floor_intCast]
  have hbound : Machine.Bounded f := by
    intro i hi
    have hi0 : i = 0 := by omega
    subst hi0
    refine ⟨?_, ?_, ?_⟩
    · rw [hentry, Machine.intMax]
      have : ((-2147483647 : ℤ) : ℚ) ≤ ((⌊y0⌋ : ℤ) : ℚ) := by
        exact_mod_cast (by omega : (-2147483647 : ℤ) ≤ ⌊y0⌋)
      push_cast at this
      exact this
    · rw [hrowsv, hentry, Machine.intMax]
      have : ⌊y0⌋ + ((max 1 (⌊Machine.rnd (y1 + 1)⌋ - ⌊y0⌋).toNat : ℕ) : ℤ) ≤ 2147483647 := by
        omega
      have h2 : ((⌊y0⌋ + ((max 1 (⌊Machine.rnd (y1 + 1)⌋ - ⌊y0⌋).toNat : ℕ) : ℤ) : ℤ) : ℚ)
          ≤ ((2147483647 : ℤ) : ℚ) := by exact_mod_cast this
      push_cast at h2 ⊢
      exact h2
    · intro r _
      rw [hxlo, hxhi, hbd, Machine.intMax]
      refine ⟨le_trans hsx0 (by norm_num), le_trans hsx1 (by norm_num),
        le_trans (Machine.bound_le x1 hsx1) (by norm_num)⟩
  obtain ⟨r, hr⟩ : ∃ r : ℕ, (r : ℤ) = y - ⌊y0⌋ := ⟨(y - ⌊y0⌋).toNat, by omega⟩
  obtain ⟨j, hj⟩ : ∃ j : ℕ, (j : ℤ) = x - ⌊x0⌋ := ⟨(x - ⌊x0⌋).toNat, by omega⟩
  have hrlt : r < (f.slab 0).rows (f.entryY 0) := by
    rw [hrowsv]
    omega
  have hjlt : j < Machine.cols (f.slab 0) r := by
    simp only [Machine.cols, hxlo, hbd, floor]
    have hlt := Machine.bound_gt x1 x hxabs hx_hi
    have : (j : ℤ) < ⌈Machine.rnd (x1 + Machine.tolD) - ((⌊x0⌋ : ℤ) : ℚ)⌉ := by
      rw [Int.lt_ceil, hj]
      push_cast
      linarith
    omega
  obtain ⟨l, hl, hmem⟩ := Machine.yields_cursorAt t f hbound 0 r j a (by omega) hrlt hjlt ha
  refine ⟨_, l, hl, _, hmem, ?_, ?_, rfl⟩
  · rw [Machine.cursorAt_getT1 f 0 r j a (hbound 0 (by omega)) hrlt hjlt, hxlo, hj]
    congr 1
    ring
  · obtain ⟨e, he, hget⟩ := Machine.cursorAt_getT2 f 0 r j a (hbound 0 (by omega)) hrlt
    have hee : e = ⌊y0⌋ := by
      have := he.symm.trans hentry
      exact_mod_cast this
    rw [hget, hee, hr]
    congr 1
    ring

/-- C7, amended, at the sheared tiling, the parallelogram `[0,2] × [0,1]` in lattice
coordinates and the cell `(2, 1)`, which meets it in a corner. -/
theorem machine_fill_total_aligned_witness :
    shearedTiling.getT1.x * shearedTiling.getT2.y
      - shearedTiling.getT2.x * shearedTiling.getT1.y ≠ 0 ∧
    Machine.pts shearedTiling (latticePoint shearedTiling 0 0) (latticePoint shearedTiling 2 0)
        (latticePoint shearedTiling 2 1) (latticePoint shearedTiling 0 1)
      = some [⟨0, 0⟩, ⟨2, 0⟩, ⟨2, 1⟩, ⟨0, 1⟩] ∧
    HalfOpenCellMeets shearedTiling (latticePoint shearedTiling 0 0)
      (latticePoint shearedTiling 2 0) (latticePoint shearedTiling 2 1)
      (latticePoint shearedTiling 0 1) 2 1 ∧
    0 < shearedTiling.numAspects ∧
    ∃ f, Machine.create shearedTiling (latticePoint shearedTiling 0 0)
        (latticePoint shearedTiling 2 0) (latticePoint shearedTiling 2 1)
        (latticePoint shearedTiling 0 1) false = some f ∧
      Machine.Yields shearedTiling f 2 1 0 :=
  have hd : shearedTiling.getT1.x * shearedTiling.getT2.y
      - shearedTiling.getT2.x * shearedTiling.getT1.y ≠ 0 := by decide!
  have hpts : Machine.pts shearedTiling (latticePoint shearedTiling 0 0)
      (latticePoint shearedTiling 2 0) (latticePoint shearedTiling 2 1)
      (latticePoint shearedTiling 0 1) = some [⟨0, 0⟩, ⟨2, 0⟩, ⟨2, 1⟩, ⟨0, 1⟩] := by decide!
  have hcell : HalfOpenCellMeets shearedTiling (latticePoint shearedTiling 0 0)
      (latticePoint shearedTiling 2 0) (latticePoint shearedTiling 2 1)
      (latticePoint shearedTiling 0 1) 2 1 :=
    ⟨0, 0, le_refl 0, by norm_num, le_refl 0, by norm_num, 0, 0, 1, 0, le_refl 0, le_refl 0,
      by norm_num, le_refl 0, by norm_num, by decide!, by decide!⟩
  ⟨hd, hpts, hcell, by decide!,
    machine_fill_total_aligned shearedTiling _ _ _ _ 0 0 2 1 false hd (Or.inl rfl) hpts
      (by norm_num) (by norm_num) ⟨by norm_num, by norm_num, by norm_num, by norm_num⟩ 2 1
      hcell 0 (by decide!)⟩

end csk
